import Mathlib

/-! # The greedy assembly scheduler and its local search

A shallow embedding of `v5.cpp`: the tethered-arm scheduler `greedy_solver`
(task filtering, the conflict-aware waypoint search, path reconstruction,
commit and retraction) and the parameter search `local_search` built on it.

Conventions of the embedding.

* `int` values are `Int`; container sizes are `Nat`; where the source compares a
  `size_t` with an `int` the `int` operand is converted with `toSize`.
* `double` values are exact quotients (`Frac`); `pow` and `exp` are parameters
  (`Libm`). Where the source truncates the product of an `int` and a `double`
  parameter to `int` (the budget `GL` and the distance penalty), the parameter
  is read as the `double` nearest to its quotient and the product is rounded
  to the nearest `double` (`roundDouble`) before the truncation; the `int`
  product `R * L` wraps and a conversion out of the range of `int` gives
  `INT_MIN`, as on x86-64. The efficiency score, the quotient by which the
  tasks are ranked, is rounded to a `double` in the same way.
* Everything the run draws from `mt19937`, and every choice the C++ library
  leaves open (which of several equal-priority queue entries is on top, how
  `std::sort` orders equal keys), is read from a `Chance` stream indexed by
  a counter that advances at every use.
* The `W × H` tables are total functions on `Point`.
* Loops without a syntactic bound take fuel; `none` stands for a run that does
  not return (fuel exhausted) or leaves defined behaviour.
-/

set_option maxRecDepth 8000

namespace Assembly

/-! ## Real-valued quantities -/

/-- A `double` of the program, held exactly as `num / den`. -/
structure Frac where
  num : Int
  den : Nat
  pos : 0 < den

namespace Frac

def ofInt (n : Int) : Frac := ⟨n, 1, Nat.one_pos⟩

/-- The quotient `n / d` of two integers (`d` positive wherever it is used). -/
def ofDiv (n d : Int) : Frac :=
  if h : 0 < d.toNat then ⟨n, d.toNat, h⟩ else ofInt 0

def add (a b : Frac) : Frac :=
  ⟨a.num * b.den + b.num * a.den, a.den * b.den, Nat.mul_pos a.pos b.pos⟩

def sub (a b : Frac) : Frac :=
  ⟨a.num * b.den - b.num * a.den, a.den * b.den, Nat.mul_pos a.pos b.pos⟩

def mul (a b : Frac) : Frac :=
  ⟨a.num * b.num, a.den * b.den, Nat.mul_pos a.pos b.pos⟩

def lt (a b : Frac) : Bool := decide (a.num * b.den < b.num * a.den)

def le (a b : Frac) : Bool := decide (a.num * b.den ≤ b.num * a.den)

/-- `std::max(a, b)`: returns `b` when `a < b`, else `a`. -/
def max (a b : Frac) : Frac := if lt a b then b else a

/-- `std::min(a, b)`: returns `b` when `b < a`, else `a`. -/
def min (a b : Frac) : Frac := if lt b a then b else a

/-- The quotient `a / b` (zero stands in when `b` is zero). -/
def div (a b : Frac) : Frac :=
  if h : 0 < b.num.toNat then ⟨a.num * b.den, a.den * b.num.toNat, Nat.mul_pos a.pos h⟩
  else if h1 : 0 < (-b.num).toNat then
    ⟨-(a.num * b.den), a.den * (-b.num).toNat, Nat.mul_pos a.pos h1⟩
  else ofInt 0

/-- The conversion `(int)x`: truncation toward zero. -/
def trunc (a : Frac) : Int := Int.tdiv a.num a.den

/-- The rational number a `Frac` stands for. -/
def toRat (a : Frac) : ℚ := (a.num : ℚ) / (a.den : ℚ)

end Frac

/-- The number of binary digits of `n` after the first (`floor(log2 n)` for
positive `n`), found in at most `fuel` halvings. -/
def log2Fuel : Nat → Nat → Nat
  | 0, _ => 0
  | fuel + 1, n => if n < 2 then 0 else log2Fuel fuel (n / 2) + 1

/-- `floor(log2(n / d))` for positive `n` and `d`. -/
def floorLog2 (n d : Nat) : Int :=
  let l : Int := (log2Fuel n n : Int) - (log2Fuel d d : Int)
  if d * 2 ^ l.toNat ≤ n * 2 ^ (-l).toNat then l else l - 1

/-- The `double` nearest to the quotient `a`, as the arithmetic of the
machine rounds every result: a mantissa of 53 binary digits (fewer below
`2^-1022`), ties to the even mantissa. A quotient beyond the largest `double`
is rounded in the same way, where the machine gives an infinity; `toInt`
sends either to `INT_MIN`. -/
def roundDouble (a : Frac) : Frac :=
  if a.num = 0 then Frac.ofInt 0
  else
    let n := a.num.natAbs
    let ex : Int := max (floorLog2 n a.den - 52) (-1074)
    let num1 := n * 2 ^ (-ex).toNat
    let den1 := a.den * 2 ^ ex.toNat
    let m := num1 / den1
    let r := num1 % den1
    let m1 := if 2 * r < den1 then m else if den1 < 2 * r then m + 1
      else if m % 2 = 0 then m else m + 1
    ⟨(if a.num < 0 then -1 else 1) * ((m1 * 2 ^ ex.toNat : Nat) : Int), 2 ^ (-ex).toNat,
      Nat.pos_pow_of_pos _ (by decide)⟩

/-- The `int` that holds the result of an `int` operation with the exact
result `n`: the value modulo `2^32` in `[-2^31, 2^31)`. -/
def wrapInt (n : Int) : Int := (n + 2147483648) % 4294967296 - 2147483648

/-- The conversion `(int)x` of a `double`: truncation toward zero, and
`INT_MIN` when the truncated value is not an `int`. -/
def toInt (a : Frac) : Int :=
  if -2147483648 ≤ Frac.trunc a ∧ Frac.trunc a < 2147483648 then Frac.trunc a
  else -2147483648

/-- The conversion of an `int` operand to `size_t` in a mixed comparison. -/
def toSize (n : Int) : Int := n % 18446744073709551616

/-! ## Parameters and sources of choice -/

/-- The five tunable weights, with the defaults of the source. -/
structure SolverParams where
  task_efficiency_weight : Frac := Frac.ofInt 1
  distance_penalty : Frac := Frac.ofInt 1
  ownership_distance_factor : Frac := Frac.ofInt 2
  path_cost_threshold : Frac := Frac.ofInt 1
  bfs_randomness : Frac := ⟨1, 2, by decide⟩

structure ParamFixFlags where
  fix_task_eff : Bool := false
  fix_dist_penalty : Bool := false
  fix_ownership : Bool := false
  fix_path_threshold : Bool := false
  fix_bfs_random : Bool := false

/-- One random generator together with the choices the library leaves open,
each indexed by the number of choices made before it. -/
structure Chance where
  /-- values of `uniform_real_distribution<double>(0, 1)` -/
  draw : Nat → Frac
  /-- the rearrangement picked by `std::shuffle` (and by `std::sort` among equal keys) -/
  perm : Nat → Nat
  /-- which of the equal-priority entries `priority_queue::top` returns -/
  tie : Nat → Nat
  /-- values of `normal_distribution<double>(0, 1)` -/
  gauss : Nat → Frac

/-- The two `<cmath>` functions the program calls. -/
structure Libm where
  pow : Int → Frac → Frac
  exp : Frac → Frac

/-- Insert `a` at position `n` (at the end when the list is shorter). -/
def insertAt {α : Type} : Nat → α → List α → List α
  | 0, a, l => a :: l
  | _ + 1, a, [] => [a]
  | n + 1, a, b :: l => b :: insertAt n a l

/-- The rearrangement of a list selected by the number `r`; every
rearrangement is selected by some `r`, and `0` selects the identity. -/
def shuffleList {α : Type} (r : Nat) : List α → List α
  | [] => []
  | a :: l => insertAt (r % (l.length + 1)) a (shuffleList (r / (l.length + 1)) l)

/-! ## Core structures -/

/-- The characters stored in `path`, `cp`, `how` and `pred`. -/
inductive Move
  | R | L | U | D | W | x
  deriving DecidableEq, Repr, Inhabited

structure Point where
  x : Int
  y : Int
  deriving DecidableEq, Repr, Inhabited

def distance (a b : Point) : Int :=
  ((a.x - b.x).natAbs : Int) + ((a.y - b.y).natAbs : Int)

/-- `Point::operator+=` (and `operator+`). -/
def Point.add (p : Point) (c : Move) : Point :=
  match c with
  | Move.R => ⟨p.x + 1, p.y⟩
  | Move.L => ⟨p.x - 1, p.y⟩
  | Move.U => ⟨p.x, p.y + 1⟩
  | Move.D => ⟨p.x, p.y - 1⟩
  | _ => p

def opp (c : Move) : Move :=
  match c with
  | Move.R => Move.L
  | Move.L => Move.R
  | Move.U => Move.D
  | Move.D => Move.U
  | c => c

/-- A `W × H` table. -/
abbrev Grid (α : Type) := Point → α

/-- The assignment `g[p.x][p.y] = v`. -/
def Grid.set {α : Type} (g : Grid α) (p : Point) (v : α) : Grid α :=
  fun q => if q = p then v else g q

structure Arm where
  how : Grid Move
  path : List Move
  cp : List Move
  cur : List Point
  z : List Nat
  i : Nat
  done : Bool

/-- `Arm(W, H, x, y, i)`. -/
def Arm.new (x y : Int) (i : Nat) : Arm :=
  ⟨fun _ => Move.x, [], [], [⟨x, y⟩], [], i, false⟩

/-- `Arm()`. -/
instance : Inhabited Arm := ⟨⟨fun _ => Move.x, [], [], [], [], 0, false⟩⟩

/-- `cur.back()`. -/
def back (l : List Point) : Point := l.getLastD default

/-- `cp.back()`. -/
def backMove (l : List Move) : Move := l.getLastD Move.x

/-- The problem instance read by `main`. -/
structure Instance where
  W : Int
  H : Int
  R : Nat
  L : Int
  S : List Int
  P : List (List Point)

def Instance.T (inst : Instance) : Nat := inst.P.length

/-- `S[t]`. -/
def Instance.reward (inst : Instance) (t : Nat) : Int := inst.S.getD t 0

/-- `P[t]`. -/
def Instance.task (inst : Instance) (t : Nat) : List Point := inst.P.getD t []

/-- What stays fixed during one call of `greedy_solver`. -/
structure Env where
  inst : Instance
  params : SolverParams
  ch : Chance
  lib : Libm
  fuel : Nat

/-- The variables of `greedy_solver` that live across iterations of its main loop. -/
structure State where
  arms : List Arm
  owner : Grid Int
  until_ : Grid Int
  ts : List Nat
  score : Int
  seen : Grid Int
  dist : Grid Int
  pred : Grid Move
  SS : Int
  clock : Nat

/-- The scratch tables of the search together with the position in the
random stream. -/
structure Scratch where
  seen : Grid Int
  dist : Grid Int
  pred : Grid Move
  SS : Int
  clock : Nat

/-- `arms[i]`. -/
def State.arm (s : State) (i : Nat) : Arm := s.arms.getD i default

/-! ## The waypoint search -/

/-- An entry `(cell, arrival time, depth)` of the priority queue. -/
structure QEl where
  q : Point
  l : Int
  depth : Int
  deriving DecidableEq, Repr, Inhabited

/-- The comparator `comp` handed to `priority_queue`. -/
def comp (a b : QEl) : Bool :=
  decide (a.l > b.l) || (decide (a.l = b.l) && decide (a.depth < b.depth))

/-- An entry may be on top when the comparator puts it below no entry. -/
def isTop (Q : List QEl) (e : QEl) : Bool := Q.all (fun e' => !comp e e')

/-- The positions of the entries that may be on top. -/
def topIdxs (Q : List QEl) : List Nat :=
  (List.range Q.length).filter (fun k => isTop Q (Q.getD k default))

/-- `Q.top(); Q.pop()`. -/
def popQ (tie : Nat) (Q : List QEl) : Option (QEl × List QEl) :=
  match topIdxs Q with
  | [] => none
  | k0 :: ks =>
    let k := (k0 :: ks).getD (tie % (ks.length + 1)) k0
    some (Q.getD k default, Q.eraseIdx k)

/-- The variables of one run of the search loop. -/
structure Search where
  Q : List QEl
  found : Bool
  vs : List Move
  seen : Grid Int
  dist : Grid Int
  pred : Grid Move
  clock : Nat

/-- The test `p.x < 0 || p.x >= W || p.y < 0 || p.y >= H`. -/
def offGrid (e : Env) (p : Point) : Bool :=
  decide (p.x < 0) || decide (p.x ≥ e.inst.W) || decide (p.y < 0) || decide (p.y ≥ e.inst.H)

/-- The first inner loop: steps back along the arm's own chain. -/
def ownLoop (e : Env) (SS : Int) (a : Arm) (pt q : Point) (l depth : Int) :
    List Move → Search → Search
  | [], σ => σ
  | c :: cs, σ =>
    let p := q.add c
    if offGrid e p || decide (a.how p ≠ c) then ownLoop e SS a pt q l depth cs σ
    else
      let σ1 : Search :=
        { σ with seen := σ.seen.set p SS, dist := σ.dist.set p (l + 1), pred := σ.pred.set p Move.x }
      if p = pt then { σ1 with found := true }
      else ownLoop e SS a pt q l depth cs { σ1 with Q := σ1.Q ++ [⟨p, l + 1, depth + 1⟩] }

/-- `arms[j]` for an `int` index; `none` when the index is out of range. -/
def armAt (arms : List Arm) (j : Int) : Option Arm :=
  if j < 0 then none else arms.get? j.toNat

/-- The reservation test for a fresh cell `p` reached from an entry with
arrival time `l`: `some none` when the cell is refused (`continue`),
`some (some l2)` with the value of `l2` before `++l2` when it is admitted,
`none` when `arms[j]` is read out of range. -/
def arrival (e : Env) (s : State) (i t : Nat) (p : Point) (l : Int) : Option (Option Int) :=
  let j := s.owner p
  if j ≠ (i : Int) ∧ s.until_ p > l then
    if s.until_ p ≥ e.inst.L then some none
    else
      match armAt s.arms j with
      | none => none
      | some b =>
        let arm_start := (s.arm i).cur.headD default
        let arm_current := back (s.arm i).cur
        let t0 := (e.inst.task t).headD default
        if Frac.lt (Frac.mul e.params.ownership_distance_factor
              (Frac.ofInt (distance p (b.cur.headD default))))
            (Frac.ofInt (distance p arm_start)) then some none
        else if distance t0 arm_current + (b.path.length : Int)
            > distance t0 (back b.cur) + (b.path.length : Int) then some none
        else some (some (s.until_ p))
  else some (some l)

/-- The second inner loop: steps into cells outside the arm's chain. -/
def freshLoop (e : Env) (s : State) (i t : Nat) (SS : Int) (a : Arm) (pt q : Point)
    (l depth : Int) : List Move → Search → Option Search
  | [], σ => some σ
  | c :: cs, σ =>
    let p := q.add c
    if offGrid e p || decide (a.how p ≠ Move.x) then freshLoop e s i t SS a pt q l depth cs σ
    else
      match arrival e s i t p l with
      | none => none
      | some none => freshLoop e s i t SS a pt q l depth cs σ
      | some (some l1) =>
        let l2 := l1 + 1
        if σ.seen p = SS ∧ l2 ≥ σ.dist p then freshLoop e s i t SS a pt q l depth cs σ
        else
          let σ1 : Search :=
            { σ with seen := σ.seen.set p SS, dist := σ.dist.set p l2, pred := σ.pred.set p c }
          if p = pt then some { σ1 with found := true }
          else freshLoop e s i t SS a pt q l depth cs { σ1 with Q := σ1.Q ++ [⟨p, l2, depth⟩] }

/-- The draw `rand_dist(mt) < params.bfs_randomness` and the shuffle of `vs`
it may trigger. -/
def maybeShuffle (e : Env) (σ : Search) : Search :=
  if Frac.lt (e.ch.draw σ.clock) e.params.bfs_randomness then
    { σ with vs := shuffleList (e.ch.perm (σ.clock + 1)) σ.vs, clock := σ.clock + 2 }
  else { σ with clock := σ.clock + 1 }

/-- The loop `while(!Q.empty() && !found)`. -/
def searchLoop (e : Env) (s : State) (i t : Nat) (SS : Int) (a : Arm) (pt : Point) :
    Nat → Search → Option Search
  | 0, _ => none
  | n + 1, σ =>
    if σ.found then some σ
    else
      match popQ (e.ch.tie σ.clock) σ.Q with
      | none => some σ
      | some (top, Q') =>
        let σ0 : Search := { σ with Q := Q', clock := σ.clock + 1 }
        if top.l > σ0.dist top.q then searchLoop e s i t SS a pt n σ0
        else if top.l ≥ e.inst.L then some σ0
        else
          let σ1 := maybeShuffle e σ0
          let σ2 :=
            if a.how top.q ≠ Move.x ∨ top.q = back a.cur then
              ownLoop e SS a pt top.q top.l top.depth σ1.vs σ1
            else σ1
          match freshLoop e s i t SS a pt top.q top.l top.depth σ2.vs σ2 with
          | none => none
          | some σ3 => searchLoop e s i t SS a pt n σ3

/-! ## Path reconstruction -/

/-- The loop `while(pred[p] != 'x')` that collects `add` backwards from the target. -/
def predWalk (pred : Grid Move) : Nat → Point → List Move → Option (List Move × Point)
  | 0, _, _ => none
  | n + 1, p, add =>
    if pred p = Move.x then some (add, p)
    else predWalk pred n (p.add (opp (pred p))) (add ++ [pred p])

/-- The loop `while(a.cur.back() != p)` that folds the chain back to `p`;
`none` when the chain is used up before `p` is met. -/
def unwind : Nat → Point → Arm → Option Arm
  | 0, _, _ => none
  | n + 1, p, a =>
    if back a.cur = p then some a
    else
      let a1 : Arm :=
        { a with path := a.path ++ [opp (backMove a.cp)], cur := a.cur.dropLast, cp := a.cp.dropLast }
      unwind n p { a1 with how := a1.how.set (back a1.cur) Move.x }

/-- The loop `for(char c : add)` that lays the new segment, waits included. -/
def appendMoves (dist : Grid Int) : List Move → Arm → Arm
  | [], a => a
  | c :: cs, a =>
    let tip := back a.cur
    let p := tip.add c
    let wait_steps := dist p - dist tip - 1
    appendMoves dist cs
      { a with how := a.how.set tip (opp c),
               path := a.path ++ List.replicate wait_steps.toNat Move.W ++ [c],
               cur := a.cur ++ [p] }

/-- The body of `for(const Point &pt : P[t])`: one search and, when it
succeeds, the splice. The inner `none` is `bad = true`. -/
def waypoint (e : Env) (s : State) (i t : Nat) (a : Arm) (pt : Point) (sc : Scratch) :
    Option (Option Arm × Scratch) :=
  let SS := sc.SS + 1
  let tip := back a.cur
  let σ0 : Search :=
    { Q := [⟨tip, a.path.length, 0⟩], found := decide (tip = pt),
      vs := [Move.R, Move.L, Move.U, Move.D],
      seen := sc.seen.set tip SS, dist := sc.dist.set tip a.path.length,
      pred := sc.pred.set tip Move.x, clock := sc.clock }
  match searchLoop e s i t SS a pt e.fuel σ0 with
  | none => none
  | some σ =>
    let sc1 : Scratch := ⟨σ.seen, σ.dist, σ.pred, SS, σ.clock⟩
    if σ.found = false then some (none, sc1)
    else
      match predWalk σ.pred e.fuel pt [] with
      | none => none
      | some (add, p) =>
        match unwind a.cur.length p a with
        | none => none
        | some a1 =>
          let a2 := appendMoves σ.dist add.reverse { a1 with cp := a1.cp ++ add.reverse }
          if (a2.path.length : Int) > toSize e.inst.L then some (none, sc1)
          else some (some a2, sc1)

/-- The loop over the waypoints of one task, on the clone `a`. -/
def waypoints (e : Env) (s : State) (i t : Nat) : List Point → Arm → Scratch →
    Option (Option Arm × Scratch)
  | [], a, sc => some (some a, sc)
  | pt :: pts, a, sc =>
    match waypoint e s i t a pt sc with
    | none => none
    | some (none, sc1) => some (none, sc1)
    | some (some a1, sc1) => waypoints e s i t pts a1 sc1

/-! ## The scheduler -/

/-- `bestA`, `bestT` (`none` for `-1`) and `bestS`. -/
structure Best where
  bestA : Arm
  bestT : Option Nat
  bestS : Frac

/-- The loop `for(int t : ts)` for the selected arm `i`. -/
def candidates (e : Env) (s : State) (i : Nat) : List Nat → Best → Scratch →
    Option (Best × Scratch)
  | [], b, sc => some (b, sc)
  | t :: rest, b, sc =>
    match waypoints e s i t (e.inst.task t) (s.arm i) sc with
    | none => none
    | some (none, sc1) => candidates e s i rest b sc1
    | some (some a, sc1) =>
      let path_diff : Int := (a.path.length : Int) - ((s.arm i).path.length : Int)
      if path_diff ≤ 0 then candidates e s i rest b sc1
      else
        let sc_t := Frac.ofDiv (e.inst.reward t) path_diff
        if Frac.lt b.bestS sc_t then candidates e s i rest ⟨a, some t, sc_t⟩ sc1
        else candidates e s i rest b sc1

/-- The selection loop over `i0 = 0 .. R-1`. -/
def selectArm (arms : List Arm) : List Nat → Option Nat → Option Nat
  | [], i => i
  | i0 :: rest, i =>
    if !(arms.getD i0 default).done &&
        (match i with
          | none => true
          | some k =>
            decide ((arms.getD i0 default).path.length < (arms.getD k default).path.length))
    then selectArm arms rest (some i0)
    else selectArm arms rest i

/-- The retraction loop `while(arms[i].cur.size() > 1 && arms[i].path.size() < L)`. -/
def retractLoop (L : Int) : Nat → Arm → Grid Int → Arm × Grid Int
  | 0, a, u => (a, u)
  | n + 1, a, u =>
    if a.cur.length > 1 ∧ (a.path.length : Int) < toSize L then
      let p := back a.cur
      let u1 := u.set p (a.path.length : Int)
      let a1 : Arm :=
        { a with path := a.path ++ [opp (backMove a.cp)], cur := a.cur.dropLast, cp := a.cp.dropLast }
      retractLoop L n { a1 with how := a1.how.set (back a1.cur) Move.x } u1
    else (a, u)

/-- The loop `for(int j = 0; j < R; ++j) if(arms[j].path.size() < L) arms[j].done = false`. -/
def resetDone (L : Int) (arms : List Arm) : List Arm :=
  arms.map (fun b => if (b.path.length : Int) < toSize L then { b with done := false } else b)

/-- The commit loop over the new part of `bestA.path`, from time `l` and cell `p`. -/
def commitWalk (i : Nat) (L : Int) (bestA : Arm) :
    List Move → Nat → Point → Grid Int → Grid Int → Grid Int × Grid Int
  | [], _, _, ow, un => (ow, un)
  | c :: cs, l, p, ow, un =>
    if c = Move.W then commitWalk i L bestA cs (l + 1) p ow un
    else
      let un1 := if bestA.how p = Move.x ∧ p ≠ back bestA.cur then un.set p (l : Int) else un
      let p1 := p.add c
      commitWalk i L bestA cs (l + 1) p1 (ow.set p1 (i : Int)) (un1.set p1 L)

/-- Removal of `bestT`: find it, swap it with the last entry, drop the last entry. -/
def removeTask (ts : List Nat) (bestT : Nat) : List Nat :=
  (ts.set (ts.indexOf bestT) (ts.getLastD 0)).dropLast

/-- The branch `bestT == -1` for arm `i`. -/
def retractStep (e : Env) (s : State) (i : Nat) : State :=
  if (s.arm i).cur.length ≤ 1 then
    { s with arms := s.arms.set i { s.arm i with done := true } }
  else
    let r := retractLoop e.inst.L (s.arm i).cur.length (s.arm i) s.until_
    let arms1 := resetDone e.inst.L (s.arms.set i r.1)
    { s with arms := arms1.set i { arms1.getD i default with done := true }, until_ := r.2 }

/-- The commit of `bestA` for task `bestT` on arm `i`. -/
def commitStep (e : Env) (s : State) (i : Nat) (bestA : Arm) (bestT : Nat) : State :=
  let old := s.arm i
  let g := commitWalk i e.inst.L bestA (bestA.path.drop old.path.length) old.path.length
    (back old.cur) s.owner s.until_
  let arms1 := s.arms.set i { bestA with z := bestA.z ++ [bestT] }
  { s with arms := resetDone e.inst.L arms1, owner := g.1, until_ := g.2,
           score := s.score + e.inst.reward bestT, ts := removeTask s.ts bestT }

/-- One iteration of `while(true)`: `some none` when the loop is left,
`some (some s1)` when it goes on from `s1`, `none` when the iteration does not
complete. -/
def mainStep (e : Env) (s : State) : Option (Option State) :=
  match selectArm s.arms (List.range e.inst.R) none with
  | none => some none
  | some i =>
    match candidates e s i s.ts ⟨default, none, Frac.ofInt (-1)⟩
        ⟨s.seen, s.dist, s.pred, s.SS, s.clock⟩ with
    | none => none
    | some (b, sc) =>
      let s1 : State :=
        { s with seen := sc.seen, dist := sc.dist, pred := sc.pred, SS := sc.SS, clock := sc.clock }
      match b.bestT with
      | none => some (some (retractStep e s1 i))
      | some bestT => some (some (commitStep e s1 i b.bestA bestT))

/-- The loop `while(true)`. -/
def mainLoop (e : Env) : Nat → State → Option State
  | 0, _ => none
  | n + 1, s =>
    match mainStep e s with
    | none => none
    | some none => some s
    | some (some s1) => mainLoop e n s1

/-! ## Initialisation of a run -/

/-- `min_dist_to_other_task[i]`. -/
def minDistOther (inst : Instance) (i : Nat) : Int :=
  (List.range inst.T).foldl
    (fun m j => if i ≠ j then min m (distance ((inst.task i).headD default) (back (inst.task j))) else m)
    100000000

/-- `min_dist_to_mount[i]`. -/
def minDistMount (inst : Instance) (ms : List Point) (i : Nat) : Int :=
  ms.foldl (fun m mp => min m (distance ((inst.task i).headD default) mp)) 100000000

/-- The table `Len` after `Len[i] += (int)(min(...) * params.distance_penalty)`:
the `int` minimum is converted to `double`, the product is rounded to a
`double` and truncated. -/
def penalise (e : Env) (ms : List Point) (Len : List Int) : List Int :=
  (List.range e.inst.T).map (fun i =>
    Len.getD i 0 + toInt (roundDouble (Frac.mul
      (Frac.ofInt (min (minDistOther e.inst i) (minDistMount e.inst ms i)))
      (roundDouble e.params.distance_penalty))))

/-- `efficiency_scores[i] = pow(S[i], w) / (Len[i] + 1)` from the penalised
`Len`: the quotient of two `double`s, rounded to a `double` (zero stands in
when `Len[i] + 1` is zero). -/
def efficiency (e : Env) (Len : List Int) (i : Nat) : Frac :=
  roundDouble (Frac.div (roundDouble (e.lib.pow (e.inst.reward i) e.params.task_efficiency_weight))
    (Frac.ofInt (Len.getD i 0 + 1)))

/-- `ts` after `iota` and `sort` by decreasing efficiency. -/
def rankTasks (e : Env) (Len : List Int) (clock : Nat) : List Nat :=
  List.insertionSort (fun i j => Frac.le (efficiency e Len j) (efficiency e Len i) = true)
    (shuffleList (e.ch.perm clock) (List.range e.inst.T))

/-- The budget cutoff `while(j < T && gl + Len[ts[j]] < GL)` and `ts.resize(j)`. -/
def keepLoop (Len : List Int) (glMax : Int) : List Nat → Int → List Nat
  | [], _ => []
  | t :: rest, gl =>
    if gl + Len.getD t 0 < glMax then t :: keepLoop Len glMax rest (gl + Len.getD t 0) else []

/-- `GL = (int)(R * L * params.path_cost_threshold)`: the `int` product
`R * L` is converted to `double`, the product with the parameter is rounded
to a `double` and truncated. -/
def budget (e : Env) : Int :=
  toInt (roundDouble (Frac.mul (Frac.ofInt (wrapInt ((e.inst.R : Int) * e.inst.L)))
    (roundDouble e.params.path_cost_threshold)))

/-- `ms_dist[i]`. -/
def msDist (inst : Instance) (m : Point) : Int :=
  min (min m.x (inst.W - 1 - m.x)) (min m.y (inst.H - 1 - m.y))

/-- The order of the mounting points after the sort (`W == 300`) or the shuffle. -/
def orderMounts (e : Env) (ms : List Point) (clock : Nat) : List Point :=
  if e.inst.W = 300 then
    List.insertionSort (fun a b => msDist e.inst a ≤ msDist e.inst b)
      (shuffleList (e.ch.perm clock) ms)
  else shuffleList (e.ch.perm clock) ms

/-- The loop `for(int i = 0; i < M; ++i)` that claims the mounting points
and creates the first `R` arms. -/
def placeMounts (R : Nat) (L : Int) :
    List Point → Nat → List Arm → Grid Int → Grid Int → List Arm × Grid Int × Grid Int
  | [], _, arms, ow, un => (arms, ow, un)
  | m :: rest, i, arms, ow, un =>
    placeMounts R L rest (i + 1) (if i < R then arms ++ [Arm.new m.x m.y i] else arms)
      (ow.set m (i : Int)) (un.set m L)

/-- The state on entry to the main loop, for the ordered mounting points and
the penalised `Len`. -/
def initState (e : Env) (ms1 : List Point) (Len1 : List Int) (clock : Nat) : State :=
  let g := placeMounts e.inst.R e.inst.L ms1 0 [] (fun _ => -1) (fun _ => -1)
  { arms := g.1, owner := g.2.1, until_ := g.2.2,
    ts := keepLoop Len1 (budget e) (rankTasks e Len1 clock) 0,
    score := 0, seen := fun _ => 0, dist := fun _ => 0, pred := fun _ => Move.x,
    SS := 0, clock := clock + 2 }

/-- What a call of `greedy_solver` leaves behind: the returned score, the
output `arms`, the in-out arguments `ms` and `Len`, and the generator. -/
structure Result where
  score : Int
  arms : List Arm
  ms : List Point
  Len : List Int
  clock : Nat

/-- The function `greedy_solver`. A call with fewer mounting points than arms
reads `arms[i0]` out of range in its first iteration. -/
def greedy_solver (e : Env) (ms : List Point) (Len : List Int) (clock : Nat) : Option Result :=
  let Len1 := penalise e ms Len
  let ms1 := orderMounts e ms (clock + 1)
  if ms.length < e.inst.R then none
  else
    match mainLoop e e.fuel (initState e ms1 Len1 clock) with
    | none => none
    | some s => some ⟨s.score, s.arms, ms1, Len1, s.clock⟩

/-! ## Parameter mutation and local search -/

/-- One line `max(lo, min(hi, v + dist(mt) * temperature * k))` of `mutate`,
or the copy of `v` when the parameter is fixed; the second component is the
generator afterwards. -/
def mutateOne (ch : Chance) (fixed : Bool) (lo hi k temperature v : Frac) (clock : Nat) :
    Frac × Nat :=
  if fixed then (v, clock)
  else
    (Frac.max lo (Frac.min hi
        (Frac.add v (Frac.mul (Frac.mul (ch.gauss clock) temperature) k))),
      clock + 1)

/-- `SolverParams::mutate`. -/
def SolverParams.mutate (p : SolverParams) (ch : Chance) (clock : Nat) (temperature : Frac)
    (f : ParamFixFlags) : SolverParams × Nat :=
  let r1 := mutateOne ch f.fix_task_eff ⟨1, 10, by decide⟩ (Frac.ofInt 3) ⟨1, 2, by decide⟩
    temperature p.task_efficiency_weight clock
  let r2 := mutateOne ch f.fix_dist_penalty ⟨1, 2, by decide⟩ (Frac.ofInt 2) ⟨3, 10, by decide⟩
    temperature p.distance_penalty r1.2
  let r3 := mutateOne ch f.fix_ownership (Frac.ofInt 1) (Frac.ofInt 5) ⟨8, 10, by decide⟩
    temperature p.ownership_distance_factor r2.2
  let r4 := mutateOne ch f.fix_path_threshold ⟨1, 2, by decide⟩ (Frac.ofInt 2) ⟨3, 10, by decide⟩
    temperature p.path_cost_threshold r3.2
  let r5 := mutateOne ch f.fix_bfs_random (Frac.ofInt 0) (Frac.ofInt 1) ⟨2, 10, by decide⟩
    temperature p.bfs_randomness r4.2
  (⟨r1.1, r2.1, r3.1, r4.1, r5.1⟩, r5.2)

/-- The variables of `local_search` that live across trials; `ms` and `Len`
are the by-value copies every call of `greedy_solver` works on. -/
structure LsState where
  best_params : SolverParams
  best_arms : List Arm
  best_score : Int
  current_params : SolverParams
  current_score : Int
  ms : List Point
  Len : List Int
  clock : Nat

/-- What stays fixed during one call of `local_search`: the instance, the
generator `mt`, the generators `mt_iter` of the trials, and the fuel given to
every run. -/
structure LsEnv where
  inst : Instance
  lib : Libm
  fuel : Nat
  outer : Chance
  inner : Nat → Chance
  iterations : Int
  fix_flags : ParamFixFlags

/-- The body of `for(int it = 0; it < iterations; ++it)`. -/
def lsTrial (E : LsEnv) (it : Nat) (st : LsState) : Option LsState :=
  let temperature := Frac.sub (Frac.ofInt 1) (Frac.ofDiv (it : Int) E.iterations)
  let m := st.current_params.mutate E.outer st.clock
    (Frac.mul temperature ⟨1, 2, by decide⟩) E.fix_flags
  match greedy_solver ⟨E.inst, m.1, E.inner it, E.lib, E.fuel⟩ st.ms st.Len 0 with
  | none => none
  | some r =>
    let st1 : LsState := { st with ms := r.ms, Len := r.Len, clock := m.2 }
    if r.score > st1.best_score then
      some { st1 with best_score := r.score, best_params := m.1, best_arms := r.arms,
                      current_params := m.1, current_score := r.score }
    else if Frac.lt (Frac.mul (Frac.ofInt st1.current_score) ⟨95, 100, by decide⟩)
        (Frac.ofInt r.score) then
      let delta := Frac.ofInt (r.score - st1.current_score)
      let prob := E.lib.exp (Frac.div delta (Frac.max (Frac.ofInt 1)
        (Frac.mul (Frac.mul (Frac.ofInt st1.current_score) temperature) ⟨1, 10, by decide⟩)))
      if Frac.lt (E.outer.draw st1.clock) (Frac.mul prob ⟨3, 10, by decide⟩) then
        some { st1 with current_params := m.1, current_score := r.score, clock := st1.clock + 1 }
      else some { st1 with clock := st1.clock + 1 }
    else some st1

/-- The trials `it`, in order. -/
def lsLoop (E : LsEnv) : List Nat → LsState → Option LsState
  | [], st => some st
  | it :: rest, st =>
    match lsTrial E it st with
    | none => none
    | some st1 => lsLoop E rest st1

/-- The state of `local_search` after its first run of `greedy_solver`. -/
def lsInit (E : LsEnv) (ms : List Point) (Len : List Int) (initial_params : SolverParams) :
    Option LsState :=
  match greedy_solver ⟨E.inst, initial_params, E.outer, E.lib, E.fuel⟩ ms Len 0 with
  | none => none
  | some r => some ⟨initial_params, r.arms, r.score, initial_params, r.score, r.ms, r.Len, r.clock⟩

/-- The function `local_search`: `(best_arms, best_score, best_params)`. -/
def local_search (E : LsEnv) (ms : List Point) (Len : List Int) (initial_params : SolverParams) :
    Option (List Arm × Int × SolverParams) :=
  match lsInit E ms Len initial_params with
  | none => none
  | some st0 =>
    match lsLoop E (List.range E.iterations.toNat) st0 with
    | none => none
    | some st => some (st.best_arms, st.best_score, st.best_params)

/-! ## Notions used to state the properties -/

/-- The cell reached from `p` by the moves of `path`. -/
def replay (p : Point) (path : List Move) : Point := path.foldl Point.add p

/-- From `p`, the moves of `path` pass through the cells `ws` in this order. -/
def Visits : Point → List Move → List Point → Prop
  | _, _, [] => True
  | p, path, w :: ws =>
    ∃ k, k ≤ path.length ∧ replay p (path.take k) = w ∧ Visits w (path.drop k) ws

/-- The sum of the distances from `p` through the cells `ws` in order. -/
def tour : Point → List Point → Int
  | _, [] => 0
  | p, w :: ws => distance p w + tour w ws

/-- The intrinsic length of a task: the sum of the distances between its
consecutive waypoints. -/
def intrinsicLen : List Point → Int
  | [] => 0
  | w :: ws => tour w ws

/-- The waypoints of the tasks `z`, in order. -/
def waypointsOf (inst : Instance) (z : List Nat) : List Point :=
  z.flatMap (fun t => inst.task t)

/-- The sum of the rewards of the tasks `z`. -/
def rewardSum (inst : Instance) (z : List Nat) : Int :=
  (z.map (fun t => inst.reward t)).sum

/-- The state in which a call of `greedy_solver` enters its main loop. -/
def startState (e : Env) (ms : List Point) (Len : List Int) (clock : Nat) : State :=
  initState e (orderMounts e ms (clock + 1)) (penalise e ms Len) clock

/-- The state at the start of iteration `n` of the main loop (`none` when the
loop has been left, or has failed, before). -/
def stateAt (e : Env) (s0 : State) : Nat → Option State
  | 0 => some s0
  | n + 1 =>
    match stateAt e s0 n with
    | none => none
    | some s =>
      match mainStep e s with
      | some (some s1) => some s1
      | _ => none

/-- A chain `cur` with its direction history `cp`: built from one cell by
steps of one move each. -/
inductive Chain : List Point → List Move → Prop
  | base (p : Point) : Chain [p] []
  | snoc {cur : List Point} {cp : List Move} (c : Move) :
      Chain cur cp → Chain (cur ++ [(back cur).add c]) (cp ++ [c])

/-- The chain of an arm is well formed and the recorded moves lead from the
first cell of the chain to its last cell. -/
def ChainOK (a : Arm) : Prop :=
  Chain a.cur a.cp ∧ replay (a.cur.headD default) a.path = back a.cur

/-! ## Example instances -/

/-- The source of choice whose draws are all zero, that never rearranges and
that always takes the first of the entries that may be on top. -/
def chanceZero : Chance :=
  ⟨fun _ => Frac.ofInt 0, fun _ => 0, fun _ => 0, fun _ => Frac.ofInt 0⟩

/-- `pow` at exponent one and `exp` at zero. -/
def libmOne : Libm := ⟨fun b _ => Frac.ofInt b, fun _ => Frac.ofInt 1⟩

/-- The result of a call that returns (a result without arms stands in otherwise). -/
def solved (e : Env) (ms : List Point) (Len : List Int) (clock : Nat) : Result :=
  (greedy_solver e ms Len clock).getD ⟨0, [], [], [], 0⟩

/-- One arm mounted at `(0,0)`, horizon 10, one task of reward 5 through
`(0,0)` and `(2,0)`, on the `3 × 1` grid. -/
def scenario : Instance := ⟨3, 1, 1, 10, [5], [[⟨0, 0⟩, ⟨2, 0⟩]]⟩

def scenarioEnv : Env := ⟨scenario, {}, chanceZero, libmOne, 50⟩

/-- The scenario with horizon 1, too short for its task. -/
def shortEnv : Env := ⟨⟨3, 1, 1, 1, [5], [[⟨0, 0⟩, ⟨2, 0⟩]]⟩, {}, chanceZero, libmOne, 50⟩

/-- The scenario with reward `-1` in place of `5`. -/
def lossEnv : Env := ⟨⟨3, 1, 1, 10, [-1], [[⟨0, 0⟩, ⟨2, 0⟩]]⟩, {}, chanceZero, libmOne, 50⟩

/-- One arm mounted at `(1,0)` on the `5 × 1` grid, horizon 3, budget factor 2,
and the task of reward 3 at `(4,0)`. -/
def farEnv : Env :=
  ⟨⟨5, 1, 1, 3, [3], [[⟨4, 0⟩]]⟩, { path_cost_threshold := Frac.ofInt 2 }, chanceZero, libmOne, 50⟩

/-- The instance of `farEnv` with one more task, of reward 2 at `(0,0)`. -/
def farNearEnv : Env :=
  ⟨⟨5, 1, 1, 3, [3, 2], [[⟨4, 0⟩], [⟨0, 0⟩]]⟩, { path_cost_threshold := Frac.ofInt 2 },
    chanceZero, libmOne, 50⟩

/-- The instance of `farEnv` with the default budget factor 1. -/
def tightEnv : Env := ⟨⟨5, 1, 1, 3, [3], [[⟨4, 0⟩]]⟩, {}, chanceZero, libmOne, 50⟩

/-- The instance of `farNearEnv` with the default budget factor 1. -/
def tightNearEnv : Env :=
  ⟨⟨5, 1, 1, 3, [3, 2], [[⟨4, 0⟩], [⟨0, 0⟩]]⟩, {}, chanceZero, libmOne, 50⟩

/-- A local search of two trials on the scenario. -/
def searchEnv : LsEnv := ⟨scenario, libmOne, 50, chanceZero, fun _ => chanceZero, 2, {}⟩

/-- The result of a local search that returns (an empty result stands in otherwise). -/
def searched (E : LsEnv) (ms : List Point) (Len : List Int) (p : SolverParams) :
    List Arm × Int × SolverParams :=
  (local_search E ms Len p).getD ([], 0, {})

/-- The scenario of one arm at `(0,0)` and one task through `(0,0)` and `(2,0)` on a `W × H` grid. -/
def scenarioOn (W H : Int) : Instance := ⟨W, H, 1, 10, [5], [[⟨0, 0⟩, ⟨2, 0⟩]]⟩

/-- What holds during the search for `(2,0)` from `(0,0)` in the scenario,
as long as the target is not found. -/
structure ScenInv (SS : Int) (σ : Search) : Prop where
  nf : σ.found = false
  s0 : σ.seen ⟨0, 0⟩ = SS
  d0 : σ.dist ⟨0, 0⟩ = 0
  p0 : σ.pred ⟨0, 0⟩ = Move.x
  s2 : σ.seen ⟨2, 0⟩ ≠ SS
  c1 : σ.seen ⟨1, 0⟩ = SS → σ.dist ⟨1, 0⟩ = 1 ∧ σ.pred ⟨1, 0⟩ = Move.R
  q : ∀ en ∈ σ.Q, en = ⟨⟨1, 0⟩, 1, 0⟩ ∨ (en.q ≠ ⟨1, 0⟩ ∧ 1 ≤ en.l ∧ (en.l = 1 → en.q = ⟨0, 1⟩))

/-- The search for `(2,0)` has succeeded along `(0,0)`, `(1,0)`, `(2,0)`. -/
structure ScenDone (σ : Search) : Prop where
  f : σ.found = true
  d0 : σ.dist ⟨0, 0⟩ = 0
  p0 : σ.pred ⟨0, 0⟩ = Move.x
  d1 : σ.dist ⟨1, 0⟩ = 1
  p1 : σ.pred ⟨1, 0⟩ = Move.R
  d2 : σ.dist ⟨2, 0⟩ = 2
  p2 : σ.pred ⟨2, 0⟩ = Move.R

/-- The surroundings of the search in the scenario: the grid holds `(0,0)` and
`(2,0)`, only `(0,0)` is claimed (by arm `0`), and the arm is at its anchor. -/
structure ScenCtx (e : Env) (s : State) (a : Arm) : Prop where
  w : 3 ≤ e.inst.W
  h : 1 ≤ e.inst.H
  l : e.inst.L = 10
  own : s.owner ⟨0, 0⟩ = 0
  unt : ∀ p, p ≠ ⟨0, 0⟩ → s.until_ p = -1
  how : ∀ p, a.how p = Move.x
  tip : back a.cur = ⟨0, 0⟩

/-- The search of the scenario goes on: `(1,0)` is recorded and queued and
the direction `R` is still among the directions tried. -/
structure ScenLive (SS : Int) (σ : Search) : Prop where
  inv : ScenInv SS σ
  s1 : σ.seen ⟨1, 0⟩ = SS
  a : ⟨⟨1, 0⟩, 1, 0⟩ ∈ σ.Q
  r : Move.R ∈ σ.vs
  ok : ∀ c ∈ σ.vs, c ≠ Move.W ∧ c ≠ Move.x

/-- The number of queued entries of time at most `1`. -/
def early (Q : List QEl) : Nat := (Q.filter (fun en => decide (en.l ≤ 1))).length

/-- The scenario on a `W × H` grid, with the default parameters. -/
def scenarioEnvOn (W H : Int) (ch : Chance) (lib : Libm) (fuel : Nat) : Env :=
  ⟨scenarioOn W H, {}, ch, lib, fuel⟩

/-- What a successful splice step keeps of an arm and how it extends the path. -/
structure Extends (a a1 : Arm) : Prop where
  path : ∃ ext, a1.path = a.path ++ ext
  head : a1.cur.headD default = a.cur.headD default
  z : a1.z = a.z
  i : a1.i = a.i
  done : a1.done = a.done

/-- What is known of `bestA` and `bestT` during and after the candidate loop over `ts`. -/
def Picked (e : Env) (s : State) (i : Nat) (ts : List Nat) (b : Best) : Prop :=
  ∀ t, b.bestT = some t → t ∈ ts ∧ ∃ sc sc1,
    waypoints e s i t (e.inst.task t) (s.arm i) sc = some (some b.bestA, sc1) ∧
    (s.arm i).path.length < b.bestA.path.length

/-- What holds of every arm at the start of every iteration of the main loop. -/
structure ArmInv (e : Env) (a : Arm) : Prop where
  chain : ChainOK a
  visits : Visits (a.cur.headD default) a.path (waypointsOf e.inst a.z)
  horizon : 0 ≤ e.inst.L → (a.path.length : Int) ≤ e.inst.L
  fits : ∀ t ∈ a.z, intrinsicLen (e.inst.task t) ≤ e.inst.L

/-- What holds of the state at the start of every iteration of the main loop. -/
structure RunInv (e : Env) (s : State) : Prop where
  arms_len : s.arms.length = e.inst.R
  arm : ∀ a ∈ s.arms, ArmInv e a
  score : s.score = ((s.arms.map (fun a => a.z)).map (rewardSum e.inst)).sum
  nodup : ((s.arms.map (fun a => a.z)).flatten ++ s.ts).Nodup

/-- A cell the search may enter for arm `i`: a cell of its own, or one on
which no firm claim stands. -/
def Enterable (e : Env) (s : State) (i : Nat) (c : Point) : Prop :=
  s.owner c = (i : Int) ∨ s.until_ c < e.inst.L

/-- What holds of the tables of one search, for the clone `a`, between two
turns of any of its loops. -/
structure SInv (e : Env) (s : State) (i : Nat) (a : Arm) (SS : Int) (σ : Search) : Prop where
  vs : ∀ c ∈ σ.vs, c ≠ Move.x ∧ c ≠ Move.W
  stamp : ∀ p, σ.seen p ≤ SS
  q : ∀ en ∈ σ.Q, σ.seen en.q = SS ∧ (a.path.length : Int) ≤ en.l ∧
    (σ.pred en.q ≠ Move.x → σ.dist en.q ≤ en.l)
  tip : a.how (back a.cur) = Move.x →
    σ.seen (back a.cur) = SS ∧ σ.pred (back a.cur) = Move.x ∧
      σ.dist (back a.cur) = (a.path.length : Int)
  root : ∀ p, σ.seen p = SS → σ.pred p = Move.x → p = back a.cur ∨ a.how p ≠ Move.x
  link : ∀ p, σ.seen p = SS → σ.pred p ≠ Move.x →
    Enterable e s i p ∧ a.how p = Move.x ∧ σ.seen (p.add (opp (σ.pred p))) = SS ∧
      (σ.pred (p.add (opp (σ.pred p))) ≠ Move.x →
        σ.dist (p.add (opp (σ.pred p))) < σ.dist p)

/-- The cells a path enters from `p`: every move other than a wait enters
the cell it leads to. -/
def entered : Point → List Move → List Point
  | _, [] => []
  | p, c :: cs => if c = Move.W then entered p cs else p.add c :: entered (p.add c) cs

/-- The cells reached from `p` after each of the moves `cs`. -/
def cells : Point → List Move → List Point
  | _, [] => []
  | p, c :: cs => p.add c :: cells (p.add c) cs

/-- The chain of an arm holds no cell twice and every cell of it but the
last one carries the direction of the next one. -/
def Tidy (a : Arm) : Prop :=
  a.cur.Nodup ∧ ∀ c ∈ a.cur.dropLast, a.how c ≠ Move.x

/-- Every stamp in the table `seen` is one that has been handed out. -/
def Stamped (sc : Scratch) : Prop := ∀ p, sc.seen p ≤ sc.SS

/-- What is known of `bestA` during and after the candidate loop: it is the
outcome of the splices of `bestT`, begun on tables with handed-out stamps. -/
def PickedH (e : Env) (s : State) (i : Nat) (b : Best) : Prop :=
  ∀ t, b.bestT = some t → ∃ sc sc1, Stamped sc ∧
    waypoints e s i t (e.inst.task t) (s.arm i) sc = some (some b.bestA, sc1)

/-- What the main loop keeps of the chains and of the reservation tables:
the stamps are handed-out ones, every chain is tidy, and every cell of the
chain of arm `k` is reserved for arm `k` up to the horizon. -/
structure HeldInv (e : Env) (s : State) : Prop where
  stamp : ∀ p, s.seen p ≤ s.SS
  tidy : ∀ (k : Nat) (a : Arm), s.arms[k]? = some a → Tidy a
  firm : ∀ (k : Nat) (a : Arm), s.arms[k]? = some a →
    ∀ c ∈ a.cur, s.owner c = (k : Int) ∧ s.until_ c = e.inst.L

/-- The chain, the direction map and the moves of an arm. -/
def chainView (a : Arm) : List Point × Grid Move × List Move := (a.cur, a.how, a.path)

/-- What one iteration of the main loop does to the paths: every arm's new
moves extend its old ones and enter no cell of the chain of another arm. -/
def StepApart (s s1 : State) : Prop :=
  ∀ (k : Nat) (a a1 : Arm), s.arms[k]? = some a → s1.arms[k]? = some a1 →
    ∃ ext, a1.path = a.path ++ ext ∧
      ∀ c ∈ entered (back a.cur) ext, ∀ (j : Nat) (b : Arm), j ≠ k → s.arms[j]? = some b →
        c ∉ b.cur

/-- Two arms on a strip of five cells, mounted at its two ends, and two
tasks: one with waypoints `(1,0)`, `(2,0)` and reward 5, one with the
waypoint `(3,0)` and reward 3. -/
def pairEnv : Env :=
  ⟨⟨5, 1, 2, 10, [5, 3], [[⟨1, 0⟩, ⟨2, 0⟩], [⟨3, 0⟩]]⟩, {}, chanceZero, libmOne, 50⟩

/-- The state at the start of iteration `n` of the run of `greedy_solver` on
`ms`, `Len` (the state on entry when the run does not get that far). -/
def reached (e : Env) (ms : List Point) (Len : List Int) (clock : Nat) (n : Nat) : State :=
  (stateAt e (startState e ms Len clock) n).getD (startState e ms Len clock)

/-- The cumulative effective length of the tasks `ts`. -/
def lenSum (Len : List Int) (ts : List Nat) : Int := (ts.map (fun t => Len.getD t 0)).sum

/-- The source of choice whose draws are all zero, that always takes the
first of the entries that may be on top, and whose every rearrangement is the
one numbered 1 (for two entries: the swap). -/
def chanceSwap : Chance :=
  ⟨fun _ => Frac.ofInt 0, fun _ => 1, fun _ => 0, fun _ => Frac.ofInt 0⟩

/-- The instance of `pairEnv` run with `chanceSwap`. -/
def swapEnv : Env := ⟨pairEnv.inst, {}, chanceSwap, libmOne, 50⟩

/-- A local search of two trials on the instance of `pairEnv`, with `chanceSwap`. -/
def swapSearch : LsEnv := ⟨pairEnv.inst, libmOne, 50, chanceSwap, fun _ => chanceSwap, 2, {}⟩

/-- A move that changes the position: one of `R`, `L`, `U`, `D`. -/
def Move.Proper (c : Move) : Prop := c = Move.R ∨ c = Move.L ∨ c = Move.U ∨ c = Move.D

/-- The search writes only `x` and directions into `pred`: the table never
holds a wait, and the directions tried are the four proper moves. -/
def PredOK (vs : List Move) (pred : Grid Move) : Prop :=
  (∀ c ∈ vs, Move.Proper c) ∧ ∀ p, pred p = Move.x ∨ Move.Proper (pred p)

/-- What the main loop keeps of the directions: the table `pred` holds no
wait and every direction history consists of proper moves. -/
def ProperInv (s : State) : Prop :=
  (∀ p, s.pred p = Move.x ∨ Move.Proper (s.pred p)) ∧
    ∀ a ∈ s.arms, ∀ c ∈ a.cp, Move.Proper c

/-- The weight of a queue entry with arrival time `l`: a bound on the number
of entries that can descend from it before the horizon. -/
def weight (L l : Int) : Nat := 9 ^ (L - l).toNat

/-- The weight of a queue. -/
def qWeight (L : Int) (Q : List QEl) : Nat := (Q.map (fun en => weight L en.l)).sum

/-- The state of the search after the draw, the shuffle and the first inner
loop of the expansion of `top`. -/
def afterOwn (e : Env) (SS : Int) (a : Arm) (pt : Point) (top : QEl) (σ0 : Search) : Search :=
  if a.how top.q ≠ Move.x ∨ top.q = back a.cur then
    ownLoop e SS a pt top.q top.l top.depth (maybeShuffle e σ0).vs (maybeShuffle e σ0)
  else maybeShuffle e σ0

/-- Every cell the search has reached by a step into a fresh cell has an
arrival time after the start of the search and not after the horizon. -/
def DistOK (e : Env) (a : Arm) (SS : Int) (σ : Search) : Prop :=
  ∀ p, σ.seen p = SS → σ.pred p ≠ Move.x →
    (a.path.length : Int) < σ.dist p ∧ σ.dist p ≤ e.inst.L

/-- Only cells of the chain other than its last carry a direction in `how`. -/
def Exact (a : Arm) : Prop := ∀ c, a.how c ≠ Move.x → c ∈ a.cur.dropLast

/-- Every reservation that a search may have to weigh belongs to an arm that
exists: a cell is unreserved, or reserved up to the horizon, or its owner is
one of the `R` arms. -/
def OwnerOK (e : Env) (s : State) : Prop :=
  ∀ c, s.until_ c = -1 ∨ s.until_ c = e.inst.L ∨
    (0 ≤ s.owner c ∧ s.owner c < (e.inst.R : Int))

/-- What the main loop keeps and what makes each of its iterations complete. -/
structure LiveInv (e : Env) (s : State) : Prop where
  run : RunInv e s
  held : HeldInv e s
  exact : ∀ a ∈ s.arms, Exact a
  own : OwnerOK e s

/-- The horizon as the `size_t` that `path.size()` is compared with. -/
def horizon (e : Env) : Nat := (toSize e.inst.L).toNat

/-- What one arm still owes before it can no longer be selected: the moves
left up to the horizon, and one more unless it is done at the horizon. -/
def armDebt (H : Nat) (a : Arm) : Nat :=
  (H - a.path.length) + (if H ≤ a.path.length ∧ a.done = true then 0 else 1)

/-- One for an arm that is not done. -/
def undone (a : Arm) : Nat := if a.done = true then 0 else 1

/-- A number that every iteration of the main loop lowers. -/
def potential (e : Env) (s : State) : Nat :=
  (s.ts.length + (s.arms.map (armDebt (horizon e))).sum) * (e.inst.R + 1)
    + (s.arms.map undone).sum

/-- What the tables `owner` and `until` say of every cell: its owner is one
of the `R` arms, or it has no owner and no reservation, or its owner is the
index of a mounting point without an arm and it is reserved up to the
horizon. -/
def OwnerTable (e : Env) (s : State) : Prop :=
  ∀ c, (0 ≤ s.owner c ∧ s.owner c < (e.inst.R : Int)) ∨
    (s.owner c = -1 ∧ s.until_ c = -1) ∨
    ((e.inst.R : Int) ≤ s.owner c ∧ s.until_ c = e.inst.L)

/-- Two arms on a strip of seven cells, mounted at `(3,0)` and `(6,0)`; one
task of reward 5 with the waypoint `(5,0)` and one of reward 3 with the
waypoints `(4,0)`, `(6,0)`. -/
def gateEnv : Env :=
  ⟨⟨7, 1, 2, 10, [5, 3], [[⟨5, 0⟩], [⟨4, 0⟩, ⟨6, 0⟩]]⟩, {}, chanceZero, libmOne, 50⟩

/-- One arm mounted at `(0,0)` on the `4 × 1` grid and one task of reward 5
with the waypoints `(1,0)`, `(3,0)`. -/
def tieEnv : Env :=
  ⟨⟨4, 1, 1, 10, [5], [[⟨1, 0⟩, ⟨3, 0⟩]]⟩, {}, chanceZero, libmOne, 50⟩

/-- The state in which the run of `tieEnv` enters its main loop. -/
def tieStart : State := startState tieEnv [⟨0, 0⟩] [0] 0

/-- The variables of a search for `pt` from the clone `a` on entry to its loop. -/
def searchStart (a : Arm) (pt : Point) (sc : Scratch) : Search :=
  { Q := [⟨back a.cur, a.path.length, 0⟩], found := decide (back a.cur = pt),
    vs := [Move.R, Move.L, Move.U, Move.D],
    seen := sc.seen.set (back a.cur) (sc.SS + 1), dist := sc.dist.set (back a.cur) a.path.length,
    pred := sc.pred.set (back a.cur) Move.x, clock := sc.clock }

/-- The outcome of the first waypoint of the task of `tieEnv` in the first
iteration of the main loop. -/
def tieFirst : Option Arm × Scratch :=
  (waypoint tieEnv tieStart 0 0 (tieStart.arm 0) ⟨1, 0⟩
    ⟨tieStart.seen, tieStart.dist, tieStart.pred, tieStart.SS, tieStart.clock⟩).getD
    (none, ⟨tieStart.seen, tieStart.dist, tieStart.pred, tieStart.SS, tieStart.clock⟩)

/-- The clone with which the search for the second waypoint starts. -/
def tieArm : Arm := tieFirst.1.getD default

/-- The queue of the search for the second waypoint `(3,0)` after the
expansion of its first entry `((1,0), 1, 0)`. -/
def tieQueue : Option (List QEl) :=
  (freshLoop tieEnv tieStart 0 0 (tieFirst.2.SS + 1) tieArm ⟨3, 0⟩ ⟨1, 0⟩ 1 0
    (afterOwn tieEnv (tieFirst.2.SS + 1) tieArm ⟨3, 0⟩ ⟨⟨1, 0⟩, 1, 0⟩
      { searchStart tieArm ⟨3, 0⟩ tieFirst.2 with Q := [], clock := tieFirst.2.clock + 1 }).vs
    (afterOwn tieEnv (tieFirst.2.SS + 1) tieArm ⟨3, 0⟩ ⟨⟨1, 0⟩, 1, 0⟩
      { searchStart tieArm ⟨3, 0⟩ tieFirst.2 with Q := [], clock := tieFirst.2.clock + 1 })).map
    (fun σ => σ.Q)

/-- The figure of the specification for an arm `a` and the task `t`: the
distance from the tip of `a` to the first waypoint of `t`, plus the number of
moves `a` has made. -/
def urgencyFigure (e : Env) (t : Nat) (a : Arm) : Int :=
  distance ((e.inst.task t).headD default) (back a.cur) + (a.path.length : Int)

/-- Every cell of a chain but the last one carries in `how` the opposite of
the move that leads to the next cell. -/
def Dir (how : Grid Move) : List Point → Prop
  | [] => True
  | [_] => True
  | p :: q :: rest => q = p.add (opp (how p)) ∧ Dir how (q :: rest)

/-- The time at which the clone `a` can be at the cell `p` of its chain by
folding the chain back: one move for every cell behind `p`. -/
def ownTime (a : Arm) (p : Point) : Int :=
  (a.path.length : Int) + ((a.cur.length : Int) - 1 - (a.cur.indexOf p : Int))

/-- What holds of the clone of an arm between two splices. -/
structure CloneOK (a : Arm) : Prop where
  chain : ChainOK a
  tidy : Tidy a
  exact : Exact a
  dir : Dir a.how a.cur

/-- The direction marks of every arm agree with its chain. -/
def DirInv (s : State) : Prop := ∀ a ∈ s.arms, Dir a.how a.cur

/-- What the tables of one search say about times, for the clone `a` and the
arrival time `m` of the entry being expanded (or expanded last): a stamped
cell of the chain carries the time of folding the chain back to it, queue
entries for chain cells carry that time too, no entry is earlier than `m`,
and every recorded step leads from a cell with a time of at most `m` to a
cell whose time is one more, or one more than the end of another arm's
reservation of that cell. -/
structure TInv (s : State) (i : Nat) (a : Arm) (SS : Int) (σ : Search) (m : Int) : Prop where
  own : ∀ p ∈ a.cur, σ.seen p = SS → σ.pred p = Move.x ∧ σ.dist p = ownTime a p
  ownq : ∀ en ∈ σ.Q, en.q ∈ a.cur → en.l = ownTime a en.q
  floor : ∀ en ∈ σ.Q, m ≤ en.l
  link : ∀ p, σ.seen p = SS → σ.pred p ≠ Move.x →
    σ.dist (p.add (opp (σ.pred p))) ≤ m ∧
      (σ.dist p = σ.dist (p.add (opp (σ.pred p))) + 1 ∨
        (s.owner p ≠ (i : Int) ∧ σ.dist (p.add (opp (σ.pred p))) < s.until_ p ∧
          σ.dist p = s.until_ p + 1))

/-- The cells entered along `mv` from `p` each carry in `pred` the move by
which they are entered. -/
def Trail (pred : Grid Move) : Point → List Move → Prop
  | _, [] => True
  | p, c :: cs => pred (p.add c) = c ∧ Trail pred (p.add c) cs

/-- The moves `seg` lay the steps `mv` from the cell `q` according to the
times `dist`: every step is into a cell whose time is later by a gap
`g ≥ 1`, the gap is 1 or the time of the cell is one more than the end of
another arm's reservation of it, and the step is written as `g - 1` waits
followed by the move, which is not a wait. -/
def Laid (s : State) (i : Nat) (dist : Grid Int) : Point → List Move → List Move → Prop
  | _, [], seg => seg = []
  | q, c :: cs, seg =>
    1 ≤ dist (q.add c) - dist q ∧ c ≠ Move.W ∧
      (dist (q.add c) = dist q + 1 ∨
        (s.owner (q.add c) ≠ (i : Int) ∧ dist q < s.until_ (q.add c) ∧
          dist (q.add c) = s.until_ (q.add c) + 1)) ∧
      ∃ rest, seg = List.replicate (dist (q.add c) - dist q - 1).toNat Move.W ++ c :: rest ∧
        Laid s i dist (q.add c) cs rest

/-- The arm a successful splice produces (an arm without cells otherwise). -/
def spliceArm (e : Env) (s : State) (i t : Nat) (a : Arm) (pt : Point) (sc : Scratch) : Arm :=
  ((waypoint e s i t a pt sc).bind (fun r => r.1)).getD default

/-- The tables a splice leaves behind (the tables it was given when it does
not return). -/
def spliceScratch (e : Env) (s : State) (i t : Nat) (a : Arm) (pt : Point) (sc : Scratch) :
    Scratch :=
  ((waypoint e s i t a pt sc).map (fun r => r.2)).getD sc

/-- The instance of `gateEnv` with the second task at the waypoint `(5,0)`
of the first. -/
def waitEnv : Env :=
  ⟨⟨7, 1, 2, 10, [5, 3], [[⟨5, 0⟩], [⟨5, 0⟩]]⟩, {}, chanceZero, libmOne, 50⟩

/-- The state of the run of `waitEnv` from the mounting points `(3,0)`,
`(6,0)` at the start of its fourth iteration: arm 0 has served the first task
and folded its chain back, leaving `(5,0)` reserved up to time 2. -/
def waitState : State := reached waitEnv [⟨3, 0⟩, ⟨6, 0⟩] [0, 0] 0 3

/-- The search tables of `waitState`. -/
def waitScratch : Scratch :=
  ⟨waitState.seen, waitState.dist, waitState.pred, waitState.SS, waitState.clock⟩

/-- The variables in scope in the body of `for(int t : ts)`: the variables of
`greedy_solver` that live across iterations (`st`: the arms, `owner`, `until`,
`ts`, the score, and the tables `seen`, `dist`, `pred` with `SS` and the
generator), the copy `a` of `arms[i]`, the flag `bad`, and `bestA`, `bestT`,
`bestS`. -/
structure Cand where
  st : State
  a : Arm
  bad : Bool
  best : Best

/-- The variables in scope in the search loop of one waypoint: those of
`Cand`, the queue `Q`, the flag `found` and the array `vs`. -/
structure Hunt where
  c : Cand
  Q : List QEl
  found : Bool
  vs : List Move

/-- The assignments `seen[p.x][p.y] = SS; dist[p.x][p.y] = l; pred[p.x][p.y] = m`. -/
def Hunt.mark (h : Hunt) (p : Point) (l : Int) (m : Move) : Hunt :=
  { h with c := { h.c with st := { h.c.st with seen := h.c.st.seen.set p h.c.st.SS,
                                                dist := h.c.st.dist.set p l,
                                                pred := h.c.st.pred.set p m } } }

/-- The first inner loop of the search, on the variables of the program. -/
def ownLoopC (e : Env) (pt q : Point) (l depth : Int) : List Move → Hunt → Hunt
  | [], h => h
  | m :: cs, h =>
    let p := q.add m
    if offGrid e p || decide (h.c.a.how p ≠ m) then ownLoopC e pt q l depth cs h
    else
      let h1 := h.mark p (l + 1) Move.x
      if p = pt then { h1 with found := true }
      else ownLoopC e pt q l depth cs { h1 with Q := h1.Q ++ [⟨p, l + 1, depth + 1⟩] }

/-- The second inner loop of the search, on the variables of the program;
`owner`, `until` and `arms` are read from the current state. -/
def freshLoopC (e : Env) (i t : Nat) (pt q : Point) (l depth : Int) :
    List Move → Hunt → Option Hunt
  | [], h => some h
  | m :: cs, h =>
    let p := q.add m
    if offGrid e p || decide (h.c.a.how p ≠ Move.x) then freshLoopC e i t pt q l depth cs h
    else
      match arrival e h.c.st i t p l with
      | none => none
      | some none => freshLoopC e i t pt q l depth cs h
      | some (some l1) =>
        let l2 := l1 + 1
        if h.c.st.seen p = h.c.st.SS ∧ l2 ≥ h.c.st.dist p then
          freshLoopC e i t pt q l depth cs h
        else
          let h1 := h.mark p l2 m
          if p = pt then some { h1 with found := true }
          else freshLoopC e i t pt q l depth cs { h1 with Q := h1.Q ++ [⟨p, l2, depth⟩] }

/-- The draw `rand_dist(mt) < params.bfs_randomness` and the shuffle of `vs`,
on the variables of the program. -/
def maybeShuffleC (e : Env) (h : Hunt) : Hunt :=
  if Frac.lt (e.ch.draw h.c.st.clock) e.params.bfs_randomness then
    { h with vs := shuffleList (e.ch.perm (h.c.st.clock + 1)) h.vs,
             c := { h.c with st := { h.c.st with clock := h.c.st.clock + 2 } } }
  else { h with c := { h.c with st := { h.c.st with clock := h.c.st.clock + 1 } } }

/-- The loop `while(!Q.empty() && !found)`, on the variables of the program. -/
def searchLoopC (e : Env) (i t : Nat) (pt : Point) : Nat → Hunt → Option Hunt
  | 0, _ => none
  | n + 1, h =>
    if h.found then some h
    else
      match popQ (e.ch.tie h.c.st.clock) h.Q with
      | none => some h
      | some (top, Q') =>
        let h0 : Hunt :=
          { h with Q := Q', c := { h.c with st := { h.c.st with clock := h.c.st.clock + 1 } } }
        if top.l > h0.c.st.dist top.q then searchLoopC e i t pt n h0
        else if top.l ≥ e.inst.L then some h0
        else
          let h1 := maybeShuffleC e h0
          let h2 :=
            if h1.c.a.how top.q ≠ Move.x ∨ top.q = back h1.c.a.cur then
              ownLoopC e pt top.q top.l top.depth h1.vs h1
            else h1
          match freshLoopC e i t pt top.q top.l top.depth h2.vs h2 with
          | none => none
          | some h3 => searchLoopC e i t pt n h3

/-- The body of `for(const Point &pt : P[t])`, on the variables of the
program: `++SS`, the marks of the start cell, the search, and, when the
waypoint is found, the splice into the copy `a`; `bad` is set when the
waypoint is not found or the path of `a` has become longer than `L`. -/
def waypointC (e : Env) (i t : Nat) (pt : Point) (c : Cand) : Option Cand :=
  let tip := back c.a.cur
  let c0 : Cand := { c with st := { c.st with SS := c.st.SS + 1 } }
  let h0 : Hunt :=
    Hunt.mark ⟨c0, [⟨tip, c.a.path.length, 0⟩], decide (tip = pt),
      [Move.R, Move.L, Move.U, Move.D]⟩ tip c.a.path.length Move.x
  match searchLoopC e i t pt e.fuel h0 with
  | none => none
  | some h =>
    if h.found = false then some { h.c with bad := true }
    else
      match predWalk h.c.st.pred e.fuel pt [] with
      | none => none
      | some (add, p) =>
        match unwind h.c.a.cur.length p h.c.a with
        | none => none
        | some a1 =>
          let c2 : Cand :=
            { h.c with a := appendMoves h.c.st.dist add.reverse
                              { a1 with cp := a1.cp ++ add.reverse } }
          if (c2.a.path.length : Int) > toSize e.inst.L then some { c2 with bad := true }
          else some c2

/-- The loop `for(const Point &pt : P[t])`, left by `break` once `bad` is set. -/
def waypointsC (e : Env) (i t : Nat) : List Point → Cand → Option Cand
  | [], c => some c
  | pt :: pts, c =>
    match waypointC e i t pt c with
    | none => none
    | some c1 => if c1.bad then some c1 else waypointsC e i t pts c1

/-- The body of `for(int t : ts)` for the selected arm `i`: `bad = false`,
the copy `Arm a = arms[i]`, the loop over the waypoints of `t`, and, when
the attempt has not failed and the path has grown, the comparison with
`bestS` and the assignments to `bestA`, `bestS`, `bestT`. -/
def attempt (e : Env) (i t : Nat) (c : Cand) : Option Cand :=
  match waypointsC e i t (e.inst.task t) { c with bad := false, a := c.st.arm i } with
  | none => none
  | some c1 =>
    if c1.bad then some c1
    else
      let path_diff : Int := (c1.a.path.length : Int) - ((c1.st.arm i).path.length : Int)
      if path_diff ≤ 0 then some c1
      else
        let sc_t := Frac.ofDiv (e.inst.reward t) path_diff
        if Frac.lt c1.best.bestS sc_t then some { c1 with best := ⟨c1.a, some t, sc_t⟩ }
        else some c1

/-- The loop `for(int t : ts)` for the selected arm `i`, on the variables of
the program. -/
def candidatesC (e : Env) (i : Nat) : List Nat → Cand → Option Cand
  | [], c => some c
  | t :: rest, c =>
    match attempt e i t c with
    | none => none
    | some c1 => candidatesC e i rest c1

/-- The variables on entry to the candidate loop from the state `s`:
`bestT = -1`, `bestS = -1`, and `a`, `bad` not yet declared. -/
def Cand.enter (s : State) : Cand := ⟨s, default, false, ⟨default, none, Frac.ofInt (-1)⟩⟩

/-- The search tables of a state. -/
def State.scratch (s : State) : Scratch := ⟨s.seen, s.dist, s.pred, s.SS, s.clock⟩

/-- The state `s` with the search tables and the generator of `sc`. -/
def State.withScratch (s : State) (sc : Scratch) : State :=
  { s with seen := sc.seen, dist := sc.dist, pred := sc.pred, SS := sc.SS, clock := sc.clock }

/-- The update of `bestA`, `bestT`, `bestS` after the attempt at task `t`
that ended with the copy `oa` (`none` for a failed attempt). -/
def pick (e : Env) (s : State) (i t : Nat) (oa : Option Arm) (b : Best) : Best :=
  match oa with
  | none => b
  | some a =>
    let path_diff : Int := (a.path.length : Int) - ((s.arm i).path.length : Int)
    if path_diff ≤ 0 then b
    else
      let sc_t := Frac.ofDiv (e.inst.reward t) path_diff
      if Frac.lt b.bestS sc_t then ⟨a, some t, sc_t⟩ else b

/-- The variables `c` with the search tables and the generator of `σ`. -/
def Cand.put (c : Cand) (σ : Search) : Hunt :=
  ⟨{ c with st := { c.st with seen := σ.seen, dist := σ.dist, pred := σ.pred, clock := σ.clock } },
    σ.Q, σ.found, σ.vs⟩

/-- The state in which the run of `gateEnv` from the mounting points `(3,0)`,
`(6,0)` enters its main loop. -/
def gateStart : State := startState gateEnv [⟨3, 0⟩, ⟨6, 0⟩] [0, 0] 0

/-! ## Moves, cells and distances -/

theorem opp_opp (c : Move) : opp (opp c) = c := by cases c <;> rfl

theorem add_opp_add (p : Point) (c : Move) : (p.add (opp c)).add c = p := by
  cases c <;> simp [Point.add, opp]

theorem add_add_opp (p : Point) (c : Move) : (p.add c).add (opp c) = p := by
  cases c <;> simp [Point.add, opp]

theorem distance_self (p : Point) : distance p p = 0 := by simp [distance]

theorem distance_nonneg (p q : Point) : 0 ≤ distance p q := by
  unfold distance; omega

theorem distance_triangle (a b c : Point) : distance a c ≤ distance a b + distance b c := by
  unfold distance; omega

theorem distance_add_le (p : Point) (c : Move) : distance p (p.add c) ≤ 1 := by
  cases c <;> simp [Point.add, distance]

theorem replay_nil (p : Point) : replay p [] = p := rfl

theorem replay_cons (p : Point) (c : Move) (cs : List Move) :
    replay p (c :: cs) = replay (p.add c) cs := rfl

theorem replay_append (p : Point) (xs ys : List Move) :
    replay p (xs ++ ys) = replay (replay p xs) ys := by
  simp [replay, List.foldl_append]

theorem replay_replicate_W (p : Point) (n : Nat) : replay p (List.replicate n Move.W) = p := by
  induction n with
  | zero => rfl
  | succ n ih => simpa [List.replicate_succ, replay_cons, Point.add] using ih

theorem distance_replay_le (p : Point) (path : List Move) :
    distance p (replay p path) ≤ path.length := by
  induction path generalizing p with
  | nil => simp [replay_nil, distance_self]
  | cons c cs ih =>
    have h1 := distance_triangle p (p.add c) (replay (p.add c) cs)
    have h2 := distance_add_le p c
    have h3 := ih (p.add c)
    simp only [replay_cons, List.length_cons, Nat.cast_add, Nat.cast_one]
    omega

/-! ## Visiting waypoints -/

theorem visits_append_right (p : Point) (path ext : List Move) (ws : List Point)
    (h : Visits p path ws) : Visits p (path ++ ext) ws := by
  induction ws generalizing p path with
  | nil => trivial
  | cons w ws ih =>
    obtain ⟨k, hk, hw, hrest⟩ := h
    refine ⟨k, by simp; omega, ?_, ?_⟩
    · rw [List.take_append_of_le_length hk]; exact hw
    · rw [List.drop_append_of_le_length hk]; exact ih _ _ hrest

theorem visits_append (p : Point) (path ext : List Move) (ws ws1 : List Point)
    (h : Visits p path ws) (h1 : Visits (replay p path) ext ws1) :
    Visits p (path ++ ext) (ws ++ ws1) := by
  induction ws generalizing p path with
  | nil =>
    cases ws1 with
    | nil => trivial
    | cons w ws1 =>
      obtain ⟨k, hk, hw, hrest⟩ := h1
      refine ⟨path.length + k, by simp; omega, ?_, ?_⟩
      · rw [List.take_append, replay_append]; exact hw
      · rw [List.drop_append]; exact hrest
  | cons w ws ih =>
    obtain ⟨k, hk, hw, hrest⟩ := h
    refine ⟨k, by simp; omega, ?_, ?_⟩
    · rw [List.take_append_of_le_length hk]; exact hw
    · rw [List.drop_append_of_le_length hk]
      apply ih _ _ hrest
      rw [← hw, ← replay_append, List.take_append_drop]
      exact h1

theorem visits_end (p : Point) (path : List Move) : Visits p path [replay p path] :=
  ⟨path.length, le_refl _, by simp, trivial⟩

theorem tour_le_of_visits (p : Point) (path : List Move) (ws : List Point)
    (h : Visits p path ws) : tour p ws ≤ path.length := by
  induction ws generalizing p path with
  | nil => simp [tour]
  | cons w ws ih =>
    obtain ⟨k, hk, hw, hrest⟩ := h
    have h1 := ih _ _ hrest
    have h2 := distance_replay_le p (path.take k)
    rw [hw] at h2
    simp only [tour]
    simp only [List.length_take, List.length_drop] at h1 h2
    omega

theorem intrinsicLen_le_tour (p : Point) (ws : List Point) : intrinsicLen ws ≤ tour p ws := by
  cases ws with
  | nil => simp [intrinsicLen, tour]
  | cons w ws =>
    simp only [intrinsicLen, tour]
    have := distance_nonneg p w
    omega

/-! ## Chains -/

theorem back_append_singleton (l : List Point) (p : Point) : back (l ++ [p]) = p := by
  simp [back, List.getLastD_concat]

theorem backMove_append_singleton (l : List Move) (c : Move) : backMove (l ++ [c]) = c := by
  simp [backMove, List.getLastD_concat]

theorem headD_append_of_ne_nil {α : Type} (l r : List α) (d : α) (h : l ≠ []) :
    (l ++ r).headD d = l.headD d := by
  cases l with
  | nil => exact absurd rfl h
  | cons a l => rfl

theorem Chain.ne_nil {cur : List Point} {cp : List Move} (h : Chain cur cp) : cur ≠ [] := by
  cases h <;> simp

theorem Chain.length_eq {cur : List Point} {cp : List Move} (h : Chain cur cp) :
    cur.length = cp.length + 1 := by
  induction h with
  | base p => rfl
  | snoc c _ ih => simp [ih]

theorem Chain.pop {cur : List Point} {cp : List Move} (h : Chain cur cp) (hlen : 1 < cur.length) :
    Chain cur.dropLast cp.dropLast ∧ (back cur).add (opp (backMove cp)) = back cur.dropLast ∧
      cur.dropLast.headD default = cur.headD default ∧
      back cur = (back cur.dropLast).add (backMove cp) := by
  cases h with
  | base p => simp at hlen
  | snoc c h1 =>
    rename_i cur1 cp1
    simp only [List.dropLast_concat, back_append_singleton, backMove_append_singleton]
    refine ⟨h1, add_add_opp _ _, ?_, trivial⟩
    rw [headD_append_of_ne_nil _ _ _ h1.ne_nil]

theorem ChainOK.popped {a : Arm} (h : ChainOK a) (hlen : 1 < a.cur.length) :
    ChainOK { a with path := a.path ++ [opp (backMove a.cp)], cur := a.cur.dropLast,
                     cp := a.cp.dropLast,
                     how := a.how.set (back a.cur.dropLast) Move.x } := by
  obtain ⟨h1, h2, h3, _⟩ := h.1.pop hlen
  refine ⟨h1, ?_⟩
  show replay (a.cur.dropLast.headD default) (a.path ++ [opp (backMove a.cp)]) = back a.cur.dropLast
  rw [h3, replay_append, h.2]
  exact h2

/-! ## Reconstruction -/

theorem predWalk_replay (pred : Grid Move) :
    ∀ (n : Nat) (q : Point) (acc add : List Move) (p : Point),
      predWalk pred n q acc = some (add, p) →
      replay p add.reverse = replay q acc.reverse := by
  intro n
  induction n with
  | zero => intro q acc add p h; simp [predWalk] at h
  | succ n ih =>
    intro q acc add p h
    unfold predWalk at h
    split at h
    · simp only [Option.some.injEq, Prod.mk.injEq] at h
      obtain ⟨h1, h2⟩ := h
      subst h1; subst h2; rfl
    · have := ih _ _ _ _ h
      rw [this, List.reverse_append, List.reverse_singleton, List.singleton_append, replay_cons,
        add_opp_add]

theorem Extends.refl (a : Arm) : Extends a a := ⟨⟨[], by simp⟩, rfl, rfl, rfl, rfl⟩

theorem Extends.trans {a b c : Arm} (h1 : Extends a b) (h2 : Extends b c) : Extends a c := by
  obtain ⟨e1, he1⟩ := h1.path
  obtain ⟨e2, he2⟩ := h2.path
  exact ⟨⟨e1 ++ e2, by rw [he2, he1, List.append_assoc]⟩, h2.head.trans h1.head,
    h2.z.trans h1.z, h2.i.trans h1.i, h2.done.trans h1.done⟩

theorem unwind_ok : ∀ (n : Nat) (p : Point) (a a1 : Arm), n ≤ a.cur.length → ChainOK a →
    unwind n p a = some a1 → ChainOK a1 ∧ back a1.cur = p ∧ Extends a a1 := by
  intro n
  induction n with
  | zero => intro p a a1 _ _ h; simp [unwind] at h
  | succ n ih =>
    intro p a a1 hn hc h
    unfold unwind at h
    split at h
    · rename_i hp
      simp only [Option.some.injEq] at h
      subst h
      exact ⟨hc, hp, Extends.refl _⟩
    · cases n with
      | zero => simp [unwind] at h
      | succ m =>
        have hlen : 1 < a.cur.length := by omega
        have hc1 := hc.popped hlen
        have hpop := hc.1.pop hlen
        have := ih p _ a1 (by simp; omega) hc1 h
        refine ⟨this.1, this.2.1, Extends.trans ?_ this.2.2⟩
        exact ⟨⟨_, rfl⟩, hpop.2.2.1, rfl, rfl, rfl⟩

theorem appendMoves_ok (dist : Grid Int) : ∀ (cs : List Move) (a : Arm) (cp0 : List Move),
    Chain a.cur cp0 → replay (a.cur.headD default) a.path = back a.cur →
    Chain (appendMoves dist cs a).cur (cp0 ++ cs) ∧
      replay ((appendMoves dist cs a).cur.headD default) (appendMoves dist cs a).path
        = back (appendMoves dist cs a).cur ∧
      back (appendMoves dist cs a).cur = replay (back a.cur) cs ∧
      (appendMoves dist cs a).cp = a.cp ∧
      Extends a (appendMoves dist cs a) := by
  intro cs
  induction cs with
  | nil =>
    intro a cp0 hc hr
    simp only [appendMoves, List.append_nil, replay_nil]
    exact ⟨hc, hr, trivial, trivial, Extends.refl _⟩
  | cons c cs ih =>
    intro a cp0 hc hr
    simp only [appendMoves]
    have hc1 : Chain (a.cur ++ [(back a.cur).add c]) (cp0 ++ [c]) := Chain.snoc c hc
    have hh : (a.cur ++ [(back a.cur).add c]).headD default = a.cur.headD default :=
      headD_append_of_ne_nil _ _ _ hc.ne_nil
    have := ih { a with how := a.how.set (back a.cur) (opp c),
                        path := a.path ++ List.replicate
                          (dist ((back a.cur).add c) - dist (back a.cur) - 1).toNat Move.W ++ [c],
                        cur := a.cur ++ [(back a.cur).add c] } (cp0 ++ [c]) hc1
      (by
        show replay ((a.cur ++ [(back a.cur).add c]).headD default) _ = back (a.cur ++ _)
        rw [hh, back_append_singleton, replay_append, replay_append, hr, replay_replicate_W]
        rfl)
    obtain ⟨h1, h2, h3, h4, h5⟩ := this
    refine ⟨by simpa using h1, h2, ?_, h4, Extends.trans ?_ h5⟩
    · rw [h3]; simp only [back_append_singleton, replay_cons]
    · exact ⟨⟨List.replicate (dist ((back a.cur).add c) - dist (back a.cur) - 1).toNat Move.W ++ [c],
        (List.append_assoc _ _ _)⟩, hh, rfl, rfl, rfl⟩

theorem toSize_le (L : Int) (h : 0 ≤ L) : toSize L ≤ L := by
  unfold toSize
  omega

/-! ## The queue -/

theorem popQ_spec (tie : Nat) (Q : List QEl) (top : QEl) (Q' : List QEl)
    (h : popQ tie Q = some (top, Q')) :
    ∃ k, k < Q.length ∧ top = Q.getD k default ∧ Q' = Q.eraseIdx k ∧ isTop Q top = true := by
  unfold popQ at h
  split at h
  · simp at h
  · rename_i k0 ks hk
    simp only [Option.some.injEq, Prod.mk.injEq] at h
    have hmem : (k0 :: ks).getD (tie % (ks.length + 1)) k0 ∈ topIdxs Q := by
      rw [hk]
      have hlt : tie % (ks.length + 1) < (k0 :: ks).length := by
        simp only [List.length_cons]; exact Nat.mod_lt _ (Nat.succ_pos _)
      rw [List.getD_eq_getElem _ _ hlt]
      exact List.getElem_mem _
    unfold topIdxs at hmem
    rw [List.mem_filter, List.mem_range] at hmem
    refine ⟨_, hmem.1, h.1.symm, h.2.symm, ?_⟩
    rw [← h.1]; exact hmem.2

theorem popQ_mem (tie : Nat) (Q : List QEl) (top : QEl) (Q' : List QEl)
    (h : popQ tie Q = some (top, Q')) : top ∈ Q ∧ ∀ en ∈ Q', en ∈ Q := by
  obtain ⟨k, hk, h1, h2, _⟩ := popQ_spec tie Q top Q' h
  constructor
  · rw [h1, List.getD_eq_getElem _ _ hk]; exact List.getElem_mem _
  · intro en hen
    rw [h2] at hen
    exact (List.eraseIdx_sublist Q k).subset hen

/-! ## The search can only succeed inside the horizon -/

theorem searchLoop_found (e : Env) (s : State) (i t : Nat) (SS : Int) (a : Arm) (pt : Point) :
    ∀ (n : Nat) (σ σ1 : Search), (∀ en ∈ σ.Q, 0 ≤ en.l) →
      searchLoop e s i t SS a pt n σ = some σ1 → σ1.found = true →
      (σ.found = true ∧ σ1 = σ) ∨ 0 < e.inst.L := by
  intro n
  induction n with
  | zero => intro σ σ1 _ h; simp [searchLoop] at h
  | succ n ih =>
    intro σ σ1 hQ h hf
    unfold searchLoop at h
    split at h
    · rename_i hfound
      simp only [Option.some.injEq] at h
      exact Or.inl ⟨hfound, h.symm⟩
    · have hnf : ¬ σ.found = true := by assumption
      split at h
      · simp only [Option.some.injEq] at h
        subst h
        exact absurd hf hnf
      · rename_i top Q' hpop
        have hm := popQ_mem _ _ _ _ hpop
        have htop := hQ top hm.1
        simp only at h
        split at h
        · rcases ih _ _ (fun en hen => hQ en (hm.2 en hen)) h hf with h1 | h1
          · exact absurd h1.1 hnf
          · exact Or.inr h1
        · split at h
          · simp only [Option.some.injEq] at h
            subst h
            exact absurd hf hnf
          · rename_i hL
            right; omega

/-! ## One waypoint -/

theorem waypoint_ok (e : Env) (s : State) (i t : Nat) (a : Arm) (pt : Point) (sc : Scratch)
    (a1 : Arm) (sc1 : Scratch) (hc : ChainOK a)
    (h : waypoint e s i t a pt sc = some (some a1, sc1)) :
    ChainOK a1 ∧ back a1.cur = pt ∧ Extends a a1 ∧ (a1.path.length : Int) ≤ toSize e.inst.L := by
  unfold waypoint at h
  simp only at h
  split at h
  · simp at h
  · rename_i σ hσ
    split at h
    · simp at h
    · split at h
      · simp at h
      · rename_i add p hw
        split at h
        · simp at h
        · rename_i a0 hu
          have hu1 := unwind_ok _ _ _ _ (le_refl _) hc hu
          have ha := appendMoves_ok σ.dist add.reverse { a0 with cp := a0.cp ++ add.reverse }
            a0.cp hu1.1.1 hu1.1.2
          have hpw := predWalk_replay _ _ _ _ _ _ hw
          split at h
          · simp at h
          · rename_i hlen
            simp only [Option.some.injEq, Prod.mk.injEq] at h
            obtain ⟨h1, _⟩ := h
            subst h1
            obtain ⟨c1, c2, c3, c4, c5⟩ := ha
            refine ⟨⟨?_, c2⟩, ?_, Extends.trans hu1.2.2 ?_, by omega⟩
            · rw [c4]; exact c1
            · rw [c3]
              show replay (back a0.cur) add.reverse = pt
              rw [hu1.2.1, hpw]; rfl
            · exact ⟨c5.path, c5.head, c5.z, c5.i, c5.done⟩

theorem waypoint_stuck (e : Env) (s : State) (i t : Nat) (a : Arm) (pt : Point) (sc : Scratch)
    (a1 : Arm) (sc1 : Scratch) (hL : e.inst.L ≤ 0)
    (h : waypoint e s i t a pt sc = some (some a1, sc1)) : a1.path = a.path := by
  unfold waypoint at h
  simp only at h
  split at h
  · simp at h
  · rename_i σ hσ
    split at h
    · simp at h
    · rename_i hfound
      have hfound1 : σ.found = true := by simpa using hfound
      rcases searchLoop_found e s i t _ a pt _ _ _ (by simp) hσ hfound1 with h0 | h0
      · obtain ⟨hf0, hσ0⟩ := h0
        simp only [decide_eq_true_eq] at hf0
        subst hσ0
        simp only at h
        cases hfuel : e.fuel with
        | zero => rw [hfuel] at h; simp [predWalk] at h
        | succ m =>
          rw [hfuel] at h
          have hp : predWalk (sc.pred.set (back a.cur) Move.x) (m + 1) pt [] = some ([], pt) := by
            simp [predWalk, Grid.set, hf0]
          rw [hp] at h
          simp only at h
          have hu : unwind a.cur.length pt a = some a := by
            cases hl : a.cur.length with
            | zero => rw [hl] at h; simp [unwind] at h
            | succ k => simp [unwind, hf0]
          rw [hu] at h
          simp only [List.reverse_nil, appendMoves, List.append_nil] at h
          split at h
          · simp at h
          · simp only [Option.some.injEq, Prod.mk.injEq] at h
            rw [← h.1]
      · omega

/-! ## One task -/

theorem waypoints_ok (e : Env) (s : State) (i t : Nat) :
    ∀ (wps : List Point) (a : Arm) (sc : Scratch) (a1 : Arm) (sc1 : Scratch), ChainOK a →
      waypoints e s i t wps a sc = some (some a1, sc1) →
      ChainOK a1 ∧ Extends a a1 ∧
        (∃ ext, a1.path = a.path ++ ext ∧ Visits (back a.cur) ext wps) ∧
        (wps ≠ [] → (a1.path.length : Int) ≤ toSize e.inst.L) := by
  intro wps
  induction wps with
  | nil =>
    intro a sc a1 sc1 hc h
    simp only [waypoints, Option.some.injEq, Prod.mk.injEq] at h
    obtain ⟨h1, _⟩ := h
    subst h1
    exact ⟨hc, Extends.refl _, ⟨[], by simp, trivial⟩, fun h => absurd rfl h⟩
  | cons pt pts ih =>
    intro a sc a1 sc1 hc h
    unfold waypoints at h
    split at h
    · simp at h
    · simp at h
    · rename_i a0 sc0 hw
      obtain ⟨k1, k2, k3, k4⟩ := waypoint_ok e s i t a pt sc a0 sc0 hc hw
      obtain ⟨j1, j2, ⟨ext2, j3, j4⟩, j5⟩ := ih a0 sc0 a1 sc1 k1 h
      obtain ⟨ext1, hx1⟩ := k3.path
      refine ⟨j1, Extends.trans k3 j2, ⟨ext1 ++ ext2, ?_, ?_⟩, ?_⟩
      · rw [j3, hx1, List.append_assoc]
      · refine ⟨ext1.length, by simp, ?_, ?_⟩
        · rw [List.take_left']
          · have h1 := k1.2
            rw [hx1, replay_append, k3.head, hc.2, k2] at h1
            exact h1
          · rfl
        · rw [List.drop_left']
          · rw [← k2]; exact j4
          · rfl
      · intro _
        cases pts with
        | nil =>
          simp only [waypoints, Option.some.injEq, Prod.mk.injEq] at h
          rw [← h.1]; exact k4
        | cons p ps => exact j5 (by simp)

theorem waypoints_stuck (e : Env) (s : State) (i t : Nat) (hL : e.inst.L ≤ 0) :
    ∀ (wps : List Point) (a : Arm) (sc : Scratch) (a1 : Arm) (sc1 : Scratch),
      waypoints e s i t wps a sc = some (some a1, sc1) → a1.path = a.path := by
  intro wps
  induction wps with
  | nil =>
    intro a sc a1 sc1 h
    simp only [waypoints, Option.some.injEq, Prod.mk.injEq] at h
    rw [← h.1]
  | cons pt pts ih =>
    intro a sc a1 sc1 h
    unfold waypoints at h
    split at h
    · simp at h
    · simp at h
    · rename_i a0 sc0 hw
      rw [ih a0 sc0 a1 sc1 h, waypoint_stuck e s i t a pt sc a0 sc0 hL hw]

/-! ## The candidate loop -/

theorem candidates_picked (e : Env) (s : State) (i : Nat) (ts : List Nat) :
    ∀ (rest : List Nat) (b : Best) (sc : Scratch) (b1 : Best) (sc1 : Scratch),
      (∀ t ∈ rest, t ∈ ts) → Picked e s i ts b →
      candidates e s i rest b sc = some (b1, sc1) → Picked e s i ts b1 := by
  intro rest
  induction rest with
  | nil =>
    intro b sc b1 sc1 _ hb h
    simp only [candidates, Option.some.injEq, Prod.mk.injEq] at h
    rw [← h.1]; exact hb
  | cons t rest ih =>
    intro b sc b1 sc1 hsub hb h
    have hsub1 : ∀ t1 ∈ rest, t1 ∈ ts := fun t1 h1 => hsub t1 (List.mem_cons_of_mem _ h1)
    unfold candidates at h
    split at h
    · simp at h
    · exact ih _ _ _ _ hsub1 hb h
    · rename_i a sc0 hw
      simp only at h
      split at h
      · exact ih _ _ _ _ hsub1 hb h
      · rename_i hd
        split at h
        · refine ih _ _ _ _ hsub1 ?_ h
          intro t1 ht1
          simp only [Option.some.injEq] at ht1
          subst ht1
          exact ⟨hsub _ (List.mem_cons_self _ _), sc, sc0, hw,
            by show (s.arm i).path.length < a.path.length; omega⟩
        · exact ih _ _ _ _ hsub1 hb h

theorem selectArm_mem (arms : List Arm) : ∀ (is : List Nat) (i0 : Option Nat) (i : Nat),
    selectArm arms is i0 = some i → i ∈ is ∨ i0 = some i := by
  intro is
  induction is with
  | nil => intro i0 i h; right; simpa [selectArm] using h
  | cons k is ih =>
    intro i0 i h
    unfold selectArm at h
    split at h
    · rcases ih _ _ h with h1 | h1
      · left; exact List.mem_cons_of_mem _ h1
      · left; simp only [Option.some.injEq] at h1; rw [h1]; exact List.mem_cons_self _ _
    · rcases ih _ _ h with h1 | h1
      · left; exact List.mem_cons_of_mem _ h1
      · right; exact h1

/-- The two ways an iteration of the main loop goes on. -/
theorem mainStep_cases (e : Env) (s s1 : State) (h : mainStep e s = some (some s1)) :
    ∃ (i : Nat) (b : Best) (sc : Scratch), i < e.inst.R ∧ Picked e s i s.ts b ∧
      ((b.bestT = none ∧ s1 = retractStep e
          { s with seen := sc.seen, dist := sc.dist, pred := sc.pred, SS := sc.SS,
                   clock := sc.clock } i) ∨
       (∃ t, b.bestT = some t ∧ s1 = commitStep e
          { s with seen := sc.seen, dist := sc.dist, pred := sc.pred, SS := sc.SS,
                   clock := sc.clock } i b.bestA t)) := by
  unfold mainStep at h
  cases hsel : selectArm s.arms (List.range e.inst.R) none with
  | none => rw [hsel] at h; simp at h
  | some i =>
    rw [hsel] at h
    simp only at h
    have hi : i < e.inst.R := by
      rcases selectArm_mem _ _ _ _ hsel with h1 | h1
      · exact List.mem_range.mp h1
      · simp at h1
    cases hc : candidates e s i s.ts ⟨default, none, Frac.ofInt (-1)⟩
        ⟨s.seen, s.dist, s.pred, s.SS, s.clock⟩ with
    | none => rw [hc] at h; simp at h
    | some r =>
      obtain ⟨b, sc⟩ := r
      rw [hc] at h
      simp only at h
      have hp := candidates_picked e s i s.ts s.ts _ _ _ _ (fun _ h => h)
        (by intro t ht; simp at ht) hc
      refine ⟨i, b, sc, hi, hp, ?_⟩
      cases hb : b.bestT with
      | none =>
        rw [hb] at h
        simp only [Option.some.injEq] at h
        exact Or.inl ⟨rfl, h.symm⟩
      | some t =>
        rw [hb] at h
        simp only [Option.some.injEq] at h
        exact Or.inr ⟨t, rfl, h.symm⟩

/-! ## Lists of assigned tasks -/

theorem set_split {α : Type} (l : List α) (i : Nat) (h : i < l.length) (a : α) :
    l = l.take i ++ l[i] :: l.drop (i + 1) ∧ l.set i a = l.take i ++ a :: l.drop (i + 1) := by
  constructor
  · rw [← List.drop_eq_getElem_cons h, List.take_append_drop]
  · rw [List.set_eq_take_append_cons_drop, if_pos h]

theorem sum_set_snoc (inst : Instance) (l : List (List Nat)) (i : Nat) (h : i < l.length)
    (t : Nat) :
    ((l.set i (l[i] ++ [t])).map (rewardSum inst)).sum
      = (l.map (rewardSum inst)).sum + inst.reward t := by
  obtain ⟨h1, h2⟩ := set_split l i h (l[i] ++ [t])
  rw [h2]
  have e2 : (l.map (rewardSum inst)).sum
      = ((List.take i l ++ l[i] :: List.drop (i + 1) l).map (rewardSum inst)).sum :=
    congrArg (fun l => (l.map (rewardSum inst)).sum) h1
  rw [e2]
  simp only [List.map_append, List.map_cons, List.sum_append, List.sum_cons, rewardSum,
    List.sum_singleton, List.map_nil, List.sum_nil]
  ring

theorem flatten_set_snoc (l : List (List Nat)) (i : Nat) (h : i < l.length) (t : Nat) :
    (l.set i (l[i] ++ [t])).flatten.Perm (t :: l.flatten) := by
  obtain ⟨h1, h2⟩ := set_split l i h (l[i] ++ [t])
  rw [h2]
  have e1 : (List.take i l ++ (l[i] ++ [t]) :: List.drop (i + 1) l).flatten
      = ((List.take i l).flatten ++ l[i]) ++ t :: (List.drop (i + 1) l).flatten := by
    simp [List.append_assoc]
  have e2 : l.flatten
      = ((List.take i l).flatten ++ l[i]) ++ (List.drop (i + 1) l).flatten := by
    calc l.flatten = (List.take i l ++ l[i] :: List.drop (i + 1) l).flatten :=
          congrArg List.flatten h1
      _ = _ := by simp only [List.flatten_append, List.flatten_cons, List.append_assoc]
  rw [e1, e2]
  exact List.perm_middle

theorem removeTask_perm (ts : List Nat) (t : Nat) (h : t ∈ ts) :
    (t :: removeTask ts t).Perm ts := by
  obtain ⟨l1, l2, hts, hnot⟩ := List.eq_append_cons_of_mem h
  have hidx : ts.indexOf t = l1.length := by
    subst hts
    rw [List.indexOf_append_of_not_mem hnot]
    simp
  unfold removeTask
  rw [hidx]
  subst hts
  rcases List.eq_nil_or_concat l2 with h2 | ⟨l3, y, h2⟩
  · subst h2
    have : (l1 ++ [t]).set l1.length ((l1 ++ [t]).getLastD 0) = l1 ++ [t] := by
      simp [List.getLastD_concat]
    rw [this, List.dropLast_concat]
    exact (List.perm_append_singleton t l1).symm
  · subst h2
    have hl : (l1 ++ t :: l3.concat y).getLastD 0 = y := by
      rw [List.concat_eq_append, ← List.cons_append, ← List.append_assoc, List.getLastD_concat]
    rw [hl]
    have hs : (l1 ++ t :: l3.concat y).set l1.length y = (l1 ++ y :: l3) ++ [y] := by
      simp [List.concat_eq_append]
    rw [hs, List.dropLast_concat, List.concat_eq_append]
    have : (l1 ++ t :: (l3 ++ [y])).Perm (t :: (l1 ++ (l3 ++ [y]))) := List.perm_middle
    refine List.Perm.trans ?_ this.symm
    refine List.Perm.cons t ?_
    refine List.Perm.append_left l1 ?_
    exact (List.perm_append_singleton y l3).symm


theorem insertAt_perm {α : Type} : ∀ (n : Nat) (a : α) (l : List α), (insertAt n a l).Perm (a :: l)
  | 0, _, _ => List.Perm.refl _
  | _ + 1, _, [] => List.Perm.refl _
  | n + 1, a, b :: l =>
    ((insertAt_perm n a l).cons b).trans (List.Perm.swap a b l)

theorem shuffleList_perm {α : Type} (r : Nat) (l : List α) : (shuffleList r l).Perm l := by
  induction l generalizing r with
  | nil => exact List.Perm.refl _
  | cons a l ih =>
    simp only [shuffleList]
    exact (insertAt_perm _ _ _).trans ((ih _).cons a)

theorem keepLoop_sublist (Len : List Int) (glMax : Int) :
    ∀ (ts : List Nat) (gl : Int), (keepLoop Len glMax ts gl).Sublist ts := by
  intro ts
  induction ts with
  | nil => intro gl; simp [keepLoop]
  | cons t ts ih =>
    intro gl
    simp only [keepLoop]
    split
    · exact (ih _).cons₂ t
    · exact List.nil_sublist _

theorem rankTasks_nodup (e : Env) (Len : List Int) (clock : Nat) :
    (rankTasks e Len clock).Nodup := by
  unfold rankTasks
  have h1 := List.perm_insertionSort
    (fun i j => Frac.le (efficiency e Len j) (efficiency e Len i) = true)
    (shuffleList (e.ch.perm clock) (List.range e.inst.T))
  exact (h1.trans (shuffleList_perm _ _)).nodup_iff.mpr (List.nodup_range _)

/-! ## The invariant of the main loop -/

theorem ArmInv.setDone {e : Env} {a : Arm} (h : ArmInv e a) (d : Bool) :
    ArmInv e { a with done := d } :=
  ⟨h.chain, h.visits, h.horizon, h.fits⟩

theorem ArmInv.new (e : Env) (x y : Int) (k : Nat) : ArmInv e (Arm.new x y k) :=
  ⟨⟨Chain.base _, rfl⟩, trivial, fun h => by simpa [Arm.new] using h,
    fun t ht => by simp [Arm.new] at ht⟩

theorem retractLoop_inv (e : Env) : ∀ (n : Nat) (a : Arm) (u : Grid Int), ArmInv e a →
    ArmInv e (retractLoop e.inst.L n a u).1 ∧ Extends a (retractLoop e.inst.L n a u).1 := by
  intro n
  induction n with
  | zero => intro a u h; exact ⟨h, Extends.refl _⟩
  | succ n ih =>
    intro a u h
    unfold retractLoop
    split
    · rename_i hc
      have hpop := h.chain.1.pop hc.1
      have h1 : ArmInv e
          { a with path := a.path ++ [opp (backMove a.cp)], cur := a.cur.dropLast,
                   cp := a.cp.dropLast,
                   how := a.how.set (back a.cur.dropLast) Move.x } := by
        refine ⟨h.chain.popped hc.1, ?_, ?_, h.fits⟩
        · show Visits (a.cur.dropLast.headD default) (a.path ++ _) _
          rw [hpop.2.2.1]
          exact visits_append_right _ _ _ _ h.visits
        · intro hL
          have := toSize_le _ hL
          show ((a.path ++ [opp (backMove a.cp)]).length : Int) ≤ e.inst.L
          simp only [List.length_append, List.length_singleton, Nat.cast_add, Nat.cast_one]
          omega
      have h2 := ih _ (u.set (back a.cur) (a.path.length : Int)) h1
      have h3 : Extends a
          { a with path := a.path ++ [opp (backMove a.cp)], cur := a.cur.dropLast,
                   cp := a.cp.dropLast,
                   how := a.how.set (back a.cur.dropLast) Move.x } :=
        ⟨⟨_, rfl⟩, hpop.2.2.1, rfl, rfl, rfl⟩
      exact ⟨h2.1, Extends.trans h3 h2.2⟩
    · exact ⟨h, Extends.refl _⟩

theorem resetDone_map {β : Type} (f : Arm → β) (hf : ∀ a d, f { a with done := d } = f a)
    (L : Int) (arms : List Arm) : (resetDone L arms).map f = arms.map f := by
  unfold resetDone
  rw [List.map_map]
  apply List.map_congr_left
  intro a _
  simp only [Function.comp]
  split
  · exact hf a false
  · rfl

theorem resetDone_length (L : Int) (arms : List Arm) : (resetDone L arms).length = arms.length := by
  simp [resetDone]

theorem resetDone_inv (e : Env) (L : Int) (arms : List Arm) (h : ∀ a ∈ arms, ArmInv e a) :
    ∀ a ∈ resetDone L arms, ArmInv e a := by
  intro a ha
  unfold resetDone at ha
  rw [List.mem_map] at ha
  obtain ⟨b, hb, hab⟩ := ha
  subst hab
  split
  · exact (h b hb).setDone false
  · exact h b hb

theorem set_inv {P : Arm → Prop} (arms : List Arm) (i : Nat) (a : Arm)
    (h : ∀ b ∈ arms, P b) (ha : P a) : ∀ b ∈ arms.set i a, P b := by
  intro b hb
  rcases List.mem_or_eq_of_mem_set hb with h1 | h1
  · exact h b h1
  · rw [h1]; exact ha

theorem arm_mem (s : State) (i : Nat) (h : i < s.arms.length) : s.arm i ∈ s.arms := by
  unfold State.arm
  rw [List.getD_eq_getElem _ _ h]
  exact List.getElem_mem _

theorem set_same {α : Type} (l : List α) (i : Nat) (h : i < l.length) : l.set i l[i] = l := by
  apply List.ext_getElem
  · simp
  · intro n h1 h2
    rw [List.getElem_set]
    split
    · rename_i h3; subst h3; rfl
    · rfl

theorem set_arm_self (s : State) (i : Nat) (h : i < s.arms.length) :
    s.arms.set i (s.arm i) = s.arms := by
  unfold State.arm
  rw [List.getD_eq_getElem _ _ h, set_same]

theorem set_arm_map {β : Type} (f : Arm → β) (s : State) (i : Nat) (h : i < s.arms.length) :
    (s.arms.map f).set i (f (s.arm i)) = s.arms.map f := by
  have := congrArg (List.map f) (set_arm_self s i h)
  rwa [List.map_set] at this

/-- The retraction branch leaves unchanged whatever of the arms does not depend on
`done` and is kept by the retraction loop. -/
theorem retractStep_map {β : Type} (f : Arm → β) (hf : ∀ a d, f { a with done := d } = f a)
    (e : Env) (s : State) (i : Nat) (hlen : i < s.arms.length)
    (hr : f (retractLoop e.inst.L (s.arm i).cur.length (s.arm i) s.until_).1 = f (s.arm i)) :
    (retractStep e s i).arms.map f = s.arms.map f := by
  unfold retractStep
  split
  · dsimp only
    rw [List.map_set, hf]
    exact set_arm_map f s i hlen
  · have hl2 : i < (resetDone e.inst.L (s.arms.set i (retractLoop e.inst.L
        (s.arm i).cur.length (s.arm i) s.until_).1)).length := by
      rw [resetDone_length, List.length_set]; exact hlen
    dsimp only
    rw [List.map_set, hf]
    have h3 := List.getD_map (resetDone e.inst.L (s.arms.set i (retractLoop e.inst.L
        (s.arm i).cur.length (s.arm i) s.until_).1)) default (n := i) f
    rw [← h3, resetDone_map f hf, List.map_set, hr, set_arm_map f s i hlen]
    rw [List.getD_eq_getElem _ _ (by simpa using hlen), set_same]

theorem retractStep_z (e : Env) (s : State) (i : Nat) (hlen : i < s.arms.length)
    (hai : ArmInv e (s.arm i)) :
    (retractStep e s i).arms.map (fun a => a.z) = s.arms.map (fun a => a.z) :=
  retractStep_map (fun a => a.z) (fun _ _ => rfl) e s i hlen
    (retractLoop_inv e (s.arm i).cur.length (s.arm i) s.until_ hai).2.z

theorem retractStep_inv (e : Env) (s : State) (i : Nat) (hi : i < e.inst.R) (h : RunInv e s) :
    RunInv e (retractStep e s i) := by
  have hlen : i < s.arms.length := by rw [h.arms_len]; exact hi
  have hai := h.arm _ (arm_mem s i hlen)
  have hz := retractStep_z e s i hlen hai
  refine ⟨?_, ?_, ?_, ?_⟩
  · have := congrArg List.length hz
    simpa [h.arms_len] using this
  · unfold retractStep
    split
    · exact set_inv _ _ _ h.arm (hai.setDone true)
    · have hr := retractLoop_inv e (s.arm i).cur.length (s.arm i) s.until_ hai
      have hall : ∀ a ∈ resetDone e.inst.L (s.arms.set i (retractLoop e.inst.L
          (s.arm i).cur.length (s.arm i) s.until_).1), ArmInv e a :=
        resetDone_inv e _ _ (set_inv _ _ _ h.arm hr.1)
      refine set_inv _ _ _ hall ?_
      apply ArmInv.setDone
      have hl2 : i < (resetDone e.inst.L (s.arms.set i (retractLoop e.inst.L
          (s.arm i).cur.length (s.arm i) s.until_).1)).length := by
        rw [resetDone_length, List.length_set]; exact hlen
      rw [List.getD_eq_getElem _ _ hl2]
      exact hall _ (List.getElem_mem _)
  · rw [hz]
    have : (retractStep e s i).score = s.score := by unfold retractStep; split <;> rfl
    rw [this]; exact h.score
  · rw [hz]
    have : (retractStep e s i).ts = s.ts := by unfold retractStep; split <;> rfl
    rw [this]; exact h.nodup

theorem waypointsOf_snoc (inst : Instance) (z : List Nat) (t : Nat) :
    waypointsOf inst (z ++ [t]) = waypointsOf inst z ++ inst.task t := by
  simp [waypointsOf, List.flatMap_append]

/-- What a committed clone is, relative to the arm it was cloned from. -/
theorem picked_inv (e : Env) (s : State) (i t : Nat) (b : Best) (hai : ArmInv e (s.arm i))
    (hp : Picked e s i s.ts b) (hb : b.bestT = some t) :
    t ∈ s.ts ∧ Extends (s.arm i) b.bestA ∧ ArmInv e { b.bestA with z := b.bestA.z ++ [t] } := by
  obtain ⟨hts, sc, sc1, hw, hlt⟩ := hp t hb
  obtain ⟨k1, k2, ⟨ext, k3, k4⟩, k5⟩ := waypoints_ok e s i t _ _ _ _ _ hai.chain hw
  have hne : e.inst.task t ≠ [] := by
    intro h0
    rw [h0] at hw
    simp only [waypoints, Option.some.injEq, Prod.mk.injEq] at hw
    rw [← hw.1] at hlt
    exact absurd hlt (lt_irrefl _)
  have hpos : 0 ≤ e.inst.L := by
    by_contra hneg
    have := waypoints_stuck e s i t (by omega) _ _ _ _ _ hw
    rw [this] at hlt
    exact absurd hlt (lt_irrefl _)
  have hbound : (b.bestA.path.length : Int) ≤ e.inst.L :=
    le_trans (k5 hne) (toSize_le _ hpos)
  refine ⟨hts, k2, ⟨k1, ?_, fun _ => hbound, ?_⟩⟩
  · show Visits (b.bestA.cur.headD default) b.bestA.path (waypointsOf e.inst (b.bestA.z ++ [t]))
    rw [waypointsOf_snoc, k2.head, k2.z, k3]
    refine visits_append _ _ _ _ _ hai.visits ?_
    rw [hai.chain.2]; exact k4
  · intro t1 ht1
    have ht1' : t1 ∈ b.bestA.z ++ [t] := ht1
    rw [List.mem_append, List.mem_singleton, k2.z] at ht1'
    rcases ht1' with h1 | h1
    · exact hai.fits t1 h1
    · subst h1
      have h2 := tour_le_of_visits _ _ _ k4
      have h3 := intrinsicLen_le_tour (back (s.arm i).cur) (e.inst.task t1)
      have h4 : (ext.length : Int) ≤ b.bestA.path.length := by
        rw [k3]; simp
      omega

theorem commitStep_map {β : Type} (f : Arm → β) (hf : ∀ a d, f { a with done := d } = f a)
    (e : Env) (s : State) (i : Nat) (bestA : Arm) (t : Nat) :
    (commitStep e s i bestA t).arms.map f
      = (s.arms.map f).set i (f { bestA with z := bestA.z ++ [t] }) := by
  unfold commitStep
  dsimp only
  rw [resetDone_map f hf, List.map_set]

theorem commitStep_z (e : Env) (s : State) (i : Nat) (bestA : Arm) (t : Nat) :
    (commitStep e s i bestA t).arms.map (fun a => a.z)
      = (s.arms.map (fun a => a.z)).set i (bestA.z ++ [t]) :=
  commitStep_map (fun a => a.z) (fun _ _ => rfl) e s i bestA t

theorem commitStep_inv (e : Env) (s : State) (i t : Nat) (bestA : Arm) (hi : i < e.inst.R)
    (h : RunInv e s) (hts : t ∈ s.ts) (hz0 : bestA.z = (s.arm i).z)
    (hnew : ArmInv e { bestA with z := bestA.z ++ [t] }) :
    RunInv e (commitStep e s i bestA t) := by
  have hlen : i < s.arms.length := by rw [h.arms_len]; exact hi
  have hz := commitStep_z e s i bestA t
  have hlen2 : i < (s.arms.map (fun a => a.z)).length := by simpa using hlen
  have hzi : (s.arms.map (fun a => a.z))[i] = (s.arm i).z := by
    unfold State.arm
    rw [List.getD_eq_getElem _ _ hlen]; simp
  rw [hz0, ← hzi] at hz
  refine ⟨?_, ?_, ?_, ?_⟩
  · have := congrArg List.length hz
    simpa [h.arms_len] using this
  · unfold commitStep
    dsimp only
    exact resetDone_inv e _ _ (set_inv _ _ _ h.arm hnew)
  · rw [hz, sum_set_snoc _ _ _ hlen2]
    show s.score + e.inst.reward t = _
    rw [h.score]
  · rw [hz]
    show (_ ++ removeTask s.ts t).Nodup
    have p1 := flatten_set_snoc (s.arms.map (fun a => a.z)) i hlen2 t
    have p2 := removeTask_perm s.ts t hts
    have p3 : ((List.set (s.arms.map (fun a => a.z)) i
        ((s.arms.map (fun a => a.z))[i] ++ [t])).flatten ++ removeTask s.ts t).Perm
        ((s.arms.map (fun a => a.z)).flatten ++ s.ts) := by
      refine (List.Perm.append_right _ p1).trans ?_
      refine List.Perm.trans ?_ (List.Perm.append_left _ p2)
      simp only [List.cons_append]
      exact List.perm_middle.symm
    exact p3.nodup_iff.mpr h.nodup

theorem mainStep_inv (e : Env) (s s1 : State) (h : RunInv e s)
    (hs : mainStep e s = some (some s1)) : RunInv e s1 := by
  obtain ⟨i, b, sc, hi, hp, hcase⟩ := mainStep_cases e s s1 hs
  have h' : RunInv e
      { s with seen := sc.seen, dist := sc.dist, pred := sc.pred, SS := sc.SS, clock := sc.clock } :=
    ⟨h.arms_len, h.arm, h.score, h.nodup⟩
  rcases hcase with ⟨_, h1⟩ | ⟨t, hb, h1⟩
  · rw [h1]; exact retractStep_inv e _ i hi h'
  · have hlen : i < s.arms.length := by rw [h.arms_len]; exact hi
    obtain ⟨hts, hz0, hnew⟩ := picked_inv e s i t b (h.arm _ (arm_mem s i hlen)) hp hb
    rw [h1]; exact commitStep_inv e _ i t b.bestA hi h' hts hz0.z hnew

/-! ## The state on entry to the main loop -/

theorem placeMounts_arms (P : Arm → Prop) (R : Nat) (L : Int) (hnew : ∀ x y k, P (Arm.new x y k)) :
    ∀ (ms : List Point) (i : Nat) (arms : List Arm) (ow un : Grid Int),
      (∀ a ∈ arms, P a) → arms.length = min i R →
      (∀ a ∈ (placeMounts R L ms i arms ow un).1, P a) ∧
        (placeMounts R L ms i arms ow un).1.length = min (i + ms.length) R := by
  intro ms
  induction ms with
  | nil => intro i arms ow un h hl; exact ⟨h, by simpa [placeMounts] using hl⟩
  | cons m ms ih =>
    intro i arms ow un h hl
    unfold placeMounts
    have := ih (i + 1) (if i < R then arms ++ [Arm.new m.x m.y i] else arms)
      (ow.set m (i : Int)) (un.set m L)
      (by
        intro a ha
        split at ha
        · rcases List.mem_append.mp ha with h1 | h1
          · exact h a h1
          · rw [List.mem_singleton.mp h1]; exact hnew _ _ _
        · exact h a ha)
      (by
        split
        · simp only [List.length_append, List.length_singleton, hl]; omega
        · rw [hl]; omega)
    refine ⟨this.1, ?_⟩
    rw [this.2]
    simp only [List.length_cons]
    congr 1; omega

theorem flatten_eq_nil_of_forall (l : List (List Nat)) (h : ∀ x ∈ l, x = []) : l.flatten = [] := by
  induction l with
  | nil => rfl
  | cons a l ih =>
    rw [List.flatten_cons, h a (List.mem_cons_self _ _), ih (fun x hx => h x (List.mem_cons_of_mem _ hx))]
    rfl

theorem sum_eq_zero_of_forall (inst : Instance) (l : List (List Nat)) (h : ∀ x ∈ l, x = []) :
    (l.map (rewardSum inst)).sum = 0 := by
  induction l with
  | nil => rfl
  | cons a l ih =>
    rw [List.map_cons, List.sum_cons, h a (List.mem_cons_self _ _),
      ih (fun x hx => h x (List.mem_cons_of_mem _ hx))]
    rfl

theorem startState_inv (e : Env) (ms : List Point) (Len : List Int) (clock : Nat)
    (hR : e.inst.R ≤ ms.length) : RunInv e (startState e ms Len clock) := by
  have hperm : (orderMounts e ms (clock + 1)).length = ms.length := by
    unfold orderMounts
    split
    · rw [(List.perm_insertionSort _ _).length_eq, (shuffleList_perm _ _).length_eq]
    · rw [(shuffleList_perm _ _).length_eq]
  have hp := placeMounts_arms (fun a => ArmInv e a ∧ a.z = []) e.inst.R e.inst.L
    (fun x y k => ⟨ArmInv.new e x y k, rfl⟩) (orderMounts e ms (clock + 1)) 0 []
    (fun _ => -1) (fun _ => -1) (by simp) (by simp)
  have hz : ∀ x ∈ (startState e ms Len clock).arms.map (fun a => a.z), x = [] := by
    intro x hx
    rw [List.mem_map] at hx
    obtain ⟨a, ha, hax⟩ := hx
    rw [← hax]; exact (hp.1 a ha).2
  refine ⟨?_, fun a ha => (hp.1 a ha).1, ?_, ?_⟩
  · show (placeMounts _ _ _ _ _ _ _).1.length = _
    rw [hp.2, hperm]; omega
  · rw [sum_eq_zero_of_forall _ _ hz]; rfl
  · rw [flatten_eq_nil_of_forall _ hz, List.nil_append]
    show (keepLoop _ _ _ _).Nodup
    exact (keepLoop_sublist _ _ _ _).nodup (rankTasks_nodup _ _ _)

/-! ## Runs -/

theorem stateAt_inv (e : Env) (s0 : State) (h0 : RunInv e s0) :
    ∀ (n : Nat) (s : State), stateAt e s0 n = some s → RunInv e s := by
  intro n
  induction n with
  | zero =>
    intro s h
    simp only [stateAt, Option.some.injEq] at h
    rw [← h]; exact h0
  | succ n ih =>
    intro s h
    unfold stateAt at h
    cases hn : stateAt e s0 n with
    | none => rw [hn] at h; simp at h
    | some s' =>
      rw [hn] at h
      simp only at h
      cases hm : mainStep e s' with
      | none => rw [hm] at h; simp at h
      | some r =>
        cases r with
        | none => rw [hm] at h; simp at h
        | some s1 =>
          rw [hm] at h
          simp only [Option.some.injEq] at h
          rw [← h]
          exact mainStep_inv e s' s1 (ih s' hn) hm

theorem mainLoop_stateAt (e : Env) : ∀ (n : Nat) (s0 s : State), mainLoop e n s0 = some s →
    ∃ k, stateAt e s0 k = some s ∧ mainStep e s = some none := by
  intro n
  induction n with
  | zero => intro s0 s h; simp [mainLoop] at h
  | succ n ih =>
    intro s0 s h
    unfold mainLoop at h
    cases hm : mainStep e s0 with
    | none => rw [hm] at h; simp at h
    | some r =>
      cases r with
      | none =>
        rw [hm] at h
        simp only [Option.some.injEq] at h
        exact ⟨0, by rw [← h]; rfl, by rw [← h]; exact hm⟩
      | some s1 =>
        rw [hm] at h
        simp only at h
        obtain ⟨k, hk, hend⟩ := ih s1 s h
        refine ⟨k + 1, ?_, hend⟩
        have shift : ∀ (j : Nat), stateAt e s0 (j + 1) = stateAt e s1 j := by
          intro j
          induction j with
          | zero => simp [stateAt, hm]
          | succ j ihj =>
            conv_lhs => unfold stateAt
            rw [ihj]
            conv_rhs => unfold stateAt
        rw [shift]; exact hk

/-- What a returned result is: the last state of a run from the start state. -/
theorem greedy_solver_final (e : Env) (ms : List Point) (Len : List Int) (clock : Nat)
    (r : Result) (h : greedy_solver e ms Len clock = some r) :
    e.inst.R ≤ ms.length ∧ ∃ k s, stateAt e (startState e ms Len clock) k = some s ∧
      mainStep e s = some none ∧ r.score = s.score ∧ r.arms = s.arms := by
  unfold greedy_solver at h
  simp only at h
  split at h
  · simp at h
  · rename_i hR
    cases hm : mainLoop e e.fuel (initState e (orderMounts e ms (clock + 1)) (penalise e ms Len)
        clock) with
    | none => rw [hm] at h; simp at h
    | some s =>
      rw [hm] at h
      simp only [Option.some.injEq] at h
      obtain ⟨k, hk, hend⟩ := mainLoop_stateAt e _ _ _ hm
      refine ⟨by omega, k, s, hk, hend, ?_, ?_⟩ <;> rw [← h]

theorem greedy_solver_inv (e : Env) (ms : List Point) (Len : List Int) (clock : Nat)
    (r : Result) (h : greedy_solver e ms Len clock = some r) :
    ∃ s, RunInv e s ∧ r.score = s.score ∧ r.arms = s.arms := by
  obtain ⟨hR, k, s, hk, _, h1, h2⟩ := greedy_solver_final e ms Len clock r h
  exact ⟨s, stateAt_inv e _ (startState_inv e ms Len clock hR) k s hk, h1, h2⟩

/-! ## Anchors -/

theorem placeMounts_heads (R : Nat) (L : Int) :
    ∀ (ms : List Point) (i : Nat) (arms : List Arm) (ow un : Grid Int),
      (placeMounts R L ms i arms ow un).1.map (fun a => a.cur.headD default)
        = arms.map (fun a => a.cur.headD default) ++ ms.take (R - i) := by
  intro ms
  induction ms with
  | nil => intro i arms ow un; simp [placeMounts]
  | cons m ms ih =>
    intro i arms ow un
    unfold placeMounts
    rw [ih]
    by_cases h : i < R
    · have h1 : R - i = (R - (i + 1)) + 1 := by omega
      rw [if_pos h, h1, List.take_succ_cons]
      simp [Arm.new]
    · have h1 : R - i = 0 := by omega
      have h2 : R - (i + 1) = 0 := by omega
      rw [if_neg h, h1, h2]
      simp

theorem mainStep_heads (e : Env) (s s1 : State) (h : RunInv e s)
    (hs : mainStep e s = some (some s1)) :
    s1.arms.map (fun a => a.cur.headD default) = s.arms.map (fun a => a.cur.headD default) := by
  obtain ⟨i, b, sc, hi, hp, hcase⟩ := mainStep_cases e s s1 hs
  have hlen : i < s.arms.length := by rw [h.arms_len]; exact hi
  have hai := h.arm _ (arm_mem s i hlen)
  rcases hcase with ⟨_, h1⟩ | ⟨t, hb, h1⟩
  · rw [h1]
    exact retractStep_map (fun a => a.cur.headD default) (fun _ _ => rfl) e _ i hlen
      (retractLoop_inv e (s.arm i).cur.length (s.arm i) s.until_ hai).2.head
  · obtain ⟨_, hx, _⟩ := picked_inv e s i t b hai hp hb
    rw [h1, commitStep_map (fun a => a.cur.headD default) (fun _ _ => rfl)]
    show (s.arms.map (fun a => a.cur.headD default)).set i (b.bestA.cur.headD default) = _
    rw [hx.head]
    exact set_arm_map (fun a => a.cur.headD default) s i hlen

theorem stateAt_heads (e : Env) (s0 : State) (h0 : RunInv e s0) :
    ∀ (n : Nat) (s : State), stateAt e s0 n = some s →
      s.arms.map (fun a => a.cur.headD default) = s0.arms.map (fun a => a.cur.headD default) := by
  intro n
  induction n with
  | zero =>
    intro s h
    simp only [stateAt, Option.some.injEq] at h
    rw [← h]
  | succ n ih =>
    intro s h
    unfold stateAt at h
    cases hn : stateAt e s0 n with
    | none => rw [hn] at h; simp at h
    | some s' =>
      rw [hn] at h
      simp only at h
      cases hm : mainStep e s' with
      | none => rw [hm] at h; simp at h
      | some r =>
        cases r with
        | none => rw [hm] at h; simp at h
        | some s1 =>
          rw [hm] at h
          simp only [Option.some.injEq] at h
          rw [← h, mainStep_heads e s' s1 (stateAt_inv e s0 h0 n s' hn) hm]
          exact ih s' hn

theorem greedy_solver_ms (e : Env) (ms : List Point) (Len : List Int) (clock : Nat)
    (r : Result) (h : greedy_solver e ms Len clock = some r) :
    r.ms = orderMounts e ms (clock + 1) ∧ r.Len = penalise e ms Len := by
  unfold greedy_solver at h
  simp only at h
  split at h
  · simp at h
  · cases hm : mainLoop e e.fuel (initState e (orderMounts e ms (clock + 1)) (penalise e ms Len)
        clock) with
    | none => rw [hm] at h; simp at h
    | some s =>
      rw [hm] at h
      simp only [Option.some.injEq] at h
      rw [← h]; exact ⟨rfl, rfl⟩

theorem getD_of_isSome {α : Type} (o : Option α) (d : α) (h : o.isSome = true) :
    o = some (o.getD d) := by
  cases o with
  | none => simp at h
  | some a => rfl

theorem solved_eq (e : Env) (ms : List Point) (Len : List Int) (clock : Nat)
    (h : (greedy_solver e ms Len clock).isSome = true) :
    greedy_solver e ms Len clock = some (solved e ms Len clock) :=
  getD_of_isSome _ _ h

/-! ## Properties of the returned solution -/

/-- C1: in the solution returned by `greedy_solver` the first chain cell of
the `k`-th arm is the `k`-th mounting point (its anchor), and the recorded
moves `path` of every arm, replayed from that anchor (`R`/`L`/`U`/`D` move one
cell, `W` stays), pass through every waypoint of every task of its list `z`,
in the order of assignment and, within a task, in the order of its waypoints. -/
theorem path_visits_assigned_waypoints (e : Env) (ms : List Point) (Len : List Int)
    (clock : Nat) (r : Result) (h : greedy_solver e ms Len clock = some r) :
    r.arms.map (fun a => a.cur.headD default) = r.ms.take e.inst.R ∧
      ∀ a ∈ r.arms, Visits (a.cur.headD default) a.path (waypointsOf e.inst a.z) := by
  obtain ⟨hR, k, s, hk, _, _, h2⟩ := greedy_solver_final e ms Len clock r h
  have h0 := startState_inv e ms Len clock hR
  have hinv := stateAt_inv e _ h0 k s hk
  constructor
  · rw [h2, stateAt_heads e _ h0 k s hk, (greedy_solver_ms e ms Len clock r h).1]
    show (placeMounts _ _ _ _ _ _ _).1.map _ = _
    rw [placeMounts_heads]
    simp
  · intro a ha
    rw [h2] at ha
    exact (hinv.arm a ha).visits

theorem path_visits_assigned_waypoints_witness :
    greedy_solver scenarioEnv [⟨0, 0⟩] [2] 0 = some (solved scenarioEnv [⟨0, 0⟩] [2] 0) ∧
      ((solved scenarioEnv [⟨0, 0⟩] [2] 0).arms.map (fun a => a.cur.headD default)
          = (solved scenarioEnv [⟨0, 0⟩] [2] 0).ms.take scenarioEnv.inst.R ∧
        ∀ a ∈ (solved scenarioEnv [⟨0, 0⟩] [2] 0).arms,
          Visits (a.cur.headD default) a.path (waypointsOf scenarioEnv.inst a.z)) :=
  ⟨solved_eq _ _ _ _ (by decide),
    path_visits_assigned_waypoints scenarioEnv [⟨0, 0⟩] [2] 0 _ (solved_eq _ _ _ _ (by decide))⟩


theorem waypoint_len (e : Env) (s : State) (i t : Nat) (a : Arm) (pt : Point) (sc : Scratch)
    (a1 : Arm) (sc1 : Scratch) (h : waypoint e s i t a pt sc = some (some a1, sc1)) :
    (a1.path.length : Int) ≤ toSize e.inst.L := by
  unfold waypoint at h
  simp only at h
  split at h
  · simp at h
  · split at h
    · simp at h
    · split at h
      · simp at h
      · split at h
        · simp at h
        · split at h
          · simp at h
          · rename_i hlen
            simp only [Option.some.injEq, Prod.mk.injEq] at h
            rw [← h.1]; omega

theorem retractLoop_at_horizon (L : Int) (hL : 0 ≤ L) (n : Nat) (a : Arm) (u : Grid Int)
    (h : L ≤ (a.path.length : Int)) : retractLoop L n a u = (a, u) := by
  have := toSize_le L hL
  cases n with
  | zero => rfl
  | succ n =>
    unfold retractLoop
    rw [if_neg]
    intro hc
    omega

/-- C2: for an instance with horizon `L ≥ 0` (and at least as many mounting
points as arms, without which no iteration of the main loop completes), at
the start of every iteration of the main loop and in the returned solution
every arm's `path` has length at most `L`; an extension accepted by the
simulation has length at most `L`; and the retraction loop appends nothing
once the length has reached `L`. -/
theorem path_length_within_horizon (e : Env) (ms : List Point) (Len : List Int) (clock : Nat)
    (hL : 0 ≤ e.inst.L) (hR : e.inst.R ≤ ms.length) :
    (∀ n s, stateAt e (startState e ms Len clock) n = some s →
        ∀ a ∈ s.arms, (a.path.length : Int) ≤ e.inst.L) ∧
      (∀ r, greedy_solver e ms Len clock = some r →
        ∀ a ∈ r.arms, (a.path.length : Int) ≤ e.inst.L) ∧
      (∀ s i t a pt sc a1 sc1, waypoint e s i t a pt sc = some (some a1, sc1) →
        (a1.path.length : Int) ≤ e.inst.L) ∧
      (∀ n a u, e.inst.L ≤ (a.path.length : Int) → retractLoop e.inst.L n a u = (a, u)) := by
  have h0 := startState_inv e ms Len clock hR
  refine ⟨?_, ?_, ?_, ?_⟩
  · intro n s hs a ha
    exact ((stateAt_inv e _ h0 n s hs).arm a ha).horizon hL
  · intro r hr a ha
    obtain ⟨s, hinv, _, h2⟩ := greedy_solver_inv e ms Len clock r hr
    rw [h2] at ha
    exact (hinv.arm a ha).horizon hL
  · intro s i t a pt sc a1 sc1 h
    exact le_trans (waypoint_len e s i t a pt sc a1 sc1 h) (toSize_le _ hL)
  · intro n a u h
    exact retractLoop_at_horizon _ hL n a u h

theorem path_length_within_horizon_witness :
    (0 : Int) ≤ scenarioEnv.inst.L ∧ scenarioEnv.inst.R ≤ [(⟨0, 0⟩ : Point)].length ∧
      ∀ r, greedy_solver scenarioEnv [⟨0, 0⟩] [2] 0 = some r →
        ∀ a ∈ r.arms, (a.path.length : Int) ≤ scenarioEnv.inst.L :=
  ⟨by decide, by decide,
    (path_length_within_horizon scenarioEnv [⟨0, 0⟩] [2] 0 (by decide) (by decide)).2.1⟩

/-- C4: whatever the instance, the parameters and the random stream, a task
whose intrinsic length (the sum of the distances between its consecutive
waypoints) is greater than the horizon `L` is in no list `z` of the returned
solution. -/
theorem overlong_task_never_assigned (e : Env) (ms : List Point) (Len : List Int) (clock : Nat)
    (r : Result) (h : greedy_solver e ms Len clock = some r) (t : Nat)
    (ht : e.inst.L < intrinsicLen (e.inst.task t)) : ∀ a ∈ r.arms, t ∉ a.z := by
  intro a ha hmem
  obtain ⟨s, hinv, _, h2⟩ := greedy_solver_inv e ms Len clock r h
  rw [h2] at ha
  have := (hinv.arm a ha).fits t hmem
  omega

theorem overlong_task_never_assigned_witness :
    greedy_solver shortEnv [⟨0, 0⟩] [2] 0 = some (solved shortEnv [⟨0, 0⟩] [2] 0) ∧
      shortEnv.inst.L < intrinsicLen (shortEnv.inst.task 0) ∧
      ∀ a ∈ (solved shortEnv [⟨0, 0⟩] [2] 0).arms, 0 ∉ a.z :=
  ⟨solved_eq _ _ _ _ (by decide), by decide,
    overlong_task_never_assigned shortEnv [⟨0, 0⟩] [2] 0 _ (solved_eq _ _ _ _ (by decide)) 0
      (by decide)⟩

/-- C5: in the returned solution no task identifier occurs twice in the lists
`z` of the arms taken together. -/
theorem task_assigned_at_most_once (e : Env) (ms : List Point) (Len : List Int) (clock : Nat)
    (r : Result) (h : greedy_solver e ms Len clock = some r) :
    (r.arms.flatMap (fun a => a.z)).Nodup := by
  obtain ⟨s, hinv, _, h2⟩ := greedy_solver_inv e ms Len clock r h
  rw [h2, List.flatMap_def]
  exact (List.nodup_append.mp hinv.nodup).1

theorem task_assigned_at_most_once_witness :
    greedy_solver scenarioEnv [⟨0, 0⟩] [2] 0 = some (solved scenarioEnv [⟨0, 0⟩] [2] 0) ∧
      ((solved scenarioEnv [⟨0, 0⟩] [2] 0).arms.flatMap (fun a => a.z)).Nodup :=
  ⟨solved_eq _ _ _ _ (by decide),
    task_assigned_at_most_once scenarioEnv [⟨0, 0⟩] [2] 0 _ (solved_eq _ _ _ _ (by decide))⟩

/-- C6: the score returned by `greedy_solver` is the sum of the rewards `S[t]`
over the task identifiers `t` in the lists `z` of the returned arms. -/
theorem score_is_sum_of_rewards (e : Env) (ms : List Point) (Len : List Int) (clock : Nat)
    (r : Result) (h : greedy_solver e ms Len clock = some r) :
    r.score = (r.arms.map (fun a => rewardSum e.inst a.z)).sum := by
  obtain ⟨s, hinv, h1, h2⟩ := greedy_solver_inv e ms Len clock r h
  rw [h1, h2, hinv.score, List.map_map]
  rfl

theorem score_is_sum_of_rewards_witness :
    greedy_solver scenarioEnv [⟨0, 0⟩] [2] 0 = some (solved scenarioEnv [⟨0, 0⟩] [2] 0) ∧
      (solved scenarioEnv [⟨0, 0⟩] [2] 0).score
        = ((solved scenarioEnv [⟨0, 0⟩] [2] 0).arms.map
            (fun a => rewardSum scenarioEnv.inst a.z)).sum :=
  ⟨solved_eq _ _ _ _ (by decide),
    score_is_sum_of_rewards scenarioEnv [⟨0, 0⟩] [2] 0 _ (solved_eq _ _ _ _ (by decide))⟩

theorem reward_nonneg (inst : Instance) (hS : ∀ x ∈ inst.S, 0 ≤ x) (t : Nat) :
    0 ≤ inst.reward t := by
  unfold Instance.reward
  by_cases h : t < inst.S.length
  · rw [List.getD_eq_getElem _ _ h]
    exact hS _ (List.getElem_mem _)
  · rw [List.getD_eq_default _ _ (by omega)]

theorem stateAt_succ (e : Env) (s0 s s1 : State) (n : Nat) (h : stateAt e s0 n = some s)
    (h1 : stateAt e s0 (n + 1) = some s1) : mainStep e s = some (some s1) := by
  unfold stateAt at h1
  rw [h] at h1
  simp only at h1
  cases hm : mainStep e s with
  | none => rw [hm] at h1; simp at h1
  | some r =>
    cases r with
    | none => rw [hm] at h1; simp at h1
    | some s2 =>
      rw [hm] at h1
      simp only [Option.some.injEq] at h1
      rw [h1]

theorem retractStep_score (e : Env) (s : State) (i : Nat) :
    (retractStep e s i).score = s.score ∧ (retractStep e s i).ts = s.ts := by
  unfold retractStep
  split <;> exact ⟨rfl, rfl⟩

/-- C8 (as the code has it): when no reward is negative, the running score
does not decrease from one iteration of the main loop to the next, so every
commit leaves it at least as large as before. -/
theorem score_nondecreasing_of_nonneg_rewards (e : Env) (s0 : State)
    (hS : ∀ x ∈ e.inst.S, 0 ≤ x) (n : Nat) (s s1 : State) (h : stateAt e s0 n = some s)
    (h1 : stateAt e s0 (n + 1) = some s1) : s.score ≤ s1.score := by
  have hs := stateAt_succ e s0 s s1 n h h1
  obtain ⟨i, b, sc, _, _, hcase⟩ := mainStep_cases e s s1 hs
  rcases hcase with ⟨_, h2⟩ | ⟨t, _, h2⟩
  · rw [h2, (retractStep_score e _ i).1]
  · rw [h2]
    show s.score ≤ s.score + e.inst.reward t
    have := reward_nonneg e.inst hS t
    omega

theorem score_nondecreasing_of_nonneg_rewards_witness :
    (∀ x ∈ scenarioEnv.inst.S, 0 ≤ x) ∧
      stateAt scenarioEnv (startState scenarioEnv [⟨0, 0⟩] [2] 0) 0
        = some (startState scenarioEnv [⟨0, 0⟩] [2] 0) ∧
      stateAt scenarioEnv (startState scenarioEnv [⟨0, 0⟩] [2] 0) 1
        = some ((stateAt scenarioEnv (startState scenarioEnv [⟨0, 0⟩] [2] 0) 1).getD
            (startState scenarioEnv [⟨0, 0⟩] [2] 0)) ∧
      (startState scenarioEnv [⟨0, 0⟩] [2] 0).score
        ≤ ((stateAt scenarioEnv (startState scenarioEnv [⟨0, 0⟩] [2] 0) 1).getD
            (startState scenarioEnv [⟨0, 0⟩] [2] 0)).score :=
  ⟨by decide, rfl, getD_of_isSome _ _ (by decide),
    score_nondecreasing_of_nonneg_rewards scenarioEnv _ (by decide) 0 _ _ rfl
      (getD_of_isSome _ _ (by decide))⟩

/-- C8 fails as stated: with the single task of the scenario given reward
`-1`, the first iteration commits that task (the arm's `z` becomes `[0]`) and
the score drops from `0` to `-1`. -/
theorem commit_lowers_score :
    (stateAt lossEnv (startState lossEnv [⟨0, 0⟩] [2] 0) 0).map
        (fun s => (s.score, s.arms.map (fun a => a.z))) = some (0, [[]]) ∧
      (stateAt lossEnv (startState lossEnv [⟨0, 0⟩] [2] 0) 1).map
        (fun s => (s.score, s.arms.map (fun a => a.z))) = some (-1, [[0]]) := by
  decide

/-- C9 fails as stated: `farNearEnv` is `farEnv` (same grid, arm, mounting
point, horizon, parameters and random stream) with one more task; the
retained candidates are `[0]` and `[1, 0]`; the returned scores are `3` and `2`. -/
theorem added_task_lowers_score :
    (startState farEnv [⟨1, 0⟩] [0] 0).ts = [0] ∧
      (startState farNearEnv [⟨1, 0⟩] [0, 0] 0).ts = [1, 0] ∧
      (greedy_solver farEnv [⟨1, 0⟩] [0] 0).map (fun r => r.score) = some 3 ∧
      (greedy_solver farNearEnv [⟨1, 0⟩] [0, 0] 0).map (fun r => r.score) = some 2 := by
  decide

theorem stateAt_no_candidates (e : Env) (s0 : State) (h0 : s0.ts = []) :
    ∀ (n : Nat) (s : State), stateAt e s0 n = some s → s.ts = [] ∧ s.score = s0.score := by
  intro n
  induction n with
  | zero =>
    intro s h
    simp only [stateAt, Option.some.injEq] at h
    rw [← h]; exact ⟨h0, rfl⟩
  | succ n ih =>
    intro s h
    cases hn : stateAt e s0 n with
    | none => unfold stateAt at h; rw [hn] at h; simp at h
    | some s' =>
      have hs := stateAt_succ e s0 s' s n hn h
      obtain ⟨k1, k2⟩ := ih s' hn
      obtain ⟨i, b, sc, _, hp, hcase⟩ := mainStep_cases e s' s hs
      rcases hcase with ⟨_, h2⟩ | ⟨t, hb, h2⟩
      · rw [h2, (retractStep_score e _ i).1, (retractStep_score e _ i).2]
        exact ⟨k1, k2⟩
      · have := (hp t hb).1
        rw [k1] at this
        simp at this

theorem rewardSum_nonneg (inst : Instance) (hS : ∀ x ∈ inst.S, 0 ≤ x) (z : List Nat) :
    0 ≤ rewardSum inst z := by
  unfold rewardSum
  apply List.sum_nonneg
  intro x hx
  rw [List.mem_map] at hx
  obtain ⟨t, _, ht⟩ := hx
  rw [← ht]; exact reward_nonneg inst hS t

/-- C9 (as the code has it): the score can drop when a task is added; what
holds is the case in which instance `A` retains no candidate: then, if no
reward of instance `B` is negative, the score returned on `B` (whatever `B`
retains, one task more in particular) is at least the score returned on `A`. -/
theorem score_ge_of_empty_candidates (eA eB : Env) (msA msB : List Point)
    (LenA LenB : List Int) (clockA clockB : Nat) (rA rB : Result)
    (hA : (startState eA msA LenA clockA).ts = []) (hS : ∀ x ∈ eB.inst.S, 0 ≤ x)
    (h1 : greedy_solver eA msA LenA clockA = some rA)
    (h2 : greedy_solver eB msB LenB clockB = some rB) : rA.score ≤ rB.score := by
  obtain ⟨_, k, s, hk, _, hsc, _⟩ := greedy_solver_final eA msA LenA clockA rA h1
  have hzero : rA.score = 0 := by
    rw [hsc, (stateAt_no_candidates eA _ hA k s hk).2]; rfl
  obtain ⟨sB, hinv, hB, _⟩ := greedy_solver_inv eB msB LenB clockB rB h2
  rw [hzero, hB, hinv.score]
  apply List.sum_nonneg
  intro x hx
  rw [List.mem_map] at hx
  obtain ⟨z, _, hz⟩ := hx
  rw [← hz]; exact rewardSum_nonneg _ hS _


theorem score_ge_of_empty_candidates_witness :
    (startState tightEnv [⟨1, 0⟩] [0] 0).ts = [] ∧ (∀ x ∈ tightNearEnv.inst.S, 0 ≤ x) ∧
      greedy_solver tightEnv [⟨1, 0⟩] [0] 0 = some (solved tightEnv [⟨1, 0⟩] [0] 0) ∧
      greedy_solver tightNearEnv [⟨1, 0⟩] [0, 0] 0
        = some (solved tightNearEnv [⟨1, 0⟩] [0, 0] 0) ∧
      (solved tightEnv [⟨1, 0⟩] [0] 0).score ≤ (solved tightNearEnv [⟨1, 0⟩] [0, 0] 0).score :=
  ⟨by decide, by decide, solved_eq _ _ _ _ (by decide), solved_eq _ _ _ _ (by decide),
    score_ge_of_empty_candidates tightEnv tightNearEnv _ _ _ _ _ _ _ _ (by decide) (by decide)
      (solved_eq _ _ _ _ (by decide)) (solved_eq _ _ _ _ (by decide))⟩

/-! ## Local search -/

theorem lsTrial_best (E : LsEnv) (it : Nat) (st st1 : LsState) (h : lsTrial E it st = some st1) :
    st.best_score ≤ st1.best_score := by
  unfold lsTrial at h
  simp only at h
  split at h
  · simp at h
  · split at h
    · rename_i hgt
      simp only [Option.some.injEq] at h
      rw [← h]
      exact le_of_lt hgt
    · split at h
      · split at h <;>
        · simp only [Option.some.injEq] at h
          rw [← h]
      · simp only [Option.some.injEq] at h
        rw [← h]

theorem lsLoop_best (E : LsEnv) : ∀ (its : List Nat) (st st1 : LsState),
    lsLoop E its st = some st1 → st.best_score ≤ st1.best_score := by
  intro its
  induction its with
  | nil =>
    intro st st1 h
    simp only [lsLoop, Option.some.injEq] at h
    rw [h]
  | cons it its ih =>
    intro st st1 h
    unfold lsLoop at h
    split at h
    · simp at h
    · rename_i st2 h2
      exact le_trans (lsTrial_best E it st st2 h2) (ih st2 st1 h)

/-- C10: whatever the instance, the initial parameters, the iteration count,
the random streams and the fix flags, the best score returned by
`local_search` is at least the score of its first run of `greedy_solver`
(the run with the initial parameters), and no trial lowers the best score. -/
theorem local_search_best_ge_first_run (E : LsEnv) (ms : List Point) (Len : List Int)
    (p0 : SolverParams) (out : List Arm × Int × SolverParams)
    (h : local_search E ms Len p0 = some out) :
    (∃ r, greedy_solver ⟨E.inst, p0, E.outer, E.lib, E.fuel⟩ ms Len 0 = some r ∧
        r.score ≤ out.2.1) ∧
      ∀ it st st1, lsTrial E it st = some st1 → st.best_score ≤ st1.best_score := by
  refine ⟨?_, fun it st st1 h1 => lsTrial_best E it st st1 h1⟩
  unfold local_search at h
  cases h0 : lsInit E ms Len p0 with
  | none => rw [h0] at h; simp at h
  | some st0 =>
    rw [h0] at h
    simp only at h
    cases hl : lsLoop E (List.range E.iterations.toNat) st0 with
    | none => rw [hl] at h; simp at h
    | some st =>
      rw [hl] at h
      simp only [Option.some.injEq] at h
      unfold lsInit at h0
      cases hg : greedy_solver ⟨E.inst, p0, E.outer, E.lib, E.fuel⟩ ms Len 0 with
      | none => rw [hg] at h0; simp at h0
      | some r =>
        rw [hg] at h0
        simp only [Option.some.injEq] at h0
        refine ⟨r, rfl, ?_⟩
        have := lsLoop_best E _ st0 st hl
        rw [← h0] at this
        rw [← h]
        exact this

theorem local_search_best_ge_first_run_witness :
    local_search searchEnv [⟨0, 0⟩] [2] {} = some (searched searchEnv [⟨0, 0⟩] [2] {}) ∧
      (∃ r, greedy_solver ⟨searchEnv.inst, {}, searchEnv.outer, searchEnv.lib, searchEnv.fuel⟩
          [⟨0, 0⟩] [2] 0 = some r ∧ r.score ≤ (searched searchEnv [⟨0, 0⟩] [2] {}).2.1) :=
  ⟨getD_of_isSome _ _ (by decide),
    (local_search_best_ge_first_run searchEnv [⟨0, 0⟩] [2] {} _
      (getD_of_isSome _ _ (by decide))).1⟩

/-! ## The scenario of one arm and one task -/

theorem arrival_free (e : Env) (s : State) (i t : Nat) (p : Point) (l : Int)
    (h : s.owner p = (i : Int) ∨ s.until_ p ≤ l) : arrival e s i t p l = some (some l) := by
  unfold arrival
  simp only
  rw [if_neg]
  intro hc
  rcases h with h | h
  · exact hc.1 h
  · omega

/-- One turn of the second inner loop at a cell that is free to enter. -/
theorem freshLoop_cons_free (e : Env) (s : State) (i t : Nat) (SS : Int) (a : Arm)
    (pt q : Point) (l depth : Int) (c : Move) (cs : List Move) (σ : Search)
    (hhow : a.how (q.add c) = Move.x)
    (h : s.owner (q.add c) = (i : Int) ∨ s.until_ (q.add c) ≤ l) :
    freshLoop e s i t SS a pt q l depth (c :: cs) σ =
      if offGrid e (q.add c) = true then freshLoop e s i t SS a pt q l depth cs σ
      else if σ.seen (q.add c) = SS ∧ l + 1 ≥ σ.dist (q.add c) then
        freshLoop e s i t SS a pt q l depth cs σ
      else if q.add c = pt then
        some { σ with seen := σ.seen.set (q.add c) SS, dist := σ.dist.set (q.add c) (l + 1),
                      pred := σ.pred.set (q.add c) c, found := true }
      else freshLoop e s i t SS a pt q l depth cs
        { σ with seen := σ.seen.set (q.add c) SS, dist := σ.dist.set (q.add c) (l + 1),
                 pred := σ.pred.set (q.add c) c, Q := σ.Q ++ [⟨q.add c, l + 1, depth⟩] } := by
  conv_lhs => unfold freshLoop
  simp only [hhow, arrival_free e s i t _ l h, ne_eq, not_true_eq_false, decide_False,
    Bool.or_false]


theorem scen_free {e : Env} {s : State} {a : Arm} (ctx : ScenCtx e s a) (p : Point) (l : Int)
    (hl : 0 ≤ l) : s.owner p = ((0 : Nat) : Int) ∨ s.until_ p ≤ l := by
  by_cases hp : p = ⟨0, 0⟩
  · left; rw [hp, ctx.own]; rfl
  · right; rw [ctx.unt p hp]; omega

/-- Recording and queueing a cell other than `(0,0)`, `(1,0)`, `(2,0)` keeps the invariant. -/
theorem scenInv_push (SS : Int) (σ : Search) (p : Point) (l2 d : Int) (c : Move)
    (hσ : ScenInv SS σ) (hp0 : p ≠ ⟨0, 0⟩) (hp1 : p ≠ ⟨1, 0⟩) (hp2 : p ≠ ⟨2, 0⟩)
    (hl : 1 ≤ l2 ∧ (l2 = 1 → p = ⟨0, 1⟩)) :
    ScenInv SS { σ with seen := σ.seen.set p SS, dist := σ.dist.set p l2,
                        pred := σ.pred.set p c, Q := σ.Q ++ [⟨p, l2, d⟩] } := by
  have e0 : ¬ ((⟨0, 0⟩ : Point) = p) := fun h => hp0 h.symm
  have e1 : ¬ ((⟨1, 0⟩ : Point) = p) := fun h => hp1 h.symm
  have e2 : ¬ ((⟨2, 0⟩ : Point) = p) := fun h => hp2 h.symm
  refine ⟨hσ.nf, ?_, ?_, ?_, ?_, ?_, ?_⟩
  · simpa [Grid.set, e0] using hσ.s0
  · simpa [Grid.set, e0] using hσ.d0
  · simpa [Grid.set, e0] using hσ.p0
  · simpa [Grid.set, e2] using hσ.s2
  · intro h1
    have h2 : σ.seen ⟨1, 0⟩ = SS := by simpa [Grid.set, e1] using h1
    simpa [Grid.set, e1] using hσ.c1 h2
  · intro en hen
    rcases List.mem_append.mp hen with h1 | h1
    · exact hσ.q en h1
    · right
      rw [List.mem_singleton.mp h1]
      exact ⟨hp1, hl.1, hl.2⟩

theorem scen_fresh_origin {e : Env} {s : State} {a : Arm} (ctx : ScenCtx e s a) (SS : Int) :
    ∀ (cs : List Move) (σ : Search), (∀ c ∈ cs, c ≠ Move.W ∧ c ≠ Move.x) → ScenInv SS σ →
      (σ.seen ⟨1, 0⟩ = SS → ⟨⟨1, 0⟩, 1, 0⟩ ∈ σ.Q) →
      ∃ σ1, freshLoop e s 0 0 SS a ⟨2, 0⟩ ⟨0, 0⟩ 0 0 cs σ = some σ1 ∧ ScenInv SS σ1 ∧
        σ1.vs = σ.vs ∧ σ1.clock = σ.clock ∧ σ1.Q.length ≤ σ.Q.length + cs.length ∧
        (Move.R ∈ cs → σ1.seen ⟨1, 0⟩ = SS) ∧ (σ.seen ⟨1, 0⟩ = SS → σ1.seen ⟨1, 0⟩ = SS) ∧
        (σ1.seen ⟨1, 0⟩ = SS → ⟨⟨1, 0⟩, 1, 0⟩ ∈ σ1.Q) := by
  intro cs
  induction cs with
  | nil =>
    intro σ _ hσ hQ
    exact ⟨σ, rfl, hσ, rfl, rfl, by simp, by simp, fun h => h, hQ⟩
  | cons c cs ih =>
    intro σ hcs hσ hQ
    have hcs1 : ∀ c ∈ cs, c ≠ Move.W ∧ c ≠ Move.x :=
      fun c hc => hcs c (List.mem_cons_of_mem _ hc)
    have hc := hcs c (List.mem_cons_self _ _)
    rw [freshLoop_cons_free e s 0 0 SS a _ _ 0 0 c cs σ (ctx.how _) (scen_free ctx _ 0 (le_refl _))]
    have skip : ((Move.R = c → σ.seen ⟨1, 0⟩ = SS)) →
        ∃ σ1, freshLoop e s 0 0 SS a ⟨2, 0⟩ ⟨0, 0⟩ 0 0 cs σ = some σ1 ∧ ScenInv SS σ1 ∧
        σ1.vs = σ.vs ∧ σ1.clock = σ.clock ∧ σ1.Q.length ≤ σ.Q.length + (c :: cs).length ∧
        (Move.R ∈ c :: cs → σ1.seen ⟨1, 0⟩ = SS) ∧
        (σ.seen ⟨1, 0⟩ = SS → σ1.seen ⟨1, 0⟩ = SS) ∧
        (σ1.seen ⟨1, 0⟩ = SS → ⟨⟨1, 0⟩, 1, 0⟩ ∈ σ1.Q) := by
      intro hR
      obtain ⟨σ1, k1, k2, k3, k4, k5, k6, k7, k8⟩ := ih σ hcs1 hσ hQ
      refine ⟨σ1, k1, k2, k3, k4, by simp only [List.length_cons]; omega, ?_, k7, k8⟩
      intro hm
      rcases List.mem_cons.mp hm with h1 | h1
      · exact k7 (hR h1)
      · exact k6 h1
    cases c with
    | W => exact absurd rfl hc.1
    | x => exact absurd rfl hc.2
    | L =>
      have : offGrid e (Point.add ⟨0, 0⟩ Move.L) = true := by simp [offGrid, Point.add]
      rw [if_pos this]
      exact skip (by simp)
    | D =>
      have : offGrid e (Point.add ⟨0, 0⟩ Move.D) = true := by simp [offGrid, Point.add]
      rw [if_pos this]
      exact skip (by simp)
    | R =>
      have hoff : ¬ offGrid e (Point.add ⟨0, 0⟩ Move.R) = true := by
        have := ctx.w; have := ctx.h
        simp [offGrid, Point.add]; omega
      rw [if_neg hoff]
      split
      · rename_i hseen
        exact skip (fun _ => hseen.1)
      · have hne : ¬ (Point.add ⟨0, 0⟩ Move.R = (⟨2, 0⟩ : Point)) := by simp [Point.add]
        rw [if_neg hne]
        have hinv : ScenInv SS
            { σ with seen := σ.seen.set (Point.add ⟨0, 0⟩ Move.R) SS,
                     dist := σ.dist.set (Point.add ⟨0, 0⟩ Move.R) (0 + 1),
                     pred := σ.pred.set (Point.add ⟨0, 0⟩ Move.R) Move.R,
                     Q := σ.Q ++ [⟨Point.add ⟨0, 0⟩ Move.R, 0 + 1, 0⟩] } := by
          refine ⟨hσ.nf, ?_, ?_, ?_, ?_, ?_, ?_⟩
          · simpa [Grid.set, Point.add] using hσ.s0
          · simpa [Grid.set, Point.add] using hσ.d0
          · simpa [Grid.set, Point.add] using hσ.p0
          · simpa [Grid.set, Point.add] using hσ.s2
          · intro _
            simp [Grid.set, Point.add]
          · intro en hen
            rcases List.mem_append.mp hen with h1 | h1
            · exact hσ.q en h1
            · left
              simpa [Point.add] using h1
        obtain ⟨σ1, k1, k2, k3, k4, k5, k6, k7, k8⟩ := ih _ hcs1 hinv
          (fun _ => List.mem_append_right _ (by simp [Point.add]))
        refine ⟨σ1, k1, k2, k3, k4, ?_, fun _ => k7 ?_, fun _ => k7 ?_, k8⟩
        · have k5' : σ1.Q.length ≤ (σ.Q.length + 1) + cs.length := by
            simpa using k5
          simp only [List.length_cons]
          omega
        · simp [Grid.set, Point.add]
        · simp [Grid.set, Point.add]
    | U =>
      split
      · exact skip (by simp)
      · split
        · exact skip (by simp)
        · have hne : ¬ (Point.add ⟨0, 0⟩ Move.U = (⟨2, 0⟩ : Point)) := by simp [Point.add]
          rw [if_neg hne]
          have hinv := scenInv_push SS σ (Point.add ⟨0, 0⟩ Move.U) (0 + 1) 0 Move.U hσ
            (by simp [Point.add]) (by simp [Point.add]) (by simp [Point.add])
            (by simp [Point.add])
          obtain ⟨σ1, k1, k2, k3, k4, k5, k6, k7, k8⟩ := ih _ hcs1 hinv
            (fun h1 => List.mem_append_left _
              (hQ (by simpa [Grid.set, Point.add] using h1)))
          refine ⟨σ1, k1, k2, k3, k4, ?_, ?_, ?_, k8⟩
          · have k5' : σ1.Q.length ≤ (σ.Q.length + 1) + cs.length := by
              simpa using k5
            simp only [List.length_cons]
            omega
          · intro hm
            rcases List.mem_cons.mp hm with h1 | h1
            · exact absurd h1 (by simp)
            · exact k6 h1
          · intro h1
            apply k7
            simpa [Grid.set, Point.add] using h1

/-- Expanding `(0,1)` at time `1` queues only entries of time `2`. -/
theorem scen_fresh_side {e : Env} {s : State} {a : Arm} (ctx : ScenCtx e s a) (SS d : Int) :
    ∀ (cs : List Move) (σ : Search), (∀ c ∈ cs, c ≠ Move.W ∧ c ≠ Move.x) → ScenInv SS σ →
      ∃ σ1, freshLoop e s 0 0 SS a ⟨2, 0⟩ ⟨0, 1⟩ 1 d cs σ = some σ1 ∧ ScenInv SS σ1 ∧
        σ1.vs = σ.vs ∧ σ1.clock = σ.clock ∧ (σ.seen ⟨1, 0⟩ = SS → σ1.seen ⟨1, 0⟩ = SS) ∧
        ∃ new, σ1.Q = σ.Q ++ new ∧ ∀ en ∈ new, en.l = 2 := by
  intro cs
  induction cs with
  | nil =>
    intro σ _ hσ
    exact ⟨σ, rfl, hσ, rfl, rfl, fun h => h, [], by simp, by simp⟩
  | cons c cs ih =>
    intro σ hcs hσ
    have hcs1 : ∀ c ∈ cs, c ≠ Move.W ∧ c ≠ Move.x :=
      fun c hc => hcs c (List.mem_cons_of_mem _ hc)
    have hc := hcs c (List.mem_cons_self _ _)
    rw [freshLoop_cons_free e s 0 0 SS a _ _ 1 d c cs σ (ctx.how _) (scen_free ctx _ 1 (by decide))]
    have push : ∀ (p : Point), p ≠ ⟨0, 0⟩ → p ≠ ⟨1, 0⟩ → p ≠ ⟨2, 0⟩ →
        ∃ σ1, freshLoop e s 0 0 SS a ⟨2, 0⟩ ⟨0, 1⟩ 1 d cs
            { σ with seen := σ.seen.set p SS, dist := σ.dist.set p (1 + 1),
                     pred := σ.pred.set p c, Q := σ.Q ++ [⟨p, 1 + 1, d⟩] } = some σ1 ∧
          ScenInv SS σ1 ∧ σ1.vs = σ.vs ∧ σ1.clock = σ.clock ∧
          (σ.seen ⟨1, 0⟩ = SS → σ1.seen ⟨1, 0⟩ = SS) ∧
          ∃ new, σ1.Q = σ.Q ++ new ∧ ∀ en ∈ new, en.l = 2 := by
      intro p hp0 hp1 hp2
      have hinv := scenInv_push SS σ p (1 + 1) d c hσ hp0 hp1 hp2
        ⟨by decide, fun h => absurd h (by decide)⟩
      obtain ⟨σ1, k1, k2, k3, k4, k5, new, k6, k7⟩ := ih _ hcs1 hinv
      refine ⟨σ1, k1, k2, k3, k4, ?_, ⟨⟨p, 1 + 1, d⟩ :: new, ?_, ?_⟩⟩
      · intro h1
        apply k5
        have e1 : ¬ ((⟨1, 0⟩ : Point) = p) := fun h => hp1 h.symm
        simpa [Grid.set, e1] using h1
      · rw [k6]; simp
      · intro en hen
        rcases List.mem_cons.mp hen with h1 | h1
        · rw [h1]; rfl
        · exact k7 en h1
    cases c with
    | W => exact absurd rfl hc.1
    | x => exact absurd rfl hc.2
    | L =>
      have : offGrid e (Point.add ⟨0, 1⟩ Move.L) = true := by simp [offGrid, Point.add]
      rw [if_pos this]
      exact ih σ hcs1 hσ
    | D =>
      split
      · exact ih σ hcs1 hσ
      · have : σ.seen (Point.add ⟨0, 1⟩ Move.D) = SS ∧ 1 + 1 ≥ σ.dist (Point.add ⟨0, 1⟩ Move.D) := by
          have h0 := hσ.s0
          have h1 := hσ.d0
          simp only [Point.add]
          norm_num
          exact ⟨h0, by omega⟩
        rw [if_pos this]
        exact ih σ hcs1 hσ
    | R =>
      split
      · exact ih σ hcs1 hσ
      · split
        · exact ih σ hcs1 hσ
        · have hne : ¬ (Point.add ⟨0, 1⟩ Move.R = (⟨2, 0⟩ : Point)) := by simp [Point.add]
          rw [if_neg hne]
          exact push _ (by simp [Point.add]) (by simp [Point.add]) (by simp [Point.add])
    | U =>
      split
      · exact ih σ hcs1 hσ
      · split
        · exact ih σ hcs1 hσ
        · have hne : ¬ (Point.add ⟨0, 1⟩ Move.U = (⟨2, 0⟩ : Point)) := by simp [Point.add]
          rw [if_neg hne]
          exact push _ (by simp [Point.add]) (by simp [Point.add]) (by simp [Point.add])

/-- Expanding `(1,0)` at time `1` reaches the target `(2,0)` at time `2`. -/
theorem scen_fresh_mid {e : Env} {s : State} {a : Arm} (ctx : ScenCtx e s a) (SS d : Int) :
    ∀ (cs : List Move) (σ : Search), Move.R ∈ cs → (∀ c ∈ cs, c ≠ Move.W ∧ c ≠ Move.x) →
      ScenInv SS σ → σ.seen ⟨1, 0⟩ = SS →
      ∃ σ1, freshLoop e s 0 0 SS a ⟨2, 0⟩ ⟨1, 0⟩ 1 d cs σ = some σ1 ∧ ScenDone σ1 := by
  intro cs
  induction cs with
  | nil => intro σ hR; simp at hR
  | cons c cs ih =>
    intro σ hR hcs hσ h1
    have hcs1 : ∀ c ∈ cs, c ≠ Move.W ∧ c ≠ Move.x :=
      fun c hc => hcs c (List.mem_cons_of_mem _ hc)
    have hc := hcs c (List.mem_cons_self _ _)
    rw [freshLoop_cons_free e s 0 0 SS a _ _ 1 d c cs σ (ctx.how _) (scen_free ctx _ 1 (by decide))]
    have hR1 : c ≠ Move.R → Move.R ∈ cs := by
      intro hne
      rcases List.mem_cons.mp hR with h | h
      · exact absurd h.symm hne
      · exact h
    cases c with
    | W => exact absurd rfl hc.1
    | x => exact absurd rfl hc.2
    | D =>
      have : offGrid e (Point.add ⟨1, 0⟩ Move.D) = true := by simp [offGrid, Point.add]
      rw [if_pos this]
      exact ih σ (hR1 (by simp)) hcs1 hσ h1
    | L =>
      split
      · exact ih σ (hR1 (by simp)) hcs1 hσ h1
      · have : σ.seen (Point.add ⟨1, 0⟩ Move.L) = SS ∧ 1 + 1 ≥ σ.dist (Point.add ⟨1, 0⟩ Move.L) := by
          have h0 := hσ.s0
          have h1 := hσ.d0
          simp only [Point.add]
          norm_num
          exact ⟨h0, by omega⟩
        rw [if_pos this]
        exact ih σ (hR1 (by simp)) hcs1 hσ h1
    | U =>
      split
      · exact ih σ (hR1 (by simp)) hcs1 hσ h1
      · split
        · exact ih σ (hR1 (by simp)) hcs1 hσ h1
        · have hne : ¬ (Point.add ⟨1, 0⟩ Move.U = (⟨2, 0⟩ : Point)) := by simp [Point.add]
          rw [if_neg hne]
          have hinv := scenInv_push SS σ (Point.add ⟨1, 0⟩ Move.U) (1 + 1) d Move.U hσ
            (by simp [Point.add]) (by simp [Point.add]) (by simp [Point.add])
            ⟨by decide, fun h => absurd h (by decide)⟩
          exact ih _ (hR1 (by simp)) hcs1 hinv (by simpa [Grid.set, Point.add] using h1)
    | R =>
      have hoff : ¬ offGrid e (Point.add ⟨1, 0⟩ Move.R) = true := by
        have := ctx.w; have := ctx.h
        simp [offGrid, Point.add]; omega
      rw [if_neg hoff]
      have hns : ¬ (σ.seen (Point.add ⟨1, 0⟩ Move.R) = SS ∧
          1 + 1 ≥ σ.dist (Point.add ⟨1, 0⟩ Move.R)) := by
        intro hc2
        have := hσ.s2
        simp only [Point.add] at hc2
        norm_num at hc2
        exact this hc2.1
      rw [if_neg hns]
      have hpt : Point.add ⟨1, 0⟩ Move.R = (⟨2, 0⟩ : Point) := by simp [Point.add]
      rw [if_pos hpt]
      obtain ⟨j1, j2⟩ := hσ.c1 h1
      refine ⟨_, rfl, ⟨rfl, ?_, ?_, ?_, ?_, ?_, ?_⟩⟩
      · simpa [Grid.set, Point.add] using hσ.d0
      · simpa [Grid.set, Point.add] using hσ.p0
      · simpa [Grid.set, Point.add] using j1
      · simpa [Grid.set, Point.add] using j2
      · simp [Grid.set, Point.add]
      · simp [Grid.set, Point.add]

/-! ## The queue is never stuck -/

theorem comp_irrefl (a : QEl) : comp a a = false := by
  simp [comp]

theorem comp_trans (a b c : QEl) (h1 : comp a b = true) (h2 : comp b c = true) :
    comp a c = true := by
  simp only [comp, Bool.or_eq_true, Bool.and_eq_true, decide_eq_true_eq] at *
  omega

theorem isTop_iff (Q : List QEl) (en : QEl) :
    isTop Q en = true ↔ ∀ e1 ∈ Q, comp en e1 = false := by
  simp [isTop, List.all_eq_true]

theorem exists_top (Q : List QEl) (h : Q ≠ []) : ∃ en ∈ Q, isTop Q en = true := by
  induction Q with
  | nil => exact absurd rfl h
  | cons x xs ih =>
    by_cases hxs : xs = []
    · subst hxs
      refine ⟨x, List.mem_cons_self _ _, ?_⟩
      rw [isTop_iff]
      intro e1 he1
      rw [List.mem_singleton.mp he1]; exact comp_irrefl x
    · obtain ⟨m, hm, hmt⟩ := ih hxs
      rw [isTop_iff] at hmt
      by_cases hc : comp m x = true
      · refine ⟨x, List.mem_cons_self _ _, ?_⟩
        rw [isTop_iff]
        intro e1 he1
        rcases List.mem_cons.mp he1 with h1 | h1
        · rw [h1]; exact comp_irrefl x
        · by_contra hne
          have hx : comp x e1 = true := by simpa using hne
          have := comp_trans m x e1 hc hx
          rw [hmt e1 h1] at this
          exact absurd this (by simp)
      · refine ⟨m, List.mem_cons_of_mem _ hm, ?_⟩
        rw [isTop_iff]
        intro e1 he1
        rcases List.mem_cons.mp he1 with h1 | h1
        · rw [h1]; simpa using hc
        · exact hmt e1 h1

theorem popQ_some (tie : Nat) (Q : List QEl) (h : Q ≠ []) :
    ∃ top Q1, popQ tie Q = some (top, Q1) := by
  obtain ⟨en, hen, htop⟩ := exists_top Q h
  obtain ⟨k, hk, hget⟩ := List.mem_iff_getElem.mp hen
  have hmem : k ∈ topIdxs Q := by
    unfold topIdxs
    rw [List.mem_filter, List.mem_range]
    refine ⟨hk, ?_⟩
    rw [List.getD_eq_getElem _ _ hk, hget]; exact htop
  unfold popQ
  cases hidx : topIdxs Q with
  | nil => rw [hidx] at hmem; simp at hmem
  | cons k0 ks => exact ⟨_, _, rfl⟩

/-! ## Erasing the popped entry -/

theorem eraseIdx_split {α : Type} (l : List α) (k : Nat) (h : k < l.length) :
    l = l.take k ++ l[k] :: l.drop (k + 1) ∧ l.eraseIdx k = l.take k ++ l.drop (k + 1) := by
  refine ⟨(set_split l k h l[k]).1, ?_⟩
  rw [List.eraseIdx_eq_take_drop_succ]

theorem mem_eraseIdx_of_ne {α : Type} (l : List α) (k : Nat) (h : k < l.length) (x : α)
    (hx : x ∈ l) (hne : x ≠ l[k]) : x ∈ l.eraseIdx k := by
  obtain ⟨h1, h2⟩ := eraseIdx_split l k h
  rw [h2]
  rw [h1] at hx
  rcases List.mem_append.mp hx with h3 | h3
  · exact List.mem_append_left _ h3
  · rcases List.mem_cons.mp h3 with h4 | h4
    · exact absurd h4 hne
    · exact List.mem_append_right _ h4

theorem filter_eraseIdx_length {α : Type} (p : α → Bool) (l : List α) (k : Nat)
    (h : k < l.length) (hp : p l[k] = true) :
    ((l.eraseIdx k).filter p).length + 1 = (l.filter p).length := by
  obtain ⟨h1, h2⟩ := eraseIdx_split l k h
  rw [h2]
  have e1 : (l.filter p).length
      = ((l.take k ++ l[k] :: l.drop (k + 1)).filter p).length :=
    congrArg (fun l => (l.filter p).length) h1
  rw [e1, List.filter_append, List.filter_append, List.filter_cons_of_pos hp]
  simp only [List.length_append, List.length_cons]
  omega

/-! ## The parts of an expansion that do nothing in the scenario -/

theorem maybeShuffle_same (e : Env) (σ : Search) :
    (maybeShuffle e σ).Q = σ.Q ∧ (maybeShuffle e σ).found = σ.found ∧
      (maybeShuffle e σ).seen = σ.seen ∧ (maybeShuffle e σ).dist = σ.dist ∧
      (maybeShuffle e σ).pred = σ.pred ∧ (maybeShuffle e σ).vs.Perm σ.vs := by
  unfold maybeShuffle
  split
  · exact ⟨rfl, rfl, rfl, rfl, rfl, shuffleList_perm _ _⟩
  · exact ⟨rfl, rfl, rfl, rfl, rfl, List.Perm.refl _⟩

theorem ownLoop_none (e : Env) (SS : Int) (a : Arm) (pt q : Point) (l depth : Int) :
    ∀ (cs : List Move) (σ : Search), (∀ c ∈ cs, a.how (q.add c) ≠ c) →
      ownLoop e SS a pt q l depth cs σ = σ := by
  intro cs
  induction cs with
  | nil => intro σ _; rfl
  | cons c cs ih =>
    intro σ h
    unfold ownLoop
    have hc := h c (List.mem_cons_self _ _)
    simp only [hc, ne_eq, not_false_eq_true, decide_True, Bool.or_true, ↓reduceIte]
    exact ih σ (fun c1 h1 => h c1 (List.mem_cons_of_mem _ h1))

theorem scenInv_sub (SS : Int) (σ : Search) (Q1 : List QEl) (c : Nat) (h : ScenInv SS σ)
    (hsub : ∀ en ∈ Q1, en ∈ σ.Q) : ScenInv SS { σ with Q := Q1, clock := c } :=
  ⟨h.nf, h.s0, h.d0, h.p0, h.s2, h.c1, fun en hen => h.q en (hsub en hen)⟩

theorem scenInv_shuffle (e : Env) (SS : Int) (σ : Search) (h : ScenInv SS σ) :
    ScenInv SS (maybeShuffle e σ) := by
  obtain ⟨k1, k2, k3, k4, k5, _⟩ := maybeShuffle_same e σ
  refine ⟨?_, ?_, ?_, ?_, ?_, ?_, ?_⟩
  · rw [k2]; exact h.nf
  · rw [k3]; exact h.s0
  · rw [k4]; exact h.d0
  · rw [k5]; exact h.p0
  · rw [k3]; exact h.s2
  · rw [k3, k4, k5]; exact h.c1
  · rw [k1]; exact h.q

theorem early_append_late (Q new : List QEl) (h : ∀ en ∈ new, en.l = 2) :
    early (Q ++ new) = early Q := by
  unfold early
  rw [List.filter_append, List.length_append]
  have : new.filter (fun en => decide (en.l ≤ 1)) = [] := by
    rw [List.filter_eq_nil_iff]
    intro en hen
    rw [h en hen]; decide
  rw [this]; rfl

/-- One turn of the search loop in the scenario: the target is found, or the
loop goes on with one early entry less. -/
theorem scen_step {e : Env} {s : State} {a : Arm} (ctx : ScenCtx e s a) (SS : Int) (n : Nat)
    (σ : Search) (h : ScenLive SS σ) :
    (∃ σf, searchLoop e s 0 0 SS a ⟨2, 0⟩ (n + 2) σ = some σf ∧ ScenDone σf) ∨
      (∃ σ1, searchLoop e s 0 0 SS a ⟨2, 0⟩ (n + 2) σ = searchLoop e s 0 0 SS a ⟨2, 0⟩ (n + 1) σ1 ∧
        ScenLive SS σ1 ∧ early σ1.Q + 1 ≤ early σ.Q) := by
  have hne : σ.Q ≠ [] := List.ne_nil_of_mem h.a
  obtain ⟨top, Q1, hpop⟩ := popQ_some (e.ch.tie σ.clock) σ.Q hne
  obtain ⟨k, hk, htk, hQ1, htop⟩ := popQ_spec _ _ _ _ hpop
  have htk' : top = σ.Q[k] := by rw [htk, List.getD_eq_getElem _ _ hk]
  have hmem : top ∈ σ.Q := by rw [htk']; exact List.getElem_mem _
  have hsub : ∀ en ∈ Q1, en ∈ σ.Q := (popQ_mem _ _ _ _ hpop).2
  have hl : top.l = 1 := by
    have h1 := (isTop_iff _ _).mp htop _ h.a
    simp only [comp, Bool.or_eq_false_iff, decide_eq_false_iff_not, Bool.and_eq_false_iff] at h1
    rcases h.inv.q top hmem with h2 | h2
    · rw [h2]
    · have := h1.1
      have := h2.2.1
      omega
  have hfound : ¬ σ.found = true := by rw [h.inv.nf]; simp
  have hL : ¬ top.l ≥ e.inst.L := by rw [hl, ctx.l]; decide
  have hinv0 := scenInv_sub SS σ Q1 (σ.clock + 1) h.inv hsub
  have hinv1 := scenInv_shuffle e SS _ hinv0
  obtain ⟨m1, _, m3, _, _, m6⟩ := maybeShuffle_same e { σ with Q := Q1, clock := σ.clock + 1 }
  have hs1 : (maybeShuffle e { σ with Q := Q1, clock := σ.clock + 1 }).seen ⟨1, 0⟩ = SS := by
    rw [m3]; exact h.s1
  have hr : Move.R ∈ (maybeShuffle e { σ with Q := Q1, clock := σ.clock + 1 }).vs :=
    m6.mem_iff.mpr h.r
  have hok : ∀ c ∈ (maybeShuffle e { σ with Q := Q1, clock := σ.clock + 1 }).vs,
      c ≠ Move.W ∧ c ≠ Move.x := fun c hc => h.ok c (m6.mem_iff.mp hc)
  conv => enter [1, 1, σf, 1, 1]; unfold searchLoop
  conv => enter [2, 1, σ1, 1, 1]; unfold searchLoop
  simp only [if_neg hfound, hpop, if_neg hL]
  by_cases hA : top = ⟨⟨1, 0⟩, 1, 0⟩
  · left
    subst hA
    have hd : ¬ ((1 : Int) > σ.dist ⟨1, 0⟩) := by rw [(h.inv.c1 h.s1).1]; decide
    have hown : ¬ (a.how ⟨1, 0⟩ ≠ Move.x ∨ (⟨1, 0⟩ : Point) = back a.cur) := by
      rw [ctx.how, ctx.tip]; simp
    simp only [if_neg hd, if_neg hown]
    obtain ⟨σf, hf, hdone⟩ := scen_fresh_mid ctx SS 0 _ _ hr hok hinv1 hs1
    refine ⟨σf, ?_, hdone⟩
    rw [hf]
    simp [searchLoop, hdone.f]
  · right
    have hq : top.q = ⟨0, 1⟩ := by
      rcases h.inv.q top hmem with h2 | h2
      · exact absurd h2 hA
      · exact h2.2.2 hl
    have hA1 : (⟨⟨1, 0⟩, 1, 0⟩ : QEl) ∈ Q1 := by
      rw [hQ1]
      exact mem_eraseIdx_of_ne _ _ hk _ h.a (by rw [← htk']; exact fun hc => hA hc.symm)
    have hearly : early Q1 + 1 = early σ.Q := by
      rw [hQ1]
      exact filter_eraseIdx_length _ _ _ hk (by rw [← htk', hl]; decide)
    by_cases hd : top.l > σ.dist top.q
    · simp only [if_pos hd]
      exact ⟨_, rfl, ⟨hinv0, h.s1, hA1, h.r, h.ok⟩, le_of_eq hearly⟩
    · have hown : ¬ (a.how top.q ≠ Move.x ∨ top.q = back a.cur) := by
        rw [ctx.how, ctx.tip, hq]; simp
      simp only [if_neg hd, if_neg hown]
      rw [hq, hl]
      obtain ⟨σ2, j1, j2, j3, _, j5, new, j6, j7⟩ :=
        scen_fresh_side ctx SS top.depth _ _ hok hinv1
      rw [j1]
      refine ⟨σ2, rfl, ⟨j2, j5 hs1, ?_, ?_, ?_⟩, ?_⟩
      · rw [j6, m1]; exact List.mem_append_left _ hA1
      · rw [j3]; exact hr
      · rw [j3]; exact hok
      · rw [j6, m1, early_append_late _ _ j7]
        exact le_of_eq hearly

/-- Once `(1,0)` is queued the search of the scenario succeeds, given fuel. -/
theorem scen_phase2 {e : Env} {s : State} {a : Arm} (ctx : ScenCtx e s a) (SS : Int) :
    ∀ (k : Nat) (σ : Search) (n : Nat), ScenLive SS σ → early σ.Q ≤ k → k + 2 ≤ n →
      ∃ σf, searchLoop e s 0 0 SS a ⟨2, 0⟩ n σ = some σf ∧ ScenDone σf := by
  intro k
  induction k with
  | zero =>
    intro σ n h hk hn
    obtain ⟨m, rfl⟩ : ∃ m, n = m + 2 := ⟨n - 2, by omega⟩
    rcases scen_step ctx SS m σ h with h1 | ⟨σ1, _, _, h3⟩
    · exact h1
    · omega
  | succ k ih =>
    intro σ n h hk hn
    obtain ⟨m, rfl⟩ : ∃ m, n = m + 2 := ⟨n - 2, by omega⟩
    rcases scen_step ctx SS m σ h with h1 | ⟨σ1, h1, h2, h3⟩
    · exact h1
    · rw [h1]
      exact ih σ1 (m + 1) h2 (by omega) (by omega)

theorem popQ_single (tie : Nat) (x : QEl) : popQ tie [x] = some (x, []) := by
  simp [popQ, topIdxs, isTop, comp_irrefl, List.range_succ, Nat.mod_one]

/-- The search for `(2,0)` from the anchor `(0,0)` of the scenario succeeds,
whatever the random stream and the order of equal-priority entries. -/
theorem scen_search {e : Env} {s : State} {a : Arm} (ctx : ScenCtx e s a) (SS : Int)
    (seen dist : Grid Int) (pred : Grid Move) (clock n : Nat) (hseen : ∀ p, seen p ≠ SS)
    (hn : 7 ≤ n) :
    ∃ σf, searchLoop e s 0 0 SS a ⟨2, 0⟩ n
        ⟨[⟨⟨0, 0⟩, 0, 0⟩], false, [Move.R, Move.L, Move.U, Move.D], seen.set ⟨0, 0⟩ SS,
          dist.set ⟨0, 0⟩ 0, pred.set ⟨0, 0⟩ Move.x, clock⟩ = some σf ∧ ScenDone σf := by
  obtain ⟨m, rfl⟩ : ∃ m, n = m + 1 := ⟨n - 1, by omega⟩
  unfold searchLoop
  have hL : ¬ ((0 : Int) ≥ e.inst.L) := by rw [ctx.l]; decide
  have hd : ¬ ((0 : Int) > Grid.set dist ⟨0, 0⟩ 0 ⟨0, 0⟩) := by simp [Grid.set]
  have hown : a.how ⟨0, 0⟩ ≠ Move.x ∨ (⟨0, 0⟩ : Point) = back a.cur := Or.inr ctx.tip.symm
  simp only [popQ_single, Bool.false_eq_true, ↓reduceIte, if_neg hL, if_neg hd, if_pos hown]
  -- the expansion of the anchor
  have hinv0 : ScenInv SS
      ⟨[], false, [Move.R, Move.L, Move.U, Move.D], seen.set ⟨0, 0⟩ SS,
        dist.set ⟨0, 0⟩ 0, pred.set ⟨0, 0⟩ Move.x, clock + 1⟩ := by
    refine ⟨rfl, ?_, ?_, ?_, ?_, ?_, ?_⟩
    · simp [Grid.set]
    · simp [Grid.set]
    · simp [Grid.set]
    · simpa [Grid.set] using hseen ⟨2, 0⟩
    · intro h1
      exact absurd (by simpa [Grid.set] using h1) (hseen ⟨1, 0⟩)
    · intro en hen; simp at hen
  have hinv1 := scenInv_shuffle e SS _ hinv0
  obtain ⟨m1, _, m3, _, _, m6⟩ := maybeShuffle_same e
    ⟨[], false, [Move.R, Move.L, Move.U, Move.D], seen.set ⟨0, 0⟩ SS,
      dist.set ⟨0, 0⟩ 0, pred.set ⟨0, 0⟩ Move.x, clock + 1⟩
  have hr : Move.R ∈ (maybeShuffle e
      ⟨[], false, [Move.R, Move.L, Move.U, Move.D], seen.set ⟨0, 0⟩ SS,
        dist.set ⟨0, 0⟩ 0, pred.set ⟨0, 0⟩ Move.x, clock + 1⟩).vs :=
    m6.mem_iff.mpr (by simp)
  have hok : ∀ c ∈ (maybeShuffle e
      ⟨[], false, [Move.R, Move.L, Move.U, Move.D], seen.set ⟨0, 0⟩ SS,
        dist.set ⟨0, 0⟩ 0, pred.set ⟨0, 0⟩ Move.x, clock + 1⟩).vs,
      c ≠ Move.W ∧ c ≠ Move.x := by
    intro c hc
    have := m6.mem_iff.mp hc
    simp at this
    rcases this with h | h | h | h <;> rw [h] <;> exact ⟨by decide, by decide⟩
  rw [ownLoop_none e SS a _ _ _ _ _ _ (fun c hc => by rw [ctx.how]; exact fun h => (hok c hc).2 h.symm)]
  obtain ⟨σ2, j1, j2, j3, _, j5, j6, _, j8⟩ := scen_fresh_origin ctx SS _ _ hok hinv1
    (fun h1 => absurd (by rw [m3] at h1; simpa [Grid.set] using h1) (hseen ⟨1, 0⟩))
  rw [j1]
  have hlive : ScenLive SS σ2 := ⟨j2, j6 hr, j8 (j6 hr), by rw [j3]; exact hr, by rw [j3]; exact hok⟩
  have hearly : early σ2.Q ≤ 4 := by
    have h1 : σ2.Q.length ≤ 4 := by
      have := m6.length_eq
      rw [m1] at j5
      simp only [List.length_nil, List.length_cons] at j5 this
      omega
    exact le_trans (List.length_filter_le _ _) h1
  exact scen_phase2 ctx SS 4 σ2 m hlive hearly (by omega)

theorem insertAt_nil {α : Type} (n : Nat) (a : α) : insertAt n a [] = [a] := by
  cases n <;> rfl

theorem shuffleList_single {α : Type} (r : Nat) (a : α) : shuffleList r [a] = [a] := by
  simp [shuffleList, insertAt_nil]

theorem scen_start (W H : Int) (ch : Chance) (lib : Libm) (fuel clock : Nat) :
    startState (scenarioEnvOn W H ch lib fuel) [⟨0, 0⟩] [2] clock =
      ⟨[Arm.new 0 0 0], Grid.set (fun _ => -1) ⟨0, 0⟩ 0, Grid.set (fun _ => -1) ⟨0, 0⟩ 10, [0], 0,
        fun _ => 0, fun _ => 0, fun _ => Move.x, 0, clock + 2⟩ := by
  have h1 : orderMounts (scenarioEnvOn W H ch lib fuel) [⟨0, 0⟩] (clock + 1) = [⟨0, 0⟩] := by
    unfold orderMounts
    split <;> simp [shuffleList_single]
  have h2 : penalise (scenarioEnvOn W H ch lib fuel) [⟨0, 0⟩] [2] = [2] := by
    have : penalise (scenarioEnvOn W H ch lib fuel) [⟨0, 0⟩] [2]
        = penalise (scenarioEnvOn 0 0 chanceZero libmOne 0) [⟨0, 0⟩] [2] := rfl
    rw [this]; decide
  have h3 : rankTasks (scenarioEnvOn W H ch lib fuel) [2] clock = [0] := by
    unfold rankTasks
    have : (scenarioEnvOn W H ch lib fuel).inst.T = 1 := rfl
    rw [this]
    simp [List.range_succ, shuffleList_single]
  have h4 : budget (scenarioEnvOn W H ch lib fuel) = 10 := by
    have : budget (scenarioEnvOn W H ch lib fuel)
        = budget (scenarioEnvOn 0 0 chanceZero libmOne 0) := rfl
    rw [this]; decide
  unfold startState initState
  rw [h1, h2, h3, h4]
  rfl


theorem scen_waypoint_first (e : Env) (s : State) (sc : Scratch) (hfuel : 1 ≤ e.fuel)
    (hL : e.inst.L = 10) :
    waypoint e s 0 0 (Arm.new 0 0 0) ⟨0, 0⟩ sc =
      some (some (Arm.new 0 0 0),
        ⟨sc.seen.set ⟨0, 0⟩ (sc.SS + 1), sc.dist.set ⟨0, 0⟩ 0, sc.pred.set ⟨0, 0⟩ Move.x,
          sc.SS + 1, sc.clock⟩) := by
  obtain ⟨m, hm⟩ : ∃ m, e.fuel = m + 1 := ⟨e.fuel - 1, by omega⟩
  unfold waypoint
  simp [hm, Arm.new, back, searchLoop, predWalk, Grid.set, unwind, appendMoves, toSize, hL]

theorem scen_waypoint_second {e : Env} {s : State} (ctx : ScenCtx e s (Arm.new 0 0 0))
    (sc : Scratch) (hseen : ∀ p, sc.seen p ≠ sc.SS + 1) (hfuel : 7 ≤ e.fuel) :
    ∃ sc1 how, waypoint e s 0 0 (Arm.new 0 0 0) ⟨2, 0⟩ sc =
      some (some ⟨how, [Move.R, Move.R], [Move.R, Move.R], [⟨0, 0⟩, ⟨1, 0⟩, ⟨2, 0⟩], [], 0, false⟩,
        sc1) := by
  obtain ⟨σf, hσ, hdone⟩ := scen_search ctx (sc.SS + 1) sc.seen sc.dist sc.pred sc.clock e.fuel
    hseen hfuel
  obtain ⟨m, hm⟩ : ∃ m, e.fuel = m + 3 := ⟨e.fuel - 3, by omega⟩
  have hp : predWalk σf.pred e.fuel ⟨2, 0⟩ [] = some ([Move.R, Move.R], ⟨0, 0⟩) := by
    rw [hm]
    simp [predWalk, hdone.p2, hdone.p1, hdone.p0, Point.add, opp]
  unfold waypoint
  have e1 : back (Arm.new 0 0 0).cur = ⟨0, 0⟩ := rfl
  have e2 : ((Arm.new 0 0 0).path.length : Int) = 0 := rfl
  simp only [e1, e2]
  have e3 : decide ((⟨0, 0⟩ : Point) = ⟨2, 0⟩) = false := by decide
  rw [e3, hσ]
  simp only [hdone.f, Bool.true_eq_false, ↓reduceIte, hp]
  have e4 : unwind (Arm.new 0 0 0).cur.length ⟨0, 0⟩ (Arm.new 0 0 0) = some (Arm.new 0 0 0) := rfl
  rw [e4]
  simp only [List.reverse_cons, List.reverse_nil, List.nil_append, List.singleton_append,
    appendMoves, Arm.new, back, List.getLastD, Point.add, hdone.d0, hdone.d1, hdone.d2]
  simp [ctx.l, toSize, List.getLast, hdone.d0, hdone.d1, hdone.d2]


/-- The first iteration of the main loop in the scenario commits the task
along `RR`. -/
theorem scen_first_iteration (W H : Int) (ch : Chance) (lib : Libm) (fuel clock : Nat)
    (hW : 3 ≤ W) (hH : 1 ≤ H) (hfuel : 7 ≤ fuel) :
    ∃ s1 how, mainStep (scenarioEnvOn W H ch lib fuel)
        (startState (scenarioEnvOn W H ch lib fuel) [⟨0, 0⟩] [2] clock) = some (some s1) ∧
      s1.arms = [⟨how, [Move.R, Move.R], [Move.R, Move.R], [⟨0, 0⟩, ⟨1, 0⟩, ⟨2, 0⟩], [0], 0,
        false⟩] ∧ s1.ts = [] ∧ s1.score = 5 := by
  rw [scen_start]
  have hctx : ScenCtx (scenarioEnvOn W H ch lib fuel)
      ⟨[Arm.new 0 0 0], Grid.set (fun _ => -1) ⟨0, 0⟩ 0, Grid.set (fun _ => -1) ⟨0, 0⟩ 10, [0], 0,
        fun _ => 0, fun _ => 0, fun _ => Move.x, 0, clock + 2⟩ (Arm.new 0 0 0) :=
    ⟨hW, hH, rfl, by simp [Grid.set], fun p hp => by simp [Grid.set, hp], fun _ => rfl, rfl⟩
  have h1 := scen_waypoint_first (scenarioEnvOn W H ch lib fuel)
    ⟨[Arm.new 0 0 0], Grid.set (fun _ => -1) ⟨0, 0⟩ 0, Grid.set (fun _ => -1) ⟨0, 0⟩ 10, [0], 0,
      fun _ => 0, fun _ => 0, fun _ => Move.x, 0, clock + 2⟩
    ⟨fun _ => 0, fun _ => 0, fun _ => Move.x, 0, clock + 2⟩
    (by show 1 ≤ fuel; omega) rfl
  obtain ⟨sc2, how, h2⟩ := scen_waypoint_second hctx
    ⟨Grid.set (fun _ => 0) ⟨0, 0⟩ (0 + 1), Grid.set (fun _ => 0) ⟨0, 0⟩ 0,
      Grid.set (fun _ => Move.x) ⟨0, 0⟩ Move.x, 0 + 1, clock + 2⟩
    (by intro p; simp only [Grid.set]; split <;> decide) (by show 7 ≤ fuel; omega)
  have hsel : selectArm [Arm.new 0 0 0] (List.range (scenarioEnvOn W H ch lib fuel).inst.R) none
      = some 0 := rfl
  have htask : (scenarioEnvOn W H ch lib fuel).inst.task 0 = [⟨0, 0⟩, ⟨2, 0⟩] := rfl
  have hrew : (scenarioEnvOn W H ch lib fuel).inst.reward 0 = 5 := rfl
  have hc : candidates (scenarioEnvOn W H ch lib fuel)
      ⟨[Arm.new 0 0 0], Grid.set (fun _ => -1) ⟨0, 0⟩ 0, Grid.set (fun _ => -1) ⟨0, 0⟩ 10, [0], 0,
        fun _ => 0, fun _ => 0, fun _ => Move.x, 0, clock + 2⟩ 0 [0]
      ⟨default, none, Frac.ofInt (-1)⟩ ⟨fun _ => 0, fun _ => 0, fun _ => Move.x, 0, clock + 2⟩
      = some (⟨⟨how, [Move.R, Move.R], [Move.R, Move.R], [⟨0, 0⟩, ⟨1, 0⟩, ⟨2, 0⟩], [], 0, false⟩,
          some 0, Frac.ofDiv 5 2⟩, sc2) := by
    unfold candidates
    simp only [htask, State.arm, List.getD_cons_zero]
    unfold waypoints
    rw [h1]
    simp only
    unfold waypoints
    rw [h2]
    simp only [waypoints, Arm.new, List.length_cons, List.length_nil, hrew]
    simp [candidates, Frac.lt, Frac.ofDiv, Frac.ofInt]
  have hm : mainStep (scenarioEnvOn W H ch lib fuel)
      ⟨[Arm.new 0 0 0], Grid.set (fun _ => -1) ⟨0, 0⟩ 0, Grid.set (fun _ => -1) ⟨0, 0⟩ 10, [0], 0,
        fun _ => 0, fun _ => 0, fun _ => Move.x, 0, clock + 2⟩
      = some (some (commitStep (scenarioEnvOn W H ch lib fuel)
          ⟨[Arm.new 0 0 0], Grid.set (fun _ => -1) ⟨0, 0⟩ 0, Grid.set (fun _ => -1) ⟨0, 0⟩ 10, [0],
            0, sc2.seen, sc2.dist, sc2.pred, sc2.SS, sc2.clock⟩ 0
          ⟨how, [Move.R, Move.R], [Move.R, Move.R], [⟨0, 0⟩, ⟨1, 0⟩, ⟨2, 0⟩], [], 0, false⟩ 0)) := by
    unfold mainStep
    simp only [hsel, hc]
  refine ⟨_, how, hm, ?_, ?_, ?_⟩
  · simp [commitStep, resetDone, toSize]
  · rfl
  · rfl


/-- The second iteration finds no candidate and retracts the arm along `LL`. -/
theorem scen_second_iteration (e : Env) (hR : e.inst.R = 1) (hL : e.inst.L = 10) (s1 : State)
    (how : Grid Move)
    (harms : s1.arms = [⟨how, [Move.R, Move.R], [Move.R, Move.R], [⟨0, 0⟩, ⟨1, 0⟩, ⟨2, 0⟩], [0],
      0, false⟩]) (hts : s1.ts = []) :
    ∃ s2, mainStep e s1 = some (some s2) ∧
      s2.arms.map (fun a => a.path) = [[Move.R, Move.R, Move.L, Move.L]] ∧
      s2.arms.map (fun a => a.done) = [true] ∧ s2.score = s1.score := by
  obtain ⟨arms, owner, until_, ts, score, seen, dist, pred, SS, clock⟩ := s1
  simp only at harms hts
  subst harms hts
  have hsel : selectArm [⟨how, [Move.R, Move.R], [Move.R, Move.R], [⟨0, 0⟩, ⟨1, 0⟩, ⟨2, 0⟩], [0],
      0, false⟩] (List.range e.inst.R) none = some 0 := by
    rw [hR]; rfl
  have hm : mainStep e ⟨[⟨how, [Move.R, Move.R], [Move.R, Move.R], [⟨0, 0⟩, ⟨1, 0⟩, ⟨2, 0⟩], [0],
      0, false⟩], owner, until_, [], score, seen, dist, pred, SS, clock⟩
      = some (some (retractStep e ⟨[⟨how, [Move.R, Move.R], [Move.R, Move.R],
          [⟨0, 0⟩, ⟨1, 0⟩, ⟨2, 0⟩], [0], 0, false⟩], owner, until_, [], score, seen, dist, pred, SS,
          clock⟩ 0)) := by
    unfold mainStep
    simp only [hsel, candidates]
  refine ⟨_, hm, ?_, ?_, ?_⟩
  · simp [retractStep, State.arm, retractLoop, hL, toSize, resetDone, back, backMove, opp]
  · simp [retractStep, State.arm, retractLoop, hL, toSize, resetDone, back, backMove, opp]
  · exact (retractStep_score e _ 0).1

theorem selectArm_all_done (arms : List Arm) : ∀ (is : List Nat) (i0 : Option Nat),
    (∀ k ∈ is, (arms.getD k default).done = true) → selectArm arms is i0 = i0 := by
  intro is
  induction is with
  | nil => intro i0 _; rfl
  | cons k is ih =>
    intro i0 h
    unfold selectArm
    rw [h k (List.mem_cons_self _ _)]
    simp only [Bool.not_true, Bool.false_and, Bool.false_eq_true, ↓reduceIte]
    exact ih i0 (fun k1 h1 => h k1 (List.mem_cons_of_mem _ h1))

/-- In the third iteration every arm is done and the loop is left. -/
theorem scen_third_iteration (e : Env) (hR : e.inst.R = 1) (s2 : State)
    (hdone : s2.arms.map (fun a => a.done) = [true]) : mainStep e s2 = some none := by
  have hsel : selectArm s2.arms (List.range e.inst.R) none = none := by
    apply selectArm_all_done
    intro k hk
    rw [hR] at hk
    have hk0 : k = 0 := by simpa using hk
    subst hk0
    cases harms : s2.arms with
    | nil => rw [harms] at hdone; simp at hdone
    | cons a l =>
      rw [harms] at hdone
      simp only [List.map_cons, List.cons.injEq] at hdone
      simpa using hdone.1
  unfold mainStep
  simp only [hsel]


/-- C7 (as the code has it): in the scenario of one arm anchored at `(0,0)`,
horizon 10 and one task of reward 5 through `(0,0)` and `(2,0)`, on any grid
that holds these cells, with the default parameters and whatever the random
stream, `greedy_solver` returns score 5 and the arm's final `path` is `RRLL`:
the two moves of the task followed by the retraction to the anchor. -/
theorem scenario_score_and_path (W H : Int) (ch : Chance) (lib : Libm) (fuel clock : Nat)
    (hW : 3 ≤ W) (hH : 1 ≤ H) (hfuel : 7 ≤ fuel) :
    ∃ r, greedy_solver (scenarioEnvOn W H ch lib fuel) [⟨0, 0⟩] [2] clock = some r ∧
      r.score = 5 ∧
      r.arms.map (fun a => a.path) = [[Move.R, Move.R, Move.L, Move.L]] := by
  obtain ⟨m, rfl⟩ : ∃ m, fuel = m + 3 := ⟨fuel - 3, by omega⟩
  obtain ⟨s1, how, h1, k1, k2, k3⟩ := scen_first_iteration W H ch lib (m + 3) clock hW hH hfuel
  obtain ⟨s2, h2, j1, j2, j3⟩ :=
    scen_second_iteration (scenarioEnvOn W H ch lib (m + 3)) rfl rfl s1 how k1 k2
  have h3 := scen_third_iteration (scenarioEnvOn W H ch lib (m + 3)) rfl s2 j2
  have hloop : mainLoop (scenarioEnvOn W H ch lib (m + 3))
      (scenarioEnvOn W H ch lib (m + 3)).fuel
      (startState (scenarioEnvOn W H ch lib (m + 3)) [⟨0, 0⟩] [2] clock) = some s2 := by
    show mainLoop _ (m + 3) _ = _
    simp [mainLoop, h1, h2, h3]
  have hg : greedy_solver (scenarioEnvOn W H ch lib (m + 3)) [⟨0, 0⟩] [2] clock
      = some ⟨s2.score, s2.arms, orderMounts (scenarioEnvOn W H ch lib (m + 3)) [⟨0, 0⟩] (clock + 1),
          penalise (scenarioEnvOn W H ch lib (m + 3)) [⟨0, 0⟩] [2], s2.clock⟩ := by
    unfold greedy_solver
    simp only
    rw [if_neg (by show ¬ (1 < 1); decide)]
    show (match mainLoop (scenarioEnvOn W H ch lib (m + 3))
        (scenarioEnvOn W H ch lib (m + 3)).fuel
        (startState (scenarioEnvOn W H ch lib (m + 3)) [⟨0, 0⟩] [2] clock) with
      | none => none
      | some s => some (Result.mk s.score s.arms _ _ s.clock)) = _
    rw [hloop]
  exact ⟨_, hg, by rw [j3, k3], j1⟩

theorem scenario_score_and_path_witness :
    (3 : Int) ≤ 3 ∧ (1 : Int) ≤ 1 ∧ 7 ≤ 50 ∧
      ∃ r, greedy_solver (scenarioEnvOn 3 1 chanceZero libmOne 50) [⟨0, 0⟩] [2] 0 = some r ∧
        r.score = 5 ∧
        r.arms.map (fun a => a.path) = [[Move.R, Move.R, Move.L, Move.L]] :=
  ⟨by decide, by decide, by decide,
    scenario_score_and_path 3 1 chanceZero libmOne 50 0 (by decide) (by decide) (by decide)⟩

/-- C7 fails as stated: on the `3 × 1` grid the scenario returns score 5 with
the final `path` `RRLL`, not `RR`. -/
theorem scenario_path_is_not_RR :
    (greedy_solver scenarioEnv [⟨0, 0⟩] [2] 0).map
        (fun r => (r.score, r.arms.map (fun a => a.path)))
        = some (5, [[Move.R, Move.R, Move.L, Move.L]]) ∧
      (greedy_solver scenarioEnv [⟨0, 0⟩] [2] 0).map (fun r => r.arms.map (fun a => a.path))
        ≠ some [[Move.R, Move.R]] := by
  decide

theorem add_ne_self (p : Point) (c : Move) (h : c ≠ Move.x ∧ c ≠ Move.W) : p.add c ≠ p := by
  obtain ⟨px, py⟩ := p
  cases c <;> simp [Point.add] at h ⊢

theorem set_same_cell {α : Type} (g : Grid α) (p : Point) (v : α) : g.set p v p = v := by
  simp [Grid.set]

theorem set_other_cell {α : Type} (g : Grid α) (p q : Point) (v : α) (h : q ≠ p) :
    g.set p v q = g q := by
  simp [Grid.set, h]

/-- Recording a step back along the chain keeps the invariant. -/
theorem sinv_own {e : Env} {s : State} {i : Nat} {a : Arm} {SS : Int} {σ : Search}
    (h : SInv e s i a SS σ) (p : Point) (l : Int) (Q1 : List QEl) (f : Bool)
    (hhow : a.how p ≠ Move.x) (hl : (a.path.length : Int) ≤ l + 1)
    (hQ : ∀ en ∈ Q1, en ∈ σ.Q ∨ (en.q = p ∧ en.l = l + 1)) :
    SInv e s i a SS
      { σ with seen := σ.seen.set p SS, dist := σ.dist.set p (l + 1),
               pred := σ.pred.set p Move.x, Q := Q1, found := f } := by
  have hseen : ∀ r, σ.seen r = SS → σ.seen.set p SS r = SS := by
    intro r hr
    by_cases hrp : r = p
    · rw [hrp, set_same_cell]
    · rw [set_other_cell _ _ _ _ hrp]; exact hr
  refine ⟨h.vs, ?_, ?_, ?_, ?_, ?_⟩
  · intro r
    show σ.seen.set p SS r ≤ SS
    by_cases hrp : r = p
    · rw [hrp, set_same_cell]
    · rw [set_other_cell _ _ _ _ hrp]; exact h.stamp r
  · intro en hen
    show σ.seen.set p SS en.q = SS ∧ _ ∧ (σ.pred.set p Move.x en.q ≠ Move.x →
      σ.dist.set p (l + 1) en.q ≤ en.l)
    rcases hQ en hen with h1 | h1
    · obtain ⟨k1, k2, k3⟩ := h.q en h1
      refine ⟨hseen _ k1, k2, ?_⟩
      by_cases hq : en.q = p
      · rw [hq, set_same_cell]; intro hc; exact absurd rfl hc
      · rw [set_other_cell _ _ _ _ hq, set_other_cell _ _ _ _ hq]; exact k3
    · rw [h1.1, h1.2, set_same_cell, set_same_cell]
      exact ⟨rfl, hl, fun hc => absurd rfl hc⟩
  · intro ht
    have hne : back a.cur ≠ p := fun hc => hhow (hc ▸ ht)
    show σ.seen.set p SS _ = SS ∧ σ.pred.set p Move.x _ = Move.x ∧ σ.dist.set p (l + 1) _ = _
    rw [set_other_cell _ _ _ _ hne, set_other_cell _ _ _ _ hne, set_other_cell _ _ _ _ hne]
    exact h.tip ht
  · intro r hr hpr
    by_cases hrp : r = p
    · right; rw [hrp]; exact hhow
    · have hr' : σ.seen r = SS := by
        have := hr
        show σ.seen r = SS
        simpa [Grid.set, hrp] using this
      have hpr' : σ.pred r = Move.x := by
        have := hpr
        show σ.pred r = Move.x
        simpa [Grid.set, hrp] using this
      exact h.root r hr' hpr'
  · intro r hr hpr
    have hrp : r ≠ p := by
      intro hc
      apply hpr
      show σ.pred.set p Move.x r = Move.x
      rw [hc, set_same_cell]
    have hr' : σ.seen r = SS := by
      have := hr
      show σ.seen r = SS
      simpa [Grid.set, hrp] using this
    have hpr' : σ.pred r ≠ Move.x := by
      have := hpr
      show σ.pred r ≠ Move.x
      simpa [Grid.set, hrp] using this
    obtain ⟨k1, k2, k3, k4⟩ := h.link r hr' hpr'
    show _ ∧ _ ∧ σ.seen.set p SS (r.add (opp (σ.pred.set p Move.x r))) = SS ∧
      (σ.pred.set p Move.x (r.add (opp (σ.pred.set p Move.x r))) ≠ Move.x →
        σ.dist.set p (l + 1) (r.add (opp (σ.pred.set p Move.x r))) < σ.dist.set p (l + 1) r)
    rw [set_other_cell σ.pred _ _ _ hrp, set_other_cell σ.dist _ r _ hrp]
    refine ⟨k1, k2, hseen _ k3, ?_⟩
    by_cases hq : r.add (opp (σ.pred r)) = p
    · rw [hq, set_same_cell]; intro hc; exact absurd rfl hc
    · rw [set_other_cell _ _ _ _ hq, set_other_cell _ _ _ _ hq]; exact k4

/-- Recording a step into a cell outside the chain keeps the invariant. -/
theorem sinv_fresh {e : Env} {s : State} {i : Nat} {a : Arm} {SS : Int} {σ : Search}
    (h : SInv e s i a SS σ) (q : Point) (c : Move) (l l2 : Int) (Q1 : List QEl) (f : Bool)
    (hc : c ≠ Move.x ∧ c ≠ Move.W) (hhow : a.how (q.add c) = Move.x)
    (hent : Enterable e s i (q.add c)) (hl2 : l < l2) (hstart : (a.path.length : Int) ≤ l)
    (hq : σ.seen q = SS ∧ (σ.pred q ≠ Move.x → σ.dist q = l))
    (hupd : ¬ (σ.seen (q.add c) = SS ∧ l2 ≥ σ.dist (q.add c)))
    (hQ : ∀ en ∈ Q1, en ∈ σ.Q ∨ (en.q = q.add c ∧ en.l = l2)) :
    SInv e s i a SS
      { σ with seen := σ.seen.set (q.add c) SS, dist := σ.dist.set (q.add c) l2,
               pred := σ.pred.set (q.add c) c, Q := Q1, found := f } := by
  have hseen : ∀ r, σ.seen r = SS → σ.seen.set (q.add c) SS r = SS := by
    intro r hr
    by_cases hrp : r = q.add c
    · rw [hrp, set_same_cell]
    · rw [set_other_cell _ _ _ _ hrp]; exact hr
  have hpq : q ≠ q.add c := fun hcq => add_ne_self q c hc hcq.symm
  have htip : back a.cur ≠ q.add c := by
    intro hcq
    have ht : a.how (back a.cur) = Move.x := by rw [hcq]; exact hhow
    obtain ⟨t1, _, t3⟩ := h.tip ht
    apply hupd
    rw [← hcq]
    exact ⟨t1, by rw [t3]; omega⟩
  have hF3 : σ.seen (q.add c) = SS → σ.pred (q.add c) ≠ Move.x ∧ l2 < σ.dist (q.add c) := by
    intro hs
    constructor
    · intro hp
      rcases h.root _ hs hp with h1 | h1
      · exact htip h1.symm
      · exact h1 hhow
    · by_contra hge
      exact hupd ⟨hs, by omega⟩
  refine ⟨h.vs, ?_, ?_, ?_, ?_, ?_⟩
  · intro r
    show σ.seen.set (q.add c) SS r ≤ SS
    by_cases hrp : r = q.add c
    · rw [hrp, set_same_cell]
    · rw [set_other_cell _ _ _ _ hrp]; exact h.stamp r
  · intro en hen
    show σ.seen.set (q.add c) SS en.q = SS ∧ _ ∧ (σ.pred.set (q.add c) c en.q ≠ Move.x →
      σ.dist.set (q.add c) l2 en.q ≤ en.l)
    rcases hQ en hen with h1 | h1
    · obtain ⟨k1, k2, k3⟩ := h.q en h1
      refine ⟨hseen _ k1, k2, ?_⟩
      by_cases hq1 : en.q = q.add c
      · rw [hq1]
        simp only [set_same_cell]
        intro _
        rw [hq1] at k1 k3
        obtain ⟨j1, j2⟩ := hF3 k1
        have := k3 j1
        omega
      · rw [set_other_cell _ _ _ _ hq1, set_other_cell _ _ _ _ hq1]; exact k3
    · rw [h1.1, h1.2]
      simp only [set_same_cell]
      exact ⟨trivial, by omega, fun _ => le_refl _⟩
  · intro ht
    show σ.seen.set (q.add c) SS _ = SS ∧ σ.pred.set (q.add c) c _ = Move.x ∧
      σ.dist.set (q.add c) l2 _ = _
    rw [set_other_cell _ _ _ _ htip, set_other_cell _ _ _ _ htip, set_other_cell _ _ _ _ htip]
    exact h.tip ht
  · intro r hr hpr
    have hrp : r ≠ q.add c := by
      intro hcq
      have : σ.pred.set (q.add c) c r = Move.x := hpr
      rw [hcq, set_same_cell] at this
      exact hc.1 this
    have hr' : σ.seen r = SS := by
      have : σ.seen.set (q.add c) SS r = SS := hr
      rwa [set_other_cell _ _ _ _ hrp] at this
    have hpr' : σ.pred r = Move.x := by
      have : σ.pred.set (q.add c) c r = Move.x := hpr
      rwa [set_other_cell _ _ _ _ hrp] at this
    exact h.root r hr' hpr'
  · intro r hr hpr
    show _ ∧ _ ∧ σ.seen.set (q.add c) SS (r.add (opp (σ.pred.set (q.add c) c r))) = SS ∧
      (σ.pred.set (q.add c) c (r.add (opp (σ.pred.set (q.add c) c r))) ≠ Move.x →
        σ.dist.set (q.add c) l2 (r.add (opp (σ.pred.set (q.add c) c r)))
          < σ.dist.set (q.add c) l2 r)
    by_cases hrp : r = q.add c
    · rw [hrp]
      simp only [set_same_cell, add_add_opp, set_other_cell _ _ _ _ hpq]
      refine ⟨hent, hhow, hq.1, ?_⟩
      intro hpq1
      rw [hq.2 hpq1]; exact hl2
    · have hr' : σ.seen r = SS := by
        have : σ.seen.set (q.add c) SS r = SS := hr
        rwa [set_other_cell _ _ _ _ hrp] at this
      have hpr' : σ.pred r ≠ Move.x := by
        have : σ.pred.set (q.add c) c r ≠ Move.x := hpr
        rwa [set_other_cell _ _ _ _ hrp] at this
      obtain ⟨k1, k2, k3, k4⟩ := h.link r hr' hpr'
      rw [set_other_cell σ.pred _ _ _ hrp, set_other_cell σ.dist _ r _ hrp]
      refine ⟨k1, k2, hseen _ k3, ?_⟩
      by_cases hq1 : r.add (opp (σ.pred r)) = q.add c
      · rw [hq1]
        simp only [set_same_cell]
        intro _
        rw [hq1] at k3 k4
        obtain ⟨j1, j2⟩ := hF3 k3
        have := k4 j1
        omega
      · rw [set_other_cell _ _ _ _ hq1, set_other_cell _ _ _ _ hq1]; exact k4

/-- What the reservation test guarantees of a cell it lets through. -/
theorem arrival_some (e : Env) (s : State) (i t : Nat) (p : Point) (l l1 : Int)
    (hl : l < e.inst.L) (h : arrival e s i t p l = some (some l1)) :
    Enterable e s i p ∧ l ≤ l1 := by
  unfold arrival at h
  simp only at h
  split at h
  · rename_i hc
    split at h
    · simp at h
    · rename_i hL
      split at h
      · simp at h
      · split at h
        · simp at h
        · split at h
          · simp at h
          · simp only [Option.some.injEq] at h
            exact ⟨Or.inr (by omega), by omega⟩
  · rename_i hc
    simp only [Option.some.injEq] at h
    refine ⟨?_, by omega⟩
    by_cases ho : s.owner p = (i : Int)
    · exact Or.inl ho
    · right
      have : ¬ s.until_ p > l := fun hu => hc ⟨ho, hu⟩
      omega

/-- The invariant only reads the queue, the tables and the directions. -/
theorem SInv.congr {e : Env} {s : State} {i : Nat} {a : Arm} {SS : Int} {σ σ1 : Search}
    (h : SInv e s i a SS σ) (hQ : ∀ en ∈ σ1.Q, en ∈ σ.Q) (hvs : ∀ c ∈ σ1.vs, c ∈ σ.vs)
    (hseen : σ1.seen = σ.seen) (hdist : σ1.dist = σ.dist) (hpred : σ1.pred = σ.pred) :
    SInv e s i a SS σ1 := by
  refine ⟨fun c hc => h.vs c (hvs c hc), ?_, ?_, ?_, ?_, ?_⟩
  · rw [hseen]; exact h.stamp
  · rw [hseen, hdist, hpred]; exact fun en hen => h.q en (hQ en hen)
  · rw [hseen, hdist, hpred]; exact h.tip
  · rw [hseen, hpred]; exact h.root
  · rw [hseen, hdist, hpred]; exact h.link

/-- The first inner loop keeps the invariant, the mark of the target and
what is known of the cell being expanded. -/
theorem ownLoop_sinv (e : Env) (s : State) (i : Nat) (SS : Int) (a : Arm) (pt q : Point)
    (l depth : Int) (hl : (a.path.length : Int) ≤ l + 1) :
    ∀ (cs : List Move) (σ : Search), (∀ c ∈ cs, c ≠ Move.x ∧ c ≠ Move.W) →
      SInv e s i a SS σ → (σ.found = true → σ.seen pt = SS) →
      (σ.seen q = SS ∧ (σ.pred q ≠ Move.x → σ.dist q = l)) →
      SInv e s i a SS (ownLoop e SS a pt q l depth cs σ) ∧
        ((ownLoop e SS a pt q l depth cs σ).found = true →
          (ownLoop e SS a pt q l depth cs σ).seen pt = SS) ∧
        ((ownLoop e SS a pt q l depth cs σ).seen q = SS ∧
          ((ownLoop e SS a pt q l depth cs σ).pred q ≠ Move.x →
            (ownLoop e SS a pt q l depth cs σ).dist q = l)) := by
  intro cs
  induction cs with
  | nil => intro σ _ h hf hq; exact ⟨h, hf, hq⟩
  | cons c cs ih =>
    intro σ hcs h hf hq
    have hc := hcs c (List.mem_cons_self _ _)
    have hcs1 : ∀ c ∈ cs, c ≠ Move.x ∧ c ≠ Move.W := fun d hd => hcs d (List.mem_cons_of_mem _ hd)
    unfold ownLoop
    simp only
    split
    · exact ih σ hcs1 h hf hq
    · rename_i hcond
      simp only [Bool.or_eq_true, decide_eq_true_eq, not_or, not_not] at hcond
      have hhow : a.how (q.add c) ≠ Move.x := by rw [hcond.2]; exact hc.1
      have hpq : q ≠ q.add c := fun hcq => add_ne_self q c hc hcq.symm
      split
      · rename_i hpt
        refine ⟨sinv_own h _ l _ true hhow hl (fun en hen => Or.inl hen), ?_, ?_⟩
        · intro _
          show σ.seen.set (q.add c) SS pt = SS
          rw [← hpt, set_same_cell]
        · show σ.seen.set (q.add c) SS q = SS ∧ (σ.pred.set (q.add c) Move.x q ≠ Move.x →
            σ.dist.set (q.add c) (l + 1) q = l)
          rw [set_other_cell _ _ _ _ hpq, set_other_cell _ _ _ _ hpq,
            set_other_cell _ _ _ _ hpq]
          exact hq
      · refine ih _ hcs1 (sinv_own h _ l _ σ.found hhow hl ?_) ?_ ?_
        · intro en hen
          rcases List.mem_append.mp hen with h1 | h1
          · exact Or.inl h1
          · rw [List.mem_singleton] at h1
            right; rw [h1]; exact ⟨rfl, rfl⟩
        · intro hfd
          show σ.seen.set (q.add c) SS pt = SS
          have := hf hfd
          by_cases hp : pt = q.add c
          · rw [hp, set_same_cell]
          · rw [set_other_cell _ _ _ _ hp]; exact this
        · show σ.seen.set (q.add c) SS q = SS ∧ (σ.pred.set (q.add c) Move.x q ≠ Move.x →
            σ.dist.set (q.add c) (l + 1) q = l)
          rw [set_other_cell _ _ _ _ hpq, set_other_cell _ _ _ _ hpq,
            set_other_cell _ _ _ _ hpq]
          exact hq

/-- The second inner loop keeps the invariant, the mark of the target and
what is known of the cell being expanded. -/
theorem freshLoop_sinv (e : Env) (s : State) (i t : Nat) (SS : Int) (a : Arm) (pt q : Point)
    (l depth : Int) (hl : (a.path.length : Int) ≤ l) (hL : l < e.inst.L) :
    ∀ (cs : List Move) (σ σ1 : Search), (∀ c ∈ cs, c ≠ Move.x ∧ c ≠ Move.W) →
      SInv e s i a SS σ → (σ.found = true → σ.seen pt = SS) →
      (σ.seen q = SS ∧ (σ.pred q ≠ Move.x → σ.dist q = l)) →
      freshLoop e s i t SS a pt q l depth cs σ = some σ1 →
      SInv e s i a SS σ1 ∧ (σ1.found = true → σ1.seen pt = SS) := by
  intro cs
  induction cs with
  | nil =>
    intro σ σ1 _ h hf hq hr
    simp only [freshLoop, Option.some.injEq] at hr
    rw [← hr]; exact ⟨h, hf⟩
  | cons c cs ih =>
    intro σ σ1 hcs h hf hq hr
    have hc := hcs c (List.mem_cons_self _ _)
    have hcs1 : ∀ c ∈ cs, c ≠ Move.x ∧ c ≠ Move.W := fun d hd => hcs d (List.mem_cons_of_mem _ hd)
    unfold freshLoop at hr
    simp only at hr
    split at hr
    · exact ih σ σ1 hcs1 h hf hq hr
    · rename_i hcond
      simp only [Bool.or_eq_true, decide_eq_true_eq, not_or, not_not] at hcond
      have hhow : a.how (q.add c) = Move.x := hcond.2
      have hpq : q ≠ q.add c := fun hcq => add_ne_self q c hc hcq.symm
      split at hr
      · simp at hr
      · exact ih σ σ1 hcs1 h hf hq hr
      · rename_i l1 harr
        obtain ⟨hent, hl1⟩ := arrival_some e s i t _ l l1 hL harr
        split at hr
        · exact ih σ σ1 hcs1 h hf hq hr
        · rename_i hupd
          split at hr
          · rename_i hpt
            simp only [Option.some.injEq] at hr
            rw [← hr]
            refine ⟨sinv_fresh h q c l (l1 + 1) _ true hc hhow hent (by omega) hl hq hupd
              (fun en hen => Or.inl hen), ?_⟩
            intro _
            show σ.seen.set (q.add c) SS pt = SS
            rw [← hpt, set_same_cell]
          · refine ih _ σ1 hcs1 (sinv_fresh h q c l (l1 + 1) _ σ.found hc hhow hent (by omega)
              hl hq hupd ?_) ?_ ?_ hr
            · intro en hen
              rcases List.mem_append.mp hen with h1 | h1
              · exact Or.inl h1
              · rw [List.mem_singleton] at h1
                right; rw [h1]; exact ⟨rfl, rfl⟩
            · intro hfd
              show σ.seen.set (q.add c) SS pt = SS
              have := hf hfd
              by_cases hp : pt = q.add c
              · rw [hp, set_same_cell]
              · rw [set_other_cell _ _ _ _ hp]; exact this
            · show σ.seen.set (q.add c) SS q = SS ∧ (σ.pred.set (q.add c) c q ≠ Move.x →
                σ.dist.set (q.add c) (l1 + 1) q = l)
              rw [set_other_cell _ _ _ _ hpq, set_other_cell _ _ _ _ hpq,
                set_other_cell _ _ _ _ hpq]
              exact hq

/-- The search loop keeps the invariant: when it ends, every recorded step
leads into a cell the arm may enter, and a found target is marked. -/
theorem searchLoop_sinv (e : Env) (s : State) (i t : Nat) (SS : Int) (a : Arm) (pt : Point) :
    ∀ (n : Nat) (σ σ1 : Search), SInv e s i a SS σ → (σ.found = true → σ.seen pt = SS) →
      searchLoop e s i t SS a pt n σ = some σ1 →
      SInv e s i a SS σ1 ∧ (σ1.found = true → σ1.seen pt = SS) := by
  intro n
  induction n with
  | zero => intro σ σ1 _ _ hr; simp [searchLoop] at hr
  | succ n ih =>
    intro σ σ1 h hf hr
    unfold searchLoop at hr
    split at hr
    · simp only [Option.some.injEq] at hr
      rw [← hr]; exact ⟨h, hf⟩
    · have hnf : ¬ σ.found = true := by assumption
      split at hr
      · simp only [Option.some.injEq] at hr
        rw [← hr]; exact ⟨h, hf⟩
      · rename_i top Q1 hpop
        obtain ⟨htop, hsub⟩ := popQ_mem _ _ _ _ hpop
        obtain ⟨k1, k2, k3⟩ := h.q top htop
        have h0 : SInv e s i a SS { σ with Q := Q1, clock := σ.clock + 1 } :=
          h.congr hsub (fun _ hc => hc) rfl rfl rfl
        have hf0 : ({ σ with Q := Q1, clock := σ.clock + 1 } : Search).found = true →
            ({ σ with Q := Q1, clock := σ.clock + 1 } : Search).seen pt = SS := hf
        simp only at hr
        split at hr
        · exact ih _ σ1 h0 hf0 hr
        · rename_i hdist
          split at hr
          · simp only [Option.some.injEq] at hr
            rw [← hr]; exact ⟨h0, hf0⟩
          · rename_i hL
            obtain ⟨m1, m2, m3, m4, m5, m6⟩ :=
              maybeShuffle_same e { σ with Q := Q1, clock := σ.clock + 1 }
            have h1 : SInv e s i a SS (maybeShuffle e { σ with Q := Q1, clock := σ.clock + 1 }) :=
              h0.congr (by rw [m1]; exact fun _ hc => hc) (fun c hc => m6.mem_iff.mp hc) m3 m4 m5
            have hf1 : (maybeShuffle e { σ with Q := Q1, clock := σ.clock + 1 }).found = true →
                (maybeShuffle e { σ with Q := Q1, clock := σ.clock + 1 }).seen pt = SS := by
              rw [m2, m3]; exact hf
            have hq1 : (maybeShuffle e { σ with Q := Q1, clock := σ.clock + 1 }).seen top.q = SS ∧
                ((maybeShuffle e { σ with Q := Q1, clock := σ.clock + 1 }).pred top.q ≠ Move.x →
                  (maybeShuffle e { σ with Q := Q1, clock := σ.clock + 1 }).dist top.q
                    = top.l) := by
              rw [m3, m4, m5]
              refine ⟨k1, fun hp => ?_⟩
              have := k3 hp
              have hd : ¬ top.l > σ.dist top.q := hdist
              show σ.dist top.q = top.l
              omega
            split at hr
            · simp at hr
            · rename_i σ3 hfresh
              split at hfresh
              · obtain ⟨j1, j2, j3⟩ := ownLoop_sinv e s i SS a pt top.q top.l top.depth
                  (by omega) _ _ h1.vs h1 hf1 hq1
                obtain ⟨j4, j5⟩ := freshLoop_sinv e s i t SS a pt top.q top.l top.depth k2
                  (by omega) _ _ σ3 j1.vs j1 j2 j3 hfresh
                exact ih _ σ1 j4 j5 hr
              · obtain ⟨j4, j5⟩ := freshLoop_sinv e s i t SS a pt top.q top.l top.depth k2
                  (by omega) _ _ σ3 h1.vs h1 hf1 hq1 hfresh
                exact ih _ σ1 j4 j5 hr

theorem entered_append : ∀ (xs ys : List Move) (p : Point),
    entered p (xs ++ ys) = entered p xs ++ entered (replay p xs) ys := by
  intro xs
  induction xs with
  | nil => intro ys p; rfl
  | cons c xs ih =>
    intro ys p
    rw [List.cons_append, replay_cons]
    show (if c = Move.W then entered p (xs ++ ys) else p.add c :: entered (p.add c) (xs ++ ys))
      = (if c = Move.W then entered p xs else p.add c :: entered (p.add c) xs)
        ++ entered (replay (p.add c) xs) ys
    split
    · rename_i hc
      rw [ih, hc]; rfl
    · rw [ih, List.cons_append]

theorem entered_replicate_W (p : Point) (n : Nat) : entered p (List.replicate n Move.W) = [] := by
  induction n with
  | zero => rfl
  | succ n ih => simp only [List.replicate_succ, entered, if_true]; exact ih

theorem cells_append : ∀ (xs ys : List Move) (p : Point),
    cells p (xs ++ ys) = cells p xs ++ cells (replay p xs) ys := by
  intro xs
  induction xs with
  | nil => intro ys p; rfl
  | cons c xs ih =>
    intro ys p
    rw [List.cons_append, replay_cons]
    show p.add c :: cells (p.add c) (xs ++ ys)
      = (p.add c :: cells (p.add c) xs) ++ cells (replay (p.add c) xs) ys
    rw [ih, List.cons_append]

theorem mem_dropLast_or_back (l : List Point) (c : Point) (h : c ∈ l) :
    c ∈ l.dropLast ∨ c = back l := by
  induction l using List.reverseRecOn with
  | nil => simp at h
  | append_singleton l a _ =>
    rw [List.dropLast_concat, back_append_singleton]
    rcases List.mem_append.mp h with h1 | h1
    · exact Or.inl h1
    · exact Or.inr (List.mem_singleton.mp h1)

theorem back_mem (l : List Point) (h : l ≠ []) : back l ∈ l := by
  induction l using List.reverseRecOn with
  | nil => exact absurd rfl h
  | append_singleton l a _ => rw [back_append_singleton]; simp

/-- The walk back from a marked cell: the moves collected lead from a cell
without predecessor to the cell the walk started at, through cells that the
arm may enter, that lie outside its chain and that are pairwise different. -/
theorem predWalk_cells {e : Env} {s : State} {i : Nat} {a : Arm} {SS : Int} {σ : Search}
    (h : SInv e s i a SS σ) :
    ∀ (n : Nat) (q : Point) (acc add : List Move) (p : Point), σ.seen q = SS →
      predWalk σ.pred n q acc = some (add, p) →
      ∃ mv, add.reverse = mv ++ acc.reverse ∧ replay p mv = q ∧
        σ.seen p = SS ∧ σ.pred p = Move.x ∧
        (∀ c ∈ cells p mv, Enterable e s i c ∧ a.how c = Move.x ∧ σ.pred c ≠ Move.x ∧
          σ.seen c = SS ∧ σ.dist c ≤ σ.dist q) ∧
        (mv ≠ [] → σ.pred q ≠ Move.x) ∧
        (cells p mv).Pairwise (fun c d => σ.dist c < σ.dist d) := by
  intro n
  induction n with
  | zero => intro q acc add p _ hw; simp [predWalk] at hw
  | succ n ih =>
    intro q acc add p hq hw
    unfold predWalk at hw
    split at hw
    · rename_i hx
      simp only [Option.some.injEq, Prod.mk.injEq] at hw
      obtain ⟨h1, h2⟩ := hw
      subst h1; subst h2
      exact ⟨[], rfl, rfl, hq, hx, by simp [cells], by simp, by simp [cells]⟩
    · rename_i hx
      obtain ⟨k1, k2, k3, k4⟩ := h.link q hq hx
      obtain ⟨mv, m1, m2, m3, m4, m5, m6, m7⟩ := ih _ _ add p k3 hw
      refine ⟨mv ++ [σ.pred q], ?_, ?_, m3, m4, ?_, fun _ => hx, ?_⟩
      · rw [m1]; simp
      · rw [replay_append, m2, replay_cons, replay_nil, add_opp_add]
      · have hle : ∀ c ∈ cells p mv, σ.dist c < σ.dist q := by
          intro c hc
          have hne : mv ≠ [] := by
            intro h0; rw [h0] at hc; simp [cells] at hc
          have := k4 (m6 hne)
          have := (m5 c hc).2.2.2.2
          omega
        intro c hc
        rw [cells_append, m2] at hc
        rcases List.mem_append.mp hc with h1 | h1
        · obtain ⟨j1, j2, j3, j4, _⟩ := m5 c h1
          exact ⟨j1, j2, j3, j4, le_of_lt (hle c h1)⟩
        · simp only [cells, add_opp_add, List.mem_singleton] at h1
          rw [h1]
          exact ⟨k1, k2, hx, hq, le_refl _⟩
      · have hle : ∀ c ∈ cells p mv, σ.dist c < σ.dist q := by
          intro c hc
          have hne : mv ≠ [] := by
            intro h0; rw [h0] at hc; simp [cells] at hc
          have := k4 (m6 hne)
          have := (m5 c hc).2.2.2.2
          omega
        rw [cells_append, m2, List.pairwise_append]
        refine ⟨m7, by simp [cells], ?_⟩
        intro c hc d hd
        simp only [cells, add_opp_add, List.mem_singleton] at hd
        rw [hd]; exact hle c hc

theorem nodup_dropLast_back (l : List Point) (c : Point) (h : l.Nodup) (hc : c ∈ l.dropLast) :
    c ≠ back l := by
  induction l using List.reverseRecOn with
  | nil => simp at hc
  | append_singleton l a _ =>
    rw [List.dropLast_concat] at hc
    rw [back_append_singleton]
    intro hca
    rw [List.nodup_append] at h
    exact h.2.2 hc (List.mem_singleton.mpr hca)

theorem mem_of_mem_dropLast_cell (l : List Point) (c : Point) (hc : c ∈ l.dropLast) : c ∈ l :=
  (List.dropLast_sublist l).subset hc

/-- Folding the chain back keeps it tidy, leaves it inside the old chain and
enters cells of the old chain only. -/
theorem unwind_tidy : ∀ (n : Nat) (p : Point) (a a1 : Arm), n ≤ a.cur.length → ChainOK a →
    Tidy a → unwind n p a = some a1 →
    Tidy a1 ∧ (∀ c ∈ a1.cur, c ∈ a.cur) ∧
      ∃ ext, a1.path = a.path ++ ext ∧ ∀ c ∈ entered (back a.cur) ext, c ∈ a.cur := by
  intro n
  induction n with
  | zero => intro p a a1 _ _ _ h; simp [unwind] at h
  | succ n ih =>
    intro p a a1 hn hc ht h
    unfold unwind at h
    split at h
    · simp only [Option.some.injEq] at h
      subst h
      exact ⟨ht, fun _ hc => hc, [], by simp, by simp [entered]⟩
    · cases n with
      | zero => simp [unwind] at h
      | succ m =>
        have hlen : 1 < a.cur.length := by omega
        have hc1 := hc.popped hlen
        have hpop := hc.1.pop hlen
        have ht1 : Tidy
            { a with path := a.path ++ [opp (backMove a.cp)], cur := a.cur.dropLast,
                     cp := a.cp.dropLast, how := a.how.set (back a.cur.dropLast) Move.x } := by
          refine ⟨ht.1.sublist (List.dropLast_sublist _), ?_⟩
          intro c hcm
          show a.how.set (back a.cur.dropLast) Move.x c ≠ Move.x
          have hne := nodup_dropLast_back _ c (ht.1.sublist (List.dropLast_sublist _)) hcm
          rw [set_other_cell _ _ _ _ hne]
          exact ht.2 c (mem_of_mem_dropLast_cell _ c hcm)
        obtain ⟨j1, j2, ext, j3, j4⟩ := ih p _ a1 (by simp; omega) hc1 ht1 h
        refine ⟨j1, fun c hcm => mem_of_mem_dropLast_cell _ c (j2 c hcm),
          opp (backMove a.cp) :: ext, ?_, ?_⟩
        · rw [j3]; simp
        · have hb : back a.cur.dropLast ∈ a.cur := by
            apply mem_of_mem_dropLast_cell
            apply back_mem
            intro h0
            have := congrArg List.length h0
            simp at this
            omega
          intro c hcm
          simp only [entered] at hcm
          split at hcm
          · rename_i hw
            have hsame : back a.cur = back a.cur.dropLast := by
              rw [← hpop.2.1, hw]; rfl
            rw [hsame] at hcm
            exact mem_of_mem_dropLast_cell _ c (j4 c hcm)
          · rw [hpop.2.1] at hcm
            rcases List.mem_cons.mp hcm with h1 | h1
            · rw [h1]; exact hb
            · exact mem_of_mem_dropLast_cell _ c (j4 c h1)

/-- Laying a new segment through cells outside the chain keeps the chain
tidy; the cells the new moves enter are the cells laid. -/
theorem appendMoves_tidy (dist : Grid Int) : ∀ (cs : List Move) (a : Arm), a.cur ≠ [] →
    (a.cur ++ cells (back a.cur) cs).Nodup → (∀ c ∈ a.cur.dropLast, a.how c ≠ Move.x) →
    (appendMoves dist cs a).cur = a.cur ++ cells (back a.cur) cs ∧
      (∀ c ∈ (appendMoves dist cs a).cur.dropLast, (appendMoves dist cs a).how c ≠ Move.x) ∧
      ∃ ext, (appendMoves dist cs a).path = a.path ++ ext ∧
        entered (back a.cur) ext = cells (back a.cur) cs := by
  intro cs
  induction cs with
  | nil =>
    intro a _ _ hm
    simp only [appendMoves, cells, List.append_nil, true_and]
    exact ⟨hm, [], by simp, rfl⟩
  | cons c cs ih =>
    intro a hne hnd hm
    have htip : back a.cur ∈ a.cur := back_mem _ hne
    have hp : (back a.cur).add c ∉ a.cur := by
      intro hin
      rw [List.nodup_append] at hnd
      exact hnd.2.2 hin (by simp [cells])
    have hmove : (back a.cur).add c ≠ back a.cur := fun h0 => hp (by rw [h0]; exact htip)
    have hcx : c ≠ Move.x := by intro h0; rw [h0] at hmove; exact hmove rfl
    have hcw : c ≠ Move.W := by intro h0; rw [h0] at hmove; exact hmove rfl
    have hox : opp c ≠ Move.x := by cases c <;> simp [opp] at hcx ⊢
    unfold appendMoves
    simp only
    obtain ⟨k1, k2, ext, k3, k4⟩ := ih
      { a with how := a.how.set (back a.cur) (opp c),
               path := a.path ++ List.replicate
                 (dist ((back a.cur).add c) - dist (back a.cur) - 1).toNat Move.W ++ [c],
               cur := a.cur ++ [(back a.cur).add c] }
      (by simp)
      (by
        show ((a.cur ++ [(back a.cur).add c]) ++
          cells (back (a.cur ++ [(back a.cur).add c])) cs).Nodup
        rw [back_append_singleton, List.append_assoc]
        exact hnd)
      (by
        show ∀ d ∈ (a.cur ++ [(back a.cur).add c]).dropLast,
          a.how.set (back a.cur) (opp c) d ≠ Move.x
        rw [List.dropLast_concat]
        intro d hd
        by_cases hdt : d = back a.cur
        · rw [hdt, set_same_cell]; exact hox
        · rw [set_other_cell _ _ _ _ hdt]
          rcases mem_dropLast_or_back _ _ hd with h1 | h1
          · exact hm d h1
          · exact absurd h1 hdt)
    refine ⟨?_, k2, List.replicate
      (dist ((back a.cur).add c) - dist (back a.cur) - 1).toNat Move.W ++ [c] ++ ext, ?_, ?_⟩
    · rw [k1]
      show (a.cur ++ [(back a.cur).add c]) ++
          cells (back (a.cur ++ [(back a.cur).add c])) cs = _
      rw [back_append_singleton, List.append_assoc]
      rfl
    · rw [k3]
      show (a.path ++ _ ++ [c]) ++ ext = _
      simp
    · rw [back_append_singleton] at k4
      rw [List.append_assoc, entered_append, entered_replicate_W, replay_replicate_W,
        List.nil_append, List.singleton_append]
      show (if c = Move.W then _ else _) = _
      rw [if_neg hcw]
      show _ = (back a.cur).add c :: cells ((back a.cur).add c) cs
      rw [← k4]

/-- The tables a search starts from satisfy the invariant when every older
stamp has been handed out before. -/
theorem sinv_start (e : Env) (s : State) (i : Nat) (a : Arm) (pt : Point) (sc : Scratch)
    (hs : Stamped sc) :
    SInv e s i a (sc.SS + 1)
      { Q := [⟨back a.cur, a.path.length, 0⟩], found := decide (back a.cur = pt),
        vs := [Move.R, Move.L, Move.U, Move.D],
        seen := sc.seen.set (back a.cur) (sc.SS + 1),
        dist := sc.dist.set (back a.cur) a.path.length,
        pred := sc.pred.set (back a.cur) Move.x, clock := sc.clock } := by
  have hold : ∀ p, p ≠ back a.cur → sc.seen.set (back a.cur) (sc.SS + 1) p ≠ sc.SS + 1 := by
    intro p hp
    rw [set_other_cell _ _ _ _ hp]
    have := hs p
    omega
  refine ⟨?_, ?_, ?_, ?_, ?_, ?_⟩
  · intro c hc
    simp only [List.mem_cons, List.mem_singleton, List.not_mem_nil, or_false] at hc
    rcases hc with h | h | h | h <;> rw [h] <;> simp
  · intro p
    show sc.seen.set (back a.cur) (sc.SS + 1) p ≤ sc.SS + 1
    by_cases hp : p = back a.cur
    · rw [hp, set_same_cell]
    · rw [set_other_cell _ _ _ _ hp]
      have := hs p
      omega
  · intro en hen
    simp only [List.mem_singleton] at hen
    rw [hen]
    show sc.seen.set (back a.cur) (sc.SS + 1) (back a.cur) = sc.SS + 1 ∧ _ ∧
      (sc.pred.set (back a.cur) Move.x (back a.cur) ≠ Move.x → _)
    simp only [set_same_cell]
    exact ⟨trivial, le_refl _, fun h => absurd rfl h⟩
  · intro _
    show sc.seen.set (back a.cur) (sc.SS + 1) (back a.cur) = sc.SS + 1 ∧
      sc.pred.set (back a.cur) Move.x (back a.cur) = Move.x ∧
      sc.dist.set (back a.cur) a.path.length (back a.cur) = a.path.length
    simp only [set_same_cell]
    exact ⟨trivial, trivial, trivial⟩
  · intro p hp _
    left
    by_contra hne
    exact hold p hne hp
  · intro p hp hpred
    exfalso
    by_cases hne : p = back a.cur
    · apply hpred
      show sc.pred.set (back a.cur) Move.x p = Move.x
      rw [hne, set_same_cell]
    · exact hold p hne hp

/-- A search leaves only handed-out stamps behind, whatever its outcome. -/
theorem waypoint_stamped (e : Env) (s : State) (i t : Nat) (a : Arm) (pt : Point) (sc : Scratch)
    (r : Option Arm) (sc1 : Scratch) (hs : Stamped sc)
    (h : waypoint e s i t a pt sc = some (r, sc1)) : Stamped sc1 := by
  unfold waypoint at h
  simp only at h
  split at h
  · simp at h
  · rename_i σ hσ
    have hS := (searchLoop_sinv e s i t _ a pt _ _ _ (sinv_start e s i a pt sc hs)
      (by
        intro hf
        simp only [decide_eq_true_eq] at hf
        show sc.seen.set (back a.cur) (sc.SS + 1) pt = sc.SS + 1
        rw [← hf, set_same_cell]) hσ).1
    have hst : Stamped ⟨σ.seen, σ.dist, σ.pred, sc.SS + 1, σ.clock⟩ := hS.stamp
    split at h
    · simp only [Option.some.injEq, Prod.mk.injEq] at h
      rw [← h.2]; exact hst
    · split at h
      · simp at h
      · split at h
        · simp at h
        · split at h
          · simp only [Option.some.injEq, Prod.mk.injEq] at h
            rw [← h.2]; exact hst
          · simp only [Option.some.injEq, Prod.mk.injEq] at h
            rw [← h.2]; exact hst

/-- A successful splice keeps the chain tidy; every cell of the new chain is
a cell of the old one or a cell entered by the new moves, and every cell
entered by the new moves is a cell of the old chain or one the arm may enter. -/
theorem waypoint_held (e : Env) (s : State) (i t : Nat) (a : Arm) (pt : Point) (sc : Scratch)
    (a1 : Arm) (sc1 : Scratch) (hc : ChainOK a) (ht : Tidy a) (hs : Stamped sc)
    (h : waypoint e s i t a pt sc = some (some a1, sc1)) :
    Tidy a1 ∧ ∃ ext, a1.path = a.path ++ ext ∧
      (∀ c ∈ a1.cur, c ∈ a.cur ∨ c ∈ entered (back a.cur) ext) ∧
      (∀ c ∈ entered (back a.cur) ext, c ∈ a.cur ∨ Enterable e s i c) := by
  unfold waypoint at h
  simp only at h
  split at h
  · simp at h
  · rename_i σ hσ
    obtain ⟨hS, hfd⟩ := searchLoop_sinv e s i t _ a pt _ _ _ (sinv_start e s i a pt sc hs)
      (by
        intro hf
        simp only [decide_eq_true_eq] at hf
        show sc.seen.set (back a.cur) (sc.SS + 1) pt = sc.SS + 1
        rw [← hf, set_same_cell]) hσ
    split at h
    · simp at h
    · rename_i hfound
      have hseen : σ.seen pt = sc.SS + 1 := hfd (by simpa using hfound)
      split at h
      · simp at h
      · rename_i add p hw
        obtain ⟨mv, m1, m2, m3, m4, m5, _, m7⟩ := predWalk_cells hS _ _ _ _ _ hseen hw
        simp only [List.reverse_nil, List.append_nil] at m1
        split at h
        · simp at h
        · rename_i a0 hu
          obtain ⟨u1, u2, u3⟩ := unwind_ok _ _ _ _ (le_refl _) hc hu
          obtain ⟨v1, v2, extu, v3, v4⟩ := unwind_tidy _ _ _ _ (le_refl _) hc ht hu
          have hout : ∀ c ∈ cells p mv, c ∉ a.cur := by
            intro c hcm hin
            obtain ⟨_, j2, j3, _, _⟩ := m5 c hcm
            rcases mem_dropLast_or_back _ _ hin with h1 | h1
            · exact ht.2 c h1 j2
            · rw [h1] at j2 j3
              exact j3 (hS.tip j2).2.1
          have hnd : (a0.cur ++ cells (back a0.cur) add.reverse).Nodup := by
            rw [u2, m1, List.nodup_append]
            refine ⟨v1.1, m7.imp (fun hlt hcd => ?_), ?_⟩
            · rw [hcd] at hlt; exact lt_irrefl _ hlt
            intro c hc0 hc1
            exact hout c hc1 (v2 c hc0)
          obtain ⟨w1, w2, exta, w3, w4⟩ := appendMoves_tidy σ.dist add.reverse
            { a0 with cp := a0.cp ++ add.reverse } u1.1.ne_nil hnd v1.2
          split at h
          · simp at h
          · simp only [Option.some.injEq, Prod.mk.injEq] at h
            obtain ⟨h1, _⟩ := h
            subst h1
            have hrep : replay (back a.cur) extu = p := by
              have := u1.2
              rw [v3, replay_append, u3.head, hc.2, u2] at this
              exact this
            have hent : entered (back a.cur) (extu ++ exta)
                = entered (back a.cur) extu ++ cells p mv := by
              rw [entered_append, hrep]
              have : entered p exta = cells p mv := by
                have := w4
                rw [m1] at this
                show entered p exta = cells p mv
                rw [← u2]; exact this
              rw [this]
            refine ⟨⟨?_, w2⟩, extu ++ exta, ?_, ?_, ?_⟩
            · rw [w1]; exact hnd
            · rw [w3]
              show a0.path ++ exta = _
              rw [v3, List.append_assoc]
            · intro c hcm
              rw [w1] at hcm
              rw [hent]
              rcases List.mem_append.mp hcm with h1 | h1
              · exact Or.inl (v2 c h1)
              · right
                apply List.mem_append_right
                have : cells (back a0.cur) add.reverse = cells p mv := by rw [u2, m1]
                rw [← this]; exact h1
            · intro c hcm
              rw [hent] at hcm
              rcases List.mem_append.mp hcm with h1 | h1
              · exact Or.inl (v4 c h1)
              · exact Or.inr (m5 c h1).1

theorem waypoints_stamped (e : Env) (s : State) (i t : Nat) :
    ∀ (wps : List Point) (a : Arm) (sc : Scratch) (r : Option Arm) (sc1 : Scratch),
      Stamped sc → waypoints e s i t wps a sc = some (r, sc1) → Stamped sc1 := by
  intro wps
  induction wps with
  | nil =>
    intro a sc r sc1 hs h
    simp only [waypoints, Option.some.injEq, Prod.mk.injEq] at h
    rw [← h.2]; exact hs
  | cons pt pts ih =>
    intro a sc r sc1 hs h
    unfold waypoints at h
    split at h
    · simp at h
    · rename_i sc0 hw
      simp only [Option.some.injEq, Prod.mk.injEq] at h
      rw [← h.2]
      exact waypoint_stamped e s i t a pt sc _ sc0 hs hw
    · rename_i a0 sc0 hw
      exact ih a0 sc0 r sc1 (waypoint_stamped e s i t a pt sc _ sc0 hs hw) h

/-- The splices of one task keep the chain tidy; the cells of the new chain
and the cells entered by the new moves are as for one splice. -/
theorem waypoints_held (e : Env) (s : State) (i t : Nat) :
    ∀ (wps : List Point) (a : Arm) (sc : Scratch) (a1 : Arm) (sc1 : Scratch), ChainOK a →
      Tidy a → Stamped sc → waypoints e s i t wps a sc = some (some a1, sc1) →
      Tidy a1 ∧ ∃ ext, a1.path = a.path ++ ext ∧
        (∀ c ∈ a1.cur, c ∈ a.cur ∨ c ∈ entered (back a.cur) ext) ∧
        (∀ c ∈ entered (back a.cur) ext, c ∈ a.cur ∨ Enterable e s i c) := by
  intro wps
  induction wps with
  | nil =>
    intro a sc a1 sc1 _ ht _ h
    simp only [waypoints, Option.some.injEq, Prod.mk.injEq] at h
    obtain ⟨h1, _⟩ := h
    subst h1
    exact ⟨ht, [], by simp, fun c hc => Or.inl hc, by simp [entered]⟩
  | cons pt pts ih =>
    intro a sc a1 sc1 hc ht hs h
    unfold waypoints at h
    split at h
    · simp at h
    · simp at h
    · rename_i a0 sc0 hw
      obtain ⟨k1, _, k3, _⟩ := waypoint_ok e s i t a pt sc a0 sc0 hc hw
      obtain ⟨t0, ext1, x1, x2, x3⟩ := waypoint_held e s i t a pt sc a0 sc0 hc ht hs hw
      obtain ⟨t1, ext2, y1, y2, y3⟩ := ih a0 sc0 a1 sc1 k1 t0
        (waypoint_stamped e s i t a pt sc _ sc0 hs hw) h
      have hrep : replay (back a.cur) ext1 = back a0.cur := by
        have := k1.2
        rw [x1, replay_append, k3.head, hc.2] at this
        exact this
      have hent : entered (back a.cur) (ext1 ++ ext2)
          = entered (back a.cur) ext1 ++ entered (back a0.cur) ext2 := by
        rw [entered_append, hrep]
      refine ⟨t1, ext1 ++ ext2, ?_, ?_, ?_⟩
      · rw [y1, x1, List.append_assoc]
      · intro c hcm
        rw [hent]
        rcases y2 c hcm with h1 | h1
        · rcases x2 c h1 with h2 | h2
          · exact Or.inl h2
          · exact Or.inr (List.mem_append_left _ h2)
        · exact Or.inr (List.mem_append_right _ h1)
      · intro c hcm
        rw [hent] at hcm
        rcases List.mem_append.mp hcm with h1 | h1
        · exact x3 c h1
        · rcases y3 c h1 with h2 | h2
          · rcases x2 c h2 with h3 | h3
            · exact Or.inl h3
            · exact x3 c h3
          · exact Or.inr h2

theorem candidates_held (e : Env) (s : State) (i : Nat) :
    ∀ (rest : List Nat) (b : Best) (sc : Scratch) (b1 : Best) (sc1 : Scratch),
      Stamped sc → PickedH e s i b →
      candidates e s i rest b sc = some (b1, sc1) → PickedH e s i b1 ∧ Stamped sc1 := by
  intro rest
  induction rest with
  | nil =>
    intro b sc b1 sc1 hs hb h
    simp only [candidates, Option.some.injEq, Prod.mk.injEq] at h
    rw [← h.1, ← h.2]; exact ⟨hb, hs⟩
  | cons t rest ih =>
    intro b sc b1 sc1 hs hb h
    unfold candidates at h
    split at h
    · simp at h
    · rename_i sc0 hw
      exact ih b sc0 b1 sc1 (waypoints_stamped e s i t _ _ _ _ _ hs hw) hb h
    · rename_i a sc0 hw
      have hs0 := waypoints_stamped e s i t _ _ _ _ _ hs hw
      simp only at h
      split at h
      · exact ih b sc0 b1 sc1 hs0 hb h
      · split at h
        · refine ih _ sc0 b1 sc1 hs0 ?_ h
          intro t1 ht1
          simp only [Option.some.injEq] at ht1
          subst ht1
          exact ⟨sc, sc0, hs, hw⟩
        · exact ih b sc0 b1 sc1 hs0 hb h

/-- The shape of an iteration of the main loop that goes on. -/
theorem mainStep_shape (e : Env) (s s1 : State) (h : mainStep e s = some (some s1)) :
    ∃ (i : Nat) (b : Best) (sc : Scratch), i < e.inst.R ∧
      candidates e s i s.ts ⟨default, none, Frac.ofInt (-1)⟩
        ⟨s.seen, s.dist, s.pred, s.SS, s.clock⟩ = some (b, sc) ∧
      ((b.bestT = none ∧ s1 = retractStep e
          { s with seen := sc.seen, dist := sc.dist, pred := sc.pred, SS := sc.SS,
                   clock := sc.clock } i) ∨
       (∃ t, b.bestT = some t ∧ s1 = commitStep e
          { s with seen := sc.seen, dist := sc.dist, pred := sc.pred, SS := sc.SS,
                   clock := sc.clock } i b.bestA t)) := by
  unfold mainStep at h
  cases hsel : selectArm s.arms (List.range e.inst.R) none with
  | none => rw [hsel] at h; simp at h
  | some i =>
    rw [hsel] at h
    simp only at h
    have hi : i < e.inst.R := by
      rcases selectArm_mem _ _ _ _ hsel with h1 | h1
      · exact List.mem_range.mp h1
      · simp at h1
    cases hc : candidates e s i s.ts ⟨default, none, Frac.ofInt (-1)⟩
        ⟨s.seen, s.dist, s.pred, s.SS, s.clock⟩ with
    | none => rw [hc] at h; simp at h
    | some r =>
      obtain ⟨b, sc⟩ := r
      rw [hc] at h
      simp only at h
      refine ⟨i, b, sc, hi, hc, ?_⟩
      cases hb : b.bestT with
      | none =>
        rw [hb] at h
        simp only [Option.some.injEq] at h
        exact Or.inl ⟨rfl, h.symm⟩
      | some t =>
        rw [hb] at h
        simp only [Option.some.injEq] at h
        exact Or.inr ⟨t, rfl, h.symm⟩

theorem tidy_pop (a : Arm) (path cp : List Move) (ht : Tidy a) :
    Tidy { a with path := path, cur := a.cur.dropLast, cp := cp,
                  how := a.how.set (back a.cur.dropLast) Move.x } := by
  refine ⟨ht.1.sublist (List.dropLast_sublist _), ?_⟩
  intro c hcm
  show a.how.set (back a.cur.dropLast) Move.x c ≠ Move.x
  have hne := nodup_dropLast_back _ c (ht.1.sublist (List.dropLast_sublist _)) hcm
  rw [set_other_cell _ _ _ _ hne]
  exact ht.2 c (mem_of_mem_dropLast_cell _ c hcm)

theorem retractLoop_short (L : Int) (n : Nat) (a : Arm) (u : Grid Int) (h : a.cur.length ≤ 1) :
    retractLoop L n a u = (a, u) := by
  cases n with
  | zero => rfl
  | succ n =>
    unfold retractLoop
    rw [if_neg]
    intro hc
    omega

/-- The retraction keeps the chain tidy and inside the old chain, releases
only cells it leaves, and moves through cells of the old chain only. -/
theorem retractLoop_held (L : Int) : ∀ (n : Nat) (a : Arm) (u : Grid Int), ChainOK a → Tidy a →
    Tidy (retractLoop L n a u).1 ∧
      (∀ c ∈ (retractLoop L n a u).1.cur, c ∈ a.cur ∧ (retractLoop L n a u).2 c = u c) ∧
      (∀ c, c ∉ a.cur → (retractLoop L n a u).2 c = u c) ∧
      ∃ ext, (retractLoop L n a u).1.path = a.path ++ ext ∧
        ∀ c ∈ entered (back a.cur) ext, c ∈ a.cur := by
  intro n
  induction n with
  | zero =>
    intro a u _ ht
    exact ⟨ht, fun c hc => ⟨hc, rfl⟩, fun _ _ => rfl, [], by simp [retractLoop], by simp [entered]⟩
  | succ n ih =>
    intro a u hc ht
    unfold retractLoop
    split
    · rename_i hcond
      have hlen : 1 < a.cur.length := hcond.1
      have hc1 := hc.popped hlen
      have hpop := hc.1.pop hlen
      have ht1 := tidy_pop a (a.path ++ [opp (backMove a.cp)]) a.cp.dropLast ht
      have hne : a.cur ≠ [] := by
        intro h0; rw [h0] at hlen; simp at hlen
      have hb : back a.cur.dropLast ∈ a.cur := by
        apply mem_of_mem_dropLast_cell
        apply back_mem
        intro h0
        have := congrArg List.length h0
        simp at this
        omega
      obtain ⟨j1, j2, j3, ext, j4, j5⟩ := ih _ (u.set (back a.cur) (a.path.length : Int)) hc1 ht1
      refine ⟨j1, ?_, ?_, opp (backMove a.cp) :: ext, ?_, ?_⟩
      · intro c hcm
        obtain ⟨k1, k2⟩ := j2 c hcm
        refine ⟨mem_of_mem_dropLast_cell _ c k1, ?_⟩
        rw [k2, set_other_cell _ _ _ _ (nodup_dropLast_back _ c ht.1 k1)]
      · intro c hcm
        rw [j3 c (fun h0 => hcm (mem_of_mem_dropLast_cell _ c h0))]
        apply set_other_cell
        intro h0
        exact hcm (h0 ▸ back_mem _ hne)
      · rw [j4]; simp
      · intro c hcm
        simp only [entered] at hcm
        split at hcm
        · rename_i hw
          have hsame : back a.cur = back a.cur.dropLast := by
            rw [← hpop.2.1, hw]; rfl
          rw [hsame] at hcm
          exact mem_of_mem_dropLast_cell _ c (j5 c hcm)
        · rw [hpop.2.1] at hcm
          rcases List.mem_cons.mp hcm with h1 | h1
          · rw [h1]; exact hb
          · exact mem_of_mem_dropLast_cell _ c (j5 c h1)
    · exact ⟨ht, fun c hc => ⟨hc, rfl⟩, fun _ _ => rfl, [], by simp, by simp [entered]⟩

/-- The arms after a retraction step, seen through a function that ignores `done`. -/
theorem retractStep_view {β : Type} (f : Arm → β) (hf : ∀ a d, f { a with done := d } = f a)
    (e : Env) (s : State) (i : Nat) (hlen : i < s.arms.length) :
    (retractStep e s i).arms.map f
        = (s.arms.map f).set i
          (f (retractLoop e.inst.L (s.arm i).cur.length (s.arm i) s.until_).1) ∧
      (retractStep e s i).until_
        = (retractLoop e.inst.L (s.arm i).cur.length (s.arm i) s.until_).2 ∧
      (retractStep e s i).owner = s.owner ∧ (retractStep e s i).seen = s.seen ∧
      (retractStep e s i).SS = s.SS := by
  unfold retractStep
  split
  · rename_i hshort
    rw [retractLoop_short _ _ _ _ hshort]
    dsimp only
    rw [List.map_set, hf]
    exact ⟨rfl, rfl, rfl, rfl, rfl⟩
  · have hl2 : i < (resetDone e.inst.L (s.arms.set i (retractLoop e.inst.L
        (s.arm i).cur.length (s.arm i) s.until_).1)).length := by
      rw [resetDone_length, List.length_set]; exact hlen
    dsimp only
    refine ⟨?_, rfl, rfl, rfl, rfl⟩
    rw [List.map_set, hf]
    have h3 := List.getD_map (resetDone e.inst.L (s.arms.set i (retractLoop e.inst.L
        (s.arm i).cur.length (s.arm i) s.until_).1)) default (n := i) f
    rw [← h3, resetDone_map f hf, List.map_set]
    rw [List.getD_eq_getElem _ _ (by simpa using hlen), set_same]

/-- Reading an arm of a list whose view is the view of another list with one
entry replaced. -/
theorem get_of_map_set {β : Type} (f : Arm → β) (l1 l : List Arm) (i : Nat) (X : β)
    (h : l1.map f = (l.map f).set i X) (k : Nat) (a1 : Arm) (hk : l1[k]? = some a1) :
    (k = i ∧ f a1 = X) ∨ (k ≠ i ∧ ∃ a0, l[k]? = some a0 ∧ f a0 = f a1) := by
  have h1 : (l1.map f)[k]? = some (f a1) := by rw [List.getElem?_map, hk]; rfl
  rw [h, List.getElem?_set] at h1
  split at h1
  · rename_i hik
    split at h1
    · simp only [Option.some.injEq] at h1
      exact Or.inl ⟨hik.symm, h1.symm⟩
    · simp at h1
  · rename_i hik
    right
    refine ⟨fun h0 => hik h0.symm, ?_⟩
    rw [List.getElem?_map] at h1
    cases hl : l[k]? with
    | none => rw [hl] at h1; simp at h1
    | some a0 =>
      rw [hl] at h1
      simp only [Option.map_some', Option.some.injEq] at h1
      exact ⟨a0, rfl, h1⟩

/-- The commit loop and a cell it does not release: the cell ends reserved
for arm `i` up to the horizon, or as it was; the former when a move enters it. -/
theorem commitWalk_cell (i : Nat) (L : Int) (bestA : Arm) (c : Point)
    (hc : ¬ (bestA.how c = Move.x ∧ c ≠ back bestA.cur)) :
    ∀ (moves : List Move) (l : Nat) (p : Point) (ow un : Grid Int),
      (((commitWalk i L bestA moves l p ow un).1 c = (i : Int) ∧
          (commitWalk i L bestA moves l p ow un).2 c = L) ∨
        ((commitWalk i L bestA moves l p ow un).1 c = ow c ∧
          (commitWalk i L bestA moves l p ow un).2 c = un c)) ∧
      (c ∈ entered p moves → (commitWalk i L bestA moves l p ow un).1 c = (i : Int) ∧
          (commitWalk i L bestA moves l p ow un).2 c = L) := by
  intro moves
  induction moves with
  | nil =>
    intro l p ow un
    exact ⟨Or.inr ⟨rfl, rfl⟩, by simp [entered]⟩
  | cons m ms ih =>
    intro l p ow un
    unfold commitWalk
    simp only [entered]
    split
    · exact ih (l + 1) p ow un
    · obtain ⟨A, B⟩ := ih (l + 1) (p.add m) (ow.set (p.add m) (i : Int))
        ((if bestA.how p = Move.x ∧ p ≠ back bestA.cur then un.set p (l : Int) else un).set
          (p.add m) L)
      have hat : c = p.add m →
          (ow.set (p.add m) (i : Int)) c = (i : Int) ∧
          ((if bestA.how p = Move.x ∧ p ≠ back bestA.cur then un.set p (l : Int) else un).set
            (p.add m) L) c = L := by
        intro h0
        rw [h0, set_same_cell, set_same_cell]
        exact ⟨rfl, rfl⟩
      constructor
      · rcases A with h1 | h1
        · exact Or.inl h1
        · by_cases h0 : c = p.add m
          · left
            rw [h1.1, h1.2]
            exact hat h0
          · right
            rw [h1.1, h1.2, set_other_cell _ _ _ _ h0, set_other_cell _ _ _ _ h0]
            refine ⟨rfl, ?_⟩
            split
            · rename_i hrel
              have hcp : c ≠ p := by
                intro h2; rw [h2] at hc; exact hc hrel
              rw [set_other_cell _ _ _ _ hcp]
            · rfl
      · intro hin
        rcases List.mem_cons.mp hin with h0 | h0
        · rcases A with h1 | h1
          · exact h1
          · rw [h1.1, h1.2]; exact hat h0
        · exact B h0

/-- The commit loop leaves every cell alone that is neither the cell it
starts from nor a cell entered by a move. -/
theorem commitWalk_other (i : Nat) (L : Int) (bestA : Arm) (c : Point) :
    ∀ (moves : List Move) (l : Nat) (p : Point) (ow un : Grid Int),
      c ≠ p → c ∉ entered p moves →
      (commitWalk i L bestA moves l p ow un).1 c = ow c ∧
        (commitWalk i L bestA moves l p ow un).2 c = un c := by
  intro moves
  induction moves with
  | nil => intro l p ow un _ _; exact ⟨rfl, rfl⟩
  | cons m ms ih =>
    intro l p ow un hp hin
    unfold commitWalk
    simp only [entered] at hin
    split
    · rename_i hw
      rw [if_pos hw] at hin
      exact ih (l + 1) p ow un hp hin
    · rename_i hw
      rw [if_neg hw] at hin
      simp only [List.mem_cons, not_or] at hin
      obtain ⟨k1, k2⟩ := ih (l + 1) (p.add m) (ow.set (p.add m) (i : Int))
        ((if bestA.how p = Move.x ∧ p ≠ back bestA.cur then un.set p (l : Int) else un).set
          (p.add m) L) hin.1 hin.2
      rw [k1, k2, set_other_cell _ _ _ _ hin.1, set_other_cell _ _ _ _ hin.1]
      refine ⟨rfl, ?_⟩
      split
      · rw [set_other_cell _ _ _ _ hp]
      · rfl

theorem chainView_eq {a b : Arm} (h : chainView a = chainView b) :
    a.cur = b.cur ∧ a.how = b.how ∧ a.path = b.path := by
  unfold chainView at h
  simp only [Prod.mk.injEq] at h
  exact h

theorem tidy_of_view {a b : Arm} (h : chainView a = chainView b) (ht : Tidy a) : Tidy b := by
  obtain ⟨h1, h2, _⟩ := chainView_eq h
  unfold Tidy at ht ⊢
  rw [← h1, ← h2]; exact ht

theorem arm_get (s : State) (i : Nat) (h : i < s.arms.length) : s.arms[i]? = some (s.arm i) := by
  unfold State.arm
  rw [List.getD_eq_getElem _ _ h, List.getElem?_eq_getElem h]

theorem get_lt {l : List Arm} {k : Nat} {a : Arm} (h : l[k]? = some a) : k < l.length := by
  by_contra hk
  rw [List.getElem?_eq_none (by omega)] at h
  simp at h

theorem get_arm_eq (s : State) (k : Nat) (a : Arm) (h : s.arms[k]? = some a) : a = s.arm k := by
  have := arm_get s k (get_lt h)
  rw [h] at this
  simpa using this

/-- Cells reserved up to the horizon for different arms are different cells. -/
theorem firm_apart {e : Env} {s : State} (h : HeldInv e s) (j k : Nat) (a b : Arm)
    (hjk : j ≠ k) (ha : s.arms[j]? = some a) (hb : s.arms[k]? = some b) (c : Point)
    (hca : c ∈ a.cur) : c ∉ b.cur := by
  intro hcb
  have h1 := (h.firm j a ha c hca).1
  have h2 := (h.firm k b hb c hcb).1
  rw [h1] at h2
  exact hjk (by exact_mod_cast h2)

/-- A retraction step keeps the chains tidy and reserved, and moves the arm
through cells of its own chain only. -/
theorem retractStep_held (e : Env) (s : State) (i : Nat) (hi : i < s.arms.length)
    (hr : RunInv e s) (h : HeldInv e s) :
    HeldInv e (retractStep e s i) ∧ StepApart s (retractStep e s i) := by
  obtain ⟨v1, v2, v3, v4, v5⟩ := retractStep_view chainView (fun _ _ => rfl) e s i hi
  have hgi := arm_get s i hi
  have hci : ChainOK (s.arm i) := (hr.arm _ (arm_mem s i hi)).chain
  obtain ⟨r1, r2, r3, ext, r4, r5⟩ := retractLoop_held e.inst.L (s.arm i).cur.length (s.arm i)
    s.until_ hci (h.tidy i _ hgi)
  refine ⟨⟨?_, ?_, ?_⟩, ?_⟩
  · rw [v4, v5]; exact h.stamp
  · intro k a1 hk
    rcases get_of_map_set chainView _ _ i _ v1 k a1 hk with ⟨_, h1⟩ | ⟨_, a0, h1, h2⟩
    · exact tidy_of_view h1.symm r1
    · exact tidy_of_view h2 (h.tidy k a0 h1)
  · intro k a1 hk c hc
    rw [v2, v3]
    rcases get_of_map_set chainView _ _ i _ v1 k a1 hk with ⟨hki, h1⟩ | ⟨hki, a0, h1, h2⟩
    · rw [(chainView_eq h1).1] at hc
      obtain ⟨k1, k2⟩ := r2 c hc
      rw [k2, hki]
      exact h.firm i _ hgi c k1
    · rw [← (chainView_eq h2).1] at hc
      have hout : c ∉ (s.arm i).cur := firm_apart h k i a0 _ hki h1 hgi c hc
      rw [r3 c hout]
      exact h.firm k a0 h1 c hc
  · intro k a a1 hka hk
    rcases get_of_map_set chainView _ _ i _ v1 k a1 hk with ⟨hki, h1⟩ | ⟨hki, a0, h1, h2⟩
    · have hae : a = s.arm i := by rw [hki] at hka; exact get_arm_eq s i a hka
      refine ⟨ext, ?_, ?_⟩
      · rw [(chainView_eq h1).2.2, hae]; exact r4
      · intro c hc j b hjk hb
        rw [hae] at hc
        have := r5 c hc
        rw [hki] at hjk
        exact firm_apart h i j _ b (fun h0 => hjk h0.symm) hgi hb c this
    · have hae : a0 = a := by
        rw [hka] at h1
        simpa using h1.symm
      refine ⟨[], ?_, by simp [entered]⟩
      rw [← (chainView_eq h2).2.2, hae]; simp

/-- A commit keeps the chains tidy and reserved when the committed arm is
tidy, its chain lies in the old chain and the cells entered, and the cells
entered are cells of the old chain or cells the arm may enter. -/
theorem commitStep_held (e : Env) (s : State) (i t : Nat) (bestA : Arm) (hi : i < s.arms.length)
    (hr : RunInv e s) (h : HeldInv e s) (hT : Tidy bestA) (ext : List Move)
    (hx1 : bestA.path = (s.arm i).path ++ ext)
    (hx2 : ∀ c ∈ bestA.cur, c ∈ (s.arm i).cur ∨ c ∈ entered (back (s.arm i).cur) ext)
    (hx3 : ∀ c ∈ entered (back (s.arm i).cur) ext, c ∈ (s.arm i).cur ∨ Enterable e s i c) :
    HeldInv e (commitStep e s i bestA t) ∧ StepApart s (commitStep e s i bestA t) := by
  have v1 := commitStep_map chainView (fun _ _ => rfl) e s i bestA t
  have hgi := arm_get s i hi
  have hci : ChainOK (s.arm i) := (hr.arm _ (arm_mem s i hi)).chain
  have hdrop : bestA.path.drop (s.arm i).path.length = ext := by
    rw [hx1, List.drop_left']; rfl
  have how : (commitStep e s i bestA t).owner = (commitWalk i e.inst.L bestA ext
      (s.arm i).path.length (back (s.arm i).cur) s.owner s.until_).1 := by
    unfold commitStep
    simp only [hdrop]
  have hun : (commitStep e s i bestA t).until_ = (commitWalk i e.inst.L bestA ext
      (s.arm i).path.length (back (s.arm i).cur) s.owner s.until_).2 := by
    unfold commitStep
    simp only [hdrop]
  have hfree : ∀ c ∈ entered (back (s.arm i).cur) ext, ∀ (j : Nat) (b : Arm), j ≠ i →
      s.arms[j]? = some b → c ∉ b.cur := by
    intro c hc j b hji hb hcb
    obtain ⟨f1, f2⟩ := h.firm j b hb c hcb
    rcases hx3 c hc with h1 | h1
    · exact firm_apart h i j _ b (fun h0 => hji h0.symm) hgi hb c h1 hcb
    · rcases h1 with h2 | h2
      · rw [f1] at h2
        exact hji (by exact_mod_cast h2)
      · rw [f2] at h2
        exact lt_irrefl _ h2
  refine ⟨⟨?_, ?_, ?_⟩, ?_⟩
  · exact h.stamp
  · intro k a1 hk
    rcases get_of_map_set chainView _ _ i _ v1 k a1 hk with ⟨_, h1⟩ | ⟨_, a0, h1, h2⟩
    · exact tidy_of_view (b := a1) (a := bestA) h1.symm hT
    · exact tidy_of_view h2 (h.tidy k a0 h1)
  · intro k a1 hk c hc
    rw [how, hun]
    rcases get_of_map_set chainView _ _ i _ v1 k a1 hk with ⟨hki, h1⟩ | ⟨hki, a0, h1, h2⟩
    · have hcur : a1.cur = bestA.cur := (chainView_eq h1).1
      rw [hcur] at hc
      have hkeep : ¬ (bestA.how c = Move.x ∧ c ≠ back bestA.cur) := by
        intro hrel
        rcases mem_dropLast_or_back _ _ hc with h3 | h3
        · exact hT.2 c h3 hrel.1
        · exact hrel.2 h3
      obtain ⟨A, B⟩ := commitWalk_cell i e.inst.L bestA c hkeep ext (s.arm i).path.length
        (back (s.arm i).cur) s.owner s.until_
      rw [hki]
      rcases hx2 c hc with h3 | h3
      · rcases A with h4 | h4
        · exact h4
        · rw [h4.1, h4.2]; exact h.firm i _ hgi c h3
      · exact B h3
    · rw [← (chainView_eq h2).1] at hc
      have hne : c ≠ back (s.arm i).cur := by
        intro h0
        have : c ∈ (s.arm i).cur := h0 ▸ back_mem _ hci.1.ne_nil
        exact firm_apart h k i a0 _ hki h1 hgi c hc this
      have hnot : c ∉ entered (back (s.arm i).cur) ext :=
        fun h0 => hfree c h0 k a0 hki h1 hc
      obtain ⟨k1, k2⟩ := commitWalk_other i e.inst.L bestA c ext (s.arm i).path.length
        (back (s.arm i).cur) s.owner s.until_ hne hnot
      rw [k1, k2]
      exact h.firm k a0 h1 c hc
  · intro k a a1 hka hk
    rcases get_of_map_set chainView _ _ i _ v1 k a1 hk with ⟨hki, h1⟩ | ⟨hki, a0, h1, h2⟩
    · have hae : a = s.arm i := by rw [hki] at hka; exact get_arm_eq s i a hka
      have hpath : a1.path = bestA.path := (chainView_eq h1).2.2
      refine ⟨ext, ?_, ?_⟩
      · rw [hpath, hae]; exact hx1
      · intro c hc j b hjk hb
        rw [hae] at hc
        rw [hki] at hjk
        exact hfree c hc j b hjk hb
    · have hae : a0 = a := by
        rw [hka] at h1
        simpa using h1.symm
      refine ⟨[], ?_, by simp [entered]⟩
      rw [← (chainView_eq h2).2.2, hae]; simp

/-- One iteration of the main loop keeps the chains tidy and reserved, and
its new moves enter no cell of the chain of another arm. -/
theorem mainStep_held (e : Env) (s s1 : State) (hr : RunInv e s) (h : HeldInv e s)
    (hs : mainStep e s = some (some s1)) : HeldInv e s1 ∧ StepApart s s1 := by
  obtain ⟨i, b, sc, hi, hcand, hcase⟩ := mainStep_shape e s s1 hs
  have hlen : i < s.arms.length := by rw [hr.arms_len]; exact hi
  obtain ⟨hp, hsc⟩ := candidates_held e s i s.ts _ _ _ _
    (show Stamped ⟨s.seen, s.dist, s.pred, s.SS, s.clock⟩ from h.stamp)
    (by intro t ht; simp at ht) hcand
  rcases hcase with ⟨_, hs1⟩ | ⟨t, hb, hs1⟩
  · rw [hs1]
    exact retractStep_held e _ i hlen ⟨hr.arms_len, hr.arm, hr.score, hr.nodup⟩
      ⟨hsc, h.tidy, h.firm⟩
  · rw [hs1]
    obtain ⟨sc0, sc1, hst, hw⟩ := hp t hb
    have hci : ChainOK (s.arm i) := (hr.arm _ (arm_mem s i hlen)).chain
    obtain ⟨w1, ext, w2, w3, w4⟩ := waypoints_held e s i t _ _ _ _ _ hci
      (h.tidy i _ (arm_get s i hlen)) hst hw
    exact commitStep_held e _ i t b.bestA hlen ⟨hr.arms_len, hr.arm, hr.score, hr.nodup⟩
      ⟨hsc, h.tidy, h.firm⟩ w1 ext w2 w3 w4

theorem placeMounts_grid (R : Nat) (L : Int) :
    ∀ (ms : List Point) (i : Nat) (arms : List Arm) (ow un : Grid Int), ms.Nodup →
      (∀ (j : Nat) (m : Point), ms[j]? = some m →
        (placeMounts R L ms i arms ow un).2.1 m = ((i + j : Nat) : Int) ∧
          (placeMounts R L ms i arms ow un).2.2 m = L) ∧
      (∀ c, c ∉ ms → (placeMounts R L ms i arms ow un).2.1 c = ow c ∧
          (placeMounts R L ms i arms ow un).2.2 c = un c) := by
  intro ms
  induction ms with
  | nil =>
    intro i arms ow un _
    exact ⟨fun j m hj => by simp at hj, fun c _ => ⟨rfl, rfl⟩⟩
  | cons m0 ms ih =>
    intro i arms ow un hnd
    rw [List.nodup_cons] at hnd
    unfold placeMounts
    obtain ⟨k1, k2⟩ := ih (i + 1) (if i < R then arms ++ [Arm.new m0.x m0.y i] else arms)
      (ow.set m0 (i : Int)) (un.set m0 L) hnd.2
    constructor
    · intro j m hj
      cases j with
      | zero =>
        simp only [List.getElem?_cons_zero, Option.some.injEq] at hj
        subst hj
        obtain ⟨j1, j2⟩ := k2 m0 hnd.1
        rw [j1, j2, set_same_cell, set_same_cell]
        exact ⟨rfl, rfl⟩
      | succ j =>
        simp only [List.getElem?_cons_succ] at hj
        obtain ⟨j1, j2⟩ := k1 j m hj
        rw [j1, j2]
        refine ⟨?_, rfl⟩
        congr 1; omega
    · intro c hc
      simp only [List.mem_cons, not_or] at hc
      obtain ⟨j1, j2⟩ := k2 c hc.2
      rw [j1, j2, set_other_cell _ _ _ _ hc.1, set_other_cell _ _ _ _ hc.1]
      exact ⟨rfl, rfl⟩

theorem tidy_new (x y : Int) (k : Nat) : Tidy (Arm.new x y k) :=
  ⟨by simp [Arm.new], by simp [Arm.new]⟩

/-- On entry to the main loop the chain of arm `k` is the `k`-th mounting
point alone, reserved for arm `k` up to the horizon, when the mounting points
are pairwise different. -/
theorem startState_held (e : Env) (ms : List Point) (Len : List Int) (clock : Nat)
    (hnd : ms.Nodup) : HeldInv e (startState e ms Len clock) := by
  have hnd1 : (orderMounts e ms (clock + 1)).Nodup := by
    unfold orderMounts
    split
    · exact ((List.perm_insertionSort _ _).trans (shuffleList_perm _ _)).nodup_iff.mpr hnd
    · exact (shuffleList_perm _ _).nodup_iff.mpr hnd
  have hp := placeMounts_arms (fun a => Tidy a ∧ a.cur = [a.cur.headD default]) e.inst.R e.inst.L
    (fun x y k => ⟨tidy_new x y k, rfl⟩) (orderMounts e ms (clock + 1)) 0 []
    (fun _ => -1) (fun _ => -1) (by simp) (by simp)
  have hh := placeMounts_heads e.inst.R e.inst.L (orderMounts e ms (clock + 1)) 0 []
    (fun _ => -1) (fun _ => -1)
  have hg := (placeMounts_grid e.inst.R e.inst.L (orderMounts e ms (clock + 1)) 0 []
    (fun _ => -1) (fun _ => -1) hnd1).1
  refine ⟨fun _ => le_refl _, ?_, ?_⟩
  · intro k a hk
    exact (hp.1 a (List.mem_iff_getElem?.mpr ⟨k, hk⟩)).1
  · intro k a hk c hc
    have hk1 : (placeMounts e.inst.R e.inst.L (orderMounts e ms (clock + 1)) 0 []
        (fun _ => -1) (fun _ => -1)).1[k]? = some a := hk
    have hcur := (hp.1 a (List.mem_iff_getElem?.mpr ⟨k, hk1⟩)).2
    rw [hcur, List.mem_singleton] at hc
    have h1 : ((placeMounts e.inst.R e.inst.L (orderMounts e ms (clock + 1)) 0 []
        (fun _ => -1) (fun _ => -1)).1.map (fun a => a.cur.headD default))[k]?
          = some (a.cur.headD default) := by
      rw [List.getElem?_map, hk1]; rfl
    rw [hh] at h1
    simp only [List.map_nil, List.nil_append, Nat.sub_zero, List.getElem?_take] at h1
    split at h1
    · obtain ⟨j1, j2⟩ := hg k _ h1
      rw [hc]
      show (placeMounts _ _ _ _ _ _ _).2.1 _ = _ ∧ (placeMounts _ _ _ _ _ _ _).2.2 _ = _
      rw [j1, j2]
      refine ⟨?_, rfl⟩
      congr 1; omega
    · simp at h1

theorem stateAt_held (e : Env) (s0 : State) (hr0 : RunInv e s0) (h0 : HeldInv e s0) :
    ∀ (n : Nat) (s : State), stateAt e s0 n = some s → HeldInv e s := by
  intro n
  induction n with
  | zero =>
    intro s hs
    simp only [stateAt, Option.some.injEq] at hs
    rw [← hs]; exact h0
  | succ n ih =>
    intro s hs
    cases hn : stateAt e s0 n with
    | none => simp [stateAt, hn] at hs
    | some s' =>
      have hm := stateAt_succ e s0 s' s n hn hs
      exact (mainStep_held e s' s (stateAt_inv e s0 hr0 n s' hn) (ih s' hn) hm).1

theorem reached_eq (e : Env) (ms : List Point) (Len : List Int) (clock : Nat) (n : Nat)
    (h : (stateAt e (startState e ms Len clock) n).isSome = true) :
    stateAt e (startState e ms Len clock) n = some (reached e ms Len clock n) :=
  getD_of_isSome _ _ h

/-- C3: in a run of `greedy_solver` on pairwise different mounting points, at
least as many as arms, take the state `s` at the start of any iteration of
the main loop (after the initialisation, and after each commit or
retraction). Then (1) the chains `cur` of two different arms share no cell;
(2) every cell of the chain of arm `k` has `owner = k` and `until = L`, a firm
claim; (3) in the iteration that follows, the moves added to the path of any
arm, by a commit or by a retraction, enter no cell of the chain another arm
has in `s`; (4) the chains of two different arms of the returned solution
share no cell. -/
theorem chains_of_agents_disjoint (e : Env) (ms : List Point) (Len : List Int) (clock : Nat)
    (hnd : ms.Nodup) (hR : e.inst.R ≤ ms.length) (n : Nat) (s : State)
    (hs : stateAt e (startState e ms Len clock) n = some s) :
    (∀ (j k : Nat) (a b : Arm), j ≠ k → s.arms[j]? = some a → s.arms[k]? = some b →
        ∀ c ∈ a.cur, c ∉ b.cur) ∧
      (∀ (k : Nat) (a : Arm), s.arms[k]? = some a →
        ∀ c ∈ a.cur, s.owner c = (k : Int) ∧ s.until_ c = e.inst.L) ∧
      (∀ s1, mainStep e s = some (some s1) →
        ∀ (k : Nat) (a a1 : Arm), s.arms[k]? = some a → s1.arms[k]? = some a1 →
          ∃ ext, a1.path = a.path ++ ext ∧
            ∀ c ∈ entered (back a.cur) ext, ∀ (j : Nat) (b : Arm), j ≠ k →
              s.arms[j]? = some b → c ∉ b.cur) ∧
      (∀ r, greedy_solver e ms Len clock = some r →
        ∀ (j k : Nat) (a b : Arm), j ≠ k → r.arms[j]? = some a → r.arms[k]? = some b →
          ∀ c ∈ a.cur, c ∉ b.cur) := by
  have hr0 := startState_inv e ms Len clock hR
  have h0 := startState_held e ms Len clock hnd
  have hh := stateAt_held e _ hr0 h0 n s hs
  have hr := stateAt_inv e _ hr0 n s hs
  refine ⟨?_, hh.firm, ?_, ?_⟩
  · intro j k a b hjk ha hb c hc
    exact firm_apart hh j k a b hjk ha hb c hc
  · intro s1 hm
    exact (mainStep_held e s s1 hr hh hm).2
  · intro r hg j k a b hjk ha hb c hc
    obtain ⟨_, m, sf, hm, _, _, harms⟩ := greedy_solver_final e ms Len clock r hg
    rw [harms] at ha hb
    exact firm_apart (stateAt_held e _ hr0 h0 m sf hm) j k a b hjk ha hb c hc

theorem chains_of_agents_disjoint_witness :
    ([⟨0, 0⟩, ⟨4, 0⟩] : List Point).Nodup ∧
      pairEnv.inst.R ≤ ([⟨0, 0⟩, ⟨4, 0⟩] : List Point).length ∧
      stateAt pairEnv (startState pairEnv [⟨0, 0⟩, ⟨4, 0⟩] [1, 0] 0) 2
        = some (reached pairEnv [⟨0, 0⟩, ⟨4, 0⟩] [1, 0] 0 2) ∧
      ((reached pairEnv [⟨0, 0⟩, ⟨4, 0⟩] [1, 0] 0 2).arms.map (fun a => a.cur)
        = [[⟨0, 0⟩, ⟨1, 0⟩, ⟨2, 0⟩], [⟨4, 0⟩, ⟨3, 0⟩]]) ∧
      ((∀ (j k : Nat) (a b : Arm), j ≠ k →
          (reached pairEnv [⟨0, 0⟩, ⟨4, 0⟩] [1, 0] 0 2).arms[j]? = some a →
          (reached pairEnv [⟨0, 0⟩, ⟨4, 0⟩] [1, 0] 0 2).arms[k]? = some b →
          ∀ c ∈ a.cur, c ∉ b.cur) ∧
        (∀ (k : Nat) (a : Arm), (reached pairEnv [⟨0, 0⟩, ⟨4, 0⟩] [1, 0] 0 2).arms[k]? = some a →
          ∀ c ∈ a.cur, (reached pairEnv [⟨0, 0⟩, ⟨4, 0⟩] [1, 0] 0 2).owner c = (k : Int) ∧
            (reached pairEnv [⟨0, 0⟩, ⟨4, 0⟩] [1, 0] 0 2).until_ c = pairEnv.inst.L) ∧
        (∀ s1, mainStep pairEnv (reached pairEnv [⟨0, 0⟩, ⟨4, 0⟩] [1, 0] 0 2) = some (some s1) →
          ∀ (k : Nat) (a a1 : Arm),
            (reached pairEnv [⟨0, 0⟩, ⟨4, 0⟩] [1, 0] 0 2).arms[k]? = some a →
            s1.arms[k]? = some a1 →
            ∃ ext, a1.path = a.path ++ ext ∧
              ∀ c ∈ entered (back a.cur) ext, ∀ (j : Nat) (b : Arm), j ≠ k →
                (reached pairEnv [⟨0, 0⟩, ⟨4, 0⟩] [1, 0] 0 2).arms[j]? = some b → c ∉ b.cur) ∧
        (∀ r, greedy_solver pairEnv [⟨0, 0⟩, ⟨4, 0⟩] [1, 0] 0 = some r →
          ∀ (j k : Nat) (a b : Arm), j ≠ k → r.arms[j]? = some a → r.arms[k]? = some b →
            ∀ c ∈ a.cur, c ∉ b.cur)) :=
  ⟨by decide, by decide, reached_eq _ _ _ _ _ (by decide), by decide,
    chains_of_agents_disjoint pairEnv [⟨0, 0⟩, ⟨4, 0⟩] [1, 0] 0 (by decide) (by decide) 2 _
      (reached_eq _ _ _ _ _ (by decide))⟩

theorem frac_den_pos_rat (a : Frac) : (0 : ℚ) < (a.den : ℚ) := by
  exact_mod_cast a.pos

theorem frac_toRat_ofInt (n : Int) : (Frac.ofInt n).toRat = (n : ℚ) := by
  simp [Frac.toRat, Frac.ofInt]

theorem frac_toRat_mk (n : Int) (d : Nat) (h : 0 < d) :
    (Frac.mk n d h).toRat = (n : ℚ) / (d : ℚ) := rfl

theorem frac_le_iff_toRat (a b : Frac) : Frac.le a b = true ↔ a.toRat ≤ b.toRat := by
  have ha := frac_den_pos_rat a
  have hb := frac_den_pos_rat b
  simp only [Frac.le, decide_eq_true_eq, Frac.toRat]
  rw [div_le_div_iff₀ ha hb]
  constructor
  · intro h; exact_mod_cast h
  · intro h; exact_mod_cast h

theorem lenSum_nil (Len : List Int) : lenSum Len [] = 0 := rfl

theorem lenSum_cons (Len : List Int) (t : Nat) (ts : List Nat) :
    lenSum Len (t :: ts) = Len.getD t 0 + lenSum Len ts := by
  simp [lenSum]

/-- The budget cutoff keeps a prefix: with `gl` already counted, every
non-empty part of the prefix stays under the budget, and the cutoff stops
only at the end of the ranking or at a task that reaches the budget. -/
theorem keepLoop_spec (Len : List Int) (glMax : Int) :
    ∀ (ts : List Nat) (gl : Int), ∃ j, j ≤ ts.length ∧ keepLoop Len glMax ts gl = ts.take j ∧
      (∀ k, 0 < k → k ≤ j → gl + lenSum Len (ts.take k) < glMax) ∧
      (j = ts.length ∨ glMax ≤ gl + lenSum Len (ts.take (j + 1))) := by
  intro ts
  induction ts with
  | nil =>
    intro gl
    exact ⟨0, le_refl _, rfl, fun k h0 h1 => by omega, Or.inl rfl⟩
  | cons t rest ih =>
    intro gl
    unfold keepLoop
    split
    · rename_i hlt
      obtain ⟨j, j1, j2, j3, j4⟩ := ih (gl + Len.getD t 0)
      refine ⟨j + 1, by simp; omega, by rw [j2]; rfl, ?_, ?_⟩
      · intro k h0 h1
        cases k with
        | zero => omega
        | succ k =>
          rw [List.take_succ_cons, lenSum_cons]
          cases k with
          | zero => simpa [lenSum] using hlt
          | succ k =>
            have := j3 (k + 1) (by omega) (by omega)
            omega
      · rcases j4 with h | h
        · left; simp [h]
        · right
          rw [List.take_succ_cons, lenSum_cons]
          omega
    · rename_i hge
      refine ⟨0, by simp, rfl, fun k h0 h1 => by omega, Or.inr ?_⟩
      simp only [zero_add, List.take_succ_cons, List.take_zero, lenSum_cons, lenSum_nil]
      omega

/-- The ranking holds every task number once, by decreasing efficiency. -/
theorem rankTasks_sorted (e : Env) (Len : List Int) (clock : Nat) :
    (rankTasks e Len clock).Perm (List.range e.inst.T) ∧
      (rankTasks e Len clock).Pairwise
        (fun i j => (efficiency e Len j).toRat ≤ (efficiency e Len i).toRat) := by
  constructor
  · exact (List.perm_insertionSort _ _).trans (shuffleList_perm _ _)
  · haveI : IsTotal Nat (fun i j => Frac.le (efficiency e Len j) (efficiency e Len i) = true) :=
      ⟨fun i j => by
        simp only [frac_le_iff_toRat]
        exact le_total _ _⟩
    haveI : IsTrans Nat (fun i j => Frac.le (efficiency e Len j) (efficiency e Len i) = true) :=
      ⟨fun i j k h1 h2 => by
        simp only [frac_le_iff_toRat] at h1 h2 ⊢
        exact le_trans h2 h1⟩
    have := List.sorted_insertionSort
      (fun i j => Frac.le (efficiency e Len j) (efficiency e Len i) = true)
      (shuffleList (e.ch.perm clock) (List.range e.inst.T))
    exact List.Pairwise.imp (fun h => (frac_le_iff_toRat _ _).mp h) this

/-- C20: the candidate set a run of `greedy_solver` starts from is a prefix
`ranked[0..j)` of the efficiency ranking `ranked` (the task numbers `0..T-1`
sorted by decreasing `efficiency_scores`); with `GL = (int)(R * L *
path_cost_threshold)` as the machine computes it (`budget`: the product is
rounded to a `double`, then truncated) and the penalised lengths `Len`
(`penalise`, with the same rounding), the cumulative length
of every non-empty part `ranked[0..k)`, `k ≤ j`, of that prefix is strictly
less than `GL`, and either `j = T` (all tasks kept) or the cumulative length
of `ranked[0..j]`, the prefix with the next task added, is `GL` or more. -/
theorem retained_is_longest_prefix_under_budget (e : Env) (ms : List Point) (Len : List Int)
    (clock : Nat) :
    (rankTasks e (penalise e ms Len) clock).Perm (List.range e.inst.T) ∧
      (rankTasks e (penalise e ms Len) clock).Pairwise
        (fun i j => (efficiency e (penalise e ms Len) j).toRat
          ≤ (efficiency e (penalise e ms Len) i).toRat) ∧
      ∃ j, j ≤ (rankTasks e (penalise e ms Len) clock).length ∧
        (startState e ms Len clock).ts = (rankTasks e (penalise e ms Len) clock).take j ∧
        (∀ k, 0 < k → k ≤ j →
          lenSum (penalise e ms Len) ((rankTasks e (penalise e ms Len) clock).take k)
            < budget e) ∧
        (j = (rankTasks e (penalise e ms Len) clock).length ∨
          budget e ≤ lenSum (penalise e ms Len)
            ((rankTasks e (penalise e ms Len) clock).take (j + 1))) := by
  refine ⟨(rankTasks_sorted e _ clock).1, (rankTasks_sorted e _ clock).2, ?_⟩
  obtain ⟨j, j1, j2, j3, j4⟩ := keepLoop_spec (penalise e ms Len) (budget e)
    (rankTasks e (penalise e ms Len) clock) 0
  refine ⟨j, j1, j2, ?_, ?_⟩
  · intro k h0 h1
    have := j3 k h0 h1
    omega
  · rcases j4 with h | h
    · exact Or.inl h
    · right; omega

theorem getD_set_self (l : List Arm) (i : Nat) (a : Arm) (h : i < l.length) :
    (l.set i a).getD i default = a := by
  rw [List.getD_eq_getElem?_getD, List.getElem?_set_self h]
  rfl

theorem getD_set_other (l : List Arm) (i k : Nat) (a : Arm) (h : k ≠ i) :
    (l.set i a).getD k default = l.getD k default := by
  rw [List.getD_eq_getElem?_getD, List.getD_eq_getElem?_getD,
    List.getElem?_set_ne (fun h0 => h h0.symm)]

/-- C15: when the branch `bestT == -1` is taken for an arm `i` whose chain is
its anchor alone (`cur.size() <= 1`), the branch leaves `owner` and `until`,
the candidate list and the score as they are, leaves `path`, `cur`, `cp`,
`how` and `z` of arm `i` as they are and sets its `done`; every other arm,
its `done` flag included, is left as it is. -/
theorem retraction_at_anchor_is_noop (e : Env) (s : State) (i : Nat)
    (hi : i < s.arms.length) (h1 : (s.arm i).cur.length ≤ 1) :
    (retractStep e s i).owner = s.owner ∧ (retractStep e s i).until_ = s.until_ ∧
      (retractStep e s i).ts = s.ts ∧ (retractStep e s i).score = s.score ∧
      (retractStep e s i).arms.length = s.arms.length ∧
      ((retractStep e s i).arm i).path = (s.arm i).path ∧
      ((retractStep e s i).arm i).cur = (s.arm i).cur ∧
      ((retractStep e s i).arm i).cp = (s.arm i).cp ∧
      ((retractStep e s i).arm i).how = (s.arm i).how ∧
      ((retractStep e s i).arm i).z = (s.arm i).z ∧
      ((retractStep e s i).arm i).done = true ∧
      ∀ k, k ≠ i → (retractStep e s i).arm k = s.arm k := by
  have hs : retractStep e s i = { s with arms := s.arms.set i { s.arm i with done := true } } := by
    unfold retractStep
    rw [if_pos h1]
  rw [hs]
  refine ⟨rfl, rfl, rfl, rfl, by simp, ?_, ?_, ?_, ?_, ?_, ?_, ?_⟩
  · show ((s.arms.set i _).getD i default).path = _
    rw [getD_set_self _ _ _ hi]
  · show ((s.arms.set i _).getD i default).cur = _
    rw [getD_set_self _ _ _ hi]
  · show ((s.arms.set i _).getD i default).cp = _
    rw [getD_set_self _ _ _ hi]
  · show ((s.arms.set i _).getD i default).how = _
    rw [getD_set_self _ _ _ hi]
  · show ((s.arms.set i _).getD i default).z = _
    rw [getD_set_self _ _ _ hi]
  · show ((s.arms.set i _).getD i default).done = _
    rw [getD_set_self _ _ _ hi]
  · intro k hk
    show (s.arms.set i _).getD k default = s.arms.getD k default
    exact getD_set_other _ _ _ _ hk

theorem retraction_at_anchor_is_noop_witness :
    0 < (startState scenarioEnv [⟨0, 0⟩] [2] 0).arms.length ∧
      ((startState scenarioEnv [⟨0, 0⟩] [2] 0).arm 0).cur.length ≤ 1 ∧
      ((retractStep scenarioEnv (startState scenarioEnv [⟨0, 0⟩] [2] 0) 0).owner = (startState scenarioEnv [⟨0, 0⟩] [2] 0).owner ∧
        (retractStep scenarioEnv (startState scenarioEnv [⟨0, 0⟩] [2] 0) 0).until_ = (startState scenarioEnv [⟨0, 0⟩] [2] 0).until_ ∧
        (retractStep scenarioEnv (startState scenarioEnv [⟨0, 0⟩] [2] 0) 0).ts = (startState scenarioEnv [⟨0, 0⟩] [2] 0).ts ∧
        (retractStep scenarioEnv (startState scenarioEnv [⟨0, 0⟩] [2] 0) 0).score = (startState scenarioEnv [⟨0, 0⟩] [2] 0).score ∧
        (retractStep scenarioEnv (startState scenarioEnv [⟨0, 0⟩] [2] 0) 0).arms.length = (startState scenarioEnv [⟨0, 0⟩] [2] 0).arms.length ∧
        ((retractStep scenarioEnv (startState scenarioEnv [⟨0, 0⟩] [2] 0) 0).arm 0).path = ((startState scenarioEnv [⟨0, 0⟩] [2] 0).arm 0).path ∧
        ((retractStep scenarioEnv (startState scenarioEnv [⟨0, 0⟩] [2] 0) 0).arm 0).cur = ((startState scenarioEnv [⟨0, 0⟩] [2] 0).arm 0).cur ∧
        ((retractStep scenarioEnv (startState scenarioEnv [⟨0, 0⟩] [2] 0) 0).arm 0).cp = ((startState scenarioEnv [⟨0, 0⟩] [2] 0).arm 0).cp ∧
        ((retractStep scenarioEnv (startState scenarioEnv [⟨0, 0⟩] [2] 0) 0).arm 0).how = ((startState scenarioEnv [⟨0, 0⟩] [2] 0).arm 0).how ∧
        ((retractStep scenarioEnv (startState scenarioEnv [⟨0, 0⟩] [2] 0) 0).arm 0).z = ((startState scenarioEnv [⟨0, 0⟩] [2] 0).arm 0).z ∧
        ((retractStep scenarioEnv (startState scenarioEnv [⟨0, 0⟩] [2] 0) 0).arm 0).done = true ∧
        ∀ k, k ≠ 0 → (retractStep scenarioEnv (startState scenarioEnv [⟨0, 0⟩] [2] 0) 0).arm k = (startState scenarioEnv [⟨0, 0⟩] [2] 0).arm k) :=
  ⟨by decide, by decide,
    retraction_at_anchor_is_noop scenarioEnv (startState scenarioEnv [⟨0, 0⟩] [2] 0) 0 (by decide) (by decide)⟩

/-- C17: in a run of `greedy_solver` (with at least as many mounting points
as arms) take the state `s` at the start of any iteration of the main loop:
after the construction of the arms, and after each commit or retraction.
Then `cur.size() = cp.size() + 1` holds (1) for every arm of `s`, (2) for the
clone of any arm after the splices of any waypoints `wps`, on any search
tables, (3) for any arm after any number `k` of steps of the retraction loop,
and (4) for every arm of the returned solution. -/
theorem chain_and_history_aligned (e : Env) (ms : List Point) (Len : List Int) (clock : Nat)
    (hR : e.inst.R ≤ ms.length) (n : Nat) (s : State)
    (hs : stateAt e (startState e ms Len clock) n = some s) :
    (∀ a ∈ s.arms, a.cur.length = a.cp.length + 1) ∧
      (∀ (i t : Nat) (wps : List Point) (sc : Scratch) (a1 : Arm) (sc1 : Scratch),
        i < e.inst.R → waypoints e s i t wps (s.arm i) sc = some (some a1, sc1) →
        a1.cur.length = a1.cp.length + 1) ∧
      (∀ (i k : Nat) (u : Grid Int), i < e.inst.R →
        (retractLoop e.inst.L k (s.arm i) u).1.cur.length
          = (retractLoop e.inst.L k (s.arm i) u).1.cp.length + 1) ∧
      (∀ r, greedy_solver e ms Len clock = some r →
        ∀ a ∈ r.arms, a.cur.length = a.cp.length + 1) := by
  have hr0 := startState_inv e ms Len clock hR
  have hr := stateAt_inv e _ hr0 n s hs
  refine ⟨?_, ?_, ?_, ?_⟩
  · intro a ha
    exact (hr.arm a ha).chain.1.length_eq
  · intro i t wps sc a1 sc1 hi hw
    have hlen : i < s.arms.length := by rw [hr.arms_len]; exact hi
    have hc := (hr.arm _ (arm_mem s i hlen)).chain
    exact (waypoints_ok e s i t wps _ sc a1 sc1 hc hw).1.1.length_eq
  · intro i k u hi
    have hlen : i < s.arms.length := by rw [hr.arms_len]; exact hi
    exact (retractLoop_inv e k (s.arm i) u (hr.arm _ (arm_mem s i hlen))).1.chain.1.length_eq
  · intro r hg a ha
    obtain ⟨sf, hf, _, harms⟩ := greedy_solver_inv e ms Len clock r hg
    rw [harms] at ha
    exact (hf.arm a ha).chain.1.length_eq

/-- The retraction loop with enough fuel takes `k` steps: it cuts `k` cells
off the chain and adds `k` moves, stops at the anchor or at the horizon, and
does not pass the horizon. -/
theorem retractLoop_count (L : Int) : ∀ (n : Nat) (a : Arm) (u : Grid Int),
    a.cur.length ≤ n + 1 →
    ∃ k, (retractLoop L n a u).1.cur = a.cur.take (a.cur.length - k) ∧
      (retractLoop L n a u).1.path.length = a.path.length + k ∧
      k + 1 ≤ max a.cur.length 1 ∧
      ((retractLoop L n a u).1.cur.length ≤ 1 ∨
        toSize L ≤ ((retractLoop L n a u).1.path.length : Int)) ∧
      (0 < k → ((retractLoop L n a u).1.path.length : Int) ≤ toSize L) := by
  intro n
  induction n with
  | zero =>
    intro a u h
    exact ⟨0, by simp [retractLoop], by simp [retractLoop], by omega,
      Or.inl (by simpa [retractLoop] using h), fun h0 => absurd h0 (lt_irrefl _)⟩
  | succ n ih =>
    intro a u h
    unfold retractLoop
    split
    · rename_i hcond
      obtain ⟨k, k1, k2, k3, k4, k5⟩ := ih
        { a with path := a.path ++ [opp (backMove a.cp)], cur := a.cur.dropLast,
                 cp := a.cp.dropLast,
                 how := a.how.set (back a.cur.dropLast) Move.x }
        (u.set (back a.cur) (a.path.length : Int)) (by simp; omega)
      simp only [List.length_dropLast, List.length_append, List.length_singleton] at k1 k2 k3
      refine ⟨k + 1, ?_, ?_, ?_, k4, ?_⟩
      · rw [k1, List.dropLast_eq_take, List.take_take]
        congr 1
        omega
      · rw [k2]; omega
      · have := hcond.1
        omega
      · intro _
        by_cases hk : 0 < k
        · exact k5 hk
        · have hk0 : k = 0 := by omega
          rw [k2, hk0]
          have := hcond.2
          push_cast
          omega
    · rename_i hcond
      refine ⟨0, by simp, by simp, by omega, ?_, fun h0 => absurd h0 (lt_irrefl _)⟩
      by_cases h1 : a.cur.length ≤ 1
      · exact Or.inl h1
      · right
        have : ¬ ((a.path.length : Int) < toSize L) := fun h2 => hcond ⟨by omega, h2⟩
        show toSize L ≤ (a.path.length : Int)
        omega

theorem toSize_eq (L : Int) (h0 : 0 ≤ L) (h1 : L < 18446744073709551616) : toSize L = L := by
  unfold toSize
  omega

/-- The arm a retraction step leaves behind: marked done, with the chain,
the direction map and the moves the retraction loop produced. -/
theorem retractStep_arm (e : Env) (s : State) (i : Nat) (hi : i < s.arms.length) :
    ((retractStep e s i).arm i).done = true ∧
      chainView ((retractStep e s i).arm i)
        = chainView (retractLoop e.inst.L (s.arm i).cur.length (s.arm i) s.until_).1 := by
  constructor
  · unfold retractStep
    split
    · show Arm.done (List.getD (s.arms.set i _) i default) = true
      rw [getD_set_self _ _ _ hi]
    · dsimp only
      show Arm.done (List.getD (List.set _ i _) i default) = true
      rw [getD_set_self _ _ _ (by rw [resetDone_length, List.length_set]; exact hi)]
  · obtain ⟨v1, _⟩ := retractStep_view chainView (fun _ _ => rfl) e s i hi
    have h3 := List.getD_map (retractStep e s i).arms default (n := i) chainView
    show chainView ((retractStep e s i).arms.getD i default) = _
    rw [← h3, v1, List.getD_eq_getElem?_getD, List.getElem?_set_self (by simpa using hi)]
    rfl

theorem chain_and_history_aligned_witness :
    pairEnv.inst.R ≤ ([⟨0, 0⟩, ⟨4, 0⟩] : List Point).length ∧
      stateAt pairEnv (startState pairEnv [⟨0, 0⟩, ⟨4, 0⟩] [1, 0] 0) 2 = some (reached pairEnv [⟨0, 0⟩, ⟨4, 0⟩] [1, 0] 0 2) ∧
      ((∀ a ∈ (reached pairEnv [⟨0, 0⟩, ⟨4, 0⟩] [1, 0] 0 2).arms, a.cur.length = a.cp.length + 1) ∧
        (∀ (i t : Nat) (wps : List Point) (sc : Scratch) (a1 : Arm) (sc1 : Scratch),
          i < pairEnv.inst.R →
          waypoints pairEnv (reached pairEnv [⟨0, 0⟩, ⟨4, 0⟩] [1, 0] 0 2) i t wps
            ((reached pairEnv [⟨0, 0⟩, ⟨4, 0⟩] [1, 0] 0 2).arm i) sc = some (some a1, sc1) →
          a1.cur.length = a1.cp.length + 1) ∧
        (∀ (i k : Nat) (u : Grid Int), i < pairEnv.inst.R →
          (retractLoop pairEnv.inst.L k ((reached pairEnv [⟨0, 0⟩, ⟨4, 0⟩] [1, 0] 0 2).arm i) u).1.cur.length
            = (retractLoop pairEnv.inst.L k ((reached pairEnv [⟨0, 0⟩, ⟨4, 0⟩] [1, 0] 0 2).arm i) u).1.cp.length + 1) ∧
        (∀ r, greedy_solver pairEnv [⟨0, 0⟩, ⟨4, 0⟩] [1, 0] 0 = some r →
          ∀ a ∈ r.arms, a.cur.length = a.cp.length + 1)) :=
  ⟨by decide, reached_eq _ _ _ _ _ (by decide),
    chain_and_history_aligned pairEnv [⟨0, 0⟩, ⟨4, 0⟩] [1, 0] 0 (by decide) 2 _
      (reached_eq _ _ _ _ _ (by decide))⟩

/-- C18 (as the code has it): in a run with horizon `0 ≤ L`, when the branch
`bestT == -1` is taken for arm `i` in the state `s` at the start of an
iteration, the arm is marked done after retracting one cell per move while
its path is shorter than `L`. If `path.size() + cur.size() - 1 ≤ L` on entry,
its chain ends as the anchor alone. Otherwise the loop stops at the horizon:
the path has length `L` and the first `cur.size() - (L - path.size())` cells
of the chain, at least two, are still held. -/
theorem retraction_stops_at_anchor_or_horizon (e : Env) (ms : List Point) (Len : List Int)
    (clock : Nat) (hR : e.inst.R ≤ ms.length) (hL0 : 0 ≤ e.inst.L)
    (hL1 : e.inst.L < 18446744073709551616) (n : Nat) (s : State)
    (hs : stateAt e (startState e ms Len clock) n = some s) (i : Nat) (hi : i < e.inst.R) :
    ((retractStep e s i).arm i).done = true ∧
      (((s.arm i).path.length : Int) + (s.arm i).cur.length ≤ e.inst.L + 1 →
        ((retractStep e s i).arm i).cur = [(s.arm i).cur.headD default]) ∧
      (e.inst.L + 1 < ((s.arm i).path.length : Int) + (s.arm i).cur.length →
        (((retractStep e s i).arm i).path.length : Int) = e.inst.L ∧
        ((retractStep e s i).arm i).cur = (s.arm i).cur.take
          ((s.arm i).cur.length - (e.inst.L - (s.arm i).path.length).toNat) ∧
        1 < ((retractStep e s i).arm i).cur.length) := by
  have hr := stateAt_inv e _ (startState_inv e ms Len clock hR) n s hs
  have hlen : i < s.arms.length := by rw [hr.arms_len]; exact hi
  have hai := hr.arm _ (arm_mem s i hlen)
  have hne := hai.chain.1.ne_nil
  have hhor := hai.horizon hL0
  have hpos : 0 < (s.arm i).cur.length := List.length_pos.mpr hne
  obtain ⟨hd, hv⟩ := retractStep_arm e s i hlen
  obtain ⟨v1, _, v3⟩ := chainView_eq hv
  obtain ⟨k, k1, k2, k3, k4, k5⟩ := retractLoop_count e.inst.L (s.arm i).cur.length (s.arm i)
    s.until_ (by omega)
  rw [toSize_eq _ hL0 hL1] at k4 k5
  have hlk : (retractLoop e.inst.L (s.arm i).cur.length (s.arm i) s.until_).1.cur.length
      = (s.arm i).cur.length - k := by
    rw [k1, List.length_take]; omega
  refine ⟨hd, ?_, ?_⟩
  · intro hfit
    rw [v1]
    have hk : (s.arm i).cur.length - k = 1 := by
      rcases k4 with h | h
      · omega
      · rw [k2] at h
        push_cast at h
        omega
    rw [k1, hk]
    cases hcur : (s.arm i).cur with
    | nil => exact absurd hcur hne
    | cons x xs => rfl
  · intro hover
    have hle : ((retractLoop e.inst.L (s.arm i).cur.length (s.arm i) s.until_).1.path.length
        : Int) ≤ e.inst.L := by
      by_cases hk : 0 < k
      · exact k5 hk
      · have hk0 : k = 0 := by omega
        rw [k2, hk0]
        simpa using hhor
    have hge : e.inst.L ≤ ((retractLoop e.inst.L (s.arm i).cur.length (s.arm i)
        s.until_).1.path.length : Int) := by
      rcases k4 with h | h
      · rw [k2] at hle
        push_cast at hle
        omega
      · exact h
    have hk : (e.inst.L - (s.arm i).path.length).toNat = k := by
      rw [k2] at hle hge
      push_cast at hle hge
      omega
    rw [v1, v3, hk]
    refine ⟨by omega, k1, ?_⟩
    rw [hlk]
    rw [k2] at hle
    push_cast at hle
    omega

theorem retraction_stops_at_anchor_or_horizon_witness :
    farEnv.inst.R ≤ ([⟨1, 0⟩] : List Point).length ∧ 0 ≤ farEnv.inst.L ∧
      farEnv.inst.L < 18446744073709551616 ∧
      stateAt farEnv (startState farEnv [⟨1, 0⟩] [0] 0) 1
        = some (reached farEnv [⟨1, 0⟩] [0] 0 1) ∧
      0 < farEnv.inst.R ∧
      (((retractStep farEnv (reached farEnv [⟨1, 0⟩] [0] 0 1) 0).arm 0).done = true ∧
        ((((reached farEnv [⟨1, 0⟩] [0] 0 1).arm 0).path.length : Int)
            + ((reached farEnv [⟨1, 0⟩] [0] 0 1).arm 0).cur.length ≤ farEnv.inst.L + 1 →
          ((retractStep farEnv (reached farEnv [⟨1, 0⟩] [0] 0 1) 0).arm 0).cur
            = [((reached farEnv [⟨1, 0⟩] [0] 0 1).arm 0).cur.headD default]) ∧
        (farEnv.inst.L + 1 < (((reached farEnv [⟨1, 0⟩] [0] 0 1).arm 0).path.length : Int)
            + ((reached farEnv [⟨1, 0⟩] [0] 0 1).arm 0).cur.length →
          (((retractStep farEnv (reached farEnv [⟨1, 0⟩] [0] 0 1) 0).arm 0).path.length : Int)
            = farEnv.inst.L ∧
          ((retractStep farEnv (reached farEnv [⟨1, 0⟩] [0] 0 1) 0).arm 0).cur
            = ((reached farEnv [⟨1, 0⟩] [0] 0 1).arm 0).cur.take
              (((reached farEnv [⟨1, 0⟩] [0] 0 1).arm 0).cur.length
                - (farEnv.inst.L - ((reached farEnv [⟨1, 0⟩] [0] 0 1).arm 0).path.length).toNat) ∧
          1 < ((retractStep farEnv (reached farEnv [⟨1, 0⟩] [0] 0 1) 0).arm 0).cur.length)) :=
  ⟨by decide, by decide, by decide, reached_eq _ _ _ _ _ (by decide), by decide,
    retraction_stops_at_anchor_or_horizon farEnv [⟨1, 0⟩] [0] 0 (by decide) (by decide)
      (by decide) 1 _ (reached_eq _ _ _ _ _ (by decide)) 0 (by decide)⟩

/-- C18 fails as stated: in the run on `farEnv` (one arm at `(1,0)`, horizon 3,
one task at `(4,0)`) the arm commits the task with the path `RRR`. At the
start of the next iteration it holds the four cells `(1,0)..(4,0)` and no
task is left, so the branch `bestT == -1` is taken; `path.size() < L` is
false, the retraction loop does not run, and the arm is marked done with its
four cells, which it still holds in the returned solution. -/
theorem retraction_stops_short :
    (stateAt farEnv (startState farEnv [⟨1, 0⟩] [0] 0) 1).map
        (fun s => (s.ts, s.arms.map (fun a => (a.cur, a.path.length, a.done))))
      = some ([], [([⟨1, 0⟩, ⟨2, 0⟩, ⟨3, 0⟩, ⟨4, 0⟩], 3, false)]) ∧
    (stateAt farEnv (startState farEnv [⟨1, 0⟩] [0] 0) 2).map
        (fun s => (s.ts, s.arms.map (fun a => (a.cur, a.path.length, a.done))))
      = some ([], [([⟨1, 0⟩, ⟨2, 0⟩, ⟨3, 0⟩, ⟨4, 0⟩], 3, true)]) ∧
    (greedy_solver farEnv [⟨1, 0⟩] [0] 0).map
        (fun r => r.arms.map (fun a => (a.cur, a.path.length, a.done)))
      = some [([⟨1, 0⟩, ⟨2, 0⟩, ⟨3, 0⟩, ⟨4, 0⟩], 3, true)] :=
  ⟨by decide, by decide, by decide⟩

theorem orderMounts_perm (e : Env) (ms : List Point) (clock : Nat) :
    (orderMounts e ms clock).Perm ms := by
  unfold orderMounts
  split
  · exact (List.perm_insertionSort _ _).trans (shuffleList_perm _ _)
  · exact shuffleList_perm _ _

theorem lsTrial_ms (E : LsEnv) (it : Nat) (st st1 : LsState) (h : lsTrial E it st = some st1) :
    st1.ms.Perm st.ms := by
  unfold lsTrial at h
  simp only at h
  split at h
  · simp at h
  · rename_i r hg
    have hp : r.ms.Perm st.ms := by
      rw [(greedy_solver_ms _ _ _ _ r hg).1]
      exact orderMounts_perm _ _ _
    split at h
    · simp only [Option.some.injEq] at h
      rw [← h]; exact hp
    · split at h
      · split at h <;>
        · simp only [Option.some.injEq] at h
          rw [← h]; exact hp
      · simp only [Option.some.injEq] at h
        rw [← h]; exact hp

theorem lsLoop_ms (E : LsEnv) : ∀ (its : List Nat) (st st1 : LsState),
    lsLoop E its st = some st1 → st1.ms.Perm st.ms := by
  intro its
  induction its with
  | nil =>
    intro st st1 h
    simp only [lsLoop, Option.some.injEq] at h
    rw [h]
  | cons it its ih =>
    intro st st1 h
    unfold lsLoop at h
    split at h
    · simp at h
    · rename_i st2 h2
      exact (ih st2 st1 h).trans (lsTrial_ms E it st st2 h2)

theorem lsInit_ms (E : LsEnv) (ms : List Point) (Len : List Int) (p0 : SolverParams)
    (st0 : LsState) (h : lsInit E ms Len p0 = some st0) : st0.ms.Perm ms := by
  unfold lsInit at h
  split at h
  · simp at h
  · rename_i r hg
    simp only [Option.some.injEq] at h
    rw [← h]
    show r.ms.Perm ms
    rw [(greedy_solver_ms _ _ _ _ r hg).1]
    exact orderMounts_perm _ _ _

/-- C11 (as the code has it): a run of `greedy_solver` rearranges the anchor
list it is given: after it returns, `ms` holds the same mounting points as
before the call, each as often as before, in the order the shuffle (or, for
`W == 300`, the sort by border distance) has put them. So in `local_search`
the first run and every trial work on a rearrangement of the anchor list
`local_search` was given. -/
theorem run_rearranges_anchors (e : Env) (ms : List Point) (Len : List Int) (clock : Nat)
    (r : Result) (h : greedy_solver e ms Len clock = some r) :
    r.ms.Perm ms ∧ r.ms = orderMounts e ms (clock + 1) ∧
      ∀ (E : LsEnv) (ms0 : List Point) (Len0 : List Int) (p0 : SolverParams)
        (its : List Nat) (st0 st : LsState),
        lsInit E ms0 Len0 p0 = some st0 → lsLoop E its st0 = some st →
        st0.ms.Perm ms0 ∧ st.ms.Perm ms0 := by
  refine ⟨?_, (greedy_solver_ms e ms Len clock r h).1, ?_⟩
  · rw [(greedy_solver_ms e ms Len clock r h).1]
    exact orderMounts_perm _ _ _
  · intro E ms0 Len0 p0 its st0 st h0 h1
    have := lsInit_ms E ms0 Len0 p0 st0 h0
    exact ⟨this, (lsLoop_ms E its st0 st h1).trans this⟩

theorem run_rearranges_anchors_witness :
    greedy_solver swapEnv [⟨0, 0⟩, ⟨4, 0⟩] [1, 0] 0
        = some (solved swapEnv [⟨0, 0⟩, ⟨4, 0⟩] [1, 0] 0) ∧
      ((solved swapEnv [⟨0, 0⟩, ⟨4, 0⟩] [1, 0] 0).ms.Perm [⟨0, 0⟩, ⟨4, 0⟩] ∧
        (solved swapEnv [⟨0, 0⟩, ⟨4, 0⟩] [1, 0] 0).ms
          = orderMounts swapEnv [⟨0, 0⟩, ⟨4, 0⟩] (0 + 1) ∧
        ∀ (E : LsEnv) (ms0 : List Point) (Len0 : List Int) (p0 : SolverParams)
          (its : List Nat) (st0 st : LsState),
          lsInit E ms0 Len0 p0 = some st0 → lsLoop E its st0 = some st →
          st0.ms.Perm ms0 ∧ st.ms.Perm ms0) :=
  ⟨solved_eq _ _ _ _ (by decide),
    run_rearranges_anchors swapEnv [⟨0, 0⟩, ⟨4, 0⟩] [1, 0] 0 _ (solved_eq _ _ _ _ (by decide))⟩

/-- C11 fails as stated: the run on the two anchors `(0,0)`, `(4,0)` and the
lengths `[1, 0]` returns with `ms` rearranged to `(4,0)`, `(0,0)` and with
`Len` raised to `[2, 1]`. In `local_search` the first run leaves the lengths
`[2, 1]` behind, the first trial works on them and leaves `[3, 2]`, the
second leaves `[4, 3]`: no trial solves the instance of the run before it. -/
theorem run_changes_anchors_and_lengths :
    (greedy_solver swapEnv [⟨0, 0⟩, ⟨4, 0⟩] [1, 0] 0).map (fun r => (r.ms, r.Len))
        = some ([⟨4, 0⟩, ⟨0, 0⟩], [2, 1]) ∧
      (lsInit swapSearch [⟨0, 0⟩, ⟨4, 0⟩] [1, 0] {}).map (fun st => (st.ms, st.Len))
        = some ([⟨4, 0⟩, ⟨0, 0⟩], [2, 1]) ∧
      ((lsInit swapSearch [⟨0, 0⟩, ⟨4, 0⟩] [1, 0] {}).bind (lsLoop swapSearch [0])).map
          (fun st => (st.ms, st.Len))
        = some ([⟨0, 0⟩, ⟨4, 0⟩], [3, 2]) ∧
      ((lsInit swapSearch [⟨0, 0⟩, ⟨4, 0⟩] [1, 0] {}).bind (lsLoop swapSearch [0, 1])).map
          (fun st => (st.ms, st.Len))
        = some ([⟨4, 0⟩, ⟨0, 0⟩], [4, 3]) :=
  ⟨by decide, by decide, by decide, by decide⟩

theorem proper_step (p : Point) (c : Move) (h : Move.Proper c) : distance p (p.add c) = 1 := by
  rcases h with h | h | h | h <;> subst h <;> simp [distance, Point.add]

theorem ownLoop_predOK (e : Env) (SS : Int) (a : Arm) (pt q : Point) (l depth : Int) :
    ∀ (cs : List Move) (σ : Search), PredOK σ.vs σ.pred →
      PredOK (ownLoop e SS a pt q l depth cs σ).vs (ownLoop e SS a pt q l depth cs σ).pred := by
  intro cs
  induction cs with
  | nil => intro σ h; exact h
  | cons c cs ih =>
    intro σ h
    unfold ownLoop
    simp only
    have hset : PredOK σ.vs (σ.pred.set (q.add c) Move.x) := by
      refine ⟨h.1, fun p => ?_⟩
      by_cases hp : p = q.add c
      · left; rw [hp, set_same_cell]
      · rw [set_other_cell _ _ _ _ hp]; exact h.2 p
    split
    · exact ih σ h
    · split
      · exact hset
      · refine ih _ ?_
        exact hset

theorem freshLoop_predOK (e : Env) (s : State) (i t : Nat) (SS : Int) (a : Arm) (pt q : Point)
    (l depth : Int) :
    ∀ (cs : List Move) (σ σ1 : Search), (∀ c ∈ cs, Move.Proper c) → PredOK σ.vs σ.pred →
      freshLoop e s i t SS a pt q l depth cs σ = some σ1 → PredOK σ1.vs σ1.pred := by
  intro cs
  induction cs with
  | nil =>
    intro σ σ1 _ h hr
    simp only [freshLoop, Option.some.injEq] at hr
    rw [← hr]; exact h
  | cons c cs ih =>
    intro σ σ1 hcs h hr
    have hc := hcs c (List.mem_cons_self _ _)
    have hcs1 : ∀ c ∈ cs, Move.Proper c := fun d hd => hcs d (List.mem_cons_of_mem _ hd)
    have hset : PredOK σ.vs (σ.pred.set (q.add c) c) := by
      refine ⟨h.1, fun p => ?_⟩
      by_cases hp : p = q.add c
      · right; rw [hp, set_same_cell]; exact hc
      · rw [set_other_cell _ _ _ _ hp]; exact h.2 p
    unfold freshLoop at hr
    simp only at hr
    split at hr
    · exact ih σ σ1 hcs1 h hr
    · split at hr
      · simp at hr
      · exact ih σ σ1 hcs1 h hr
      · split at hr
        · exact ih σ σ1 hcs1 h hr
        · split at hr
          · simp only [Option.some.injEq] at hr
            rw [← hr]; exact hset
          · refine ih _ σ1 hcs1 ?_ hr
            exact hset

theorem maybeShuffle_predOK (e : Env) (σ : Search) (h : PredOK σ.vs σ.pred) :
    PredOK (maybeShuffle e σ).vs (maybeShuffle e σ).pred := by
  obtain ⟨_, _, _, _, m5, m6⟩ := maybeShuffle_same e σ
  rw [m5]
  exact ⟨fun c hc => h.1 c (m6.mem_iff.mp hc), h.2⟩

theorem searchLoop_predOK (e : Env) (s : State) (i t : Nat) (SS : Int) (a : Arm) (pt : Point) :
    ∀ (n : Nat) (σ σ1 : Search), PredOK σ.vs σ.pred →
      searchLoop e s i t SS a pt n σ = some σ1 → PredOK σ1.vs σ1.pred := by
  intro n
  induction n with
  | zero => intro σ σ1 _ hr; simp [searchLoop] at hr
  | succ n ih =>
    intro σ σ1 h hr
    unfold searchLoop at hr
    split at hr
    · simp only [Option.some.injEq] at hr
      rw [← hr]; exact h
    · split at hr
      · simp only [Option.some.injEq] at hr
        rw [← hr]; exact h
      · rename_i top Q1 hpop
        simp only at hr
        split at hr
        · refine ih _ σ1 ?_ hr
          exact h
        · split at hr
          · simp only [Option.some.injEq] at hr
            rw [← hr]; exact h
          · have h1 := maybeShuffle_predOK e { σ with Q := Q1, clock := σ.clock + 1 } h
            split at hr
            · simp at hr
            · rename_i σ3 hfresh
              refine ih _ σ1 ?_ hr
              refine freshLoop_predOK e s i t SS a pt top.q top.l top.depth _ _ σ3 ?_ ?_ hfresh
              · split
                · exact (ownLoop_predOK e SS a pt top.q top.l top.depth _ _ h1).1
                · exact h1.1
              · split
                · exact ownLoop_predOK e SS a pt top.q top.l top.depth _ _ h1
                · exact h1

theorem predWalk_proper (pred : Grid Move) (hp : ∀ p, pred p = Move.x ∨ Move.Proper (pred p)) :
    ∀ (n : Nat) (q : Point) (acc add : List Move) (p : Point), (∀ c ∈ acc, Move.Proper c) →
      predWalk pred n q acc = some (add, p) → ∀ c ∈ add, Move.Proper c := by
  intro n
  induction n with
  | zero => intro q acc add p _ hw; simp [predWalk] at hw
  | succ n ih =>
    intro q acc add p hacc hw
    unfold predWalk at hw
    split at hw
    · simp only [Option.some.injEq, Prod.mk.injEq] at hw
      rw [← hw.1]; exact hacc
    · rename_i hx
      refine ih _ _ add p ?_ hw
      intro c hc
      rcases List.mem_append.mp hc with h1 | h1
      · exact hacc c h1
      · rw [List.mem_singleton.mp h1]
        rcases hp q with h2 | h2
        · exact absurd h2 hx
        · exact h2

theorem unwind_cp : ∀ (n : Nat) (p : Point) (a a1 : Arm), unwind n p a = some a1 →
    ∀ c ∈ a1.cp, c ∈ a.cp := by
  intro n
  induction n with
  | zero => intro p a a1 h; simp [unwind] at h
  | succ n ih =>
    intro p a a1 h
    unfold unwind at h
    split at h
    · simp only [Option.some.injEq] at h
      rw [← h]; exact fun _ hc => hc
    · intro c hc
      exact (List.dropLast_sublist _).subset (ih p _ a1 h c hc)

theorem appendMoves_cp (dist : Grid Int) : ∀ (cs : List Move) (a : Arm),
    (appendMoves dist cs a).cp = a.cp := by
  intro cs
  induction cs with
  | nil => intro a; rfl
  | cons c cs ih =>
    intro a
    unfold appendMoves
    simp only
    rw [ih]

/-- A search leaves a table `pred` without waits behind, and a successful
splice a direction history of proper moves. -/
theorem waypoint_proper (e : Env) (s : State) (i t : Nat) (a : Arm) (pt : Point) (sc : Scratch)
    (r : Option Arm) (sc1 : Scratch) (hcp : ∀ c ∈ a.cp, Move.Proper c)
    (hsc : ∀ p, sc.pred p = Move.x ∨ Move.Proper (sc.pred p))
    (h : waypoint e s i t a pt sc = some (r, sc1)) :
    (∀ p, sc1.pred p = Move.x ∨ Move.Proper (sc1.pred p)) ∧
      ∀ a1, r = some a1 → ∀ c ∈ a1.cp, Move.Proper c := by
  unfold waypoint at h
  simp only at h
  split at h
  · simp at h
  · rename_i σ hσ
    have h0 : PredOK [Move.R, Move.L, Move.U, Move.D] (sc.pred.set (back a.cur) Move.x) := by
      refine ⟨?_, fun p => ?_⟩
      · intro c hc
        simp only [List.mem_cons, List.mem_singleton, List.not_mem_nil, or_false] at hc
        exact hc
      · by_cases hp : p = back a.cur
        · left; rw [hp, set_same_cell]
        · rw [set_other_cell _ _ _ _ hp]; exact hsc p
    have hS := searchLoop_predOK e s i t _ a pt _ _ σ h0 hσ
    split at h
    · simp only [Option.some.injEq, Prod.mk.injEq] at h
      rw [← h.1, ← h.2]
      exact ⟨hS.2, fun a1 h1 => by simp at h1⟩
    · split at h
      · simp at h
      · rename_i add p hw
        split at h
        · simp at h
        · rename_i a0 hu
          have hadd := predWalk_proper σ.pred hS.2 _ _ _ _ _ (by simp) hw
          split at h
          · simp only [Option.some.injEq, Prod.mk.injEq] at h
            rw [← h.1, ← h.2]
            exact ⟨hS.2, fun a1 h1 => by simp at h1⟩
          · simp only [Option.some.injEq, Prod.mk.injEq] at h
            rw [← h.1, ← h.2]
            refine ⟨hS.2, ?_⟩
            intro a1 h1
            simp only [Option.some.injEq] at h1
            rw [← h1, appendMoves_cp]
            intro c hc
            rcases List.mem_append.mp hc with h2 | h2
            · exact hcp c (unwind_cp _ _ _ _ hu c h2)
            · exact hadd c (List.mem_reverse.mp h2)

theorem waypoints_proper (e : Env) (s : State) (i t : Nat) :
    ∀ (wps : List Point) (a : Arm) (sc : Scratch) (r : Option Arm) (sc1 : Scratch),
      (∀ c ∈ a.cp, Move.Proper c) → (∀ p, sc.pred p = Move.x ∨ Move.Proper (sc.pred p)) →
      waypoints e s i t wps a sc = some (r, sc1) →
      (∀ p, sc1.pred p = Move.x ∨ Move.Proper (sc1.pred p)) ∧
        ∀ a1, r = some a1 → ∀ c ∈ a1.cp, Move.Proper c := by
  intro wps
  induction wps with
  | nil =>
    intro a sc r sc1 hcp hsc h
    simp only [waypoints, Option.some.injEq, Prod.mk.injEq] at h
    rw [← h.1, ← h.2]
    refine ⟨hsc, fun a1 h1 => ?_⟩
    simp only [Option.some.injEq] at h1
    rw [← h1]; exact hcp
  | cons pt pts ih =>
    intro a sc r sc1 hcp hsc h
    unfold waypoints at h
    split at h
    · simp at h
    · rename_i sc0 hw
      simp only [Option.some.injEq, Prod.mk.injEq] at h
      rw [← h.1, ← h.2]
      exact ⟨(waypoint_proper e s i t a pt sc _ sc0 hcp hsc hw).1, fun a1 h1 => by simp at h1⟩
    · rename_i a0 sc0 hw
      obtain ⟨k1, k2⟩ := waypoint_proper e s i t a pt sc _ sc0 hcp hsc hw
      exact ih a0 sc0 r sc1 (k2 a0 rfl) k1 h

theorem candidates_proper (e : Env) (s : State) (i : Nat)
    (hcp : ∀ c ∈ (s.arm i).cp, Move.Proper c) :
    ∀ (rest : List Nat) (b : Best) (sc : Scratch) (b1 : Best) (sc1 : Scratch),
      (∀ p, sc.pred p = Move.x ∨ Move.Proper (sc.pred p)) →
      (b.bestT ≠ none → ∀ c ∈ b.bestA.cp, Move.Proper c) →
      candidates e s i rest b sc = some (b1, sc1) →
      (∀ p, sc1.pred p = Move.x ∨ Move.Proper (sc1.pred p)) ∧
        (b1.bestT ≠ none → ∀ c ∈ b1.bestA.cp, Move.Proper c) := by
  intro rest
  induction rest with
  | nil =>
    intro b sc b1 sc1 hsc hb h
    simp only [candidates, Option.some.injEq, Prod.mk.injEq] at h
    rw [← h.1, ← h.2]; exact ⟨hsc, hb⟩
  | cons t rest ih =>
    intro b sc b1 sc1 hsc hb h
    unfold candidates at h
    split at h
    · simp at h
    · rename_i sc0 hw
      exact ih b sc0 b1 sc1 (waypoints_proper e s i t _ _ _ _ _ hcp hsc hw).1 hb h
    · rename_i a sc0 hw
      obtain ⟨k1, k2⟩ := waypoints_proper e s i t _ _ _ _ _ hcp hsc hw
      simp only at h
      split at h
      · exact ih b sc0 b1 sc1 k1 hb h
      · split at h
        · exact ih _ sc0 b1 sc1 k1 (fun _ => k2 a rfl) h
        · exact ih b sc0 b1 sc1 k1 hb h

theorem retractLoop_cp (L : Int) : ∀ (n : Nat) (a : Arm) (u : Grid Int),
    ∀ c ∈ (retractLoop L n a u).1.cp, c ∈ a.cp := by
  intro n
  induction n with
  | zero => intro a u c hc; exact hc
  | succ n ih =>
    intro a u
    unfold retractLoop
    split
    · intro c hc
      exact (List.dropLast_sublist _).subset (ih _ _ c hc)
    · exact fun c hc => hc

theorem mem_map_set {β : Type} (P : β → Prop) (l : List β) (i : Nat) (X : β)
    (h : ∀ y ∈ l, P y) (hX : P X) : ∀ y ∈ l.set i X, P y := by
  intro y hy
  rcases List.mem_or_eq_of_mem_set hy with h1 | h1
  · exact h y h1
  · rw [h1]; exact hX

theorem retractStep_pred (e : Env) (s : State) (i : Nat) :
    (retractStep e s i).pred = s.pred := by
  unfold retractStep
  split <;> rfl

theorem mainStep_proper (e : Env) (s s1 : State) (hr : RunInv e s) (h : ProperInv s)
    (hs : mainStep e s = some (some s1)) : ProperInv s1 := by
  obtain ⟨i, b, sc, hi, hcand, hcase⟩ := mainStep_shape e s s1 hs
  have hlen : i < s.arms.length := by rw [hr.arms_len]; exact hi
  have hcp := h.2 _ (arm_mem s i hlen)
  obtain ⟨k1, k2⟩ := candidates_proper e s i hcp s.ts _ _ _ _ h.1
    (fun h0 => absurd rfl h0) hcand
  have hall : ∀ y ∈ s.arms.map (fun a => a.cp), ∀ c ∈ y, Move.Proper c := by
    intro y hy
    obtain ⟨a, ha, hay⟩ := List.mem_map.mp hy
    rw [← hay]; exact h.2 a ha
  rcases hcase with ⟨_, hs1⟩ | ⟨t, hb, hs1⟩
  · rw [hs1]
    obtain ⟨v1, _, _, _, _⟩ := retractStep_view (fun a => a.cp) (fun _ _ => rfl) e
      { s with seen := sc.seen, dist := sc.dist, pred := sc.pred, SS := sc.SS, clock := sc.clock }
      i hlen
    refine ⟨?_, ?_⟩
    · rw [retractStep_pred]; exact k1
    · intro a ha
      have hm := List.mem_map_of_mem (fun a => a.cp) ha
      rw [v1] at hm
      exact mem_map_set (fun y => ∀ c ∈ y, Move.Proper c) (s.arms.map (fun a => a.cp)) i _
        hall (fun c hc => hcp c (retractLoop_cp _ _ _ _ c hc)) _ hm
  · rw [hs1]
    have v1 := commitStep_map (fun a => a.cp) (fun _ _ => rfl) e
      { s with seen := sc.seen, dist := sc.dist, pred := sc.pred, SS := sc.SS, clock := sc.clock }
      i b.bestA t
    refine ⟨k1, ?_⟩
    intro a ha
    have hm := List.mem_map_of_mem (fun a => a.cp) ha
    rw [v1] at hm
    exact mem_map_set (fun y => ∀ c ∈ y, Move.Proper c) (s.arms.map (fun a => a.cp)) i _
      hall (k2 (by rw [hb]; simp)) _ hm

theorem startState_proper (e : Env) (ms : List Point) (Len : List Int) (clock : Nat) :
    ProperInv (startState e ms Len clock) := by
  have hp := placeMounts_arms (fun a => a.cp = []) e.inst.R e.inst.L
    (fun x y k => rfl) (orderMounts e ms (clock + 1)) 0 []
    (fun _ => -1) (fun _ => -1) (by simp) (by simp)
  refine ⟨fun p => Or.inl rfl, ?_⟩
  intro a ha c hc
  rw [hp.1 a ha] at hc
  simp at hc

theorem stateAt_proper (e : Env) (s0 : State) (hr0 : RunInv e s0) (h0 : ProperInv s0) :
    ∀ (n : Nat) (s : State), stateAt e s0 n = some s → ProperInv s := by
  intro n
  induction n with
  | zero =>
    intro s hs
    simp only [stateAt, Option.some.injEq] at hs
    rw [← hs]; exact h0
  | succ n ih =>
    intro s hs
    cases hn : stateAt e s0 n with
    | none => simp [stateAt, hn] at hs
    | some s' =>
      have hm := stateAt_succ e s0 s' s n hn hs
      exact mainStep_proper e s' s (stateAt_inv e s0 hr0 n s' hn) (ih s' hn) hm

theorem back_eq_getElem (l : List Point) (h : l ≠ []) : l[l.length - 1]? = some (back l) := by
  induction l using List.reverseRecOn with
  | nil => exact absurd rfl h
  | append_singleton l a _ =>
    rw [back_append_singleton]
    simp

/-- In a chain every entry of the direction history leads from a cell to the next. -/
theorem Chain.steps {cur : List Point} {cp : List Move} (h : Chain cur cp) :
    ∀ (k : Nat) (c : Move), cp[k]? = some c →
      ∃ p, cur[k]? = some p ∧ cur[k + 1]? = some (p.add c) := by
  induction h with
  | base p => intro k c hk; simp at hk
  | snoc c0 hprev ih =>
    rename_i cur0 cp0
    intro k c hk
    have hlen := hprev.length_eq
    by_cases hlt : k < cp0.length
    · rw [List.getElem?_append_left hlt] at hk
      obtain ⟨p, p1, p2⟩ := ih k c hk
      refine ⟨p, ?_, ?_⟩
      · rw [List.getElem?_append_left (by omega)]; exact p1
      · rw [List.getElem?_append_left (by omega)]; exact p2
    · have hk0 : k = cp0.length := by
        by_contra hne
        rw [List.getElem?_eq_none (by simp; omega)] at hk
        simp at hk
      subst hk0
      simp only [List.getElem?_concat_length, Option.some.injEq] at hk
      subst hk
      refine ⟨back cur0, ?_, ?_⟩
      · rw [List.getElem?_append_left (by omega)]
        have := back_eq_getElem cur0 hprev.ne_nil
        rw [hlen] at this
        simpa using this
      · rw [← hlen]
        simp

/-- C12: in a run of `greedy_solver` (with at least as many mounting points
as arms), for every arm of the state at the start of any iteration of the
main loop and for every arm of the returned solution: `cur.size() =
cp.size() + 1`, and for every `k < cp.size()` the entry `cp[k]` is one of
`R`, `L`, `U`, `D`, `cur[k+1] = cur[k] + cp[k]` and
`distance(cur[k], cur[k+1]) = 1`. -/
theorem chain_cells_adjacent (e : Env) (ms : List Point) (Len : List Int) (clock : Nat)
    (hR : e.inst.R ≤ ms.length) (n : Nat) (s : State)
    (hs : stateAt e (startState e ms Len clock) n = some s) :
    (∀ a ∈ s.arms, a.cur.length = a.cp.length + 1 ∧
        ∀ (k : Nat) (c : Move), a.cp[k]? = some c →
          (c = Move.R ∨ c = Move.L ∨ c = Move.U ∨ c = Move.D) ∧
          ∃ p q, a.cur[k]? = some p ∧ a.cur[k + 1]? = some q ∧ q = p.add c ∧
            distance p q = 1) ∧
      (∀ r, greedy_solver e ms Len clock = some r →
        ∀ a ∈ r.arms, a.cur.length = a.cp.length + 1 ∧
          ∀ (k : Nat) (c : Move), a.cp[k]? = some c →
            (c = Move.R ∨ c = Move.L ∨ c = Move.U ∨ c = Move.D) ∧
            ∃ p q, a.cur[k]? = some p ∧ a.cur[k + 1]? = some q ∧ q = p.add c ∧
              distance p q = 1) := by
  have hr0 := startState_inv e ms Len clock hR
  have hp0 := startState_proper e ms Len clock
  have key : ∀ s : State, RunInv e s → ProperInv s →
      ∀ a ∈ s.arms, a.cur.length = a.cp.length + 1 ∧
        ∀ (k : Nat) (c : Move), a.cp[k]? = some c →
          (c = Move.R ∨ c = Move.L ∨ c = Move.U ∨ c = Move.D) ∧
          ∃ p q, a.cur[k]? = some p ∧ a.cur[k + 1]? = some q ∧ q = p.add c ∧
            distance p q = 1 := by
    intro s hr hp a ha
    have hc := (hr.arm a ha).chain.1
    refine ⟨hc.length_eq, ?_⟩
    intro k c hk
    have hpr : Move.Proper c := hp.2 a ha c (List.mem_iff_getElem?.mpr ⟨k, hk⟩)
    obtain ⟨p, p1, p2⟩ := hc.steps k c hk
    exact ⟨hpr, p, p.add c, p1, p2, rfl, proper_step p c hpr⟩
  refine ⟨key s (stateAt_inv e _ hr0 n s hs) (stateAt_proper e _ hr0 hp0 n s hs), ?_⟩
  intro r hg a ha
  obtain ⟨_, m, sf, hm, _, _, harms⟩ := greedy_solver_final e ms Len clock r hg
  rw [harms] at ha
  exact key sf (stateAt_inv e _ hr0 m sf hm) (stateAt_proper e _ hr0 hp0 m sf hm) a ha

theorem chain_cells_adjacent_witness :
    pairEnv.inst.R ≤ ([⟨0, 0⟩, ⟨4, 0⟩] : List Point).length ∧
      stateAt pairEnv (startState pairEnv [⟨0, 0⟩, ⟨4, 0⟩] [1, 0] 0) 2
        = some (reached pairEnv [⟨0, 0⟩, ⟨4, 0⟩] [1, 0] 0 2) ∧
      (reached pairEnv [⟨0, 0⟩, ⟨4, 0⟩] [1, 0] 0 2).arms.map (fun a => (a.cur, a.cp))
        = [([⟨0, 0⟩, ⟨1, 0⟩, ⟨2, 0⟩], [Move.R, Move.R]), ([⟨4, 0⟩, ⟨3, 0⟩], [Move.L])] ∧
      ((∀ a ∈ (reached pairEnv [⟨0, 0⟩, ⟨4, 0⟩] [1, 0] 0 2).arms,
          a.cur.length = a.cp.length + 1 ∧
          ∀ (k : Nat) (c : Move), a.cp[k]? = some c →
            (c = Move.R ∨ c = Move.L ∨ c = Move.U ∨ c = Move.D) ∧
            ∃ p q, a.cur[k]? = some p ∧ a.cur[k + 1]? = some q ∧ q = p.add c ∧
              distance p q = 1) ∧
        (∀ r, greedy_solver pairEnv [⟨0, 0⟩, ⟨4, 0⟩] [1, 0] 0 = some r →
          ∀ a ∈ r.arms, a.cur.length = a.cp.length + 1 ∧
            ∀ (k : Nat) (c : Move), a.cp[k]? = some c →
              (c = Move.R ∨ c = Move.L ∨ c = Move.U ∨ c = Move.D) ∧
              ∃ p q, a.cur[k]? = some p ∧ a.cur[k + 1]? = some q ∧ q = p.add c ∧
                distance p q = 1)) :=
  ⟨by decide, reached_eq _ _ _ _ _ (by decide), by decide,
    chain_cells_adjacent pairEnv [⟨0, 0⟩, ⟨4, 0⟩] [1, 0] 0 (by decide) 2 _
      (reached_eq _ _ _ _ _ (by decide))⟩

theorem selectArm_not_done (arms : List Arm) : ∀ (is : List Nat) (i0 : Option Nat) (i : Nat),
    selectArm arms is i0 = some i → i0 = some i ∨ (arms.getD i default).done = false := by
  intro is
  induction is with
  | nil => intro i0 i h; left; simpa [selectArm] using h
  | cons k is ih =>
    intro i0 i h
    unfold selectArm at h
    split at h
    · rename_i hc
      rcases ih _ _ h with h1 | h1
      · right
        simp only [Option.some.injEq] at h1
        rw [← h1]
        simp only [Bool.and_eq_true, Bool.not_eq_true'] at hc
        exact hc.1
      · exact Or.inr h1
    · exact ih _ _ h

theorem weight_pos (L l : Int) : 0 < weight L l := by
  unfold weight
  positivity

theorem weight_anti (L l l1 : Int) (h : l ≤ l1) : weight L l1 ≤ weight L l := by
  unfold weight
  apply Nat.pow_le_pow_right (by decide)
  omega

theorem weight_step (L l : Int) (h : l < L) : weight L l = 9 * weight L (l + 1) := by
  unfold weight
  have : (L - l).toNat = (L - (l + 1)).toNat + 1 := by omega
  rw [this, pow_succ]
  ring

theorem qWeight_append (L : Int) (Q : List QEl) (en : QEl) :
    qWeight L (Q ++ [en]) = qWeight L Q + weight L en.l := by
  simp [qWeight]

theorem qWeight_pop (L : Int) (tie : Nat) (Q : List QEl) (top : QEl) (Q1 : List QEl)
    (h : popQ tie Q = some (top, Q1)) : qWeight L Q = qWeight L Q1 + weight L top.l := by
  obtain ⟨k, hk, h1, h2, _⟩ := popQ_spec tie Q top Q1 h
  obtain ⟨s1, s2⟩ := eraseIdx_split Q k hk
  have htop : top = Q[k] := by
    rw [h1, List.getD_eq_getElem _ _ hk]
  rw [h2, s2, htop]
  conv_lhs => rw [s1]
  simp only [qWeight, List.map_append, List.map_cons, List.sum_append, List.sum_cons]
  omega

theorem ownLoop_weight (e : Env) (L : Int) (SS : Int) (a : Arm) (pt q : Point) (l depth : Int) :
    ∀ (cs : List Move) (σ : Search),
      qWeight L (ownLoop e SS a pt q l depth cs σ).Q
          ≤ qWeight L σ.Q + cs.length * weight L (l + 1) ∧
        (ownLoop e SS a pt q l depth cs σ).vs = σ.vs := by
  intro cs
  induction cs with
  | nil => intro σ; exact ⟨by simp [ownLoop], rfl⟩
  | cons c cs ih =>
    intro σ
    unfold ownLoop
    simp only [List.length_cons, Nat.succ_mul]
    split
    · obtain ⟨k1, k2⟩ := ih σ
      exact ⟨by omega, k2⟩
    · split
      · exact ⟨by show qWeight L σ.Q ≤ _; omega, rfl⟩
      · obtain ⟨k1, k2⟩ := ih
          { σ with seen := σ.seen.set (q.add c) SS, dist := σ.dist.set (q.add c) (l + 1),
                   pred := σ.pred.set (q.add c) Move.x,
                   Q := σ.Q ++ [⟨q.add c, l + 1, depth + 1⟩] }
        refine ⟨?_, k2⟩
        have : qWeight L (σ.Q ++ [⟨q.add c, l + 1, depth + 1⟩])
            = qWeight L σ.Q + weight L (l + 1) := qWeight_append _ _ _
        rw [this] at k1
        omega

theorem arrival_bounds (e : Env) (s : State) (i t : Nat) (p : Point) (l l1 : Int)
    (hl : l < e.inst.L) (h : arrival e s i t p l = some (some l1)) :
    l ≤ l1 ∧ l1 < e.inst.L := by
  unfold arrival at h
  simp only at h
  split at h
  · rename_i hc
    split at h
    · simp at h
    · split at h
      · simp at h
      · split at h
        · simp at h
        · split at h
          · simp at h
          · simp only [Option.some.injEq] at h
            omega
  · simp only [Option.some.injEq] at h
    omega

theorem freshLoop_weight (e : Env) (s : State) (i t : Nat) (SS : Int) (a : Arm) (pt q : Point)
    (l depth : Int) (hL : l < e.inst.L) :
    ∀ (cs : List Move) (σ σ1 : Search), freshLoop e s i t SS a pt q l depth cs σ = some σ1 →
      qWeight e.inst.L σ1.Q ≤ qWeight e.inst.L σ.Q + cs.length * weight e.inst.L (l + 1) ∧
        σ1.vs = σ.vs := by
  intro cs
  induction cs with
  | nil =>
    intro σ σ1 hr
    simp only [freshLoop, Option.some.injEq] at hr
    rw [← hr]; exact ⟨by simp, rfl⟩
  | cons c cs ih =>
    intro σ σ1 hr
    unfold freshLoop at hr
    simp only [List.length_cons, Nat.succ_mul] at hr ⊢
    split at hr
    · obtain ⟨k1, k2⟩ := ih σ σ1 hr
      exact ⟨by omega, k2⟩
    · split at hr
      · simp at hr
      · obtain ⟨k1, k2⟩ := ih σ σ1 hr
        exact ⟨by omega, k2⟩
      · rename_i l1 harr
        obtain ⟨b1, _⟩ := arrival_bounds e s i t _ l l1 hL harr
        split at hr
        · obtain ⟨k1, k2⟩ := ih σ σ1 hr
          exact ⟨by omega, k2⟩
        · split at hr
          · simp only [Option.some.injEq] at hr
            rw [← hr]
            exact ⟨by show qWeight e.inst.L σ.Q ≤ _; omega, rfl⟩
          · obtain ⟨k1, k2⟩ := ih _ σ1 hr
            refine ⟨?_, k2⟩
            have h1 : qWeight e.inst.L (σ.Q ++ [⟨q.add c, l1 + 1, depth⟩])
                = qWeight e.inst.L σ.Q + weight e.inst.L (l1 + 1) := qWeight_append _ _ _
            have h2 := weight_anti e.inst.L (l + 1) (l1 + 1) (by omega)
            rw [h1] at k1
            omega

theorem freshLoop_some (e : Env) (s : State) (i t : Nat) (SS : Int) (a : Arm) (pt q : Point)
    (l depth : Int) (hA : ∀ p, arrival e s i t p l ≠ none) :
    ∀ (cs : List Move) (σ : Search), ∃ σ1, freshLoop e s i t SS a pt q l depth cs σ = some σ1 := by
  intro cs
  induction cs with
  | nil => intro σ; exact ⟨σ, rfl⟩
  | cons c cs ih =>
    intro σ
    unfold freshLoop
    simp only
    split
    · exact ih σ
    · split
      · rename_i harr
        exact absurd harr (hA _)
      · exact ih σ
      · split
        · exact ih σ
        · split
          · exact ⟨_, rfl⟩
          · exact ih _

theorem searchLoop_step (e : Env) (s : State) (i t : Nat) (SS : Int) (a : Arm) (pt : Point)
    (n : Nat) (σ : Search) (top : QEl) (Q1 : List QEl) (hnf : ¬ σ.found = true)
    (hpop : popQ (e.ch.tie σ.clock) σ.Q = some (top, Q1)) (hdist : ¬ top.l > σ.dist top.q)
    (hL : ¬ top.l ≥ e.inst.L) :
    searchLoop e s i t SS a pt (n + 1) σ
      = match freshLoop e s i t SS a pt top.q top.l top.depth
          (afterOwn e SS a pt top { σ with Q := Q1, clock := σ.clock + 1 }).vs
          (afterOwn e SS a pt top { σ with Q := Q1, clock := σ.clock + 1 }) with
        | none => none
        | some σ3 => searchLoop e s i t SS a pt n σ3 := by
  rw [searchLoop, if_neg hnf]
  simp only [hpop]
  rw [if_neg hdist, if_neg hL]
  rfl

/-- The first part of an expansion keeps the invariant of the search, adds
at most four entries of the next arrival time and keeps the directions. -/
theorem afterOwn_spec (e : Env) (s : State) (i : Nat) (SS : Int) (a : Arm) (pt : Point)
    (top : QEl) (σ0 : Search) (h0 : SInv e s i a SS σ0)
    (hf0 : σ0.found = true → σ0.seen pt = SS)
    (hq : σ0.seen top.q = SS ∧ (σ0.pred top.q ≠ Move.x → σ0.dist top.q = top.l))
    (hstart : (a.path.length : Int) ≤ top.l) (hvs : σ0.vs.length ≤ 4) :
    SInv e s i a SS (afterOwn e SS a pt top σ0) ∧
      ((afterOwn e SS a pt top σ0).found = true → (afterOwn e SS a pt top σ0).seen pt = SS) ∧
      ((afterOwn e SS a pt top σ0).seen top.q = SS ∧
        ((afterOwn e SS a pt top σ0).pred top.q ≠ Move.x →
          (afterOwn e SS a pt top σ0).dist top.q = top.l)) ∧
      qWeight e.inst.L (afterOwn e SS a pt top σ0).Q
        ≤ qWeight e.inst.L σ0.Q + 4 * weight e.inst.L (top.l + 1) ∧
      (afterOwn e SS a pt top σ0).vs.length ≤ 4 := by
  obtain ⟨m1, m2, m3, m4, m5, m6⟩ := maybeShuffle_same e σ0
  have h1 : SInv e s i a SS (maybeShuffle e σ0) :=
    h0.congr (by rw [m1]; exact fun _ hc => hc) (fun c hc => m6.mem_iff.mp hc) m3 m4 m5
  have hf1 : (maybeShuffle e σ0).found = true → (maybeShuffle e σ0).seen pt = SS := by
    rw [m2, m3]; exact hf0
  have hq1 : (maybeShuffle e σ0).seen top.q = SS ∧
      ((maybeShuffle e σ0).pred top.q ≠ Move.x → (maybeShuffle e σ0).dist top.q = top.l) := by
    rw [m3, m4, m5]; exact hq
  have hlen : (maybeShuffle e σ0).vs.length ≤ 4 := by rw [m6.length_eq]; exact hvs
  unfold afterOwn
  split
  · obtain ⟨j1, j2, j3⟩ := ownLoop_sinv e s i SS a pt top.q top.l top.depth
      (by omega) _ _ h1.vs h1 hf1 hq1
    obtain ⟨w1, w2⟩ := ownLoop_weight e e.inst.L SS a pt top.q top.l top.depth
      (maybeShuffle e σ0).vs (maybeShuffle e σ0)
    refine ⟨j1, j2, j3, ?_, by rw [w2]; exact hlen⟩
    rw [m1] at w1
    have : (maybeShuffle e σ0).vs.length * weight e.inst.L (top.l + 1)
        ≤ 4 * weight e.inst.L (top.l + 1) := Nat.mul_le_mul_right _ hlen
    omega
  · refine ⟨h1, hf1, hq1, ?_, hlen⟩
    rw [m1]; omega

/-- The search loop returns when its fuel exceeds the weight of its queue,
provided no reservation test reads an arm that does not exist. -/
theorem searchLoop_total (e : Env) (s : State) (i t : Nat) (SS : Int) (a : Arm) (pt : Point)
    (hA : ∀ p l, 0 ≤ l → arrival e s i t p l ≠ none) :
    ∀ (n : Nat) (σ : Search), SInv e s i a SS σ → (σ.found = true → σ.seen pt = SS) →
      σ.vs.length ≤ 4 → qWeight e.inst.L σ.Q < n →
      ∃ σ1, searchLoop e s i t SS a pt n σ = some σ1 := by
  intro n
  induction n with
  | zero => intro σ _ _ _ hw; omega
  | succ n ih =>
    intro σ h hf hvs hw
    by_cases hfound : σ.found = true
    · exact ⟨σ, by rw [searchLoop, if_pos hfound]⟩
    · cases hpop : popQ (e.ch.tie σ.clock) σ.Q with
      | none => exact ⟨σ, by rw [searchLoop, if_neg hfound]; simp only [hpop]⟩
      | some r =>
        obtain ⟨top, Q1⟩ := r
        obtain ⟨htop, hsub⟩ := popQ_mem _ _ _ _ hpop
        obtain ⟨k1, k2, k3⟩ := h.q top htop
        have hwp := qWeight_pop e.inst.L _ _ _ _ hpop
        have hpos := weight_pos e.inst.L top.l
        have h0 : SInv e s i a SS { σ with Q := Q1, clock := σ.clock + 1 } :=
          h.congr hsub (fun _ hc => hc) rfl rfl rfl
        by_cases hdist : top.l > σ.dist top.q
        · have heq : searchLoop e s i t SS a pt (n + 1) σ
              = searchLoop e s i t SS a pt n { σ with Q := Q1, clock := σ.clock + 1 } := by
            rw [searchLoop, if_neg hfound]
            simp only [hpop]
            rw [if_pos hdist]
          rw [heq]
          exact ih _ h0 hf hvs (by show qWeight e.inst.L Q1 < n; omega)
        · by_cases hL : top.l ≥ e.inst.L
          · refine ⟨{ σ with Q := Q1, clock := σ.clock + 1 }, ?_⟩
            rw [searchLoop, if_neg hfound]
            simp only [hpop]
            rw [if_neg hdist, if_pos hL]
          · rw [searchLoop_step e s i t SS a pt n σ top Q1 hfound hpop hdist hL]
            obtain ⟨a1, a2, a3, a4, a5⟩ := afterOwn_spec e s i SS a pt top
              { σ with Q := Q1, clock := σ.clock + 1 } h0 hf
              ⟨k1, fun hp => by have := k3 hp; show σ.dist top.q = top.l; omega⟩ k2 hvs
            obtain ⟨σ3, hfresh⟩ := freshLoop_some e s i t SS a pt top.q top.l top.depth
              (fun p => hA p top.l (by omega)) _
              (afterOwn e SS a pt top { σ with Q := Q1, clock := σ.clock + 1 })
            rw [hfresh]
            obtain ⟨f1, f2⟩ := freshLoop_sinv e s i t SS a pt top.q top.l top.depth k2
              (by omega) _ _ σ3 a1.vs a1 a2 a3 hfresh
            obtain ⟨g1, g2⟩ := freshLoop_weight e s i t SS a pt top.q top.l top.depth
              (by omega) _ _ σ3 hfresh
            have hstep := weight_step e.inst.L top.l (by omega)
            have hpos1 := weight_pos e.inst.L (top.l + 1)
            have hlen4 : (afterOwn e SS a pt top { σ with Q := Q1, clock := σ.clock + 1 }).vs.length
                * weight e.inst.L (top.l + 1) ≤ 4 * weight e.inst.L (top.l + 1) :=
              Nat.mul_le_mul_right _ a5
            refine ih σ3 f1 f2 (by rw [g2]; exact a5) ?_
            have a4' : qWeight e.inst.L (afterOwn e SS a pt top
                { σ with Q := Q1, clock := σ.clock + 1 }).Q
                ≤ qWeight e.inst.L Q1 + 4 * weight e.inst.L (top.l + 1) := a4
            omega

theorem ownLoop_distOK (e : Env) (SS : Int) (a : Arm) (pt q : Point) (l depth : Int) :
    ∀ (cs : List Move) (σ : Search), DistOK e a SS σ →
      DistOK e a SS (ownLoop e SS a pt q l depth cs σ) := by
  intro cs
  induction cs with
  | nil => intro σ h; exact h
  | cons c cs ih =>
    intro σ h
    have hset : ∀ (Q1 : List QEl) (f : Bool), DistOK e a SS
        { σ with seen := σ.seen.set (q.add c) SS, dist := σ.dist.set (q.add c) (l + 1),
                 pred := σ.pred.set (q.add c) Move.x, Q := Q1, found := f } := by
      intro Q1 f p hp hpred
      have hne : p ≠ q.add c := by
        intro h0
        apply hpred
        show σ.pred.set (q.add c) Move.x p = Move.x
        rw [h0, set_same_cell]
      have h1 : σ.seen.set (q.add c) SS p = SS := hp
      have h2 : σ.pred.set (q.add c) Move.x p ≠ Move.x := hpred
      rw [set_other_cell _ _ _ _ hne] at h1 h2
      show _ < σ.dist.set (q.add c) (l + 1) p ∧ σ.dist.set (q.add c) (l + 1) p ≤ _
      rw [set_other_cell _ _ _ _ hne]
      exact h p h1 h2
    unfold ownLoop
    simp only
    split
    · exact ih σ h
    · split
      · exact hset _ _
      · refine ih _ ?_
        exact hset _ _

theorem freshLoop_distOK (e : Env) (s : State) (i t : Nat) (SS : Int) (a : Arm) (pt q : Point)
    (l depth : Int) (hl : (a.path.length : Int) ≤ l) (hL : l < e.inst.L) :
    ∀ (cs : List Move) (σ σ1 : Search), DistOK e a SS σ →
      freshLoop e s i t SS a pt q l depth cs σ = some σ1 → DistOK e a SS σ1 := by
  intro cs
  induction cs with
  | nil =>
    intro σ σ1 h hr
    simp only [freshLoop, Option.some.injEq] at hr
    rw [← hr]; exact h
  | cons c cs ih =>
    intro σ σ1 h hr
    unfold freshLoop at hr
    simp only at hr
    split at hr
    · exact ih σ σ1 h hr
    · split at hr
      · simp at hr
      · exact ih σ σ1 h hr
      · rename_i l1 harr
        obtain ⟨b1, b2⟩ := arrival_bounds e s i t _ l l1 hL harr
        have hset : ∀ (Q1 : List QEl) (f : Bool), DistOK e a SS
            { σ with seen := σ.seen.set (q.add c) SS, dist := σ.dist.set (q.add c) (l1 + 1),
                     pred := σ.pred.set (q.add c) c, Q := Q1, found := f } := by
          intro Q1 f p hp hpred
          show _ < σ.dist.set (q.add c) (l1 + 1) p ∧ σ.dist.set (q.add c) (l1 + 1) p ≤ _
          by_cases hne : p = q.add c
          · rw [hne, set_same_cell]
            constructor <;> omega
          · have h1 : σ.seen.set (q.add c) SS p = SS := hp
            have h2 : σ.pred.set (q.add c) c p ≠ Move.x := hpred
            rw [set_other_cell _ _ _ _ hne] at h1 h2
            rw [set_other_cell _ _ _ _ hne]
            exact h p h1 h2
        split at hr
        · exact ih σ σ1 h hr
        · split at hr
          · simp only [Option.some.injEq] at hr
            rw [← hr]; exact hset _ _
          · refine ih _ σ1 ?_ hr
            exact hset _ _

theorem afterOwn_distOK (e : Env) (SS : Int) (a : Arm) (pt : Point) (top : QEl) (σ0 : Search)
    (h : DistOK e a SS σ0) : DistOK e a SS (afterOwn e SS a pt top σ0) := by
  obtain ⟨_, _, m3, m4, m5, _⟩ := maybeShuffle_same e σ0
  have h1 : DistOK e a SS (maybeShuffle e σ0) := by
    intro p hp hpred
    rw [m3] at hp
    rw [m5] at hpred
    rw [m4]
    exact h p hp hpred
  unfold afterOwn
  split
  · exact ownLoop_distOK e SS a pt top.q top.l top.depth _ _ h1
  · exact h1

theorem searchLoop_distOK (e : Env) (s : State) (i t : Nat) (SS : Int) (a : Arm) (pt : Point) :
    ∀ (n : Nat) (σ σ1 : Search), SInv e s i a SS σ → (σ.found = true → σ.seen pt = SS) →
      σ.vs.length ≤ 4 → DistOK e a SS σ →
      searchLoop e s i t SS a pt n σ = some σ1 → DistOK e a SS σ1 := by
  intro n
  induction n with
  | zero => intro σ σ1 _ _ _ _ hr; simp [searchLoop] at hr
  | succ n ih =>
    intro σ σ1 h hf hvs hd hr
    by_cases hfound : σ.found = true
    · rw [searchLoop, if_pos hfound] at hr
      simp only [Option.some.injEq] at hr
      rw [← hr]; exact hd
    · cases hpop : popQ (e.ch.tie σ.clock) σ.Q with
      | none =>
        rw [searchLoop, if_neg hfound] at hr
        simp only [hpop, Option.some.injEq] at hr
        rw [← hr]; exact hd
      | some r =>
        obtain ⟨top, Q1⟩ := r
        obtain ⟨htop, hsub⟩ := popQ_mem _ _ _ _ hpop
        obtain ⟨k1, k2, k3⟩ := h.q top htop
        have h0 : SInv e s i a SS { σ with Q := Q1, clock := σ.clock + 1 } :=
          h.congr hsub (fun _ hc => hc) rfl rfl rfl
        have hd0 : DistOK e a SS { σ with Q := Q1, clock := σ.clock + 1 } := hd
        by_cases hdist : top.l > σ.dist top.q
        · rw [searchLoop, if_neg hfound] at hr
          simp only [hpop] at hr
          rw [if_pos hdist] at hr
          exact ih _ σ1 h0 hf hvs hd0 hr
        · by_cases hL : top.l ≥ e.inst.L
          · rw [searchLoop, if_neg hfound] at hr
            simp only [hpop] at hr
            rw [if_neg hdist, if_pos hL] at hr
            simp only [Option.some.injEq] at hr
            rw [← hr]; exact hd0
          · rw [searchLoop_step e s i t SS a pt n σ top Q1 hfound hpop hdist hL] at hr
            obtain ⟨a1, a2, a3, _, a5⟩ := afterOwn_spec e s i SS a pt top
              { σ with Q := Q1, clock := σ.clock + 1 } h0 hf
              ⟨k1, fun hp => by have := k3 hp; show σ.dist top.q = top.l; omega⟩ k2 hvs
            have a6 := afterOwn_distOK e SS a pt top _ hd0
            split at hr
            · simp at hr
            · rename_i σ3 hfresh
              obtain ⟨f1, f2⟩ := freshLoop_sinv e s i t SS a pt top.q top.l top.depth k2
                (by omega) _ _ σ3 a1.vs a1 a2 a3 hfresh
              obtain ⟨_, g2⟩ := freshLoop_weight e s i t SS a pt top.q top.l top.depth
                (by omega) _ _ σ3 hfresh
              have f3 := freshLoop_distOK e s i t SS a pt top.q top.l top.depth k2
                (by omega) _ _ σ3 a6 hfresh
              exact ih σ3 σ1 f1 f2 (by rw [g2]; exact a5) f3 hr

/-- The walk back along `pred` ends when its fuel exceeds the time the
search took to reach the cell it starts at. -/
theorem predWalk_total {e : Env} {s : State} {i : Nat} {a : Arm} {SS : Int} {σ : Search}
    (h : SInv e s i a SS σ) (hd : DistOK e a SS σ) :
    ∀ (n : Nat) (q : Point) (acc : List Move), σ.seen q = SS → 0 < n →
      (σ.pred q ≠ Move.x → (σ.dist q - (a.path.length : Int)).toNat < n) →
      ∃ r, predWalk σ.pred n q acc = some r := by
  intro n
  induction n with
  | zero => intro q acc _ h0 _; omega
  | succ n ih =>
    intro q acc hq _ hb
    unfold predWalk
    split
    · exact ⟨_, rfl⟩
    · rename_i hx
      obtain ⟨_, _, k3, k4⟩ := h.link q hq hx
      obtain ⟨d1, d2⟩ := hd q hq hx
      have hb1 := hb hx
      refine ih _ _ k3 (by omega) ?_
      intro hx1
      have := k4 hx1
      obtain ⟨d3, _⟩ := hd _ k3 hx1
      omega

theorem exact_pop (a : Arm) (path cp : List Move) (h : Exact a) :
    Exact { a with path := path, cur := a.cur.dropLast, cp := cp,
                   how := a.how.set (back a.cur.dropLast) Move.x } := by
  intro c hc
  have hc1 : a.how.set (back a.cur.dropLast) Move.x c ≠ Move.x := hc
  have hne : c ≠ back a.cur.dropLast := by
    intro h0
    rw [h0, set_same_cell] at hc1
    exact hc1 rfl
  rw [set_other_cell _ _ _ _ hne] at hc1
  rcases mem_dropLast_or_back _ _ (h c hc1) with h1 | h1
  · exact h1
  · exact absurd h1 hne

theorem unwind_exact : ∀ (n : Nat) (p : Point) (a a1 : Arm), Exact a →
    unwind n p a = some a1 → Exact a1 := by
  intro n
  induction n with
  | zero => intro p a a1 _ h; simp [unwind] at h
  | succ n ih =>
    intro p a a1 hx h
    unfold unwind at h
    split at h
    · simp only [Option.some.injEq] at h
      rw [← h]; exact hx
    · exact ih p _ a1 (exact_pop a _ _ hx) h

theorem appendMoves_exact (dist : Grid Int) : ∀ (cs : List Move) (a : Arm), a.cur ≠ [] →
    Exact a → Exact (appendMoves dist cs a) := by
  intro cs
  induction cs with
  | nil => intro a _ h; exact h
  | cons c cs ih =>
    intro a hne hx
    unfold appendMoves
    simp only
    refine ih _ (by simp) ?_
    intro c0 hc0
    show c0 ∈ (a.cur ++ [(back a.cur).add c]).dropLast
    rw [List.dropLast_concat]
    have hc1 : a.how.set (back a.cur) (opp c) c0 ≠ Move.x := hc0
    by_cases h0 : c0 = back a.cur
    · rw [h0]; exact back_mem _ hne
    · rw [set_other_cell _ _ _ _ h0] at hc1
      exact mem_of_mem_dropLast_cell _ _ (hx c0 hc1)

theorem retractLoop_exact (L : Int) : ∀ (n : Nat) (a : Arm) (u : Grid Int), Exact a →
    Exact (retractLoop L n a u).1 := by
  intro n
  induction n with
  | zero => intro a u h; exact h
  | succ n ih =>
    intro a u h
    unfold retractLoop
    split
    · exact ih _ _ (exact_pop a _ _ h)
    · exact h

theorem unwind_total : ∀ (n : Nat) (p : Point) (a : Arm), p ∈ a.cur → a.cur.length ≤ n →
    ∃ a1, unwind n p a = some a1 := by
  intro n
  induction n with
  | zero =>
    intro p a hp hn
    have : a.cur = [] := List.length_eq_zero.mp (by omega)
    rw [this] at hp
    simp at hp
  | succ n ih =>
    intro p a hp hn
    unfold unwind
    split
    · exact ⟨a, rfl⟩
    · rename_i hb
      rcases mem_dropLast_or_back _ _ hp with h1 | h1
      · exact ih p _ h1 (by simp; omega)
      · exact absurd h1.symm hb

theorem waypoint_exact (e : Env) (s : State) (i t : Nat) (a : Arm) (pt : Point) (sc : Scratch)
    (a1 : Arm) (sc1 : Scratch) (hc : ChainOK a) (hx : Exact a)
    (h : waypoint e s i t a pt sc = some (some a1, sc1)) : Exact a1 := by
  unfold waypoint at h
  simp only at h
  split at h
  · simp at h
  · split at h
    · simp at h
    · split at h
      · simp at h
      · split at h
        · simp at h
        · rename_i a0 hu
          obtain ⟨u1, _, _⟩ := unwind_ok _ _ _ _ (le_refl _) hc hu
          have hx0 := unwind_exact _ _ _ _ hx hu
          split at h
          · simp at h
          · simp only [Option.some.injEq, Prod.mk.injEq] at h
            rw [← h.1]
            exact appendMoves_exact _ _ _ u1.1.ne_nil hx0

theorem waypoints_exact (e : Env) (s : State) (i t : Nat) :
    ∀ (wps : List Point) (a : Arm) (sc : Scratch) (a1 : Arm) (sc1 : Scratch), ChainOK a →
      Exact a → waypoints e s i t wps a sc = some (some a1, sc1) → Exact a1 := by
  intro wps
  induction wps with
  | nil =>
    intro a sc a1 sc1 _ hx h
    simp only [waypoints, Option.some.injEq, Prod.mk.injEq] at h
    rw [← h.1]; exact hx
  | cons pt pts ih =>
    intro a sc a1 sc1 hc hx h
    unfold waypoints at h
    split at h
    · simp at h
    · simp at h
    · rename_i a0 sc0 hw
      exact ih a0 sc0 a1 sc1 (waypoint_ok e s i t a pt sc a0 sc0 hc hw).1
        (waypoint_exact e s i t a pt sc a0 sc0 hc hx hw) h

theorem weight_le (L : Int) (l : Int) (h : 0 ≤ l) : weight L l ≤ 9 ^ L.toNat := by
  unfold weight
  apply Nat.pow_le_pow_right (by decide)
  omega

/-- One search and its splice return when the fuel exceeds `9 ^ L` (and
`L`), for a well-formed clone, provided no reservation test reads an arm that
does not exist. -/
theorem waypoint_total (e : Env) (s : State) (i t : Nat) (a : Arm) (pt : Point) (sc : Scratch)
    (hc : ChainOK a) (hx : Exact a) (hs : Stamped sc)
    (hA : ∀ p l, 0 ≤ l → arrival e s i t p l ≠ none)
    (hf1 : 9 ^ e.inst.L.toNat < e.fuel) (hf2 : e.inst.L.toNat < e.fuel) :
    ∃ r, waypoint e s i t a pt sc = some r := by
  have hS0 := sinv_start e s i a pt sc hs
  have hfd0 : decide (back a.cur = pt) = true →
      sc.seen.set (back a.cur) (sc.SS + 1) pt = sc.SS + 1 := by
    intro hf
    simp only [decide_eq_true_eq] at hf
    rw [← hf, set_same_cell]
  have hd0 : DistOK e a (sc.SS + 1)
      { Q := [⟨back a.cur, a.path.length, 0⟩], found := decide (back a.cur = pt),
        vs := [Move.R, Move.L, Move.U, Move.D],
        seen := sc.seen.set (back a.cur) (sc.SS + 1),
        dist := sc.dist.set (back a.cur) a.path.length,
        pred := sc.pred.set (back a.cur) Move.x, clock := sc.clock } := by
    intro p hp hpred
    exfalso
    have h1 : sc.seen.set (back a.cur) (sc.SS + 1) p = sc.SS + 1 := hp
    have h2 : sc.pred.set (back a.cur) Move.x p ≠ Move.x := hpred
    by_cases hne : p = back a.cur
    · rw [hne, set_same_cell] at h2
      exact h2 rfl
    · rw [set_other_cell _ _ _ _ hne] at h1
      have := hs p
      omega
  have hw0 : qWeight e.inst.L [⟨back a.cur, a.path.length, 0⟩] < e.fuel := by
    have := weight_le e.inst.L (a.path.length : Int) (by omega)
    simp only [qWeight, List.map_cons, List.map_nil, List.sum_cons, List.sum_nil]
    omega
  obtain ⟨σ, hσ⟩ := searchLoop_total e s i t (sc.SS + 1) a pt hA e.fuel _ hS0 hfd0
    (by simp) hw0
  obtain ⟨hS, hfd⟩ := searchLoop_sinv e s i t _ a pt _ _ _ hS0 hfd0 hσ
  have hD := searchLoop_distOK e s i t _ a pt _ _ _ hS0 hfd0 (by simp) hd0 hσ
  unfold waypoint
  simp only
  rw [hσ]
  simp only
  split
  · exact ⟨_, rfl⟩
  · rename_i hfound
    have hseen : σ.seen pt = sc.SS + 1 := hfd (by simpa using hfound)
    obtain ⟨r, hw⟩ := predWalk_total hS hD e.fuel pt [] hseen (by omega)
      (by
        intro hx1
        have := (hD pt hseen hx1).2
        omega)
    obtain ⟨add, p⟩ := r
    rw [hw]
    simp only
    obtain ⟨mv, _, _, m3, m4, _⟩ := predWalk_cells hS _ _ _ _ _ hseen hw
    have hp : p ∈ a.cur := by
      rcases hS.root p m3 m4 with h1 | h1
      · rw [h1]; exact back_mem _ hc.1.ne_nil
      · exact mem_of_mem_dropLast_cell _ _ (hx p h1)
    obtain ⟨a0, hu⟩ := unwind_total a.cur.length p a hp (le_refl _)
    rw [hu]
    simp only
    split
    · exact ⟨_, rfl⟩
    · exact ⟨_, rfl⟩

theorem arrival_total (e : Env) (s : State) (i t : Nat) (hlen : s.arms.length = e.inst.R)
    (h : OwnerOK e s) (p : Point) (l : Int) (hl : 0 ≤ l) : arrival e s i t p l ≠ none := by
  unfold arrival
  simp only
  split
  · rename_i hc
    split
    · simp
    · rename_i hL
      have hin : 0 ≤ s.owner p ∧ s.owner p < (e.inst.R : Int) := by
        rcases h p with h1 | h1 | h1
        · omega
        · omega
        · exact h1
      have hsome : ∃ b, armAt s.arms (s.owner p) = some b := by
        unfold armAt
        rw [if_neg (by omega)]
        have hlt : (s.owner p).toNat < s.arms.length := by omega
        exact ⟨s.arms[(s.owner p).toNat], by simp [List.get?_eq_getElem?, List.getElem?_eq_getElem hlt]⟩
      obtain ⟨b, hb⟩ := hsome
      rw [hb]
      simp only
      split
      · simp
      · split
        · simp
        · simp
  · simp

theorem waypoints_total (e : Env) (s : State) (i t : Nat)
    (hA : ∀ p l, 0 ≤ l → arrival e s i t p l ≠ none)
    (hf1 : 9 ^ e.inst.L.toNat < e.fuel) (hf2 : e.inst.L.toNat < e.fuel) :
    ∀ (wps : List Point) (a : Arm) (sc : Scratch), ChainOK a → Exact a → Stamped sc →
      ∃ r, waypoints e s i t wps a sc = some r := by
  intro wps
  induction wps with
  | nil => intro a sc _ _ _; exact ⟨_, rfl⟩
  | cons pt pts ih =>
    intro a sc hc hx hs
    obtain ⟨r, hw⟩ := waypoint_total e s i t a pt sc hc hx hs hA hf1 hf2
    obtain ⟨oa, sc1⟩ := r
    unfold waypoints
    rw [hw]
    cases oa with
    | none => exact ⟨_, rfl⟩
    | some a1 =>
      simp only
      exact ih a1 sc1 (waypoint_ok e s i t a pt sc a1 sc1 hc hw).1
        (waypoint_exact e s i t a pt sc a1 sc1 hc hx hw)
        (waypoint_stamped e s i t a pt sc _ sc1 hs hw)

theorem candidates_total (e : Env) (s : State) (i : Nat)
    (hA : ∀ t p l, 0 ≤ l → arrival e s i t p l ≠ none)
    (hf1 : 9 ^ e.inst.L.toNat < e.fuel) (hf2 : e.inst.L.toNat < e.fuel)
    (hc : ChainOK (s.arm i)) (hx : Exact (s.arm i)) :
    ∀ (rest : List Nat) (b : Best) (sc : Scratch), Stamped sc →
      ∃ r, candidates e s i rest b sc = some r := by
  intro rest
  induction rest with
  | nil => intro b sc _; exact ⟨_, rfl⟩
  | cons t rest ih =>
    intro b sc hs
    obtain ⟨r, hw⟩ := waypoints_total e s i t (hA t) hf1 hf2 (e.inst.task t) (s.arm i) sc hc hx hs
    obtain ⟨oa, sc1⟩ := r
    have hs1 : Stamped sc1 := waypoints_stamped e s i t _ _ _ _ _ hs hw
    unfold candidates
    rw [hw]
    cases oa with
    | none => exact ih b sc1 hs1
    | some a1 =>
      simp only
      split
      · exact ih b sc1 hs1
      · split
        · exact ih _ sc1 hs1
        · exact ih b sc1 hs1

theorem candidates_exact (e : Env) (s : State) (i : Nat)
    (hc : ChainOK (s.arm i)) (hx : Exact (s.arm i)) :
    ∀ (rest : List Nat) (b : Best) (sc : Scratch) (b1 : Best) (sc1 : Scratch),
      (b.bestT ≠ none → Exact b.bestA) →
      candidates e s i rest b sc = some (b1, sc1) →
      (b1.bestT ≠ none → Exact b1.bestA) := by
  intro rest
  induction rest with
  | nil =>
    intro b sc b1 sc1 hb h
    simp only [candidates, Option.some.injEq, Prod.mk.injEq] at h
    rw [← h.1]; exact hb
  | cons t rest ih =>
    intro b sc b1 sc1 hb h
    unfold candidates at h
    split at h
    · simp at h
    · exact ih b _ b1 sc1 hb h
    · rename_i a sc0 hw
      have k2 := waypoints_exact e s i t _ _ _ _ _ hc hx hw
      simp only at h
      split at h
      · exact ih b sc0 b1 sc1 hb h
      · split at h
        · exact ih _ sc0 b1 sc1 (fun _ => k2) h
        · exact ih b sc0 b1 sc1 hb h

theorem commitWalk_owner (i : Nat) (L : Int) (bestA : Arm) (R : Nat) (hi : i < R) :
    ∀ (moves : List Move) (l : Nat) (p : Point) (ow un : Grid Int),
      (∀ c, un c = -1 ∨ un c = L ∨ (0 ≤ ow c ∧ ow c < (R : Int))) → ow p = (i : Int) →
      ∀ c, (commitWalk i L bestA moves l p ow un).2 c = -1 ∨
        (commitWalk i L bestA moves l p ow un).2 c = L ∨
        (0 ≤ (commitWalk i L bestA moves l p ow un).1 c ∧
          (commitWalk i L bestA moves l p ow un).1 c < (R : Int)) := by
  intro moves
  induction moves with
  | nil => intro l p ow un h _; exact h
  | cons m moves ih =>
    intro l p ow un h hp
    unfold commitWalk
    split
    · exact ih (l + 1) p ow un h hp
    · simp only
      apply ih
      · intro c
        by_cases h1 : c = p.add m
        · right; left
          rw [h1, set_same_cell]
        · rw [set_other_cell _ _ _ _ h1, set_other_cell _ _ _ _ h1]
          split
          · by_cases h2 : c = p
            · right; right
              rw [h2, hp]
              omega
            · rw [set_other_cell _ _ _ _ h2]
              exact h c
          · exact h c
      · rw [set_same_cell]

theorem commitStep_own (e : Env) (s : State) (i : Nat) (bestA : Arm) (t : Nat)
    (hi : i < e.inst.R) (hp : s.owner (back (s.arm i).cur) = (i : Int)) (h : OwnerOK e s) :
    OwnerOK e (commitStep e s i bestA t) := by
  intro c
  exact commitWalk_owner i e.inst.L bestA e.inst.R hi _ _ _ _ _ h hp c

theorem retractStep_own (e : Env) (s : State) (i : Nat) (hi : i < e.inst.R)
    (hlen : i < s.arms.length) (hc : ChainOK (s.arm i)) (ht : Tidy (s.arm i))
    (hfirm : ∀ c ∈ (s.arm i).cur, s.owner c = (i : Int)) (h : OwnerOK e s) :
    OwnerOK e (retractStep e s i) := by
  obtain ⟨_, v2, v3, _, _⟩ := retractStep_view (fun a => a.cp) (fun _ _ => rfl) e s i hlen
  obtain ⟨_, _, k3, _⟩ := retractLoop_held e.inst.L (s.arm i).cur.length (s.arm i) s.until_ hc ht
  intro c
  rw [v2, v3]
  by_cases hin : c ∈ (s.arm i).cur
  · right; right
    rw [hfirm c hin]
    omega
  · rw [k3 c hin]
    exact h c

theorem exact_iff_view (a : Arm) :
    Exact a ↔ ∀ c, (chainView a).2.1 c ≠ Move.x → c ∈ (chainView a).1.dropLast := Iff.rfl

theorem mainStep_live (e : Env) (s s1 : State) (h : LiveInv e s)
    (hs : mainStep e s = some (some s1)) : LiveInv e s1 := by
  refine ⟨mainStep_inv e s s1 h.run hs, (mainStep_held e s s1 h.run h.held hs).1, ?_, ?_⟩
  · obtain ⟨i, b, sc, hi, hcand, hcase⟩ := mainStep_shape e s s1 hs
    have hlen : i < s.arms.length := by rw [h.run.arms_len]; exact hi
    have hci := (h.run.arm _ (arm_mem s i hlen)).chain
    have hxi := h.exact _ (arm_mem s i hlen)
    have kb := candidates_exact e s i hci hxi s.ts _ _ _ _ (fun h0 => absurd rfl h0) hcand
    have hall : ∀ y ∈ s.arms.map chainView, ∀ c, y.2.1 c ≠ Move.x → c ∈ y.1.dropLast := by
      intro y hy
      obtain ⟨a, ha, hay⟩ := List.mem_map.mp hy
      rw [← hay]; exact h.exact a ha
    rcases hcase with ⟨_, hs1⟩ | ⟨t, hb, hs1⟩
    · rw [hs1]
      obtain ⟨v1, _, _, _, _⟩ := retractStep_view chainView (fun _ _ => rfl) e
        { s with seen := sc.seen, dist := sc.dist, pred := sc.pred, SS := sc.SS, clock := sc.clock }
        i hlen
      intro a ha
      have hm := List.mem_map_of_mem chainView ha
      rw [v1] at hm
      refine mem_map_set
        (fun (y : List Point × Grid Move × List Move) => ∀ c, y.2.1 c ≠ Move.x → c ∈ y.1.dropLast)
        (s.arms.map chainView) i _ hall ?_ _ hm
      exact (exact_iff_view _).mp (retractLoop_exact _ _ _ _ hxi)
    · rw [hs1]
      have v1 := commitStep_map chainView (fun _ _ => rfl) e
        { s with seen := sc.seen, dist := sc.dist, pred := sc.pred, SS := sc.SS, clock := sc.clock }
        i b.bestA t
      intro a ha
      have hm := List.mem_map_of_mem chainView ha
      rw [v1] at hm
      refine mem_map_set
        (fun (y : List Point × Grid Move × List Move) => ∀ c, y.2.1 c ≠ Move.x → c ∈ y.1.dropLast)
        (s.arms.map chainView) i _ hall ?_ _ hm
      exact (exact_iff_view _).mp (kb (by rw [hb]; simp))
  · obtain ⟨i, b, sc, hi, hcand, hcase⟩ := mainStep_shape e s s1 hs
    have hlen : i < s.arms.length := by rw [h.run.arms_len]; exact hi
    have hci := (h.run.arm _ (arm_mem s i hlen)).chain
    have hfirm := h.held.firm i _ (arm_get s i hlen)
    rcases hcase with ⟨_, hs1⟩ | ⟨t, hb, hs1⟩
    · rw [hs1]
      exact retractStep_own e _ i hi hlen hci (h.held.tidy i _ (arm_get s i hlen))
        (fun c hc => (hfirm c hc).1) h.own
    · rw [hs1]
      exact commitStep_own e _ i b.bestA t hi (hfirm _ (back_mem _ hci.1.ne_nil)).1 h.own

theorem selectArm_lt (arms : List Arm) (R i : Nat)
    (h : selectArm arms (List.range R) none = some i) : i < R := by
  rcases selectArm_mem _ _ _ _ h with h1 | h1
  · exact List.mem_range.mp h1
  · simp at h1

/-- Under the invariant and with fuel beyond `9 ^ L`, one iteration of the
main loop completes. -/
theorem mainStep_total (e : Env) (s : State) (h : LiveInv e s)
    (hf1 : 9 ^ e.inst.L.toNat < e.fuel) (hf2 : e.inst.L.toNat < e.fuel) :
    mainStep e s ≠ none := by
  unfold mainStep
  cases hsel : selectArm s.arms (List.range e.inst.R) none with
  | none => simp
  | some i =>
    simp only
    have hi := selectArm_lt _ _ _ hsel
    have hlen : i < s.arms.length := by rw [h.run.arms_len]; exact hi
    obtain ⟨r, hr⟩ := candidates_total e s i
      (fun t => arrival_total e s i t h.run.arms_len h.own) hf1 hf2
      (h.run.arm _ (arm_mem s i hlen)).chain (h.exact _ (arm_mem s i hlen)) s.ts
      ⟨default, none, Frac.ofInt (-1)⟩ ⟨s.seen, s.dist, s.pred, s.SS, s.clock⟩ h.held.stamp
    rw [hr]
    obtain ⟨b, sc⟩ := r
    simp only
    cases b.bestT with
    | none => simp
    | some t => simp

theorem placeMounts_until (R : Nat) (L : Int) :
    ∀ (ms : List Point) (i : Nat) (arms : List Arm) (ow un : Grid Int),
      (∀ c, un c = -1 ∨ un c = L) →
      ∀ c, (placeMounts R L ms i arms ow un).2.2 c = -1 ∨
        (placeMounts R L ms i arms ow un).2.2 c = L := by
  intro ms
  induction ms with
  | nil => intro i arms ow un h; exact h
  | cons m ms ih =>
    intro i arms ow un h
    unfold placeMounts
    apply ih
    intro c
    by_cases hc : c = m
    · right; rw [hc, set_same_cell]
    · rw [set_other_cell _ _ _ _ hc]; exact h c

theorem startState_live (e : Env) (ms : List Point) (Len : List Int) (clock : Nat)
    (hR : e.inst.R ≤ ms.length) (hnd : ms.Nodup) : LiveInv e (startState e ms Len clock) := by
  refine ⟨startState_inv e ms Len clock hR, startState_held e ms Len clock hnd, ?_, ?_⟩
  · have hp := placeMounts_arms (fun a => Exact a) e.inst.R e.inst.L
      (fun x y k c hc => absurd rfl hc) (orderMounts e ms (clock + 1)) 0 []
      (fun _ => -1) (fun _ => -1) (by simp) (by simp)
    exact hp.1
  · intro c
    rcases placeMounts_until e.inst.R e.inst.L (orderMounts e ms (clock + 1)) 0 []
      (fun _ => -1) (fun _ => -1) (fun _ => Or.inl rfl) c with h1 | h1
    · exact Or.inl h1
    · exact Or.inr (Or.inl h1)

theorem lt_toSize_iff (L : Int) (n : Nat) : (n : Int) < toSize L ↔ n < (toSize L).toNat := by
  have h : 0 ≤ toSize L := by
    unfold toSize
    exact Int.emod_nonneg _ (by decide)
  omega

theorem sum_map_set {α : Type} (f : α → Nat) (d : α) : ∀ (l : List α) (i : Nat) (x : α),
    i < l.length → ((l.set i x).map f).sum + f (l.getD i d) = (l.map f).sum + f x := by
  intro l
  induction l with
  | nil => intro i x h; simp at h
  | cons y l ih =>
    intro i x h
    cases i with
    | zero => simp; omega
    | succ i =>
      have := ih i x (by simpa using h)
      simp only [List.set_cons_succ, List.map_cons, List.sum_cons, List.getD_cons_succ]
      omega

theorem undone_sum_le : ∀ (l : List Arm), (l.map undone).sum ≤ l.length := by
  intro l
  induction l with
  | nil => simp
  | cons a l ih =>
    simp only [List.map_cons, List.sum_cons, List.length_cons]
    have : undone a ≤ 1 := by unfold undone; split <;> omega
    omega

theorem armDebt_reset (L : Int) (a : Arm) :
    armDebt (toSize L).toNat
      (if (a.path.length : Int) < toSize L then { a with done := false } else a)
      = armDebt (toSize L).toNat a := by
  split
  · rename_i h
    have h1 := (lt_toSize_iff L _).mp h
    unfold armDebt
    rw [if_neg (by simp), if_neg (by omega)]
  · rfl

theorem armDebt_undone (H : Nat) (a : Arm) (hd : a.done = false) :
    armDebt H a = (H - a.path.length) + 1 := by
  unfold armDebt
  rw [if_neg (by simp [hd])]

theorem armDebt_le (H : Nat) (a : Arm) : armDebt H a ≤ (H - a.path.length) + 1 := by
  unfold armDebt
  split <;> omega

theorem armDebt_done (H : Nat) (a : Arm) (hd : a.done = true) :
    armDebt H a = (H - a.path.length) + (if H ≤ a.path.length then 0 else 1) := by
  unfold armDebt
  simp [hd]

theorem resetDone_debt (L : Int) (arms : List Arm) :
    (resetDone L arms).map (armDebt (toSize L).toNat) = arms.map (armDebt (toSize L).toNat) := by
  unfold resetDone
  rw [List.map_map]
  apply List.map_congr_left
  intro a _
  exact armDebt_reset L a

theorem resetDone_getD (L : Int) (arms : List Arm) (i : Nat) (h : i < arms.length) :
    (resetDone L arms).getD i default
      = (if ((arms.getD i default).path.length : Int) < toSize L
          then { arms.getD i default with done := false } else arms.getD i default) := by
  unfold resetDone
  rw [List.getD_eq_getElem _ _ (by simpa using h), List.getD_eq_getElem _ _ h, List.getElem_map]

theorem removeTask_length (ts : List Nat) (t : Nat) : (removeTask ts t).length = ts.length - 1 := by
  simp [removeTask]

theorem potential_drop (R X X1 N N1 : Nat) (h : X1 + 1 ≤ X) (hN : N1 ≤ R) :
    X1 * (R + 1) + N1 < X * (R + 1) + N := by
  have := Nat.mul_le_mul_right (R + 1) h
  rw [Nat.add_mul] at this
  omega

theorem sum_arm_set (f : Arm → Nat) (s : State) (i : Nat) (x a : Arm) (h : i < s.arms.length)
    (ha : a = s.arm i) :
    ((s.arms.set i x).map f).sum + f a = (s.arms.map f).sum + f x := by
  rw [ha]
  exact sum_map_set f default s.arms i x h

/-- A commit lowers the potential: one task leaves `ts` and the arm's debt
does not grow. -/
theorem commitStep_potential (e : Env) (s : State) (i : Nat) (bestA : Arm) (t : Nat)
    (hlen : s.arms.length = e.inst.R) (hi : i < e.inst.R) (ht : t ∈ s.ts)
    (hd : (s.arm i).done = false) (hp : (s.arm i).path.length ≤ bestA.path.length) :
    potential e (commitStep e s i bestA t) < potential e s := by
  have hil : i < s.arms.length := by omega
  obtain ⟨a, ha⟩ : ∃ a, a = s.arm i := ⟨_, rfl⟩
  rw [← ha] at hd hp
  obtain ⟨x, hx⟩ : ∃ x : Arm, x = { bestA with z := bestA.z ++ [t] } := ⟨_, rfl⟩
  have hxp : x.path.length = bestA.path.length := by rw [hx]
  have harms : (commitStep e s i bestA t).arms = resetDone e.inst.L (s.arms.set i x) := by
    rw [hx]; rfl
  have hts : (commitStep e s i bestA t).ts = removeTask s.ts t := rfl
  have hpos : 0 < s.ts.length := List.length_pos_of_mem ht
  have hsum := sum_arm_set (armDebt (horizon e)) s i x a hil ha
  have h1 := armDebt_le (horizon e) x
  have h2 := armDebt_undone (horizon e) a hd
  have hN : ((commitStep e s i bestA t).arms.map undone).sum ≤ e.inst.R := by
    have := undone_sum_le (commitStep e s i bestA t).arms
    rw [harms, resetDone_length, List.length_set] at this
    rw [harms]
    omega
  have h3 : ((resetDone e.inst.L (s.arms.set i x)).map (armDebt (horizon e))).sum
      = ((s.arms.set i x).map (armDebt (horizon e))).sum := by
    show ((resetDone e.inst.L _).map (armDebt (toSize e.inst.L).toNat)).sum = _
    rw [resetDone_debt]
    rfl
  unfold potential
  apply potential_drop _ _ _ _ _ _ hN
  rw [hts, removeTask_length, harms, h3]
  omega

/-- A retraction lowers the potential: the arm's debt falls, or (at the
anchor) the debt does not grow and one more arm is done. -/
theorem retractStep_potential (e : Env) (s : State) (i : Nat)
    (hlen : s.arms.length = e.inst.R) (hi : i < e.inst.R)
    (hd : (s.arm i).done = false) :
    potential e (retractStep e s i) < potential e s := by
  have hil : i < s.arms.length := by omega
  by_cases hcur : (s.arm i).cur.length ≤ 1
  · obtain ⟨a, ha⟩ : ∃ a, a = s.arm i := ⟨_, rfl⟩
    obtain ⟨x, hx⟩ : ∃ x : Arm, x = { a with done := true } := ⟨_, rfl⟩
    have harms : (retractStep e s i).arms = s.arms.set i x := by
      rw [hx, ha]
      unfold retractStep
      rw [if_pos hcur]
    have hts : (retractStep e s i).ts = s.ts := by
      unfold retractStep
      rw [if_pos hcur]
    rw [← ha] at hd
    have hxp : x.path.length = a.path.length := by rw [hx]
    have hxd : x.done = true := by rw [hx]
    have h1 := sum_arm_set (armDebt (horizon e)) s i x a hil ha
    have h2 := sum_arm_set undone s i x a hil ha
    have h3 := armDebt_le (horizon e) x
    have h4 := armDebt_undone (horizon e) a hd
    have hu1 : undone x = 0 := by simp [undone, hxd]
    have hu2 : undone a = 1 := by simp [undone, hd]
    unfold potential
    rw [hts, harms]
    have := Nat.mul_le_mul_right (e.inst.R + 1)
      (show s.ts.length + ((s.arms.set i x).map (armDebt (horizon e))).sum
        ≤ s.ts.length + (s.arms.map (armDebt (horizon e))).sum by omega)
    omega
  · obtain ⟨k, hk1, hk2, hk3, hk4, _⟩ := retractLoop_count e.inst.L (s.arm i).cur.length
      (s.arm i) s.until_ (by omega)
    obtain ⟨r, hr⟩ : ∃ r, r = (retractLoop e.inst.L (s.arm i).cur.length (s.arm i) s.until_).1 :=
      ⟨_, rfl⟩
    rw [← hr] at hk1 hk2 hk4
    obtain ⟨y, hy⟩ : ∃ y, y = (resetDone e.inst.L (s.arms.set i r)).getD i default := ⟨_, rfl⟩
    obtain ⟨x, hx⟩ : ∃ x : Arm, x = { y with done := true } := ⟨_, rfl⟩
    have hts : (retractStep e s i).ts = s.ts := by
      unfold retractStep
      rw [if_neg hcur]
    have harms : (retractStep e s i).arms = (resetDone e.inst.L (s.arms.set i r)).set i x := by
      rw [hx, hy, hr]
      unfold retractStep
      rw [if_neg hcur]
    obtain ⟨a, ha⟩ : ∃ a, a = s.arm i := ⟨_, rfl⟩
    rw [← ha] at hd hk1 hk2 hk3 hcur
    have hil2 : i < (s.arms.set i r).length := by simpa using hil
    have hil3 : i < (resetDone e.inst.L (s.arms.set i r)).length := by
      rw [resetDone_length]; exact hil2
    have hyp : y.path = r.path := by
      rw [hy, resetDone_getD _ _ _ hil2, getD_set_self _ _ _ hil]
      split <;> rfl
    have hyd : armDebt (horizon e) y = armDebt (horizon e) r := by
      rw [hy, resetDone_getD _ _ _ hil2, getD_set_self _ _ _ hil]
      exact armDebt_reset e.inst.L r
    have h1 := sum_map_set (armDebt (horizon e)) default _ i x hil3
    rw [← hy] at h1
    have h2 : ((resetDone e.inst.L (s.arms.set i r)).map (armDebt (horizon e))).sum
        = ((s.arms.set i r).map (armDebt (horizon e))).sum := by
      show ((resetDone e.inst.L _).map (armDebt (toSize e.inst.L).toNat)).sum = _
      rw [resetDone_debt]
      rfl
    have h3 := sum_arm_set (armDebt (horizon e)) s i r a hil ha
    have hxp : x.path.length = r.path.length := by rw [hx]; show y.path.length = _; rw [hyp]
    have hxd : x.done = true := by rw [hx]
    have hk1l : r.cur.length = a.cur.length - k := by
      rw [hk1, List.length_take]
      omega
    have hstop : r.cur.length ≤ 1 ∨ horizon e ≤ r.path.length := by
      rcases hk4 with h | h
      · exact Or.inl h
      · right
        have := (lt_toSize_iff e.inst.L r.path.length).not.mp (by omega)
        unfold horizon
        omega
    have hkey : armDebt (horizon e) x + 1 ≤ armDebt (horizon e) a := by
      rw [armDebt_undone _ _ hd, armDebt_done _ _ hxd, hxp]
      split <;> omega
    have hN : ((retractStep e s i).arms.map undone).sum ≤ e.inst.R := by
      have := undone_sum_le (retractStep e s i).arms
      rw [harms, List.length_set, resetDone_length, List.length_set] at this
      rw [harms]
      omega
    unfold potential
    apply potential_drop _ _ _ _ _ _ hN
    rw [hts, harms]
    omega

theorem selectArm_none (arms : List Arm) : ∀ (is : List Nat) (i0 : Option Nat),
    selectArm arms is i0 = none → i0 = none ∧ ∀ k ∈ is, (arms.getD k default).done = true := by
  intro is
  induction is with
  | nil => intro i0 h; exact ⟨by simpa [selectArm] using h, fun k hk => by simp at hk⟩
  | cons k is ih =>
    intro i0 h
    unfold selectArm at h
    split at h
    · have := (ih _ h).1
      simp at this
    · rename_i hc
      obtain ⟨h1, h2⟩ := ih _ h
      refine ⟨h1, ?_⟩
      intro j hj
      rcases List.mem_cons.mp hj with hj1 | hj1
      · rw [hj1]
        rw [h1] at hc
        simpa using hc
      · exact h2 j hj1

/-- What an iteration that goes on has done, with the arm it selected. -/
theorem mainStep_selected (e : Env) (s s1 : State) (h : mainStep e s = some (some s1)) :
    ∃ (i : Nat) (b : Best) (sc : Scratch), i < e.inst.R ∧ (s.arm i).done = false ∧
      candidates e s i s.ts ⟨default, none, Frac.ofInt (-1)⟩
        ⟨s.seen, s.dist, s.pred, s.SS, s.clock⟩ = some (b, sc) ∧
      ((b.bestT = none ∧ s1 = retractStep e
          { s with seen := sc.seen, dist := sc.dist, pred := sc.pred, SS := sc.SS,
                   clock := sc.clock } i) ∨
       (∃ t, b.bestT = some t ∧ s1 = commitStep e
          { s with seen := sc.seen, dist := sc.dist, pred := sc.pred, SS := sc.SS,
                   clock := sc.clock } i b.bestA t)) := by
  unfold mainStep at h
  cases hsel : selectArm s.arms (List.range e.inst.R) none with
  | none => rw [hsel] at h; simp at h
  | some i =>
    rw [hsel] at h
    simp only at h
    have hi : i < e.inst.R := selectArm_lt _ _ _ hsel
    have hd : (s.arm i).done = false := by
      rcases selectArm_not_done _ _ _ _ hsel with h1 | h1
      · simp at h1
      · exact h1
    cases hc : candidates e s i s.ts ⟨default, none, Frac.ofInt (-1)⟩
        ⟨s.seen, s.dist, s.pred, s.SS, s.clock⟩ with
    | none => rw [hc] at h; simp at h
    | some r =>
      obtain ⟨b, sc⟩ := r
      rw [hc] at h
      simp only at h
      refine ⟨i, b, sc, hi, hd, hc, ?_⟩
      cases hb : b.bestT with
      | none =>
        rw [hb] at h
        simp only [Option.some.injEq] at h
        exact Or.inl ⟨rfl, h.symm⟩
      | some t =>
        rw [hb] at h
        simp only [Option.some.injEq] at h
        exact Or.inr ⟨t, rfl, h.symm⟩

/-- Every iteration of the main loop that goes on lowers the potential. -/
theorem mainStep_potential (e : Env) (s s1 : State) (h : RunInv e s)
    (hs : mainStep e s = some (some s1)) : potential e s1 < potential e s := by
  obtain ⟨i, b, sc, hi, hd, hcand, hcase⟩ := mainStep_selected e s s1 hs
  rcases hcase with ⟨_, hs1⟩ | ⟨t, hb, hs1⟩
  · rw [hs1]
    exact retractStep_potential e
      { s with seen := sc.seen, dist := sc.dist, pred := sc.pred, SS := sc.SS, clock := sc.clock }
      i h.arms_len hi hd
  · rw [hs1]
    have hpk := candidates_picked e s i s.ts s.ts _ _ _ _ (fun _ ht => ht)
      (fun t0 h0 => by simp at h0) hcand t hb
    obtain ⟨hts, _, _, _, hlt⟩ := hpk
    exact commitStep_potential e
      { s with seen := sc.seen, dist := sc.dist, pred := sc.pred, SS := sc.SS, clock := sc.clock }
      i b.bestA t h.arms_len hi hts hd (Nat.le_of_lt hlt)

/-- With fuel beyond `9 ^ L`, `L` and the potential of the state, the main
loop leaves through its `break`, in a state in which every arm is done. -/
theorem mainLoop_total (e : Env) (hf1 : 9 ^ e.inst.L.toNat < e.fuel)
    (hf2 : e.inst.L.toNat < e.fuel) :
    ∀ (n : Nat) (s : State), LiveInv e s → potential e s < n →
      ∃ s1, mainLoop e n s = some s1 ∧ LiveInv e s1 ∧ ∀ a ∈ s1.arms, a.done = true := by
  intro n
  induction n with
  | zero => intro s _ h; omega
  | succ n ih =>
    intro s hl hp
    unfold mainLoop
    cases hm : mainStep e s with
    | none => exact absurd hm (mainStep_total e s hl hf1 hf2)
    | some o =>
      cases o with
      | none =>
        refine ⟨s, rfl, hl, ?_⟩
        have hsel : selectArm s.arms (List.range e.inst.R) none = none := by
          unfold mainStep at hm
          cases hsel : selectArm s.arms (List.range e.inst.R) none with
          | none => rfl
          | some i =>
            rw [hsel] at hm
            simp only at hm
            split at hm
            · simp at hm
            · split at hm <;> simp at hm
        obtain ⟨_, hall⟩ := selectArm_none _ _ _ hsel
        intro a ha
        obtain ⟨k, hk, hka⟩ := List.getElem_of_mem ha
        have := hall k (List.mem_range.mpr (by rw [← hl.run.arms_len]; exact hk))
        rw [List.getD_eq_getElem _ _ hk, hka] at this
        exact this
      | some s1 =>
        simp only
        have := mainStep_potential e s s1 hl.run hm
        exact ih s1 (mainStep_live e s s1 hl hm) (by omega)

theorem startState_fuel (e : Env) (ms : List Point) (Len : List Int) (clock fuel : Nat) :
    startState { e with fuel := fuel } ms Len clock = startState e ms Len clock := rfl

theorem potential_fuel (e : Env) (s : State) (fuel : Nat) :
    potential { e with fuel := fuel } s = potential e s := rfl

/-- C14: for a call with at least `R` mounting points, no two of them equal,
the main loop of `greedy_solver` terminates: there is a bound `N` such that
with any fuel of at least `N` the call returns, after some number `k` of
commit and retraction steps, from a state in which the selection finds no arm
and every arm is marked done. -/
theorem main_loop_terminates (e : Env) (ms : List Point) (Len : List Int) (clock : Nat)
    (hR : e.inst.R ≤ ms.length) (hnd : ms.Nodup) :
    ∃ N, ∀ fuel, N ≤ fuel → ∃ r k s,
      greedy_solver { e with fuel := fuel } ms Len clock = some r ∧
      stateAt { e with fuel := fuel } (startState { e with fuel := fuel } ms Len clock) k
        = some s ∧
      mainStep { e with fuel := fuel } s = some none ∧
      r.arms = s.arms ∧ ∀ a ∈ r.arms, a.done = true := by
  refine ⟨9 ^ e.inst.L.toNat + e.inst.L.toNat + potential e (startState e ms Len clock) + 1, ?_⟩
  intro fuel hfuel
  have hfu : 9 ^ e.inst.L.toNat < fuel ∧ e.inst.L.toNat < fuel ∧
      potential e (startState e ms Len clock) < fuel := by
    generalize 9 ^ e.inst.L.toNat = P at hfuel
    generalize e.inst.L.toNat = Q at hfuel
    omega
  have hl := startState_live { e with fuel := fuel } ms Len clock hR hnd
  have hpot : potential { e with fuel := fuel } (startState { e with fuel := fuel } ms Len clock)
      < fuel := by
    rw [startState_fuel, potential_fuel]
    exact hfu.2.2
  obtain ⟨s1, hm, _, hdone⟩ := mainLoop_total { e with fuel := fuel }
    hfu.1 hfu.2.1
    fuel _ hl hpot
  obtain ⟨k, hk, hend⟩ := mainLoop_stateAt _ _ _ _ hm
  refine ⟨⟨s1.score, s1.arms, orderMounts e ms (clock + 1), penalise e ms Len, s1.clock⟩,
    k, s1, ?_, hk, hend, rfl, hdone⟩
  unfold greedy_solver
  simp only
  rw [if_neg (show ¬ ms.length < e.inst.R by omega)]
  have hm1 : mainLoop { e with fuel := fuel } fuel
      (initState { e with fuel := fuel } (orderMounts { e with fuel := fuel } ms (clock + 1))
        (penalise { e with fuel := fuel } ms Len) clock) = some s1 := hm
  rw [hm1]
  rfl

theorem main_loop_terminates_witness :
    pairEnv.inst.R ≤ ([⟨0, 0⟩, ⟨4, 0⟩] : List Point).length ∧
      ([⟨0, 0⟩, ⟨4, 0⟩] : List Point).Nodup ∧
      ∃ N, ∀ fuel, N ≤ fuel → ∃ r k s,
        greedy_solver { pairEnv with fuel := fuel } [⟨0, 0⟩, ⟨4, 0⟩] [1, 0] 0 = some r ∧
        stateAt { pairEnv with fuel := fuel }
          (startState { pairEnv with fuel := fuel } [⟨0, 0⟩, ⟨4, 0⟩] [1, 0] 0) k = some s ∧
        mainStep { pairEnv with fuel := fuel } s = some none ∧
        r.arms = s.arms ∧ ∀ a ∈ r.arms, a.done = true :=
  ⟨by decide, by decide, main_loop_terminates pairEnv [⟨0, 0⟩, ⟨4, 0⟩] [1, 0] 0 (by decide)
    (by decide)⟩

theorem commitWalk_table (i : Nat) (L : Int) (bestA : Arm) (R : Nat) (hi : i < R) :
    ∀ (moves : List Move) (l : Nat) (p : Point) (ow un : Grid Int),
      (∀ c, (0 ≤ ow c ∧ ow c < (R : Int)) ∨ (ow c = -1 ∧ un c = -1) ∨
        ((R : Int) ≤ ow c ∧ un c = L)) → ow p = (i : Int) →
      ∀ c, (0 ≤ (commitWalk i L bestA moves l p ow un).1 c ∧
          (commitWalk i L bestA moves l p ow un).1 c < (R : Int)) ∨
        ((commitWalk i L bestA moves l p ow un).1 c = -1 ∧
          (commitWalk i L bestA moves l p ow un).2 c = -1) ∨
        ((R : Int) ≤ (commitWalk i L bestA moves l p ow un).1 c ∧
          (commitWalk i L bestA moves l p ow un).2 c = L) := by
  intro moves
  induction moves with
  | nil => intro l p ow un h _; exact h
  | cons m moves ih =>
    intro l p ow un h hp
    unfold commitWalk
    split
    · exact ih (l + 1) p ow un h hp
    · simp only
      apply ih
      · intro c
        by_cases h1 : c = p.add m
        · left
          rw [h1, set_same_cell]
          omega
        · rw [set_other_cell _ _ _ _ h1, set_other_cell _ _ _ _ h1]
          split
          · by_cases h2 : c = p
            · left
              rw [h2, hp]
              omega
            · rw [set_other_cell _ _ _ _ h2]
              exact h c
          · exact h c
      · rw [set_same_cell]

theorem commitStep_table (e : Env) (s : State) (i : Nat) (bestA : Arm) (t : Nat)
    (hi : i < e.inst.R) (hp : s.owner (back (s.arm i).cur) = (i : Int)) (h : OwnerTable e s) :
    OwnerTable e (commitStep e s i bestA t) := by
  intro c
  exact commitWalk_table i e.inst.L bestA e.inst.R hi _ _ _ _ _ h hp c

theorem retractStep_table (e : Env) (s : State) (i : Nat) (hi : i < e.inst.R)
    (hlen : i < s.arms.length) (hc : ChainOK (s.arm i)) (ht : Tidy (s.arm i))
    (hfirm : ∀ c ∈ (s.arm i).cur, s.owner c = (i : Int)) (h : OwnerTable e s) :
    OwnerTable e (retractStep e s i) := by
  obtain ⟨_, v2, v3, _, _⟩ := retractStep_view (fun a => a.cp) (fun _ _ => rfl) e s i hlen
  obtain ⟨_, _, k3, _⟩ := retractLoop_held e.inst.L (s.arm i).cur.length (s.arm i) s.until_ hc ht
  intro c
  rw [v2, v3]
  by_cases hin : c ∈ (s.arm i).cur
  · left
    rw [hfirm c hin]
    omega
  · rw [k3 c hin]
    exact h c

theorem mainStep_table (e : Env) (s s1 : State) (h : LiveInv e s) (ht : OwnerTable e s)
    (hs : mainStep e s = some (some s1)) : OwnerTable e s1 := by
  obtain ⟨i, b, sc, hi, hcand, hcase⟩ := mainStep_shape e s s1 hs
  have hlen : i < s.arms.length := by rw [h.run.arms_len]; exact hi
  have hci := (h.run.arm _ (arm_mem s i hlen)).chain
  have hfirm := h.held.firm i _ (arm_get s i hlen)
  rcases hcase with ⟨_, hs1⟩ | ⟨t, hb, hs1⟩
  · rw [hs1]
    exact retractStep_table e _ i hi hlen hci (h.held.tidy i _ (arm_get s i hlen))
      (fun c hc => (hfirm c hc).1) ht
  · rw [hs1]
    exact commitStep_table e _ i b.bestA t hi (hfirm _ (back_mem _ hci.1.ne_nil)).1 ht

theorem placeMounts_table (R : Nat) (L : Int) :
    ∀ (ms : List Point) (i : Nat) (arms : List Arm) (ow un : Grid Int),
      (∀ c, (0 ≤ ow c ∧ ow c < (R : Int)) ∨ (ow c = -1 ∧ un c = -1) ∨
        ((R : Int) ≤ ow c ∧ un c = L)) →
      ∀ c, (0 ≤ (placeMounts R L ms i arms ow un).2.1 c ∧
          (placeMounts R L ms i arms ow un).2.1 c < (R : Int)) ∨
        ((placeMounts R L ms i arms ow un).2.1 c = -1 ∧
          (placeMounts R L ms i arms ow un).2.2 c = -1) ∨
        ((R : Int) ≤ (placeMounts R L ms i arms ow un).2.1 c ∧
          (placeMounts R L ms i arms ow un).2.2 c = L) := by
  intro ms
  induction ms with
  | nil => intro i arms ow un h; exact h
  | cons m ms ih =>
    intro i arms ow un h
    unfold placeMounts
    apply ih
    intro c
    by_cases hc : c = m
    · rw [hc, set_same_cell, set_same_cell]
      by_cases hi : i < R
      · left; omega
      · right; right; exact ⟨by omega, rfl⟩
    · rw [set_other_cell _ _ _ _ hc, set_other_cell _ _ _ _ hc]; exact h c

theorem startState_table (e : Env) (ms : List Point) (Len : List Int) (clock : Nat) :
    OwnerTable e (startState e ms Len clock) := by
  intro c
  exact placeMounts_table e.inst.R e.inst.L (orderMounts e ms (clock + 1)) 0 []
    (fun _ => -1) (fun _ => -1) (fun _ => Or.inr (Or.inl ⟨rfl, rfl⟩)) c

theorem stateAt_live (e : Env) (s0 : State) (h0 : LiveInv e s0) :
    ∀ (n : Nat) (s : State), stateAt e s0 n = some s → LiveInv e s := by
  intro n
  induction n with
  | zero =>
    intro s hs
    simp only [stateAt, Option.some.injEq] at hs
    rw [← hs]; exact h0
  | succ n ih =>
    intro s hs
    cases hn : stateAt e s0 n with
    | none => simp [stateAt, hn] at hs
    | some s' =>
      have hm := stateAt_succ e s0 s' s n hn hs
      exact mainStep_live e s' s (ih s' hn) hm

theorem stateAt_table (e : Env) (s0 : State) (h0 : LiveInv e s0) (t0 : OwnerTable e s0) :
    ∀ (n : Nat) (s : State), stateAt e s0 n = some s → OwnerTable e s := by
  intro n
  induction n with
  | zero =>
    intro s hs
    simp only [stateAt, Option.some.injEq] at hs
    rw [← hs]; exact t0
  | succ n ih =>
    intro s hs
    cases hn : stateAt e s0 n with
    | none => simp [stateAt, hn] at hs
    | some s' =>
      have hm := stateAt_succ e s0 s' s n hn hs
      exact mainStep_table e s' s (stateAt_live e s0 h0 n s' hn) (ih s' hn) hm

/-- C24: in a run of `greedy_solver` on pairwise different mounting points, at
least as many as arms, take the state `s` at the start of any iteration of the
main loop and any cell `p` with `until[p] > l` and not `until[p] ≥ L` for an
arrival time `l ≥ 0` (the arrival times of a search start at the length of a
path), as in every test that reaches the read of `arms[j]` for
`j = owner[p]`. Then `0 ≤ j < R`, the read finds an arm, and the test does
not fail. Moreover every cell is owned by one of the `R` arms, or is owned by
nobody with `until = -1`, or is owned by an index `≥ R` with `until = L`. -/
theorem owner_lookup_in_range (e : Env) (ms : List Point) (Len : List Int) (clock : Nat)
    (hR : e.inst.R ≤ ms.length) (hnd : ms.Nodup) (n : Nat) (s : State)
    (hs : stateAt e (startState e ms Len clock) n = some s)
    (i t : Nat) (p : Point) (l : Int) (hl : 0 ≤ l)
    (hu : s.until_ p > l) (hL : ¬ s.until_ p ≥ e.inst.L) :
    (0 ≤ s.owner p ∧ s.owner p < (e.inst.R : Int)) ∧
      (∃ b, armAt s.arms (s.owner p) = some b ∧ b ∈ s.arms) ∧
      arrival e s i t p l ≠ none ∧ OwnerTable e s := by
  have hl0 := startState_live e ms Len clock hR hnd
  have hlive := stateAt_live e _ hl0 n s hs
  have htab := stateAt_table e _ hl0 (startState_table e ms Len clock) n s hs
  have hin : 0 ≤ s.owner p ∧ s.owner p < (e.inst.R : Int) := by
    rcases htab p with h1 | h1 | h1
    · exact h1
    · omega
    · omega
  refine ⟨hin, ?_, arrival_total e s i t hlive.run.arms_len hlive.own p l hl, htab⟩
  have hlt : (s.owner p).toNat < s.arms.length := by
    rw [hlive.run.arms_len]; omega
  refine ⟨s.arms[(s.owner p).toNat], ?_, List.getElem_mem _⟩
  unfold armAt
  rw [if_neg (by omega)]
  simp [List.get?_eq_getElem?, List.getElem?_eq_getElem hlt]

theorem owner_lookup_in_range_witness :
    gateEnv.inst.R ≤ ([⟨3, 0⟩, ⟨6, 0⟩] : List Point).length ∧
      ([⟨3, 0⟩, ⟨6, 0⟩] : List Point).Nodup ∧
      stateAt gateEnv (startState gateEnv [⟨3, 0⟩, ⟨6, 0⟩] [0, 0] 0) 3
        = some (reached gateEnv [⟨3, 0⟩, ⟨6, 0⟩] [0, 0] 0 3) ∧
      (reached gateEnv [⟨3, 0⟩, ⟨6, 0⟩] [0, 0] 0 3).owner ⟨5, 0⟩ = 0 ∧
      (reached gateEnv [⟨3, 0⟩, ⟨6, 0⟩] [0, 0] 0 3).until_ ⟨5, 0⟩ = 2 ∧
      ((0 ≤ (reached gateEnv [⟨3, 0⟩, ⟨6, 0⟩] [0, 0] 0 3).owner ⟨5, 0⟩ ∧
          (reached gateEnv [⟨3, 0⟩, ⟨6, 0⟩] [0, 0] 0 3).owner ⟨5, 0⟩ < (gateEnv.inst.R : Int)) ∧
        (∃ b, armAt (reached gateEnv [⟨3, 0⟩, ⟨6, 0⟩] [0, 0] 0 3).arms
            ((reached gateEnv [⟨3, 0⟩, ⟨6, 0⟩] [0, 0] 0 3).owner ⟨5, 0⟩) = some b ∧
          b ∈ (reached gateEnv [⟨3, 0⟩, ⟨6, 0⟩] [0, 0] 0 3).arms) ∧
        arrival gateEnv (reached gateEnv [⟨3, 0⟩, ⟨6, 0⟩] [0, 0] 0 3) 1 1 ⟨5, 0⟩ 0 ≠ none ∧
        OwnerTable gateEnv (reached gateEnv [⟨3, 0⟩, ⟨6, 0⟩] [0, 0] 0 3)) :=
  ⟨by decide, by decide, reached_eq _ _ _ _ _ (by decide), by decide, by decide,
    owner_lookup_in_range gateEnv [⟨3, 0⟩, ⟨6, 0⟩] [0, 0] 0 (by decide) (by decide) 3 _
      (reached_eq _ _ _ _ _ (by decide)) 1 1 ⟨5, 0⟩ 0 (by decide) (by decide) (by decide)⟩

theorem waypoint_start (e : Env) (s : State) (i t : Nat) (a : Arm) (pt : Point) (sc : Scratch) :
    waypoint e s i t a pt sc
      = match searchLoop e s i t (sc.SS + 1) a pt e.fuel (searchStart a pt sc) with
        | none => none
        | some σ =>
          if σ.found = false then some (none, ⟨σ.seen, σ.dist, σ.pred, sc.SS + 1, σ.clock⟩)
          else
            match predWalk σ.pred e.fuel pt [] with
            | none => none
            | some (add, p) =>
              match unwind a.cur.length p a with
              | none => none
              | some a1 =>
                if ((appendMoves σ.dist add.reverse
                    { a1 with cp := a1.cp ++ add.reverse }).path.length : Int) > toSize e.inst.L
                then some (none, ⟨σ.seen, σ.dist, σ.pred, sc.SS + 1, σ.clock⟩)
                else some (some (appendMoves σ.dist add.reverse
                    { a1 with cp := a1.cp ++ add.reverse }),
                  ⟨σ.seen, σ.dist, σ.pred, sc.SS + 1, σ.clock⟩) := rfl

theorem ownLoop_pushes (e : Env) (SS : Int) (a : Arm) (pt q : Point) (l depth : Int) :
    ∀ (cs : List Move) (σ : Search), ∃ new,
      (ownLoop e SS a pt q l depth cs σ).Q = σ.Q ++ new ∧
      ∀ en ∈ new, en.l = l + 1 ∧ en.depth = depth + 1 ∧
        ∃ c ∈ cs, en.q = q.add c ∧ a.how en.q = c := by
  intro cs
  induction cs with
  | nil => intro σ; exact ⟨[], by simp [ownLoop], fun en h => by simp at h⟩
  | cons c cs ih =>
    intro σ
    unfold ownLoop
    simp only
    split
    · obtain ⟨new, h1, h2⟩ := ih σ
      refine ⟨new, h1, ?_⟩
      intro en hen
      obtain ⟨k1, k2, c0, hc0, k3⟩ := h2 en hen
      exact ⟨k1, k2, c0, List.mem_cons_of_mem _ hc0, k3⟩
    · rename_i hskip
      split
      · exact ⟨[], by simp, fun en h => by simp at h⟩
      · obtain ⟨new, h1, h2⟩ := ih
          { σ with seen := σ.seen.set (q.add c) SS, dist := σ.dist.set (q.add c) (l + 1),
                   pred := σ.pred.set (q.add c) Move.x,
                   Q := σ.Q ++ [⟨q.add c, l + 1, depth + 1⟩] }
        refine ⟨⟨q.add c, l + 1, depth + 1⟩ :: new, ?_, ?_⟩
        · rw [h1]
          simp
        · intro en hen
          rcases List.mem_cons.mp hen with h0 | h0
          · rw [h0]
            refine ⟨rfl, rfl, c, List.mem_cons_self _ _, rfl, ?_⟩
            simp only [Bool.or_eq_true, decide_eq_true_eq, not_or, not_not] at hskip
            exact hskip.2
          · obtain ⟨k1, k2, c0, hc0, k3⟩ := h2 en h0
            exact ⟨k1, k2, c0, List.mem_cons_of_mem _ hc0, k3⟩

theorem freshLoop_pushes (e : Env) (s : State) (i t : Nat) (SS : Int) (a : Arm) (pt q : Point)
    (l depth : Int) :
    ∀ (cs : List Move) (σ σ1 : Search), freshLoop e s i t SS a pt q l depth cs σ = some σ1 →
      ∃ new, σ1.Q = σ.Q ++ new ∧
        ∀ en ∈ new, en.depth = depth ∧ ∃ c ∈ cs, en.q = q.add c ∧ a.how en.q = Move.x := by
  intro cs
  induction cs with
  | nil =>
    intro σ σ1 h
    simp only [freshLoop, Option.some.injEq] at h
    rw [← h]
    exact ⟨[], by simp, fun en h => by simp at h⟩
  | cons c cs ih =>
    intro σ σ1 h
    have lift : ∀ (σ0 : Search) (new : List QEl),
        (∀ en ∈ new, en.depth = depth ∧ ∃ c0 ∈ cs, en.q = q.add c0 ∧ a.how en.q = Move.x) →
        ∀ en ∈ new, en.depth = depth ∧ ∃ c0 ∈ c :: cs, en.q = q.add c0 ∧ a.how en.q = Move.x := by
      intro _ new h2 en hen
      obtain ⟨k1, c0, hc0, k3⟩ := h2 en hen
      exact ⟨k1, c0, List.mem_cons_of_mem _ hc0, k3⟩
    unfold freshLoop at h
    simp only at h
    split at h
    · obtain ⟨new, h1, h2⟩ := ih σ σ1 h
      exact ⟨new, h1, lift σ new h2⟩
    · rename_i hskip
      split at h
      · simp at h
      · obtain ⟨new, h1, h2⟩ := ih σ σ1 h
        exact ⟨new, h1, lift σ new h2⟩
      · split at h
        · obtain ⟨new, h1, h2⟩ := ih σ σ1 h
          exact ⟨new, h1, lift σ new h2⟩
        · split at h
          · simp only [Option.some.injEq] at h
            rw [← h]
            exact ⟨[], by simp, fun en h => by simp at h⟩
          · rename_i l1 _ _ _
            obtain ⟨new, h1, h2⟩ := ih _ σ1 h
            refine ⟨⟨q.add c, l1 + 1, depth⟩ :: new, ?_, ?_⟩
            · rw [h1]
              simp
            · intro en hen
              rcases List.mem_cons.mp hen with h0 | h0
              · rw [h0]
                refine ⟨rfl, c, List.mem_cons_self _ _, rfl, ?_⟩
                simp only [Bool.or_eq_true, decide_eq_true_eq, not_or, not_not] at hskip
                exact hskip.2
              · exact lift σ new h2 en h0

/-- C21: the entry `top` that `Q.top(); Q.pop()` hands to the search is an
entry of the queue with the smallest arrival time, and among the entries with
that arrival time it is one with the greatest depth. In its expansion every
entry added by a step back along the arm's own chain has depth `top.depth + 1`
(and arrival time `top.l + 1`), and every entry added by a step into a fresh
cell has depth `top.depth`. -/
theorem queue_pops_least_time_then_greatest_depth (tie : Nat) (Q : List QEl) (top : QEl)
    (Q1 : List QEl) (h : popQ tie Q = some (top, Q1)) :
    top ∈ Q ∧
      (∀ en ∈ Q, top.l ≤ en.l ∧ (en.l = top.l → en.depth ≤ top.depth)) ∧
      (∀ (e : Env) (SS : Int) (a : Arm) (pt : Point) (cs : List Move) (σ : Search), ∃ new,
        (ownLoop e SS a pt top.q top.l top.depth cs σ).Q = σ.Q ++ new ∧
        ∀ en ∈ new, en.l = top.l + 1 ∧ en.depth = top.depth + 1 ∧
          ∃ c ∈ cs, en.q = top.q.add c ∧ a.how en.q = c) ∧
      (∀ (e : Env) (s : State) (i t : Nat) (SS : Int) (a : Arm) (pt : Point) (cs : List Move)
          (σ σ1 : Search),
        freshLoop e s i t SS a pt top.q top.l top.depth cs σ = some σ1 →
        ∃ new, σ1.Q = σ.Q ++ new ∧
          ∀ en ∈ new, en.depth = top.depth ∧
            ∃ c ∈ cs, en.q = top.q.add c ∧ a.how en.q = Move.x) := by
  obtain ⟨k, hk, h1, _, htop⟩ := popQ_spec tie Q top Q1 h
  refine ⟨(popQ_mem tie Q top Q1 h).1, ?_, ?_, ?_⟩
  · intro en hen
    have hc := (isTop_iff Q top).mp htop en hen
    unfold comp at hc
    simp only [Bool.or_eq_false_iff, decide_eq_false_iff_not, Bool.and_eq_false_iff] at hc
    obtain ⟨c1, c2⟩ := hc
    refine ⟨by omega, ?_⟩
    intro heq
    rcases c2 with c2 | c2
    · exact absurd heq.symm c2
    · omega
  · intro e SS a pt cs σ
    exact ownLoop_pushes e SS a pt top.q top.l top.depth cs σ
  · intro e s i t SS a pt cs σ σ1 hf
    exact freshLoop_pushes e s i t SS a pt top.q top.l top.depth cs σ σ1 hf

theorem queue_pops_least_time_then_greatest_depth_witness :
    popQ 0 [⟨⟨2, 0⟩, 3, 0⟩, ⟨⟨0, 0⟩, 2, 1⟩, ⟨⟨1, 1⟩, 2, 2⟩, ⟨⟨2, 1⟩, 2, 0⟩]
        = some (⟨⟨1, 1⟩, 2, 2⟩, [⟨⟨2, 0⟩, 3, 0⟩, ⟨⟨0, 0⟩, 2, 1⟩, ⟨⟨2, 1⟩, 2, 0⟩]) ∧
      ((⟨⟨1, 1⟩, 2, 2⟩ : QEl) ∈
          ([⟨⟨2, 0⟩, 3, 0⟩, ⟨⟨0, 0⟩, 2, 1⟩, ⟨⟨1, 1⟩, 2, 2⟩, ⟨⟨2, 1⟩, 2, 0⟩] : List QEl) ∧
        (∀ en ∈ ([⟨⟨2, 0⟩, 3, 0⟩, ⟨⟨0, 0⟩, 2, 1⟩, ⟨⟨1, 1⟩, 2, 2⟩, ⟨⟨2, 1⟩, 2, 0⟩] : List QEl),
          (⟨⟨1, 1⟩, 2, 2⟩ : QEl).l ≤ en.l ∧
            (en.l = (⟨⟨1, 1⟩, 2, 2⟩ : QEl).l → en.depth ≤ (⟨⟨1, 1⟩, 2, 2⟩ : QEl).depth)) ∧
        (∀ (e : Env) (SS : Int) (a : Arm) (pt : Point) (cs : List Move) (σ : Search), ∃ new,
          (ownLoop e SS a pt (⟨⟨1, 1⟩, 2, 2⟩ : QEl).q (⟨⟨1, 1⟩, 2, 2⟩ : QEl).l
              (⟨⟨1, 1⟩, 2, 2⟩ : QEl).depth cs σ).Q = σ.Q ++ new ∧
          ∀ en ∈ new, en.l = (⟨⟨1, 1⟩, 2, 2⟩ : QEl).l + 1 ∧
            en.depth = (⟨⟨1, 1⟩, 2, 2⟩ : QEl).depth + 1 ∧
            ∃ c ∈ cs, en.q = (⟨⟨1, 1⟩, 2, 2⟩ : QEl).q.add c ∧ a.how en.q = c) ∧
        (∀ (e : Env) (s : State) (i t : Nat) (SS : Int) (a : Arm) (pt : Point) (cs : List Move)
            (σ σ1 : Search),
          freshLoop e s i t SS a pt (⟨⟨1, 1⟩, 2, 2⟩ : QEl).q (⟨⟨1, 1⟩, 2, 2⟩ : QEl).l
              (⟨⟨1, 1⟩, 2, 2⟩ : QEl).depth cs σ = some σ1 →
          ∃ new, σ1.Q = σ.Q ++ new ∧
            ∀ en ∈ new, en.depth = (⟨⟨1, 1⟩, 2, 2⟩ : QEl).depth ∧
              ∃ c ∈ cs, en.q = (⟨⟨1, 1⟩, 2, 2⟩ : QEl).q.add c ∧ a.how en.q = Move.x)) :=
  ⟨by decide, queue_pops_least_time_then_greatest_depth 0
    [⟨⟨2, 0⟩, 3, 0⟩, ⟨⟨0, 0⟩, 2, 1⟩, ⟨⟨1, 1⟩, 2, 2⟩, ⟨⟨2, 1⟩, 2, 0⟩] ⟨⟨1, 1⟩, 2, 2⟩
    [⟨⟨2, 0⟩, 3, 0⟩, ⟨⟨0, 0⟩, 2, 1⟩, ⟨⟨2, 1⟩, 2, 0⟩] (by decide)⟩

/-- In the run of `tieEnv` the search for the second waypoint `(3,0)` starts
from the clone with the chain `(0,0)`, `(1,0)` and the entry `((1,0), 1, 0)`.
Its expansion adds `((0,0), 2, 1)`, one step back along the chain, and
`((2,0), 2, 0)`, one step into a fresh cell. Both have the arrival time 2, and
the next entry handed out is the one with depth 1, not the one with the
smallest depth, whichever of the entries on top the library picks. -/
theorem deeper_entry_popped_first :
    (tieArm.cur, tieArm.path) = ([⟨0, 0⟩, ⟨1, 0⟩], [Move.R]) ∧
      popQ (tieEnv.ch.tie tieFirst.2.clock) (searchStart tieArm ⟨3, 0⟩ tieFirst.2).Q
        = some (⟨⟨1, 0⟩, 1, 0⟩, []) ∧
      tieQueue = some [⟨⟨0, 0⟩, 2, 1⟩, ⟨⟨2, 0⟩, 2, 0⟩] ∧
      topIdxs [⟨⟨0, 0⟩, 2, 1⟩, ⟨⟨2, 0⟩, 2, 0⟩] = [0] ∧
      popQ (tieEnv.ch.tie (tieFirst.2.clock + 3)) [⟨⟨0, 0⟩, 2, 1⟩, ⟨⟨2, 0⟩, 2, 0⟩]
        = some (⟨⟨0, 0⟩, 2, 1⟩, [⟨⟨2, 0⟩, 2, 0⟩]) :=
  ⟨by decide, by decide, by decide, by decide, by decide⟩

/-- In the run of `gateEnv` from the mounting points `(3,0)`, `(6,0)`, arm 0
takes the first task, arm 1 finds nothing, arm 0 retracts from `(5,0)` and
`(4,0)` and leaves them reserved up to the times 2 and 3, and arm 1 then
searches for the second task. At `(5,0)`, at time 0, the anchor-distance test
passes and the figure of arm 1, `2 + 0`, does not exceed the figure of arm 0,
`1 + 4`, but the cell is refused, because the distance 2 exceeds the
distance 1. The second task stays unassigned and the score is 5. -/
theorem urgency_gate_refuses_smaller_figure :
    (stateAt gateEnv (startState gateEnv [⟨3, 0⟩, ⟨6, 0⟩] [0, 0] 0) 3).map
        (fun s => (s.ts, s.owner ⟨5, 0⟩, s.until_ ⟨5, 0⟩)) = some ([1], 0, 2) ∧
      (stateAt gateEnv (startState gateEnv [⟨3, 0⟩, ⟨6, 0⟩] [0, 0] 0) 3).map
        (fun s => s.arms.map (fun a => (a.cur, a.done)))
        = some [([⟨3, 0⟩], true), ([⟨6, 0⟩], false)] ∧
      (stateAt gateEnv (startState gateEnv [⟨3, 0⟩, ⟨6, 0⟩] [0, 0] 0) 3).map
        (fun s => s.arms.map (fun a => a.path))
        = some [[Move.R, Move.R, Move.L, Move.L], []] ∧
      Frac.lt (Frac.mul gateEnv.params.ownership_distance_factor
          (Frac.ofInt (distance ⟨5, 0⟩
            (((reached gateEnv [⟨3, 0⟩, ⟨6, 0⟩] [0, 0] 0 3).arm 0).cur.headD default))))
        (Frac.ofInt (distance ⟨5, 0⟩
          (((reached gateEnv [⟨3, 0⟩, ⟨6, 0⟩] [0, 0] 0 3).arm 1).cur.headD default))) = false ∧
      urgencyFigure gateEnv 1 ((reached gateEnv [⟨3, 0⟩, ⟨6, 0⟩] [0, 0] 0 3).arm 1) = 2 ∧
      urgencyFigure gateEnv 1 ((reached gateEnv [⟨3, 0⟩, ⟨6, 0⟩] [0, 0] 0 3).arm 0) = 5 ∧
      arrival gateEnv (reached gateEnv [⟨3, 0⟩, ⟨6, 0⟩] [0, 0] 0 3) 1 1 ⟨5, 0⟩ 0 = some none ∧
      (greedy_solver gateEnv [⟨3, 0⟩, ⟨6, 0⟩] [0, 0] 0).map
          (fun r => (r.score, r.arms.map (fun a => (a.path.length, a.z))))
        = some (5, [(4, [0]), (0, [])]) :=
  ⟨by decide, by decide, by decide, by decide, by decide, by decide, by decide, by decide⟩

theorem dir_congr (how how1 : Grid Move) : ∀ (l : List Point),
    (∀ c ∈ l.dropLast, how c = how1 c) → Dir how l → Dir how1 l := by
  intro l
  induction l with
  | nil => intro _ _; trivial
  | cons a l ih =>
    cases l with
    | nil => intro _ _; trivial
    | cons b rest =>
      intro h hd
      obtain ⟨h1, h2⟩ := hd
      refine ⟨?_, ih ?_ h2⟩
      · rw [← h a (by simp [List.dropLast])]
        exact h1
      · intro c hc
        exact h c (by
          rw [List.dropLast_cons_of_ne_nil (by simp)]
          exact List.mem_cons_of_mem _ hc)

theorem dir_dropLast (how : Grid Move) : ∀ (l : List Point), Dir how l → Dir how l.dropLast := by
  intro l
  induction l with
  | nil => intro _; trivial
  | cons a l ih =>
    cases l with
    | nil => intro _; trivial
    | cons b rest =>
      intro hd
      obtain ⟨h1, h2⟩ := hd
      have h3 := ih h2
      cases rest with
      | nil => trivial
      | cons c rest1 =>
        rw [List.dropLast_cons_of_ne_nil (by simp)]
        rw [List.dropLast_cons_of_ne_nil (by simp)] at h3 ⊢
        exact ⟨h1, h3⟩

theorem dir_concat (how : Grid Move) (p : Point) : ∀ (l : List Point), l ≠ [] → Dir how l →
    p = (back l).add (opp (how (back l))) → Dir how (l ++ [p]) := by
  intro l
  induction l with
  | nil => intro h _ _; exact absurd rfl h
  | cons a l ih =>
    cases l with
    | nil =>
      intro _ _ hp
      exact ⟨hp, trivial⟩
    | cons b rest =>
      intro _ hd hp
      obtain ⟨h1, h2⟩ := hd
      refine ⟨h1, ih (by simp) h2 ?_⟩
      have hb : back (a :: b :: rest) = back (b :: rest) := by
        simp [back, List.getLastD]
      rw [hb] at hp
      exact hp

/-- In a chain without repetition the cell that `how` points to from a cell
other than the last one is the next cell of the chain. -/
theorem dir_next (how : Grid Move) (p : Point) : ∀ (l : List Point), Dir how l → l.Nodup →
    p ∈ l.dropLast →
    p.add (opp (how p)) ∈ l ∧ l.indexOf (p.add (opp (how p))) = l.indexOf p + 1 := by
  intro l
  induction l with
  | nil => intro _ _ h; simp at h
  | cons a l ih =>
    cases l with
    | nil => intro _ _ h; simp at h
    | cons b rest =>
      intro hd hnd hp
      obtain ⟨h1, h2⟩ := hd
      have hnd1 : (b :: rest).Nodup := (List.nodup_cons.mp hnd).2
      have hab : a ∉ b :: rest := (List.nodup_cons.mp hnd).1
      rw [List.dropLast_cons_of_ne_nil (by simp)] at hp
      rcases List.mem_cons.mp hp with h0 | h0
      · subst h0
        rw [← h1]
        refine ⟨by simp, ?_⟩
        have hne : b ≠ p := fun h => hab (by rw [h]; simp)
        rw [List.indexOf_cons_self, List.indexOf_cons_ne _ hne.symm, List.indexOf_cons_self]
      · obtain ⟨k1, k2⟩ := ih h2 hnd1 h0
        have hpa : p ≠ a := fun h => hab (by rw [← h]; exact mem_of_mem_dropLast_cell _ _ h0)
        have hqa : p.add (opp (how p)) ≠ a := fun h => hab (by rw [← h]; exact k1)
        refine ⟨List.mem_cons_of_mem _ k1, ?_⟩
        rw [List.indexOf_cons_ne _ hqa.symm, List.indexOf_cons_ne _ hpa.symm, k2]

theorem indexOf_back (l : List Point) (hne : l ≠ []) (hnd : l.Nodup) :
    l.indexOf (back l) = l.length - 1 := by
  induction l using List.reverseRecOn with
  | nil => exact absurd rfl hne
  | append_singleton l a _ =>
    rw [back_append_singleton]
    have hnot : a ∉ l := by
      intro h
      rw [List.nodup_append] at hnd
      exact hnd.2.2 h (by simp)
    rw [List.indexOf_append_of_not_mem hnot]
    simp

theorem indexOf_dropLast (l : List Point) (p : Point) (h : p ∈ l.dropLast) :
    l.dropLast.indexOf p = l.indexOf p := by
  induction l using List.reverseRecOn with
  | nil => simp at h
  | append_singleton l a _ =>
    rw [List.dropLast_concat] at h ⊢
    rw [List.indexOf_append_of_mem h]

theorem ownTime_pop (a : Arm) (p : Point) (cp : List Move) (how : Grid Move) (c : Move)
    (h : p ∈ a.cur.dropLast) :
    ownTime { a with path := a.path ++ [c], cur := a.cur.dropLast, cp := cp, how := how } p
      = ownTime a p := by
  unfold ownTime
  show ((a.path ++ [c]).length : Int) + ((a.cur.dropLast.length : Int) - 1
      - (a.cur.dropLast.indexOf p : Int)) = _
  rw [indexOf_dropLast _ _ h]
  have hlen : 0 < a.cur.length := List.length_pos_of_mem (mem_of_mem_dropLast_cell _ _ h)
  simp only [List.length_append, List.length_singleton, List.length_dropLast]
  omega

theorem dir_pop (how : Grid Move) (l : List Point) (hnd : l.Nodup) (hd : Dir how l) :
    Dir (how.set (back l.dropLast) Move.x) l.dropLast := by
  apply dir_congr how _ _ _ (dir_dropLast how l hd)
  intro c hc
  have hne := nodup_dropLast_back _ c (hnd.sublist (List.dropLast_sublist _)) hc
  rw [set_other_cell _ _ _ _ hne]

/-- Folding the chain back to `p` takes one move for every cell behind `p`
and brings the tip to `p` at the time `ownTime a p`. -/
theorem unwind_time : ∀ (n : Nat) (p : Point) (a a1 : Arm), a.cur.Nodup → Dir a.how a.cur →
    p ∈ a.cur → unwind n p a = some a1 →
    back a1.cur = p ∧ (a1.path.length : Int) = ownTime a p ∧ Dir a1.how a1.cur ∧
      ∃ (k : Nat) (bm : List Move), k < a.cur.length ∧ bm.length = k ∧
        a1.cur = a.cur.take (a.cur.length - k) ∧ a1.path = a.path ++ bm := by
  intro n
  induction n with
  | zero => intro p a a1 _ _ _ h; simp [unwind] at h
  | succ n ih =>
    intro p a a1 hnd hd hp h
    have hne : a.cur ≠ [] := List.ne_nil_of_mem hp
    have hpos : 0 < a.cur.length := List.length_pos_of_mem hp
    unfold unwind at h
    split at h
    · rename_i hb
      simp only [Option.some.injEq] at h
      subst h
      refine ⟨hb, ?_, hd, 0, [], hpos, rfl, by simp, by simp⟩
      unfold ownTime
      rw [← hb, indexOf_back _ hne hnd]
      omega
    · rename_i hb
      have hpd : p ∈ a.cur.dropLast := by
        rcases mem_dropLast_or_back _ _ hp with h1 | h1
        · exact h1
        · exact absurd h1.symm hb
      obtain ⟨j1, j2, j3, k, bm, j4, j5, j6, j7⟩ := ih p _ a1
        (hnd.sublist (List.dropLast_sublist _)) (dir_pop a.how a.cur hnd hd) hpd h
      refine ⟨j1, ?_, j3, k + 1, opp (backMove a.cp) :: bm, ?_, by simp [j5], ?_, ?_⟩
      · rw [j2]
        exact ownTime_pop a p _ _ _ hpd
      · have : (a.cur.dropLast).length = a.cur.length - 1 := List.length_dropLast _
        have j4' : k < a.cur.dropLast.length := j4
        omega
      · rw [j6]
        show a.cur.dropLast.take (a.cur.dropLast.length - k) = _
        rw [List.dropLast_eq_take, List.take_take, List.length_take]
        congr 1
        omega
      · rw [j7]
        simp

theorem retractLoop_dir (L : Int) : ∀ (n : Nat) (a : Arm) (u : Grid Int), a.cur.Nodup →
    Dir a.how a.cur → Dir (retractLoop L n a u).1.how (retractLoop L n a u).1.cur := by
  intro n
  induction n with
  | zero => intro a u _ h; exact h
  | succ n ih =>
    intro a u hnd h
    unfold retractLoop
    split
    · exact ih _ _ (hnd.sublist (List.dropLast_sublist _)) (dir_pop a.how a.cur hnd h)
    · exact h

theorem appendMoves_cur (dist : Grid Int) : ∀ (cs : List Move) (a : Arm),
    (appendMoves dist cs a).cur = a.cur ++ cells (back a.cur) cs := by
  intro cs
  induction cs with
  | nil => intro a; simp [appendMoves, cells]
  | cons c cs ih =>
    intro a
    unfold appendMoves
    simp only
    rw [ih]
    show (a.cur ++ [(back a.cur).add c]) ++ cells (back (a.cur ++ [(back a.cur).add c])) cs = _
    rw [back_append_singleton, List.append_assoc]
    rfl

theorem appendMoves_dir (dist : Grid Int) : ∀ (cs : List Move) (a : Arm), a.cur ≠ [] →
    (a.cur ++ cells (back a.cur) cs).Nodup → Dir a.how a.cur →
    Dir (appendMoves dist cs a).how (appendMoves dist cs a).cur := by
  intro cs
  induction cs with
  | nil => intro a _ _ h; exact h
  | cons c cs ih =>
    intro a hne hnd hd
    unfold appendMoves
    simp only
    apply ih
    · simp
    · show ((a.cur ++ [(back a.cur).add c]) ++
        cells (back (a.cur ++ [(back a.cur).add c])) cs).Nodup
      rw [back_append_singleton, List.append_assoc]
      exact hnd
    · show Dir (a.how.set (back a.cur) (opp c)) (a.cur ++ [(back a.cur).add c])
      have hnd0 : a.cur.Nodup := (List.nodup_append.mp hnd).1
      apply dir_concat _ _ _ hne
      · apply dir_congr a.how _ _ _ hd
        intro d hdm
        rw [set_other_cell _ _ _ _ (nodup_dropLast_back _ d hnd0 hdm)]
      · rw [set_same_cell, opp_opp]

/-- The parts of a successful splice: the search, the walk back from the
target, the folding of the chain and the laying of the new segment. -/
theorem waypoint_parts (e : Env) (s : State) (i t : Nat) (a : Arm) (pt : Point) (sc : Scratch)
    (a2 : Arm) (sc2 : Scratch) (h : waypoint e s i t a pt sc = some (some a2, sc2)) :
    ∃ (σ : Search) (add : List Move) (p : Point) (a0 : Arm),
      searchLoop e s i t (sc.SS + 1) a pt e.fuel (searchStart a pt sc) = some σ ∧
      σ.found = true ∧ predWalk σ.pred e.fuel pt [] = some (add, p) ∧
      unwind a.cur.length p a = some a0 ∧
      a2 = appendMoves σ.dist add.reverse { a0 with cp := a0.cp ++ add.reverse } ∧
      sc2 = ⟨σ.seen, σ.dist, σ.pred, sc.SS + 1, σ.clock⟩ := by
  rw [waypoint_start] at h
  split at h
  · simp at h
  · rename_i σ hσ
    split at h
    · simp at h
    · rename_i hfound
      split at h
      · simp at h
      · rename_i add p hw
        split at h
        · simp at h
        · rename_i a0 hu
          split at h
          · simp at h
          · simp only [Option.some.injEq, Prod.mk.injEq] at h
            exact ⟨σ, add, p, a0, hσ, by simpa using hfound, hw, hu, h.1.symm, h.2.symm⟩

theorem unwind_mem (a a0 : Arm) (p : Point) (hc : ChainOK a) (ht : Tidy a)
    (hu : unwind a.cur.length p a = some a0) : p ∈ a.cur := by
  obtain ⟨u1, u2, _⟩ := unwind_ok _ _ _ _ (le_refl _) hc hu
  obtain ⟨_, v2, _⟩ := unwind_tidy _ _ _ _ (le_refl _) hc ht hu
  rw [← u2]
  exact v2 _ (back_mem _ u1.1.ne_nil)

theorem waypoint_clone (e : Env) (s : State) (i t : Nat) (a : Arm) (pt : Point) (sc : Scratch)
    (a2 : Arm) (sc2 : Scratch) (h : CloneOK a) (hs : Stamped sc)
    (hw : waypoint e s i t a pt sc = some (some a2, sc2)) : CloneOK a2 := by
  have hc2 := (waypoint_ok e s i t a pt sc a2 sc2 h.chain hw).1
  have ht2 := (waypoint_held e s i t a pt sc a2 sc2 h.chain h.tidy hs hw).1
  refine ⟨hc2, ht2, waypoint_exact e s i t a pt sc a2 sc2 h.chain h.exact hw, ?_⟩
  obtain ⟨σ, add, p, a0, _, _, _, hu, ha2, _⟩ := waypoint_parts e s i t a pt sc a2 sc2 hw
  obtain ⟨u1, _, _⟩ := unwind_ok _ _ _ _ (le_refl _) h.chain hu
  obtain ⟨_, _, d0, _⟩ := unwind_time _ _ _ _ h.tidy.1 h.dir (unwind_mem a a0 p h.chain h.tidy hu) hu
  have hnd := ht2.1
  rw [ha2, appendMoves_cur] at hnd
  rw [ha2]
  exact appendMoves_dir σ.dist add.reverse { a0 with cp := a0.cp ++ add.reverse } u1.1.ne_nil
    hnd d0

theorem waypoints_clone (e : Env) (s : State) (i t : Nat) :
    ∀ (wps : List Point) (a : Arm) (sc : Scratch) (a2 : Arm) (sc2 : Scratch), CloneOK a →
      Stamped sc → waypoints e s i t wps a sc = some (some a2, sc2) →
      CloneOK a2 ∧ Stamped sc2 := by
  intro wps
  induction wps with
  | nil =>
    intro a sc a2 sc2 h hs hw
    simp only [waypoints, Option.some.injEq, Prod.mk.injEq] at hw
    rw [← hw.1, ← hw.2]; exact ⟨h, hs⟩
  | cons pt pts ih =>
    intro a sc a2 sc2 h hs hw
    unfold waypoints at hw
    split at hw
    · simp at hw
    · simp at hw
    · rename_i a0 sc0 hw0
      exact ih a0 sc0 a2 sc2 (waypoint_clone e s i t a pt sc a0 sc0 h hs hw0)
        (waypoint_stamped e s i t a pt sc _ sc0 hs hw0) hw

theorem arm_clone (e : Env) (s : State) (h : LiveInv e s) (hd : DirInv s) (i : Nat)
    (hi : i < e.inst.R) : CloneOK (s.arm i) := by
  have hlen : i < s.arms.length := by rw [h.run.arms_len]; exact hi
  exact ⟨(h.run.arm _ (arm_mem s i hlen)).chain, h.held.tidy i _ (arm_get s i hlen),
    h.exact _ (arm_mem s i hlen), hd _ (arm_mem s i hlen)⟩

theorem mainStep_dir (e : Env) (s s1 : State) (h : LiveInv e s) (hd : DirInv s)
    (hs : mainStep e s = some (some s1)) : DirInv s1 := by
  obtain ⟨i, b, sc, hi, hcand, hcase⟩ := mainStep_shape e s s1 hs
  have hlen : i < s.arms.length := by rw [h.run.arms_len]; exact hi
  have hcl := arm_clone e s h hd i hi
  have hst0 : Stamped ⟨s.seen, s.dist, s.pred, s.SS, s.clock⟩ := h.held.stamp
  obtain ⟨hpk, _⟩ := candidates_held e s i s.ts _ _ _ _ hst0
    (fun t0 h0 => by simp at h0) hcand
  have hall : ∀ y ∈ s.arms.map chainView, Dir y.2.1 y.1 := by
    intro y hy
    obtain ⟨a, ha, hay⟩ := List.mem_map.mp hy
    rw [← hay]; exact hd a ha
  rcases hcase with ⟨_, hs1⟩ | ⟨t, hb, hs1⟩
  · rw [hs1]
    obtain ⟨v1, _, _, _, _⟩ := retractStep_view chainView (fun _ _ => rfl) e
      { s with seen := sc.seen, dist := sc.dist, pred := sc.pred, SS := sc.SS, clock := sc.clock }
      i hlen
    intro a ha
    have hm := List.mem_map_of_mem chainView ha
    rw [v1] at hm
    refine mem_map_set
      (fun (y : List Point × Grid Move × List Move) => Dir y.2.1 y.1)
      (s.arms.map chainView) i _ hall ?_ _ hm
    exact retractLoop_dir _ _ _ _ hcl.tidy.1 hcl.dir
  · rw [hs1]
    have v1 := commitStep_map chainView (fun _ _ => rfl) e
      { s with seen := sc.seen, dist := sc.dist, pred := sc.pred, SS := sc.SS, clock := sc.clock }
      i b.bestA t
    obtain ⟨sc0, sc1, hst, hwp⟩ := hpk t hb
    have hbest := (waypoints_clone e s i t _ _ _ _ _ hcl hst hwp).1
    intro a ha
    have hm := List.mem_map_of_mem chainView ha
    rw [v1] at hm
    refine mem_map_set
      (fun (y : List Point × Grid Move × List Move) => Dir y.2.1 y.1)
      (s.arms.map chainView) i _ hall ?_ _ hm
    exact hbest.dir

theorem startState_dir (e : Env) (ms : List Point) (Len : List Int) (clock : Nat) :
    DirInv (startState e ms Len clock) := by
  have hp := placeMounts_arms (fun a => Dir a.how a.cur) e.inst.R e.inst.L
    (fun x y k => trivial) (orderMounts e ms (clock + 1)) 0 []
    (fun _ => -1) (fun _ => -1) (by simp) (by simp)
  exact hp.1

theorem stateAt_dir (e : Env) (s0 : State) (h0 : LiveInv e s0) (d0 : DirInv s0) :
    ∀ (n : Nat) (s : State), stateAt e s0 n = some s → DirInv s := by
  intro n
  induction n with
  | zero =>
    intro s hs
    simp only [stateAt, Option.some.injEq] at hs
    rw [← hs]; exact d0
  | succ n ih =>
    intro s hs
    cases hn : stateAt e s0 n with
    | none => simp [stateAt, hn] at hs
    | some s' =>
      have hm := stateAt_succ e s0 s' s n hn hs
      exact mainStep_dir e s' s (stateAt_live e s0 h0 n s' hn) (ih s' hn) hm

theorem arrival_cases (e : Env) (s : State) (i t : Nat) (p : Point) (l l1 : Int)
    (h : arrival e s i t p l = some (some l1)) :
    l1 = l ∨ (s.owner p ≠ (i : Int) ∧ s.until_ p > l ∧ l1 = s.until_ p) := by
  unfold arrival at h
  simp only at h
  split at h
  · rename_i hc
    split at h
    · simp at h
    · split at h
      · simp at h
      · split at h
        · simp at h
        · split at h
          · simp at h
          · simp only [Option.some.injEq] at h
            exact Or.inr ⟨hc.1, hc.2, h.symm⟩
  · simp only [Option.some.injEq] at h
    exact Or.inl h.symm

theorem popQ_least (tie : Nat) (Q : List QEl) (top : QEl) (Q1 : List QEl)
    (h : popQ tie Q = some (top, Q1)) : ∀ en ∈ Q, top.l ≤ en.l := by
  obtain ⟨_, _, _, _, htop⟩ := popQ_spec tie Q top Q1 h
  intro en hen
  have hc := (isTop_iff Q top).mp htop en hen
  unfold comp at hc
  simp only [Bool.or_eq_false_iff, decide_eq_false_iff_not] at hc
  omega

theorem tinv_own {e : Env} {s : State} {i : Nat} {a : Arm} {SS : Int} {σ : Search} {m : Int}
    (h : SInv e s i a SS σ) (ht : TInv s i a SS σ m) (p : Point) (l : Int) (Q1 : List QEl)
    (f : Bool) (hp : p ∈ a.cur) (htime : l + 1 = ownTime a p) (hm : m ≤ l + 1)
    (hQ : ∀ en ∈ Q1, en ∈ σ.Q ∨ (en.q = p ∧ en.l = l + 1)) :
    TInv s i a SS
      { σ with seen := σ.seen.set p SS, dist := σ.dist.set p (l + 1),
               pred := σ.pred.set p Move.x, Q := Q1, found := f } m := by
  have hdist : ∀ r, σ.seen r = SS → σ.dist.set p (l + 1) r = σ.dist r := by
    intro r hr
    by_cases hrp : r = p
    · rw [hrp, set_same_cell]
      rw [hrp] at hr
      rw [(ht.own p hp hr).2, htime]
    · rw [set_other_cell _ _ _ _ hrp]
  refine ⟨?_, ?_, ?_, ?_⟩
  · intro r hr hseen
    show σ.pred.set p Move.x r = Move.x ∧ σ.dist.set p (l + 1) r = ownTime a r
    by_cases hrp : r = p
    · rw [hrp, set_same_cell, set_same_cell]
      exact ⟨rfl, htime⟩
    · have h1 : σ.seen.set p SS r = SS := hseen
      rw [set_other_cell _ _ _ _ hrp] at h1
      rw [set_other_cell _ _ _ _ hrp, set_other_cell _ _ _ _ hrp]
      exact ht.own r hr h1
  · intro en hen hin
    rcases hQ en hen with h1 | h1
    · exact ht.ownq en h1 hin
    · rw [h1.2, h1.1]; exact htime
  · intro en hen
    rcases hQ en hen with h1 | h1
    · exact ht.floor en h1
    · rw [h1.2]; exact hm
  · intro r hseen hpred
    have hrp : r ≠ p := by
      intro h0
      apply hpred
      show σ.pred.set p Move.x r = Move.x
      rw [h0, set_same_cell]
    have h1 : σ.seen.set p SS r = SS := hseen
    have h2 : σ.pred.set p Move.x r ≠ Move.x := hpred
    rw [set_other_cell _ _ _ _ hrp] at h1 h2
    show σ.dist.set p (l + 1) (r.add (opp (σ.pred.set p Move.x r))) ≤ m ∧
      (σ.dist.set p (l + 1) r = σ.dist.set p (l + 1) (r.add (opp (σ.pred.set p Move.x r))) + 1 ∨
        (s.owner r ≠ (i : Int) ∧
          σ.dist.set p (l + 1) (r.add (opp (σ.pred.set p Move.x r))) < s.until_ r ∧
          σ.dist.set p (l + 1) r = s.until_ r + 1))
    rw [set_other_cell _ _ _ _ hrp, set_other_cell σ.dist _ _ _ hrp,
      hdist _ (h.link r h1 h2).2.2.1]
    exact ht.link r h1 h2

theorem tinv_fresh {e : Env} {s : State} {i : Nat} {a : Arm} {SS : Int} {σ : Search}
    (h : SInv e s i a SS σ) (q : Point) (c : Move) (l l1 : Int) (ht : TInv s i a SS σ l)
    (Q1 : List QEl) (f : Bool) (hc : c ≠ Move.x ∧ c ≠ Move.W) (hout : q.add c ∉ a.cur)
    (hq : σ.seen q = SS ∧ σ.dist q = l) (hl1 : l ≤ l1)
    (harr : l1 = l ∨ (s.owner (q.add c) ≠ (i : Int) ∧ s.until_ (q.add c) > l ∧
      l1 = s.until_ (q.add c)))
    (hupd : ¬ (σ.seen (q.add c) = SS ∧ l1 + 1 ≥ σ.dist (q.add c)))
    (hQ : ∀ en ∈ Q1, en ∈ σ.Q ∨ (en.q = q.add c ∧ en.l = l1 + 1)) :
    TInv s i a SS
      { σ with seen := σ.seen.set (q.add c) SS, dist := σ.dist.set (q.add c) (l1 + 1),
               pred := σ.pred.set (q.add c) c, Q := Q1, found := f } l := by
  have hpq : q ≠ q.add c := fun hcq => add_ne_self q c hc hcq.symm
  refine ⟨?_, ?_, ?_, ?_⟩
  · intro r hr hseen
    have hrp : r ≠ q.add c := fun h0 => hout (by rw [← h0]; exact hr)
    have h1 : σ.seen.set (q.add c) SS r = SS := hseen
    rw [set_other_cell _ _ _ _ hrp] at h1
    show σ.pred.set (q.add c) c r = Move.x ∧ σ.dist.set (q.add c) (l1 + 1) r = ownTime a r
    rw [set_other_cell _ _ _ _ hrp, set_other_cell _ _ _ _ hrp]
    exact ht.own r hr h1
  · intro en hen hin
    rcases hQ en hen with h1 | h1
    · exact ht.ownq en h1 hin
    · rw [h1.1] at hin
      exact absurd hin hout
  · intro en hen
    rcases hQ en hen with h1 | h1
    · exact ht.floor en h1
    · rw [h1.2]; omega
  · intro r hseen hpred
    show σ.dist.set (q.add c) (l1 + 1) (r.add (opp (σ.pred.set (q.add c) c r))) ≤ l ∧
      (σ.dist.set (q.add c) (l1 + 1) r
          = σ.dist.set (q.add c) (l1 + 1) (r.add (opp (σ.pred.set (q.add c) c r))) + 1 ∨
        (s.owner r ≠ (i : Int) ∧
          σ.dist.set (q.add c) (l1 + 1) (r.add (opp (σ.pred.set (q.add c) c r))) < s.until_ r ∧
          σ.dist.set (q.add c) (l1 + 1) r = s.until_ r + 1))
    by_cases hrp : r = q.add c
    · rw [hrp, set_same_cell, set_same_cell, add_add_opp, set_other_cell _ _ _ _ hpq, hq.2]
      refine ⟨le_refl _, ?_⟩
      rcases harr with h1 | h1
      · left; rw [h1]
      · right
        exact ⟨h1.1, h1.2.1, by rw [h1.2.2]⟩
    · have h1 : σ.seen.set (q.add c) SS r = SS := hseen
      have h2 : σ.pred.set (q.add c) c r ≠ Move.x := hpred
      rw [set_other_cell _ _ _ _ hrp] at h1 h2
      obtain ⟨k1, k2⟩ := ht.link r h1 h2
      have hne : r.add (opp (σ.pred r)) ≠ q.add c := by
        intro h0
        apply hupd
        rw [← h0]
        exact ⟨(h.link r h1 h2).2.2.1, by omega⟩
      rw [set_other_cell _ _ _ _ hrp, set_other_cell σ.dist _ _ _ hrp,
        set_other_cell _ _ _ _ hne]
      exact ⟨k1, k2⟩

theorem ownLoop_tinv (e : Env) (s : State) (i : Nat) (SS : Int) (a : Arm) (pt q : Point)
    (l depth : Int) (hcl : CloneOK a) (hl : (a.path.length : Int) ≤ l + 1) :
    ∀ (cs : List Move) (σ : Search), (∀ c ∈ cs, c ≠ Move.x ∧ c ≠ Move.W) →
      SInv e s i a SS σ → (σ.seen q = SS ∧ σ.dist q = l) → TInv s i a SS σ l →
      TInv s i a SS (ownLoop e SS a pt q l depth cs σ) l ∧
        (ownLoop e SS a pt q l depth cs σ).seen q = SS ∧
        (ownLoop e SS a pt q l depth cs σ).dist q = l := by
  intro cs
  induction cs with
  | nil => intro σ _ _ hq ht; exact ⟨ht, hq.1, hq.2⟩
  | cons c cs ih =>
    intro σ hcs h hq ht
    have hc := hcs c (List.mem_cons_self _ _)
    have hcs1 : ∀ c ∈ cs, c ≠ Move.x ∧ c ≠ Move.W := fun d hd => hcs d (List.mem_cons_of_mem _ hd)
    unfold ownLoop
    simp only
    split
    · exact ih σ hcs1 h hq ht
    · rename_i hcond
      simp only [Bool.or_eq_true, decide_eq_true_eq, not_or, not_not] at hcond
      have hhow : a.how (q.add c) ≠ Move.x := by rw [hcond.2]; exact hc.1
      have hpq : q ≠ q.add c := fun hcq => add_ne_self q c hc hcq.symm
      have hpd : q.add c ∈ a.cur.dropLast := hcl.exact _ hhow
      have hp : q.add c ∈ a.cur := mem_of_mem_dropLast_cell _ _ hpd
      obtain ⟨n1, n2⟩ := dir_next a.how (q.add c) a.cur hcl.dir hcl.tidy.1 hpd
      rw [hcond.2, add_add_opp] at n1 n2
      have hql : l = ownTime a q := by rw [← hq.2]; exact (ht.own q n1 hq.1).2
      have htime : l + 1 = ownTime a (q.add c) := by
        have hlt := List.indexOf_lt_length.mpr n1
        unfold ownTime at hql ⊢
        omega
      have hq1 : ∀ (v : Int), σ.seen.set (q.add c) SS q = SS ∧
          σ.dist.set (q.add c) v q = l := by
        intro v
        rw [set_other_cell _ _ _ _ hpq, set_other_cell _ _ _ _ hpq]
        exact hq
      split
      · exact ⟨tinv_own h ht _ l _ true hp htime (by omega) (fun en hen => Or.inl hen),
          (hq1 (l + 1)).1, (hq1 (l + 1)).2⟩
      · have hQ : ∀ en ∈ σ.Q ++ [⟨q.add c, l + 1, depth + 1⟩],
            en ∈ σ.Q ∨ (en.q = q.add c ∧ en.l = l + 1) := by
          intro en hen
          rcases List.mem_append.mp hen with h1 | h1
          · exact Or.inl h1
          · rw [List.mem_singleton] at h1
            right; rw [h1]; exact ⟨rfl, rfl⟩
        exact ih _ hcs1 (sinv_own h _ l _ σ.found hhow hl hQ) (hq1 (l + 1))
          (tinv_own h ht _ l _ σ.found hp htime (by omega) hQ)

theorem freshLoop_tinv (e : Env) (s : State) (i t : Nat) (SS : Int) (a : Arm) (pt q : Point)
    (l depth : Int) (hcl : CloneOK a) (hl : (a.path.length : Int) ≤ l) (hL : l < e.inst.L) :
    ∀ (cs : List Move) (σ σ1 : Search), (∀ c ∈ cs, c ≠ Move.x ∧ c ≠ Move.W) →
      SInv e s i a SS σ → (σ.seen q = SS ∧ σ.dist q = l) → TInv s i a SS σ l →
      freshLoop e s i t SS a pt q l depth cs σ = some σ1 → TInv s i a SS σ1 l := by
  intro cs
  induction cs with
  | nil =>
    intro σ σ1 _ _ _ ht hr
    simp only [freshLoop, Option.some.injEq] at hr
    rw [← hr]; exact ht
  | cons c cs ih =>
    intro σ σ1 hcs h hq ht hr
    have hc := hcs c (List.mem_cons_self _ _)
    have hcs1 : ∀ c ∈ cs, c ≠ Move.x ∧ c ≠ Move.W := fun d hd => hcs d (List.mem_cons_of_mem _ hd)
    unfold freshLoop at hr
    simp only at hr
    split at hr
    · exact ih σ σ1 hcs1 h hq ht hr
    · rename_i hcond
      simp only [Bool.or_eq_true, decide_eq_true_eq, not_or, not_not] at hcond
      have hhow : a.how (q.add c) = Move.x := hcond.2
      have hpq : q ≠ q.add c := fun hcq => add_ne_self q c hc hcq.symm
      split at hr
      · simp at hr
      · exact ih σ σ1 hcs1 h hq ht hr
      · rename_i l1 harr
        obtain ⟨hent, hl1⟩ := arrival_some e s i t _ l l1 hL harr
        have hcases := arrival_cases e s i t _ l l1 harr
        split at hr
        · exact ih σ σ1 hcs1 h hq ht hr
        · rename_i hupd
          have hout : q.add c ∉ a.cur := by
            intro hin
            rcases mem_dropLast_or_back _ _ hin with h1 | h1
            · exact hcl.tidy.2 _ h1 hhow
            · obtain ⟨t1, _, t3⟩ := h.tip (by rw [← h1]; exact hhow)
              apply hupd
              rw [h1]
              exact ⟨t1, by omega⟩
          have hq0 : σ.seen q = SS ∧ (σ.pred q ≠ Move.x → σ.dist q = l) := ⟨hq.1, fun _ => hq.2⟩
          have hq1 : σ.seen.set (q.add c) SS q = SS ∧
              σ.dist.set (q.add c) (l1 + 1) q = l := by
            rw [set_other_cell _ _ _ _ hpq, set_other_cell _ _ _ _ hpq]
            exact hq
          split at hr
          · simp only [Option.some.injEq] at hr
            rw [← hr]
            exact tinv_fresh h q c l l1 ht _ true hc hout hq hl1 hcases hupd
              (fun en hen => Or.inl hen)
          · have hQ : ∀ en ∈ σ.Q ++ [⟨q.add c, l1 + 1, depth⟩],
                en ∈ σ.Q ∨ (en.q = q.add c ∧ en.l = l1 + 1) := by
              intro en hen
              rcases List.mem_append.mp hen with h1 | h1
              · exact Or.inl h1
              · rw [List.mem_singleton] at h1
                right; rw [h1]; exact ⟨rfl, rfl⟩
            exact ih _ σ1 hcs1
              (sinv_fresh h q c l (l1 + 1) _ σ.found hc hhow hent (by omega) hl hq0 hupd hQ)
              hq1 (tinv_fresh h q c l l1 ht _ σ.found hc hout hq hl1 hcases hupd hQ) hr

theorem afterOwn_tinv (e : Env) (s : State) (i : Nat) (SS : Int) (a : Arm) (pt : Point)
    (top : QEl) (σ0 : Search) (hcl : CloneOK a) (h0 : SInv e s i a SS σ0)
    (hq : σ0.seen top.q = SS ∧ σ0.dist top.q = top.l)
    (hstart : (a.path.length : Int) ≤ top.l) (ht : TInv s i a SS σ0 top.l) :
    TInv s i a SS (afterOwn e SS a pt top σ0) top.l ∧
      (afterOwn e SS a pt top σ0).seen top.q = SS ∧
      (afterOwn e SS a pt top σ0).dist top.q = top.l := by
  obtain ⟨m1, m2, m3, m4, m5, m6⟩ := maybeShuffle_same e σ0
  have h1 : SInv e s i a SS (maybeShuffle e σ0) :=
    h0.congr (by rw [m1]; exact fun _ hc => hc) (fun c hc => m6.subset hc) m3 m4 m5
  have t1 : TInv s i a SS (maybeShuffle e σ0) top.l := by
    refine ⟨?_, ?_, ?_, ?_⟩
    · rw [m3, m4, m5]; exact ht.own
    · rw [m1]; exact ht.ownq
    · rw [m1]; exact ht.floor
    · rw [m3, m4, m5]; exact ht.link
  have q1 : (maybeShuffle e σ0).seen top.q = SS ∧ (maybeShuffle e σ0).dist top.q = top.l := by
    rw [m3, m4]; exact hq
  unfold afterOwn
  split
  · exact ownLoop_tinv e s i SS a pt top.q top.l top.depth hcl (by omega) _ _ h1.vs h1 q1 t1
  · exact ⟨t1, q1.1, q1.2⟩

/-- The search loop keeps the times invariant. -/
theorem searchLoop_tinv (e : Env) (s : State) (i t : Nat) (SS : Int) (a : Arm) (pt : Point)
    (hcl : CloneOK a) :
    ∀ (n : Nat) (σ σ1 : Search), SInv e s i a SS σ → (σ.found = true → σ.seen pt = SS) →
      σ.vs.length ≤ 4 → (∃ m, TInv s i a SS σ m) →
      searchLoop e s i t SS a pt n σ = some σ1 → ∃ m, TInv s i a SS σ1 m := by
  intro n
  induction n with
  | zero => intro σ σ1 _ _ _ _ hr; simp [searchLoop] at hr
  | succ n ih =>
    intro σ σ1 h hf hvs hd hr
    obtain ⟨m, ht⟩ := hd
    by_cases hfound : σ.found = true
    · rw [searchLoop, if_pos hfound] at hr
      simp only [Option.some.injEq] at hr
      rw [← hr]; exact ⟨m, ht⟩
    · cases hpop : popQ (e.ch.tie σ.clock) σ.Q with
      | none =>
        rw [searchLoop, if_neg hfound] at hr
        simp only [hpop, Option.some.injEq] at hr
        rw [← hr]; exact ⟨m, ht⟩
      | some r =>
        obtain ⟨top, Q1⟩ := r
        obtain ⟨htop, hsub⟩ := popQ_mem _ _ _ _ hpop
        have hleast := popQ_least _ _ _ _ hpop
        obtain ⟨k1, k2, k3⟩ := h.q top htop
        have h0 : SInv e s i a SS { σ with Q := Q1, clock := σ.clock + 1 } :=
          h.congr hsub (fun _ hc => hc) rfl rfl rfl
        have t0 : TInv s i a SS { σ with Q := Q1, clock := σ.clock + 1 } m :=
          ⟨ht.own, fun en hen => ht.ownq en (hsub en hen),
            fun en hen => ht.floor en (hsub en hen), ht.link⟩
        by_cases hdist : top.l > σ.dist top.q
        · rw [searchLoop, if_neg hfound] at hr
          simp only [hpop] at hr
          rw [if_pos hdist] at hr
          exact ih _ σ1 h0 hf hvs ⟨m, t0⟩ hr
        · by_cases hL : top.l ≥ e.inst.L
          · rw [searchLoop, if_neg hfound] at hr
            simp only [hpop] at hr
            rw [if_neg hdist, if_pos hL] at hr
            simp only [Option.some.injEq] at hr
            rw [← hr]; exact ⟨m, t0⟩
          · rw [searchLoop_step e s i t SS a pt n σ top Q1 hfound hpop hdist hL] at hr
            have hexact : σ.dist top.q = top.l := by
              by_cases hpx : σ.pred top.q = Move.x
              · have hin : top.q ∈ a.cur := by
                  rcases h.root top.q k1 hpx with h1 | h1
                  · rw [h1]; exact back_mem _ hcl.chain.1.ne_nil
                  · exact mem_of_mem_dropLast_cell _ _ (hcl.exact _ h1)
                rw [(ht.own top.q hin k1).2, ht.ownq top htop hin]
              · have := k3 hpx
                omega
            have t1 : TInv s i a SS { σ with Q := Q1, clock := σ.clock + 1 } top.l := by
              refine ⟨ht.own, fun en hen => ht.ownq en (hsub en hen),
                fun en hen => hleast en (hsub en hen), ?_⟩
              intro p hp hpred
              obtain ⟨j1, j2⟩ := ht.link p hp hpred
              have hfl := ht.floor top htop
              refine ⟨?_, j2⟩
              show σ.dist (p.add (opp (σ.pred p))) ≤ top.l
              exact le_trans j1 hfl
            obtain ⟨a1, a2, a3, _, a5⟩ := afterOwn_spec e s i SS a pt top
              { σ with Q := Q1, clock := σ.clock + 1 } h0 hf
              ⟨k1, fun _ => hexact⟩ k2 hvs
            obtain ⟨b1, b2, b3⟩ := afterOwn_tinv e s i SS a pt top
              { σ with Q := Q1, clock := σ.clock + 1 } hcl h0 ⟨k1, hexact⟩ k2 t1
            split at hr
            · simp at hr
            · rename_i σ3 hfresh
              obtain ⟨f1, f2⟩ := freshLoop_sinv e s i t SS a pt top.q top.l top.depth k2
                (by omega) _ _ σ3 a1.vs a1 a2 a3 hfresh
              obtain ⟨_, g2⟩ := freshLoop_weight e s i t SS a pt top.q top.l top.depth
                (by omega) _ _ σ3 hfresh
              have f3 := freshLoop_tinv e s i t SS a pt top.q top.l top.depth hcl k2
                (by omega) _ _ σ3 a1.vs a1 ⟨b2, b3⟩ b1 hfresh
              exact ih σ3 σ1 f1 f2 (by rw [g2]; exact a5) ⟨top.l, f3⟩ hr

theorem waypoint_eq (e : Env) (s : State) (i t : Nat) (a : Arm) (pt : Point) (sc : Scratch)
    (h : ((waypoint e s i t a pt sc).bind (fun r => r.1)).isSome = true) :
    waypoint e s i t a pt sc
      = some (some (spliceArm e s i t a pt sc), spliceScratch e s i t a pt sc) := by
  unfold spliceArm spliceScratch
  cases hw : waypoint e s i t a pt sc with
  | none => rw [hw] at h; simp at h
  | some r =>
    obtain ⟨oa, sc1⟩ := r
    cases oa with
    | none => rw [hw] at h; simp at h
    | some a1 => simp

theorem trail_append (pred : Grid Move) : ∀ (mv : List Move) (p : Point) (c : Move),
    Trail pred p mv → pred ((replay p mv).add c) = c → Trail pred p (mv ++ [c]) := by
  intro mv
  induction mv with
  | nil => intro p c _ h; exact ⟨h, trivial⟩
  | cons d mv ih =>
    intro p c ht h
    exact ⟨ht.1, ih (p.add d) c ht.2 h⟩

theorem predWalk_trail (pred : Grid Move) :
    ∀ (n : Nat) (q : Point) (acc add : List Move) (p : Point),
      predWalk pred n q acc = some (add, p) →
      ∃ mv, add.reverse = mv ++ acc.reverse ∧ replay p mv = q ∧ Trail pred p mv := by
  intro n
  induction n with
  | zero => intro q acc add p h; simp [predWalk] at h
  | succ n ih =>
    intro q acc add p h
    unfold predWalk at h
    split at h
    · simp only [Option.some.injEq, Prod.mk.injEq] at h
      obtain ⟨h1, h2⟩ := h
      subst h1; subst h2
      exact ⟨[], by simp, rfl, trivial⟩
    · obtain ⟨mv, m1, m2, m3⟩ := ih _ _ _ _ h
      refine ⟨mv ++ [pred q], ?_, ?_, ?_⟩
      · rw [m1]; simp
      · rw [replay_append, m2]
        show (q.add (opp (pred q))).add (pred q) = q
        exact add_opp_add q (pred q)
      · apply trail_append _ _ _ _ m3
        rw [m2, add_opp_add]

theorem tinv_start (s : State) (i : Nat) (a : Arm) (pt : Point) (sc : Scratch)
    (hcl : CloneOK a) (hs : Stamped sc) :
    TInv s i a (sc.SS + 1) (searchStart a pt sc) a.path.length := by
  have hold : ∀ p, p ≠ back a.cur → sc.seen.set (back a.cur) (sc.SS + 1) p ≠ sc.SS + 1 := by
    intro p hp
    rw [set_other_cell _ _ _ _ hp]
    have := hs p
    omega
  have htip : ownTime a (back a.cur) = a.path.length := by
    unfold ownTime
    have hpos : 0 < a.cur.length := List.length_pos_of_ne_nil hcl.chain.1.ne_nil
    rw [indexOf_back _ hcl.chain.1.ne_nil hcl.tidy.1]
    omega
  refine ⟨?_, ?_, ?_, ?_⟩
  · intro p _ hseen
    have hp : p = back a.cur := by
      by_contra hne
      exact hold p hne hseen
    show sc.pred.set (back a.cur) Move.x p = Move.x ∧
      sc.dist.set (back a.cur) a.path.length p = ownTime a p
    rw [hp, set_same_cell, set_same_cell, htip]
    exact ⟨rfl, rfl⟩
  · intro en hen _
    have hen1 : en ∈ [(⟨back a.cur, a.path.length, 0⟩ : QEl)] := hen
    rw [List.mem_singleton] at hen1
    rw [hen1]
    exact htip.symm
  · intro en hen
    have hen1 : en ∈ [(⟨back a.cur, a.path.length, 0⟩ : QEl)] := hen
    rw [List.mem_singleton] at hen1
    rw [hen1]
  · intro p hseen hpred
    exfalso
    by_cases hne : p = back a.cur
    · apply hpred
      show sc.pred.set (back a.cur) Move.x p = Move.x
      rw [hne, set_same_cell]
    · exact hold p hne hseen

/-- Laying the steps of a trail writes each of them with its waits, and the
length of the path stays the time of the tip. -/
theorem appendMoves_laid (s : State) (i : Nat) (SS : Int) (σ : Search)
    (hlink : ∀ p, σ.seen p = SS → σ.pred p ≠ Move.x →
      σ.dist p = σ.dist (p.add (opp (σ.pred p))) + 1 ∨
        (s.owner p ≠ (i : Int) ∧ σ.dist (p.add (opp (σ.pred p))) < s.until_ p ∧
          σ.dist p = s.until_ p + 1)) :
    ∀ (mv : List Move) (a0 : Arm), Trail σ.pred (back a0.cur) mv →
      (∀ c ∈ cells (back a0.cur) mv, σ.seen c = SS ∧ σ.pred c ≠ Move.x) →
      (a0.path.length : Int) = σ.dist (back a0.cur) →
      ∃ seg, (appendMoves σ.dist mv a0).path = a0.path ++ seg ∧
        Laid s i σ.dist (back a0.cur) mv seg ∧
        ((appendMoves σ.dist mv a0).path.length : Int) = σ.dist (replay (back a0.cur) mv) := by
  intro mv
  induction mv with
  | nil =>
    intro a0 _ _ hlen
    exact ⟨[], by simp [appendMoves], rfl, hlen⟩
  | cons c cs ih =>
    intro a0 htr hcells hlen
    obtain ⟨t1, t2⟩ := htr
    obtain ⟨c1, c2⟩ := hcells ((back a0.cur).add c) (by simp [cells])
    have hl := hlink _ c1 c2
    rw [t1, add_add_opp] at hl
    have hgap : 1 ≤ σ.dist ((back a0.cur).add c) - σ.dist (back a0.cur) := by
      rcases hl with h1 | h1
      · omega
      · omega
    have hcw : c ≠ Move.W := by
      intro h0
      rw [h0] at hgap
      have : (back a0.cur).add Move.W = back a0.cur := rfl
      rw [this] at hgap
      omega
    obtain ⟨seg, s1, s2, s3⟩ := ih
      { a0 with how := a0.how.set (back a0.cur) (opp c),
                path := a0.path ++ List.replicate
                  (σ.dist ((back a0.cur).add c) - σ.dist (back a0.cur) - 1).toNat Move.W ++ [c],
                cur := a0.cur ++ [(back a0.cur).add c] }
      (by
        show Trail σ.pred (back (a0.cur ++ [(back a0.cur).add c])) cs
        rw [back_append_singleton]; exact t2)
      (by
        show ∀ d ∈ cells (back (a0.cur ++ [(back a0.cur).add c])) cs, _
        rw [back_append_singleton]
        intro d hd
        exact hcells d (by simp [cells, hd]))
      (by
        show (((a0.path ++ List.replicate
          (σ.dist ((back a0.cur).add c) - σ.dist (back a0.cur) - 1).toNat Move.W ++ [c]).length
            : Nat) : Int) = σ.dist (back (a0.cur ++ [(back a0.cur).add c]))
        rw [back_append_singleton]
        simp only [List.length_append, List.length_replicate, List.length_singleton]
        push_cast
        omega)
    have hb : back (a0.cur ++ [(back a0.cur).add c]) = (back a0.cur).add c :=
      back_append_singleton _ _
    refine ⟨List.replicate (σ.dist ((back a0.cur).add c) - σ.dist (back a0.cur) - 1).toNat Move.W
      ++ c :: seg, ?_, ⟨hgap, hcw, hl, seg, rfl, ?_⟩, ?_⟩
    · unfold appendMoves
      simp only
      rw [s1]
      simp
    · have s2a : Laid s i σ.dist (back (a0.cur ++ [(back a0.cur).add c])) cs seg := s2
      rw [hb] at s2a
      exact s2a
    · have s3a : ((appendMoves σ.dist (c :: cs) a0).path.length : Int)
          = σ.dist (replay (back (a0.cur ++ [(back a0.cur).add c])) cs) := s3
      rw [hb] at s3a
      exact s3a

/-- The times of one successful splice of a well-formed clone. -/
theorem splice_times (e : Env) (s : State) (i t : Nat) (a : Arm) (pt : Point) (sc : Scratch)
    (a2 : Arm) (sc2 : Scratch) (hcl : CloneOK a) (hs : Stamped sc)
    (hw : waypoint e s i t a pt sc = some (some a2, sc2)) :
    (a2.path.length : Int) = sc2.dist pt ∧
      ∃ (k : Nat) (bm mv seg : List Move), k < a.cur.length ∧ bm.length = k ∧
        a2.path = a.path ++ bm ++ seg ∧
        a2.cur = a.cur.take (a.cur.length - k)
          ++ cells (back (a.cur.take (a.cur.length - k))) mv ∧
        sc2.dist (back (a.cur.take (a.cur.length - k))) = (a.path.length : Int) + k ∧
        Laid s i sc2.dist (back (a.cur.take (a.cur.length - k))) mv seg := by
  obtain ⟨σ, add, p, a0, hσ, hfound, hpw, hu, ha2, hsc2⟩ :=
    waypoint_parts e s i t a pt sc a2 sc2 hw
  have hS0 : SInv e s i a (sc.SS + 1) (searchStart a pt sc) := sinv_start e s i a pt sc hs
  have hfd0 : (searchStart a pt sc).found = true → (searchStart a pt sc).seen pt = sc.SS + 1 := by
    intro hf
    have hf1 : decide (back a.cur = pt) = true := hf
    simp only [decide_eq_true_eq] at hf1
    show sc.seen.set (back a.cur) (sc.SS + 1) pt = sc.SS + 1
    rw [← hf1, set_same_cell]
  obtain ⟨hS, hfd⟩ := searchLoop_sinv e s i t _ a pt _ _ _ hS0 hfd0 hσ
  obtain ⟨m, hT⟩ := searchLoop_tinv e s i t _ a pt hcl _ _ _ hS0 hfd0
    (by show [Move.R, Move.L, Move.U, Move.D].length ≤ 4; simp)
    ⟨_, tinv_start s i a pt sc hcl hs⟩ hσ
  have hseen : σ.seen pt = sc.SS + 1 := hfd hfound
  obtain ⟨mv, m1, m2, m3, m4, m5, _, _⟩ := predWalk_cells hS _ _ _ _ _ hseen hpw
  simp only [List.reverse_nil, List.append_nil] at m1
  subst m1
  obtain ⟨mv1, n1, _, n3⟩ := predWalk_trail σ.pred _ _ _ _ _ hpw
  simp only [List.reverse_nil, List.append_nil] at n1
  rw [← n1] at n3
  have hp : p ∈ a.cur := unwind_mem a a0 p hcl.chain hcl.tidy hu
  obtain ⟨u1, u2, _, k, bm, u4, u5, u6, u7⟩ := unwind_time _ _ _ _ hcl.tidy.1 hcl.dir hp hu
  have hroot : σ.dist p = ownTime a p := (hT.own p hp m3).2
  have hlen0 : (({ a0 with cp := a0.cp ++ add.reverse } : Arm).path.length : Int)
      = σ.dist (back ({ a0 with cp := a0.cp ++ add.reverse } : Arm).cur) := by
    show (a0.path.length : Int) = σ.dist (back a0.cur)
    rw [u1, hroot, u2]
  obtain ⟨seg, s1, s2, s3⟩ := appendMoves_laid s i (sc.SS + 1) σ
    (fun r h1 h2 => (hT.link r h1 h2).2) add.reverse { a0 with cp := a0.cp ++ add.reverse }
    (by show Trail σ.pred (back a0.cur) add.reverse; rw [u1]; exact n3)
    (by
      show ∀ c ∈ cells (back a0.cur) add.reverse, _
      rw [u1]
      intro c hc
      obtain ⟨_, _, j3, j4, _⟩ := m5 c hc
      exact ⟨j4, j3⟩)
    hlen0
  have hb : back (a.cur.take (a.cur.length - k)) = p := by rw [← u6]; exact u1
  have hd2 : sc2.dist = σ.dist := by rw [hsc2]
  refine ⟨?_, k, bm, add.reverse, seg, u4, u5, ?_, ?_, ?_, ?_⟩
  · rw [hd2, ha2, s3]
    show σ.dist (replay (back a0.cur) add.reverse) = σ.dist pt
    rw [u1, m2]
  · rw [ha2, s1]
    show a0.path ++ seg = _
    rw [u7]
  · rw [ha2, appendMoves_cur, hb]
    show a0.cur ++ cells (back a0.cur) add.reverse = _
    rw [u1, u6]
  · rw [hd2, hb, hroot, ← u2, u7]
    simp only [List.length_append]
    push_cast
    omega
  · have s2a : Laid s i σ.dist (back a0.cur) add.reverse seg := s2
    rw [u1] at s2a
    rw [hd2, hb]
    exact s2a

/-- C23: in a run of `greedy_solver` on pairwise different mounting points, at
least as many as arms, take the state `s` at the start of any iteration of the
main loop, an arm `i`, the clone `a` that successful splices for some
waypoints `wps` have made of `arms[i]`, and a successful splice of `a` for
the waypoint `pt`, with result `a2`. Then the length of `a2.path` is the
arrival time `dist[pt]` the search recorded. The new path is the old one,
`k` moves that fold the chain back by `k` cells to a cell with the recorded
time `|a.path| + k`, and a segment `seg` for the steps `mv` into the new
cells: every step goes to a cell whose recorded time is later by `g ≥ 1`,
where `g = 1` or the time of the cell is `until + 1` for a cell of another
owner with `until` after the time of the cell before, and it is written as
`g - 1` moves `W` followed by the step. -/
theorem path_length_is_arrival_time (e : Env) (ms : List Point) (Len : List Int) (clock : Nat)
    (hR : e.inst.R ≤ ms.length) (hnd : ms.Nodup) (n : Nat) (s : State)
    (hs : stateAt e (startState e ms Len clock) n = some s) (i : Nat) (hi : i < e.inst.R)
    (t : Nat) (wps : List Point) (sc0 : Scratch) (hsc : Stamped sc0) (a : Arm) (sc : Scratch)
    (hpre : waypoints e s i t wps (s.arm i) sc0 = some (some a, sc))
    (pt : Point) (a2 : Arm) (sc2 : Scratch)
    (hw : waypoint e s i t a pt sc = some (some a2, sc2)) :
    (a2.path.length : Int) = sc2.dist pt ∧
      ∃ (k : Nat) (bm mv seg : List Move), k < a.cur.length ∧ bm.length = k ∧
        a2.path = a.path ++ bm ++ seg ∧
        a2.cur = a.cur.take (a.cur.length - k)
          ++ cells (back (a.cur.take (a.cur.length - k))) mv ∧
        sc2.dist (back (a.cur.take (a.cur.length - k))) = (a.path.length : Int) + k ∧
        Laid s i sc2.dist (back (a.cur.take (a.cur.length - k))) mv seg := by
  have hl0 := startState_live e ms Len clock hR hnd
  have hlive := stateAt_live e _ hl0 n s hs
  have hdir := stateAt_dir e _ hl0 (startState_dir e ms Len clock) n s hs
  obtain ⟨hcl, hst⟩ := waypoints_clone e s i t wps _ _ _ _ (arm_clone e s hlive hdir i hi)
    hsc hpre
  exact splice_times e s i t a pt sc a2 sc2 hcl hst hw

theorem path_length_is_arrival_time_witness :
    waitEnv.inst.R ≤ ([⟨3, 0⟩, ⟨6, 0⟩] : List Point).length ∧
      ([⟨3, 0⟩, ⟨6, 0⟩] : List Point).Nodup ∧
      stateAt waitEnv (startState waitEnv [⟨3, 0⟩, ⟨6, 0⟩] [0, 0] 0) 3 = some waitState ∧
      1 < waitEnv.inst.R ∧ Stamped waitScratch ∧
      waypoints waitEnv waitState 1 1 [] (waitState.arm 1) waitScratch
        = some (some (waitState.arm 1), waitScratch) ∧
      waypoint waitEnv waitState 1 1 (waitState.arm 1) ⟨5, 0⟩ waitScratch
        = some (some (spliceArm waitEnv waitState 1 1 (waitState.arm 1) ⟨5, 0⟩ waitScratch),
          spliceScratch waitEnv waitState 1 1 (waitState.arm 1) ⟨5, 0⟩ waitScratch) ∧
      (waitState.owner ⟨5, 0⟩, waitState.until_ ⟨5, 0⟩) = (0, 2) ∧
      (spliceArm waitEnv waitState 1 1 (waitState.arm 1) ⟨5, 0⟩ waitScratch).path
        = [Move.W, Move.W, Move.L] ∧
      (spliceScratch waitEnv waitState 1 1 (waitState.arm 1) ⟨5, 0⟩ waitScratch).dist ⟨5, 0⟩ = 3 ∧
      (((spliceArm waitEnv waitState 1 1 (waitState.arm 1) ⟨5, 0⟩ waitScratch).path.length : Int)
          = (spliceScratch waitEnv waitState 1 1 (waitState.arm 1) ⟨5, 0⟩ waitScratch).dist
            ⟨5, 0⟩ ∧
        ∃ (k : Nat) (bm mv seg : List Move), k < (waitState.arm 1).cur.length ∧ bm.length = k ∧
          (spliceArm waitEnv waitState 1 1 (waitState.arm 1) ⟨5, 0⟩ waitScratch).path
            = (waitState.arm 1).path ++ bm ++ seg ∧
          (spliceArm waitEnv waitState 1 1 (waitState.arm 1) ⟨5, 0⟩ waitScratch).cur
            = (waitState.arm 1).cur.take ((waitState.arm 1).cur.length - k)
              ++ cells (back ((waitState.arm 1).cur.take ((waitState.arm 1).cur.length - k))) mv ∧
          (spliceScratch waitEnv waitState 1 1 (waitState.arm 1) ⟨5, 0⟩ waitScratch).dist
              (back ((waitState.arm 1).cur.take ((waitState.arm 1).cur.length - k)))
            = ((waitState.arm 1).path.length : Int) + k ∧
          Laid waitState 1
            (spliceScratch waitEnv waitState 1 1 (waitState.arm 1) ⟨5, 0⟩ waitScratch).dist
            (back ((waitState.arm 1).cur.take ((waitState.arm 1).cur.length - k))) mv seg) :=
  ⟨by decide, by decide, reached_eq _ _ _ _ _ (by decide), by decide,
    (stateAt_held waitEnv _ (startState_inv waitEnv _ _ _ (by decide))
      (startState_held waitEnv _ _ _ (by decide)) 3 _ (reached_eq _ _ _ _ _ (by decide))).stamp,
    rfl, waypoint_eq _ _ _ _ _ _ _ (by decide), by decide, by decide, by decide,
    path_length_is_arrival_time waitEnv [⟨3, 0⟩, ⟨6, 0⟩] [0, 0] 0 (by decide) (by decide) 3
      waitState (reached_eq _ _ _ _ _ (by decide)) 1 (by decide) 1 [] waitScratch
      (stateAt_held waitEnv _ (startState_inv waitEnv _ _ _ (by decide))
        (startState_held waitEnv _ _ _ (by decide)) 3 _ (reached_eq _ _ _ _ _ (by decide))).stamp
      (waitState.arm 1) waitScratch rfl ⟨5, 0⟩ _ _ (waypoint_eq _ _ _ _ _ _ _ (by decide))⟩

/-- The rounding of the machine in the budget and in the distance penalty:
`10 * 0.7` is the `double` 7 and gives `GL = 7`, `100 * 0.57` is a `double`
below 57 and gives `GL = 56`, and `5 * 0.6` is the `double` 3, a penalty
of 3; the product `65536 * 65536` wraps to 0. -/
theorem budget_rounds_as_double :
    budget ⟨⟨3, 1, 1, 10, [], []⟩, { path_cost_threshold := ⟨7, 10, by decide⟩ }, chanceZero,
        libmOne, 0⟩ = 7 ∧
      budget ⟨⟨3, 1, 10, 10, [], []⟩, { path_cost_threshold := ⟨57, 100, by decide⟩ }, chanceZero,
        libmOne, 0⟩ = 56 ∧
      penalise ⟨⟨6, 1, 1, 10, [1], [[⟨5, 0⟩]]⟩, { distance_penalty := ⟨6, 10, by decide⟩ },
        chanceZero, libmOne, 0⟩ [⟨0, 0⟩] [0] = [3] ∧
      budget ⟨⟨3, 1, 65536, 65536, [], []⟩, {}, chanceZero, libmOne, 0⟩ = 0 ∧
      (roundDouble ⟨7, 10, by decide⟩).num = 6305039478318694 ∧
      (roundDouble ⟨7, 10, by decide⟩).den = 9007199254740992 :=
  ⟨by decide, by decide, by decide, by decide, by decide, by decide⟩

theorem arrival_agree (e : Env) (s s' : State) (i t : Nat) (p : Point) (l : Int)
    (h1 : s'.arms = s.arms) (h2 : s'.owner = s.owner) (h3 : s'.until_ = s.until_) :
    arrival e s' i t p l = arrival e s i t p l := by
  unfold arrival State.arm
  rw [h1, h2, h3]

theorem ownLoopC_put (e : Env) (c : Cand) (pt q : Point) (l depth : Int) :
    ∀ (vs : List Move) (σ : Search),
      ownLoopC e pt q l depth vs (c.put σ) = c.put (ownLoop e c.st.SS c.a pt q l depth vs σ) := by
  intro vs
  induction vs with
  | nil => intro σ; rfl
  | cons m cs ih =>
    intro σ
    unfold ownLoopC ownLoop
    simp only []
    by_cases h1 : (offGrid e (q.add m) || decide (c.a.how (q.add m) ≠ m)) = true
    · rw [if_pos h1, if_pos (by exact h1)]
      exact ih σ
    · rw [if_neg h1, if_neg (by exact h1)]
      by_cases h2 : q.add m = pt
      · rw [if_pos h2, if_pos h2]
        rfl
      · rw [if_neg h2, if_neg h2]
        exact ih { Q := σ.Q ++ [⟨q.add m, l + 1, depth + 1⟩], found := σ.found, vs := σ.vs,
                   seen := σ.seen.set (q.add m) c.st.SS, dist := σ.dist.set (q.add m) (l + 1),
                   pred := σ.pred.set (q.add m) Move.x, clock := σ.clock }

theorem freshLoopC_put (e : Env) (s : State) (c : Cand) (i t : Nat) (pt q : Point) (l depth : Int)
    (h1 : c.st.arms = s.arms) (h2 : c.st.owner = s.owner) (h3 : c.st.until_ = s.until_) :
    ∀ (vs : List Move) (σ : Search),
      freshLoopC e i t pt q l depth vs (c.put σ)
        = (freshLoop e s i t c.st.SS c.a pt q l depth vs σ).map c.put := by
  intro vs
  induction vs with
  | nil => intro σ; rfl
  | cons m cs ih =>
    intro σ
    unfold freshLoopC freshLoop
    simp only []
    by_cases g1 : (offGrid e (q.add m) || decide (c.a.how (q.add m) ≠ Move.x)) = true
    · rw [if_pos g1, if_pos (by exact g1)]
      exact ih σ
    · rw [if_neg g1, if_neg (by exact g1)]
      have ha : arrival e (c.put σ).c.st i t (q.add m) l = arrival e s i t (q.add m) l :=
        arrival_agree e s _ i t _ l h1 h2 h3
      rw [ha]
      cases arrival e s i t (q.add m) l with
      | none => rfl
      | some r =>
        cases r with
        | none => exact ih σ
        | some l1 =>
          simp only []
          by_cases g2 : σ.seen (q.add m) = c.st.SS ∧ l1 + 1 ≥ σ.dist (q.add m)
          · rw [if_pos g2, if_pos (by exact g2)]
            exact ih σ
          · rw [if_neg g2, if_neg (by exact g2)]
            by_cases g3 : q.add m = pt
            · rw [if_pos g3, if_pos g3]
              rfl
            · rw [if_neg g3, if_neg g3]
              exact ih { Q := σ.Q ++ [⟨q.add m, l1 + 1, depth⟩], found := σ.found, vs := σ.vs,
                         seen := σ.seen.set (q.add m) c.st.SS,
                         dist := σ.dist.set (q.add m) (l1 + 1),
                         pred := σ.pred.set (q.add m) m, clock := σ.clock }

theorem maybeShuffleC_put (e : Env) (c : Cand) (σ : Search) :
    maybeShuffleC e (c.put σ) = c.put (maybeShuffle e σ) := by
  unfold maybeShuffleC maybeShuffle
  by_cases g : Frac.lt (e.ch.draw σ.clock) e.params.bfs_randomness = true
  · rw [if_pos g, if_pos (by exact g)]
    rfl
  · rw [if_neg g, if_neg (by exact g)]
    rfl

theorem searchLoopC_put (e : Env) (s : State) (c : Cand) (i t : Nat) (pt : Point)
    (h1 : c.st.arms = s.arms) (h2 : c.st.owner = s.owner) (h3 : c.st.until_ = s.until_) :
    ∀ (n : Nat) (σ : Search),
      searchLoopC e i t pt n (c.put σ) = (searchLoop e s i t c.st.SS c.a pt n σ).map c.put := by
  intro n
  induction n with
  | zero => intro σ; rfl
  | succ n ih =>
    intro σ
    unfold searchLoopC searchLoop
    by_cases g1 : σ.found = true
    · rw [if_pos g1, if_pos (by exact g1)]
      rfl
    · rw [if_neg g1, if_neg (by exact g1)]
      have hq : popQ (e.ch.tie (c.put σ).c.st.clock) (c.put σ).Q = popQ (e.ch.tie σ.clock) σ.Q := rfl
      rw [hq]
      cases popQ (e.ch.tie σ.clock) σ.Q with
      | none => rfl
      | some r =>
        obtain ⟨top, Q1⟩ := r
        simp only []
        by_cases g2 : top.l > σ.dist top.q
        · rw [if_pos g2, if_pos (by exact g2)]
          exact ih { σ with Q := Q1, clock := σ.clock + 1 }
        · rw [if_neg g2, if_neg (by exact g2)]
          by_cases g3 : top.l ≥ e.inst.L
          · rw [if_pos g3, if_pos g3]
            rfl
          · rw [if_neg g3, if_neg g3]
            have e1 : maybeShuffleC e
                { c := { st := { (c.put σ).c.st with clock := (c.put σ).c.st.clock + 1 },
                         a := (c.put σ).c.a, bad := (c.put σ).c.bad, best := (c.put σ).c.best },
                  Q := Q1, found := (c.put σ).found, vs := (c.put σ).vs }
                = c.put (maybeShuffle e { σ with Q := Q1, clock := σ.clock + 1 }) :=
              maybeShuffleC_put e c { σ with Q := Q1, clock := σ.clock + 1 }
            rw [e1]
            generalize maybeShuffle e { σ with Q := Q1, clock := σ.clock + 1 } = σ1
            have e2 : (if (c.put σ1).c.a.how top.q ≠ Move.x ∨ top.q = back (c.put σ1).c.a.cur then
                  ownLoopC e pt top.q top.l top.depth (c.put σ1).vs (c.put σ1)
                else c.put σ1)
                = c.put (if c.a.how top.q ≠ Move.x ∨ top.q = back c.a.cur then
                  ownLoop e c.st.SS c.a pt top.q top.l top.depth σ1.vs σ1 else σ1) := by
              by_cases g4 : c.a.how top.q ≠ Move.x ∨ top.q = back c.a.cur
              · rw [if_pos (by exact g4), if_pos g4]
                exact ownLoopC_put e c pt top.q top.l top.depth σ1.vs σ1
              · rw [if_neg (by exact g4), if_neg g4]
            rw [e2]
            generalize (if c.a.how top.q ≠ Move.x ∨ top.q = back c.a.cur then
                  ownLoop e c.st.SS c.a pt top.q top.l top.depth σ1.vs σ1 else σ1) = σ2
            have e3 : freshLoopC e i t pt top.q top.l top.depth (c.put σ2).vs (c.put σ2)
                = (freshLoop e s i t c.st.SS c.a pt top.q top.l top.depth σ2.vs σ2).map c.put :=
              freshLoopC_put e s c i t pt top.q top.l top.depth h1 h2 h3 σ2.vs σ2
            rw [e3]
            cases freshLoop e s i t c.st.SS c.a pt top.q top.l top.depth σ2.vs σ2 with
            | none => rfl
            | some σ3 => exact ih σ3

theorem waypointC_spec (e : Env) (s : State) (c : Cand) (i t : Nat) (pt : Point)
    (h1 : c.st.arms = s.arms) (h2 : c.st.owner = s.owner) (h3 : c.st.until_ = s.until_) :
    (waypoint e s i t c.a pt c.st.scratch = none → waypointC e i t pt c = none) ∧
      ∀ oa sc1, waypoint e s i t c.a pt c.st.scratch = some (oa, sc1) →
        ∃ c1, waypointC e i t pt c = some c1 ∧ c1.st = c.st.withScratch sc1 ∧
          c1.best = c.best ∧ (oa = none → c1.bad = true) ∧
          ∀ a1, oa = some a1 → c1.bad = c.bad ∧ c1.a = a1 := by
  have e0 : searchLoopC e i t pt e.fuel
      (Hunt.mark ⟨{ c with st := { c.st with SS := c.st.SS + 1 } },
        [⟨back c.a.cur, c.a.path.length, 0⟩], decide (back c.a.cur = pt),
        [Move.R, Move.L, Move.U, Move.D]⟩ (back c.a.cur) c.a.path.length Move.x)
      = (searchLoop e s i t (c.st.SS + 1) c.a pt e.fuel
          { Q := [⟨back c.a.cur, c.a.path.length, 0⟩], found := decide (back c.a.cur = pt),
            vs := [Move.R, Move.L, Move.U, Move.D],
            seen := c.st.seen.set (back c.a.cur) (c.st.SS + 1),
            dist := c.st.dist.set (back c.a.cur) c.a.path.length,
            pred := c.st.pred.set (back c.a.cur) Move.x, clock := c.st.clock }).map
          (Cand.put { c with st := { c.st with SS := c.st.SS + 1 } }) :=
    searchLoopC_put e s { c with st := { c.st with SS := c.st.SS + 1 } } i t pt h1 h2 h3 e.fuel
      { Q := [⟨back c.a.cur, c.a.path.length, 0⟩], found := decide (back c.a.cur = pt),
        vs := [Move.R, Move.L, Move.U, Move.D],
        seen := c.st.seen.set (back c.a.cur) (c.st.SS + 1),
        dist := c.st.dist.set (back c.a.cur) c.a.path.length,
        pred := c.st.pred.set (back c.a.cur) Move.x, clock := c.st.clock }
  unfold waypointC waypoint State.scratch
  simp only []
  rw [e0]
  cases searchLoop e s i t (c.st.SS + 1) c.a pt e.fuel
      { Q := [⟨back c.a.cur, c.a.path.length, 0⟩], found := decide (back c.a.cur = pt),
        vs := [Move.R, Move.L, Move.U, Move.D],
        seen := c.st.seen.set (back c.a.cur) (c.st.SS + 1),
        dist := c.st.dist.set (back c.a.cur) c.a.path.length,
        pred := c.st.pred.set (back c.a.cur) Move.x, clock := c.st.clock } with
  | none => exact ⟨fun _ => rfl, fun oa sc1 h => by simp at h⟩
  | some σ =>
    simp only [Option.map, Cand.put]
    by_cases g1 : σ.found = false
    · rw [if_pos g1, if_pos g1]
      refine ⟨fun h => by simp at h, ?_⟩
      intro oa sc1 h
      simp only [Option.some.injEq, Prod.mk.injEq] at h
      obtain ⟨k1, k2⟩ := h
      subst k1; subst k2
      exact ⟨_, rfl, rfl, rfl, fun _ => rfl, fun a1 ha => by simp at ha⟩
    · rw [if_neg g1, if_neg g1]
      cases predWalk σ.pred e.fuel pt [] with
      | none => exact ⟨fun _ => rfl, fun oa sc1 h => by simp at h⟩
      | some r =>
        obtain ⟨add, p⟩ := r
        simp only []
        cases unwind c.a.cur.length p c.a with
        | none => exact ⟨fun _ => rfl, fun oa sc1 h => by simp at h⟩
        | some a1 =>
          simp only []
          by_cases g2 : ((appendMoves σ.dist add.reverse
              { a1 with cp := a1.cp ++ add.reverse }).path.length : Int) > toSize e.inst.L
          · rw [if_pos g2, if_pos g2]
            refine ⟨fun h => by simp at h, ?_⟩
            intro oa sc1 h
            simp only [Option.some.injEq, Prod.mk.injEq] at h
            obtain ⟨k1, k2⟩ := h
            subst k1; subst k2
            exact ⟨_, rfl, rfl, rfl, fun _ => rfl, fun a1 ha => by simp at ha⟩
          · rw [if_neg g2, if_neg g2]
            refine ⟨fun h => by simp at h, ?_⟩
            intro oa sc1 h
            simp only [Option.some.injEq, Prod.mk.injEq] at h
            obtain ⟨k1, k2⟩ := h
            subst k1; subst k2
            exact ⟨_, rfl, rfl, rfl, fun h => by simp at h, fun a2 ha => by
              simp only [Option.some.injEq] at ha
              exact ⟨rfl, ha⟩⟩

theorem waypointsC_spec (e : Env) (s : State) (i t : Nat) :
    ∀ (pts : List Point) (c : Cand), c.st.arms = s.arms → c.st.owner = s.owner →
      c.st.until_ = s.until_ → c.bad = false →
      (waypoints e s i t pts c.a c.st.scratch = none → waypointsC e i t pts c = none) ∧
        ∀ oa sc1, waypoints e s i t pts c.a c.st.scratch = some (oa, sc1) →
          ∃ c1, waypointsC e i t pts c = some c1 ∧ c1.st = c.st.withScratch sc1 ∧
            c1.best = c.best ∧ (oa = none → c1.bad = true) ∧
            ∀ a1, oa = some a1 → c1.bad = false ∧ c1.a = a1 := by
  intro pts
  induction pts with
  | nil =>
    intro c _ _ _ hb
    refine ⟨fun h => by simp [waypoints] at h, ?_⟩
    intro oa sc1 h
    simp only [waypoints, Option.some.injEq, Prod.mk.injEq] at h
    obtain ⟨k1, k2⟩ := h
    subst k1; subst k2
    exact ⟨c, rfl, rfl, rfl, fun h => by simp at h, fun a1 ha => by
      simp only [Option.some.injEq] at ha
      exact ⟨hb, ha⟩⟩
  | cons pt pts ih =>
    intro c h1 h2 h3 hb
    obtain ⟨w1, w2⟩ := waypointC_spec e s c i t pt h1 h2 h3
    unfold waypoints waypointsC
    cases hw : waypoint e s i t c.a pt c.st.scratch with
    | none =>
      rw [w1 hw]
      exact ⟨fun _ => rfl, fun oa sc1 h => by simp at h⟩
    | some r =>
      obtain ⟨oa0, sc0⟩ := r
      obtain ⟨c0, v1, v2, v3, v4, v5⟩ := w2 oa0 sc0 hw
      rw [v1]
      cases oa0 with
      | none =>
        simp only []
        rw [if_pos (v4 rfl)]
        refine ⟨fun h => by simp at h, ?_⟩
        intro oa sc1 h
        simp only [Option.some.injEq, Prod.mk.injEq] at h
        obtain ⟨k1, k2⟩ := h
        subst k1; subst k2
        exact ⟨c0, rfl, v2, v3, fun _ => v4 rfl, fun a1 ha => by simp at ha⟩
      | some a0 =>
        obtain ⟨v6, v7⟩ := v5 a0 rfl
        have hb0 : c0.bad = false := by rw [v6]; exact hb
        simp only []
        rw [if_neg (by rw [hb0]; simp)]
        have g1 : c0.st.arms = s.arms := by rw [v2]; exact h1
        have g2 : c0.st.owner = s.owner := by rw [v2]; exact h2
        have g3 : c0.st.until_ = s.until_ := by rw [v2]; exact h3
        obtain ⟨u1, u2⟩ := ih c0 g1 g2 g3 hb0
        have hsc : c0.st.scratch = sc0 := by rw [v2]; rfl
        rw [v7, hsc] at u1 u2
        refine ⟨u1, ?_⟩
        intro oa sc1 h
        obtain ⟨c1, x1, x2, x3, x4, x5⟩ := u2 oa sc1 h
        refine ⟨c1, x1, ?_, ?_, x4, x5⟩
        · rw [x2, v2]; rfl
        · rw [x3, v3]

theorem candidates_cons (e : Env) (s : State) (i t : Nat) (rest : List Nat) (b : Best)
    (sc : Scratch) :
    candidates e s i (t :: rest) b sc
      = match waypoints e s i t (e.inst.task t) (s.arm i) sc with
        | none => none
        | some (oa, sc1) => candidates e s i rest (pick e s i t oa b) sc1 := by
  conv => lhs; unfold candidates
  cases waypoints e s i t (e.inst.task t) (s.arm i) sc with
  | none => rfl
  | some r =>
    obtain ⟨oa, sc1⟩ := r
    cases oa with
    | none => rfl
    | some a =>
      simp only [pick]
      split
      · rfl
      · split <;> rfl

theorem attempt_spec (e : Env) (s : State) (i t : Nat) (c : Cand)
    (h1 : c.st.arms = s.arms) (h2 : c.st.owner = s.owner) (h3 : c.st.until_ = s.until_) :
    (waypoints e s i t (e.inst.task t) (s.arm i) c.st.scratch = none → attempt e i t c = none) ∧
      ∀ oa sc1, waypoints e s i t (e.inst.task t) (s.arm i) c.st.scratch = some (oa, sc1) →
        ∃ c1, attempt e i t c = some c1 ∧ c1.st = c.st.withScratch sc1 ∧
          c1.best = pick e s i t oa c.best ∧ (c1.bad = true ↔ oa = none) := by
  have ha : s.arm i = c.st.arm i := by unfold State.arm; rw [h1]
  obtain ⟨w1, w2⟩ := waypointsC_spec e s i t (e.inst.task t)
    { c with bad := false, a := c.st.arm i } h1 h2 h3 rfl
  rw [ha]
  unfold attempt
  refine ⟨fun h => by rw [w1 h], ?_⟩
  intro oa sc1 h
  obtain ⟨c1, v1, v2, v3, v4, v5⟩ := w2 oa sc1 h
  rw [v1]
  cases oa with
  | none =>
    simp only []
    rw [if_pos (v4 rfl)]
    exact ⟨c1, rfl, v2, v3, fun _ => by trivial, fun _ => v4 rfl⟩
  | some a =>
    obtain ⟨v6, v7⟩ := v5 a rfl
    have hs1 : c1.st.arm i = s.arm i := by
      unfold State.arm
      rw [v2, ← h1]
      rfl
    simp only []
    rw [if_neg (by rw [v6]; simp), v7, hs1]
    unfold pick
    simp only []
    by_cases g1 : (a.path.length : Int) - ((s.arm i).path.length : Int) ≤ 0
    · rw [if_pos g1, if_pos g1]
      exact ⟨c1, rfl, v2, v3, by rw [v6]; simp⟩
    · rw [if_neg g1, if_neg g1, v3]
      simp only []
      by_cases g2 : Frac.lt c.best.bestS
          (Frac.ofDiv (e.inst.reward t) ((a.path.length : Int) - ((s.arm i).path.length : Int)))
          = true
      · rw [if_pos g2, if_pos g2]
        exact ⟨_, rfl, v2, rfl, by show c1.bad = true ↔ _; rw [v6]; simp⟩
      · rw [if_neg g2, if_neg g2]
        exact ⟨c1, rfl, v2, v3, by rw [v6]; simp⟩

theorem candidatesC_spec (e : Env) (s : State) (i : Nat) :
    ∀ (ts : List Nat) (c : Cand), c.st.arms = s.arms → c.st.owner = s.owner →
      c.st.until_ = s.until_ →
      (candidates e s i ts c.best c.st.scratch = none → candidatesC e i ts c = none) ∧
        ∀ b sc1, candidates e s i ts c.best c.st.scratch = some (b, sc1) →
          ∃ c1, candidatesC e i ts c = some c1 ∧ c1.st = c.st.withScratch sc1 ∧ c1.best = b := by
  intro ts
  induction ts with
  | nil =>
    intro c _ _ _
    refine ⟨fun h => by simp [candidates] at h, ?_⟩
    intro b sc1 h
    simp only [candidates, Option.some.injEq, Prod.mk.injEq] at h
    obtain ⟨k1, k2⟩ := h
    subst k1; subst k2
    exact ⟨c, rfl, rfl, rfl⟩
  | cons t rest ih =>
    intro c h1 h2 h3
    obtain ⟨w1, w2⟩ := attempt_spec e s i t c h1 h2 h3
    rw [candidates_cons]
    unfold candidatesC
    cases hw : waypoints e s i t (e.inst.task t) (s.arm i) c.st.scratch with
    | none =>
      rw [w1 hw]
      exact ⟨fun _ => rfl, fun b sc1 h => by simp at h⟩
    | some r =>
      obtain ⟨oa, sc0⟩ := r
      obtain ⟨c0, v1, v2, v3, _⟩ := w2 oa sc0 hw
      rw [v1]
      simp only []
      have g1 : c0.st.arms = s.arms := by rw [v2]; exact h1
      have g2 : c0.st.owner = s.owner := by rw [v2]; exact h2
      have g3 : c0.st.until_ = s.until_ := by rw [v2]; exact h3
      obtain ⟨u1, u2⟩ := ih c0 g1 g2 g3
      have hsc : c0.st.scratch = sc0 := by rw [v2]; rfl
      rw [v3, hsc] at u1 u2
      refine ⟨u1, ?_⟩
      intro b sc1 h
      obtain ⟨c1, x1, x2, x3⟩ := u2 b sc1 h
      refine ⟨c1, x1, ?_, x3⟩
      rw [x2, v2]; rfl

/-- One attempt, failed or not, changes none of the arms, `owner`, `until`,
the candidate list and the score. -/
theorem attempt_frame (e : Env) (i t : Nat) (c c1 : Cand) (h : attempt e i t c = some c1) :
    c1.st.arms = c.st.arms ∧ c1.st.owner = c.st.owner ∧ c1.st.until_ = c.st.until_ ∧
      c1.st.ts = c.st.ts ∧ c1.st.score = c.st.score := by
  obtain ⟨w1, w2⟩ := attempt_spec e c.st i t c rfl rfl rfl
  cases hw : waypoints e c.st i t (e.inst.task t) (c.st.arm i) c.st.scratch with
  | none => rw [w1 hw] at h; simp at h
  | some r =>
    obtain ⟨oa, sc1⟩ := r
    obtain ⟨c0, v1, v2, _⟩ := w2 oa sc1 hw
    rw [v1] at h
    simp only [Option.some.injEq] at h
    subst h
    rw [v2]
    exact ⟨rfl, rfl, rfl, rfl, rfl⟩

/-- The candidate loop changes none of the arms, `owner`, `until`, the
candidate list and the score, from any values of the variables. -/
theorem candidatesC_frame (e : Env) (i : Nat) :
    ∀ (ts : List Nat) (c c1 : Cand), candidatesC e i ts c = some c1 →
      c1.st.arms = c.st.arms ∧ c1.st.owner = c.st.owner ∧ c1.st.until_ = c.st.until_ ∧
        c1.st.ts = c.st.ts ∧ c1.st.score = c.st.score := by
  intro ts
  induction ts with
  | nil =>
    intro c c1 h
    simp only [candidatesC, Option.some.injEq] at h
    subst h
    exact ⟨rfl, rfl, rfl, rfl, rfl⟩
  | cons t rest ih =>
    intro c c1 h
    unfold candidatesC at h
    cases ha : attempt e i t c with
    | none => rw [ha] at h; simp at h
    | some c0 =>
      rw [ha] at h
      obtain ⟨a1, a2, a3, a4, a5⟩ := attempt_frame e i t c c0 ha
      obtain ⟨b1, b2, b3, b4, b5⟩ := ih c0 c1 h
      exact ⟨b1.trans a1, b2.trans a2, b3.trans a3, b4.trans a4, b5.trans a5⟩

theorem candidatesC_append (e : Env) (i : Nat) :
    ∀ (l1 l2 : List Nat) (c : Cand),
      candidatesC e i (l1 ++ l2) c = (candidatesC e i l1 c).bind (candidatesC e i l2) := by
  intro l1
  induction l1 with
  | nil => intro l2 c; rfl
  | cons t rest ih =>
    intro l2 c
    show candidatesC e i (t :: (rest ++ l2)) c = (candidatesC e i (t :: rest) c).bind _
    rw [candidatesC, candidatesC]
    cases attempt e i t c with
    | none => rfl
    | some c0 => exact ih l2 c0

/-- The states between the attempts of a candidate loop that returns. -/
theorem candidatesC_split (e : Env) (i : Nat) (ts : List Nat) (c c1 : Cand)
    (h : candidatesC e i ts c = some c1) (k t : Nat) (hk : ts[k]? = some t) :
    ∃ c2 c3, candidatesC e i (ts.take k) c = some c2 ∧ attempt e i t c2 = some c3 ∧
      candidatesC e i (ts.drop (k + 1)) c3 = some c1 := by
  have hlt : k < ts.length := by
    by_contra hh
    rw [List.getElem?_eq_none (by omega)] at hk
    simp at hk
  have hsplit : ts = ts.take k ++ t :: ts.drop (k + 1) := by
    have h0 := List.getElem?_eq_some.mp hk
    obtain ⟨_, h0⟩ := h0
    rw [← h0, List.get_drop_eq_drop, List.take_append_drop]
  rw [hsplit, candidatesC_append] at h
  cases h2 : candidatesC e i (ts.take k) c with
  | none => rw [h2] at h; simp at h
  | some c2 =>
    rw [h2] at h
    simp only [Option.bind] at h
    unfold candidatesC at h
    cases h3 : attempt e i t c2 with
    | none => rw [h3] at h; simp at h
    | some c3 =>
      rw [h3] at h
      exact ⟨c2, c3, rfl, h3, h⟩

/-- An iteration of the main loop, with the candidate loop run on the
variables of the program. -/
theorem mainStep_on_variables (e : Env) (s : State) :
    mainStep e s
      = match selectArm s.arms (List.range e.inst.R) none with
        | none => some none
        | some i =>
          match candidatesC e i s.ts (Cand.enter s) with
          | none => none
          | some c1 =>
            match c1.best.bestT with
            | none => some (some (retractStep e c1.st i))
            | some bestT => some (some (commitStep e c1.st i c1.best.bestA bestT)) := by
  unfold mainStep
  cases selectArm s.arms (List.range e.inst.R) none with
  | none => rfl
  | some i =>
    simp only []
    obtain ⟨w1, w2⟩ := candidatesC_spec e s i s.ts (Cand.enter s) rfl rfl rfl
    have hb : (Cand.enter s).best = ⟨default, none, Frac.ofInt (-1)⟩ := rfl
    have hsc : (Cand.enter s).st.scratch = ⟨s.seen, s.dist, s.pred, s.SS, s.clock⟩ := rfl
    rw [hb, hsc] at w1 w2
    cases hc : candidates e s i s.ts ⟨default, none, Frac.ofInt (-1)⟩
        ⟨s.seen, s.dist, s.pred, s.SS, s.clock⟩ with
    | none => rw [w1 hc]
    | some r =>
      obtain ⟨b, sc⟩ := r
      obtain ⟨c1, v1, v2, v3⟩ := w2 b sc hc
      rw [v1]
      simp only []
      rw [v3, v2]
      rfl

/-- In a state that satisfies the invariants of a run, with enough fuel, the
candidate loop of the selected arm returns. -/
theorem candidatesC_returns (e : Env) (s : State) (h : LiveInv e s)
    (hf1 : 9 ^ e.inst.L.toNat < e.fuel) (hf2 : e.inst.L.toNat < e.fuel) (i : Nat)
    (hsel : selectArm s.arms (List.range e.inst.R) none = some i) :
    ∃ c1, candidatesC e i s.ts (Cand.enter s) = some c1 := by
  have ht := mainStep_total e s h hf1 hf2
  rw [mainStep_on_variables, hsel] at ht
  simp only [] at ht
  cases hc : candidatesC e i s.ts (Cand.enter s) with
  | none => rw [hc] at ht; exact absurd rfl ht
  | some c1 => exact ⟨c1, rfl⟩

/-- C16: take an iteration of the main loop of `greedy_solver` that goes
on, from the state `s` to the state `s1`. The loop `for(int t : ts)` of the
selected arm `i`, run on the variables of the program from their values in
`s`, ends with values `c1` in which the arms (`path`, `cur`, `cp`, `how`, `z`
and `done` of every arm), `owner`, `until`, the candidate list and the score
are those of `s`; the same holds before and after every single attempt `t`
of the loop, whether it fails (`bad`) or not; and `s1` is the retraction or
the commit applied to the state of `c1`. -/
theorem candidate_loop_keeps_committed_state (e : Env) (s s1 : State)
    (h : mainStep e s = some (some s1)) :
    ∃ (i : Nat) (c1 : Cand), selectArm s.arms (List.range e.inst.R) none = some i ∧
      candidatesC e i s.ts (Cand.enter s) = some c1 ∧
      c1.st.arms = s.arms ∧ c1.st.owner = s.owner ∧ c1.st.until_ = s.until_ ∧
      c1.st.ts = s.ts ∧ c1.st.score = s.score ∧
      (∀ (k t : Nat), s.ts[k]? = some t → ∃ c2 c3,
        candidatesC e i (s.ts.take k) (Cand.enter s) = some c2 ∧
        attempt e i t c2 = some c3 ∧
        candidatesC e i (s.ts.drop (k + 1)) c3 = some c1 ∧
        c2.st.arms = s.arms ∧ c2.st.owner = s.owner ∧ c2.st.until_ = s.until_ ∧
        c3.st.arms = s.arms ∧ c3.st.owner = s.owner ∧ c3.st.until_ = s.until_) ∧
      ((c1.best.bestT = none ∧ s1 = retractStep e c1.st i) ∨
        (∃ t, c1.best.bestT = some t ∧ s1 = commitStep e c1.st i c1.best.bestA t)) := by
  rw [mainStep_on_variables] at h
  cases hsel : selectArm s.arms (List.range e.inst.R) none with
  | none => rw [hsel] at h; simp at h
  | some i =>
    rw [hsel] at h
    simp only [] at h
    cases hc : candidatesC e i s.ts (Cand.enter s) with
    | none => rw [hc] at h; simp at h
    | some c1 =>
      rw [hc] at h
      simp only [] at h
      obtain ⟨f1, f2, f3, f4, f5⟩ := candidatesC_frame e i s.ts (Cand.enter s) c1 hc
      refine ⟨i, c1, rfl, hc, f1, f2, f3, f4, f5, ?_, ?_⟩
      · intro k t hk
        obtain ⟨c2, c3, g1, g2, g3⟩ := candidatesC_split e i s.ts (Cand.enter s) c1 hc k t hk
        obtain ⟨a1, a2, a3, _, _⟩ := candidatesC_frame e i _ (Cand.enter s) c2 g1
        obtain ⟨b1, b2, b3, _, _⟩ := attempt_frame e i t c2 c3 g2
        exact ⟨c2, c3, g1, g2, g3, a1, a2, a3, b1.trans a1, b2.trans a2, b3.trans a3⟩
      · cases hb : c1.best.bestT with
        | none =>
          rw [hb] at h
          simp only [Option.some.injEq] at h
          exact Or.inl ⟨rfl, h.symm⟩
        | some t =>
          rw [hb] at h
          simp only [Option.some.injEq] at h
          exact Or.inr ⟨t, rfl, h.symm⟩

theorem candidate_loop_keeps_committed_state_witness :
    mainStep gateEnv gateStart = some (some (reached gateEnv [⟨3, 0⟩, ⟨6, 0⟩] [0, 0] 0 1)) ∧
      gateStart.ts = [0, 1] ∧
      ((candidatesC gateEnv 0 [0] (Cand.enter gateStart)).bind (attempt gateEnv 0 1)).map
          (fun c => (c.bad, c.a.path)) = some (true, [Move.R]) ∧
      ((candidatesC gateEnv 0 [0] (Cand.enter gateStart)).bind (attempt gateEnv 0 1)).map
          (fun c => (c.a.cur, (c.st.arm 0).cur)) = some ([⟨3, 0⟩, ⟨4, 0⟩], [⟨3, 0⟩]) ∧
      ∃ (i : Nat) (c1 : Cand),
        selectArm gateStart.arms (List.range gateEnv.inst.R) none = some i ∧
        candidatesC gateEnv i gateStart.ts (Cand.enter gateStart) = some c1 ∧
        c1.st.arms = gateStart.arms ∧ c1.st.owner = gateStart.owner ∧
        c1.st.until_ = gateStart.until_ ∧
        c1.st.ts = gateStart.ts ∧ c1.st.score = gateStart.score ∧
        (∀ (k t : Nat), gateStart.ts[k]? = some t → ∃ c2 c3,
          candidatesC gateEnv i (gateStart.ts.take k) (Cand.enter gateStart) = some c2 ∧
          attempt gateEnv i t c2 = some c3 ∧
          candidatesC gateEnv i (gateStart.ts.drop (k + 1)) c3 = some c1 ∧
          c2.st.arms = gateStart.arms ∧ c2.st.owner = gateStart.owner ∧
          c2.st.until_ = gateStart.until_ ∧
          c3.st.arms = gateStart.arms ∧ c3.st.owner = gateStart.owner ∧
          c3.st.until_ = gateStart.until_) ∧
        ((c1.best.bestT = none ∧
            reached gateEnv [⟨3, 0⟩, ⟨6, 0⟩] [0, 0] 0 1 = retractStep gateEnv c1.st i) ∨
          (∃ t, c1.best.bestT = some t ∧
            reached gateEnv [⟨3, 0⟩, ⟨6, 0⟩] [0, 0] 0 1
              = commitStep gateEnv c1.st i c1.best.bestA t)) :=
  ⟨stateAt_succ _ _ _ _ 0 rfl (reached_eq _ _ _ _ 1 (by decide)), by decide, by decide, by decide,
    candidate_loop_keeps_committed_state gateEnv gateStart _
      (stateAt_succ _ _ _ _ 0 rfl (reached_eq _ _ _ _ 1 (by decide)))⟩

/-- Values of `roundDouble`: the `double`s written `0.1` and `1.0 / 3`, the
ties `2^53 + 1` and `2^53 + 3` rounded to the even mantissa, a whole number
and a negative half, which are `double`s, left as they are. -/
theorem roundDouble_values :
    ((roundDouble ⟨1, 10, by decide⟩).num = 7205759403792794 ∧
        (roundDouble ⟨1, 10, by decide⟩).den = 72057594037927936) ∧
      ((roundDouble ⟨1, 3, by decide⟩).num = 6004799503160661 ∧
        (roundDouble ⟨1, 3, by decide⟩).den = 18014398509481984) ∧
      ((roundDouble (Frac.ofInt 9007199254740993)).num = 9007199254740992 ∧
        (roundDouble (Frac.ofInt 9007199254740993)).den = 1) ∧
      ((roundDouble (Frac.ofInt 9007199254740995)).num = 9007199254740996 ∧
        (roundDouble (Frac.ofInt 9007199254740995)).den = 1) ∧
      Frac.trunc (roundDouble (Frac.ofInt 1000)) = 1000 ∧
      ((roundDouble ⟨-1, 2, by decide⟩).num * 2 = -(roundDouble ⟨-1, 2, by decide⟩).den) :=
  ⟨⟨by decide, by decide⟩, ⟨by decide, by decide⟩, ⟨by decide, by decide⟩,
    ⟨by decide, by decide⟩, by decide, by decide⟩

end Assembly
